import Mathlib

/-!
The mpz library: a pool allocator with slabs, size bins and guarded slots

Shallow embedding of `src/mpz_alloc.c` and `src/mpz_alloc.h`.

* Memory is a byte-addressed heap `Nat → Nat`; 32-bit guard words and pointers are
  stored little-endian with `wr` and read with `rd`.
* The `mpz_pool_t` object is the record `Pool` (its `bins` array and `slabs` head),
  carried together with the heap and the table of blocks the OS allocator has handed out.
* The header `mpz_core.h` is not part of the sources: its constants are the fields of
  `Config`, and the two macros it defines are modelled from the specification.
* `posix_memalign` is an oracle: every call that may ask the OS takes the OS answer
  (`none` = failure, `some a` = block at address `a`) as an argument.
-/

namespace Mpz

/-! ## Configuration and memory -/

/-- Compile-time constants: `ptr` is `sizeof(void *)`, `bins` is `MPZ_BINS`, `shift` is
`MPZ_BINS_BIT_SHIFT`, `mul` is `MPZ_SLAB_ALLOC_MUL`, and `sigsegv` tells whether
`MPZ_RAISE_SIGSEGV_ON_MEM_ERRORS` is defined. -/
structure Config where
  ptr : Nat
  bins : Nat
  shift : Nat
  mul : Nat
  sigsegv : Bool

/-- Byte-addressed memory (only the low 8 bits of a cell are ever looked at). -/
abbrev Heap := Nat → Nat

/-- Little-endian load of `w` bytes at address `a`. -/
def rd (h : Heap) : Nat → Nat → Nat
  | _, 0 => 0
  | a, w + 1 => h a % 256 + 256 * rd h (a + 1) w

/-- Little-endian store of the low `w` bytes of `v` at address `a`. -/
def wr (h : Heap) (a w v : Nat) : Heap :=
  fun x => if a ≤ x ∧ x < a + w then v / 256 ^ (x - a) % 256 else h x

/-- The C library `memset(a, v, n)`. -/
def memset (h : Heap) (a v n : Nat) : Heap :=
  fun x => if a ≤ x ∧ x < a + n then v % 256 else h x

/-- Array store `f[i] = v`. -/
def upd (f : Nat → Nat) (i v : Nat) : Nat → Nat :=
  fun j => if j = i then v else f j

/-- Ways an operation can leave the defined behaviour of the C program (or, for `fuel`,
exhaust the iteration budget given to a `while` loop). -/
inductive Fault where
  | fuel
  | sigsegv
  | badFree
  | badIndex
  deriving DecidableEq, Repr

/-- The pool object `mpz_pool_t` (`bins`, `slabs`), its own address `self`, the heap, and
the state of the OS allocator: `live` lists the blocks (address, length) currently
allocated, `oscalls` counts the calls of `posix_memalign` and `free` made so far. -/
structure Pool where
  bins : Nat → Nat
  slabs : Nat
  self : Nat
  heap : Heap
  live : List (Nat × Nat)
  oscalls : Nat

/-! ## Macros of `mpz_alloc.c` -/

/-- Macro `mpz_align(s, a) = ((s) + (a - 1)) & ~(a - 1)`, computed in `size_t`
(`8 * sizeof(void *)` bits). -/
def mpz_align (c : Config) (s a : Nat) : Nat :=
  ((s + (a - 1)) % 2 ^ (8 * c.ptr)) &&& (2 ^ (8 * c.ptr) - 1 - (a - 1))

/-- Macro `MPZ_ALLOC_ALIGNMENT = 2 * sizeof(mpz_void_t *)`. -/
def MPZ_ALLOC_ALIGNMENT (c : Config) : Nat := 2 * c.ptr

/-- Macro `MPZ_SLOT_SIZE = sizeof(mpz_slot_t *) + sizeof(mpz_uint32_t) * 2`. -/
def MPZ_SLOT_SIZE (c : Config) : Nat := c.ptr + 4 * 2

/-- Macro `MPZ_SLAB_SIZE = mpz_align(sizeof(mpz_slab_t), MPZ_ALLOC_ALIGNMENT)`; the slab header
holds the two pointers `prev` and `next`. -/
def MPZ_SLAB_SIZE (c : Config) : Nat := mpz_align c (2 * c.ptr) (MPZ_ALLOC_ALIGNMENT c)

/-- Macro `MPZ_POOL_SIZE = mpz_align(sizeof(mpz_pool_t), MPZ_ALLOC_ALIGNMENT)`; the pool holds
`MPZ_BINS` bin heads and the `slabs` pointer. -/
def MPZ_POOL_SIZE (c : Config) : Nat :=
  mpz_align c (c.bins * c.ptr + c.ptr) (MPZ_ALLOC_ALIGNMENT c)

def MPZ_SLAB_TO_SLOT (c : Config) (s : Nat) : Nat := s + MPZ_SLAB_SIZE c

def MPZ_SLOT_TO_SLAB (c : Config) (s : Nat) : Nat := s - MPZ_SLAB_SIZE c

def MPZ_SLOT_TO_DATA (s : Nat) : Nat := s + 4

def MPZ_DATA_TO_SLOT (d : Nat) : Nat := d - 4

def MPZ_SLOT_FLAG_USED : Nat := 1 <<< 30

def MPZ_SLOT_FLAG_HUGE : Nat := 1 <<< 31

/-- Modelled from the spec: the constant `MPZ_SLOTS_ALIGNMENT` of the absent `mpz_core.h`
(`SLOT_ALIGN` equals `1 << BIN_SHIFT`). -/
def MPZ_SLOTS_ALIGNMENT (c : Config) : Nat := 1 <<< c.shift

/-- Modelled from the spec: the macro `MPZ_BIN_IDX` of the absent `mpz_core.h`
(`bin_index(s) = (align_up(s, SLOT_ALIGN) >> BIN_SHIFT) - 1`). -/
def MPZ_BIN_IDX (c : Config) (s : Nat) : Nat :=
  (mpz_align c s (MPZ_SLOTS_ALIGNMENT c) >>> c.shift) - 1

def MPZ_POOL_MIN_ALLOC (c : Config) : Nat := MPZ_SLOTS_ALIGNMENT c

def MPZ_POOL_MAX_ALLOC : Nat := (1 <<< 28) - 1

/-- Address of the foot word of the slot at `sl` with payload size `si`. -/
def MPZ_SLOT_GOTO_FOOT (sl si : Nat) : Nat := sl + 4 + si

/-- The value `*MPZ_SLOT_READ_HEAD(s)`. -/
def MPZ_SLOT_READ_HEAD (h : Heap) (s : Nat) : Nat := rd h s 4

/-- Macro `MPZ_SLOT_READ_SIZE(s) = (uint32)((*head << 2) >> 2)`. -/
def MPZ_SLOT_READ_SIZE (h : Heap) (s : Nat) : Nat :=
  ((MPZ_SLOT_READ_HEAD h s <<< 2) % 2 ^ 32) >>> 2

/-- The address `MPZ_SLOT_READ_FOOT(s)`. -/
def MPZ_SLOT_READ_FOOT (h : Heap) (s : Nat) : Nat :=
  MPZ_SLOT_GOTO_FOOT s (MPZ_SLOT_READ_SIZE h s)

/-- Address of the field `next` of `struct _mpz_slot_s` (it follows the pointer `data`). -/
def slotNext (c : Config) (slot : Nat) : Nat := slot + c.ptr

/-- Address of the field `next` of `struct _mpz_slab_s` (it follows the pointer `prev`). -/
def slabNext (c : Config) (slab : Nat) : Nat := slab + c.ptr

/-! ## The OS allocator -/

/-- Macro `mpz_memalign(a, s)`: the OS answers `os`; on success the block is entered in `live`. -/
def mpz_memalign (P : Pool) (_a s : Nat) (os : Option Nat) : Nat × Pool :=
  match os with
  | none => (0, { P with oscalls := P.oscalls + 1 })
  | some p => (p, { P with live := (p, s) :: P.live, oscalls := P.oscalls + 1 })

/-- The C library `free(p)`: `p` must be the address of a block that is currently
allocated; releasing anything else is undefined behaviour (`Fault.badFree`). -/
def os_free (P : Pool) (p : Nat) : Except Fault Pool :=
  if P.live.any (fun b => b.1 == p) then
    .ok { P with live := P.live.filter (fun b => b.1 != p), oscalls := P.oscalls + 1 }
  else .error .badFree

/-! ## Private functions of `mpz_alloc.c` -/

/-- Function `_mpz_slot_init(slot, size, flags)`: `*head = *foot = (0 | flags | size)`;
`size` and `flags` are 32-bit. -/
def _mpz_slot_init (h : Heap) (slot size flags : Nat) : Heap :=
  let size32 := size % 2 ^ 32
  let v := (0 ||| flags ||| size32) % 2 ^ 32
  wr (wr h (MPZ_SLOT_GOTO_FOOT slot size32) 4 v) slot 4 v

/-- Function `_mpz_slab_push(pool, slab)`. -/
def _mpz_slab_push (c : Config) (P : Pool) (slab : Nat) : Pool :=
  let h1 := wr P.heap slab c.ptr 0
  let h2 := wr h1 (slabNext c slab) c.ptr P.slabs
  let next := rd h2 (slabNext c slab) c.ptr
  let h3 := if next ≠ 0 then wr h2 next c.ptr slab else h2
  { P with heap := h3, slabs := slab }

/-- The first part of `_mpz_slab_free`: pop the slab from the slabs list. -/
def slabUnlink (c : Config) (P : Pool) (slab : Nat) : Pool :=
  let prev := rd P.heap slab c.ptr
  let P1 : Pool :=
    if prev ≠ 0 then
      { P with heap := wr P.heap (slabNext c prev) c.ptr (rd P.heap (slabNext c slab) c.ptr) }
    else
      { P with slabs := rd P.heap (slabNext c slab) c.ptr }
  let next := rd P1.heap (slabNext c slab) c.ptr
  if next ≠ 0 then { P1 with heap := wr P1.heap next c.ptr (rd P1.heap slab c.ptr) }
  else P1

/-- Function `_mpz_slab_free(pool, slot)`: unlink the slab of the slot, then `free(slab)`. -/
def _mpz_slab_free (c : Config) (P : Pool) (slot : Nat) : Except Fault Pool :=
  let slab := MPZ_SLOT_TO_SLAB c slot
  os_free (slabUnlink c P slab) slab

/-- Function `_mpz_slab_create(pool, size)`. -/
def _mpz_slab_create (c : Config) (P : Pool) (size : Nat) (os : Option Nat) : Nat × Pool :=
  let r := mpz_memalign P (MPZ_ALLOC_ALIGNMENT c) (size + MPZ_SLAB_SIZE c) os
  if r.1 = 0 then (0, r.2) else (r.1, _mpz_slab_push c r.2 r.1)

/-- The `for` loop of `_mpz_slab_init`: `n` iterations remain, `i` is the loop counter and
`slot` the current slot. -/
def slabInitLoop (c : Config) (slab size idx : Nat) : Nat → Nat → Nat → Pool → Pool
  | 0, _, _, P => P
  | n + 1, i, slot, P =>
    let h1 := _mpz_slot_init P.heap slot size 0
    if i = c.mul - 1 then
      let h2 := wr h1 (slotNext c slot) c.ptr (P.bins idx)
      slabInitLoop c slab size idx n (i + 1) slot
        { P with heap := h2, bins := upd P.bins idx (MPZ_SLAB_TO_SLOT c slab) }
    else
      let h2 := wr h1 (slotNext c slot) c.ptr (slot + (size + MPZ_SLOT_SIZE c))
      slabInitLoop c slab size idx n (i + 1) (rd h2 (slotNext c slot) c.ptr)
        { P with heap := h2 }

/-- Function `_mpz_slab_init(pool, slab, size)`. -/
def _mpz_slab_init (c : Config) (P : Pool) (slab size : Nat) : Pool :=
  slabInitLoop c slab size (MPZ_BIN_IDX c size) c.mul 0 (MPZ_SLAB_TO_SLOT c slab) P

/-- The value of `size` in `_mpz_palloc` once it has been raised to `MPZ_POOL_MIN_ALLOC`
and rounded with `mpz_align(size, MPZ_SLOTS_ALIGNMENT)`. -/
def allocSize (c : Config) (size : Nat) : Nat :=
  mpz_align c (if size < MPZ_POOL_MIN_ALLOC c then MPZ_POOL_MIN_ALLOC c else size)
    (MPZ_SLOTS_ALIGNMENT c)

/-- The branch `size > (MPZ_BINS << MPZ_BINS_BIT_SHIFT)` of `_mpz_palloc`: a slab with one
slot, stamped "huge" and "used". -/
def pallocHuge (c : Config) (P : Pool) (size : Nat) (os : Option Nat) : Nat × Pool :=
  let r := _mpz_slab_create c P (size + MPZ_SLOT_SIZE c) os
  if r.1 = 0 then (0, r.2)
  else
    let slot := MPZ_SLAB_TO_SLOT c r.1
    let h1 := _mpz_slot_init r.2.heap slot size (MPZ_SLOT_FLAG_HUGE ||| MPZ_SLOT_FLAG_USED)
    (MPZ_SLOT_TO_DATA slot, { r.2 with heap := h1 })

/-- The pop at the end of `_mpz_palloc`: take the head of `bins[idx]`, stamp it "used",
zero it when asked. -/
def pallocPop (c : Config) (P : Pool) (size idx : Nat) (zeroize : Bool) : Nat × Pool :=
  let slot := P.bins idx
  let P2 : Pool := { P with bins := upd P.bins idx (rd P.heap (slotNext c slot) c.ptr) }
  let h3 := _mpz_slot_init P2.heap slot size MPZ_SLOT_FLAG_USED
  let h4 := if zeroize then memset h3 (MPZ_SLOT_TO_DATA slot) 0 size else h3
  (MPZ_SLOT_TO_DATA slot, { P2 with heap := h4 })

/-- The pooled branch of `_mpz_palloc`: refill `bins[idx]` from a new slab when it is
empty, then pop. -/
def pallocPooled (c : Config) (P : Pool) (size : Nat) (zeroize : Bool) (os : Option Nat) :
    Nat × Pool :=
  let idx := MPZ_BIN_IDX c size
  if P.bins idx = 0 then
    let r := _mpz_slab_create c P ((size + MPZ_SLOT_SIZE c) * c.mul) os
    if r.1 = 0 then (0, r.2)
    else pallocPop c (_mpz_slab_init c r.2 r.1 size) size idx zeroize
  else pallocPop c P size idx zeroize

/-- Function `_mpz_palloc(pool, size, zeroize)` for a non-null pool; returns the data pointer
(`0` is `NULL`) and the new state. -/
def _mpz_palloc (c : Config) (P : Pool) (size : Nat) (zeroize : Bool) (os : Option Nat) :
    Nat × Pool :=
  if ¬ size < MPZ_POOL_MIN_ALLOC c ∧ size > MPZ_POOL_MAX_ALLOC then (0, P)
  else
    let size := allocSize c size
    if size > (c.bins <<< c.shift) then pallocHuge c P size os
    else pallocPooled c P size zeroize os

/-- The `while (NULL != slab)` loop of `_mpz_pool_gc`; `fuel` bounds the number of
iterations. -/
def gcLoop (c : Config) (soft : Bool) : Nat → Nat → Pool → Except Fault Pool
  | 0, slab, P => if slab = 0 then .ok P else .error .fuel
  | fuel + 1, slab, P =>
    if slab = 0 then .ok P
    else
      let next := rd P.heap (slabNext c slab) c.ptr
      let slot := MPZ_SLAB_TO_SLOT c slab
      if !soft || (MPZ_SLOT_READ_HEAD P.heap slot &&& MPZ_SLOT_FLAG_HUGE ≠ 0) then
        match _mpz_slab_free c P slot with
        | .ok P1 => gcLoop c soft fuel next P1
        | .error e => .error e
      else
        let P1 := _mpz_slab_push c P slab
        let size := MPZ_SLOT_READ_SIZE P1.heap slot
        if MPZ_BIN_IDX c size < c.bins then
          gcLoop c soft fuel next (_mpz_slab_init c P1 slab size)
        else .error .badIndex

/-- Function `_mpz_pool_gc(pool, soft)` for a non-null pool. -/
def _mpz_pool_gc (c : Config) (fuel : Nat) (P : Pool) (soft : Bool) : Except Fault Pool :=
  let slab := P.slabs
  let P1 : Pool := { P with bins := fun _ => 0 }
  let P2 : Pool := if !soft then { P1 with slabs := 0 } else P1
  gcLoop c soft fuel slab P2

/-! ## Public API -/

/-- Function `mpz_pool_create()`: `none` is the `NULL` result. The heap `h` is the memory
as it is when the pool is created. -/
def mpz_pool_create (c : Config) (h : Heap) (os : Option Nat) : Option Pool :=
  let P0 : Pool := { bins := fun _ => 0, slabs := 0, self := 0, heap := h, live := [],
                     oscalls := 0 }
  let r := mpz_memalign P0 (MPZ_ALLOC_ALIGNMENT c) (MPZ_POOL_SIZE c) os
  if r.1 = 0 then none else some { r.2 with self := r.1 }

/-- Function `mpz_pool_reset(pool)`. -/
def mpz_pool_reset (c : Config) (fuel : Nat) (P : Pool) : Except Fault Pool :=
  _mpz_pool_gc c fuel P true

/-- Function `mpz_pool_destroy(pool)`. -/
def mpz_pool_destroy (c : Config) (fuel : Nat) (P : Pool) : Except Fault Pool :=
  match _mpz_pool_gc c fuel P false with
  | .ok P1 => os_free P1 P1.self
  | .error e => .error e

/-- Function `mpz_pmalloc(pool, size)`. -/
def mpz_pmalloc (c : Config) (P : Pool) (size : Nat) (os : Option Nat) : Nat × Pool :=
  _mpz_palloc c P size false os

/-- Function `mpz_pcalloc(pool, size)`. -/
def mpz_pcalloc (c : Config) (P : Pool) (size : Nat) (os : Option Nat) : Nat × Pool :=
  _mpz_palloc c P size true os

/-- The end of `mpz_free`: remove the "used" mark and push the slot into `bins[idx]`. -/
def freePush (c : Config) (P : Pool) (slot size : Nat) : Pool :=
  { P with heap := wr (_mpz_slot_init P.heap slot size 0) (slotNext c slot) c.ptr
                     (P.bins (MPZ_BIN_IDX c size)),
           bins := upd P.bins (MPZ_BIN_IDX c size) slot }

/-- Function `mpz_free(pool, data)` for a non-null pool. -/
def mpz_free (c : Config) (P : Pool) (data : Nat) : Except Fault Pool :=
  if data = 0 then .ok P
  else
    let slot := MPZ_DATA_TO_SLOT data
    let head := MPZ_SLOT_READ_HEAD P.heap slot
    let foot := rd P.heap (MPZ_SLOT_READ_FOOT P.heap slot) 4
    let push : Except Fault Pool :=
      let size := MPZ_SLOT_READ_SIZE P.heap slot
      if MPZ_BIN_IDX c size < c.bins then .ok (freePush c P slot size)
      else .error .badIndex
    if head ≠ foot ∨ head &&& MPZ_SLOT_FLAG_USED = 0 then
      if c.sigsegv then .error .sigsegv else push
    else if head &&& MPZ_SLOT_FLAG_HUGE ≠ 0 then _mpz_slab_free c P slot
    else push

/-- The constants of the scenarios of the specification on an LP64 machine:
`ALIGN = 16`, `BINS = 8`, `BIN_SHIFT = 4`, `SLAB_MUL = 4`, SIGSEGV policy off. -/
def cfgS : Config := { ptr := 8, bins := 8, shift := 4, mul := 4, sigsegv := false }

/-- Memory full of stale bytes `0xAA`. -/
def heapAA : Heap := fun _ => 0xAA

/-- The pool `mpz_pool_create` returns when the OS places the pool object at address 1024
and memory is full of stale bytes. -/
def poolS : Pool :=
  { bins := fun _ => 0, slabs := 0, self := 1024, heap := heapAA, live := [(1024, 80)],
    oscalls := 1 }

/-- The pool after `mpz_pmalloc(pool, 16)` on `poolS`, the OS placing the slab at 4096. -/
def poolA : Pool := (mpz_pmalloc cfgS poolS 16 (some 4096)).2

/-- The pool after `mpz_pool_reset` on `poolA` (one iteration of the loop suffices). -/
def poolR : Pool :=
  match mpz_pool_reset cfgS 1 poolA with
  | .ok P => P
  | .error _ => poolA

/-- Follow the `next` pointers of the slab list for `n` steps, starting at `a`. -/
def slabWalk (c : Config) (h : Heap) : Nat → Nat → Nat
  | 0, a => a
  | n + 1, a => slabWalk c h n (rd h (slabNext c a) c.ptr)

/-- An operation of a client on one pool. -/
inductive Op where
  | alloc (size : Nat) (zeroize : Bool) (os : Option Nat)
  | free (p : Nat)

/-- Run a sequence of operations; the result lists the pointers returned by the
allocations, in order. -/
def runOps (c : Config) : Pool → List Op → Except Fault (List Nat × Pool)
  | P, [] => .ok ([], P)
  | P, .free p :: ops =>
    match mpz_free c P p with
    | .ok P1 => runOps c P1 ops
    | .error e => .error e
  | P, .alloc size z os :: ops =>
    match runOps c (_mpz_palloc c P size z os).2 ops with
    | .ok (res, P2) => .ok ((_mpz_palloc c P size z os).1 :: res, P2)
    | .error e => .error e

/-- The operation is confined to the bin of slot size `r`: an allocation is of a request
that is accepted and rounds to `r`, a free is of a pointer whose slot head carries the
size `r` in the state `P`. -/
def OpInBin (c : Config) (P : Pool) (r : Nat) : Op → Prop
  | .alloc size _ _ => size ≤ MPZ_POOL_MAX_ALLOC ∧ allocSize c size = r
  | .free p => MPZ_SLOT_READ_SIZE P.heap (MPZ_DATA_TO_SLOT p) = r

/-- The LIFO discipline of one bin, as a stack machine: `live` are the pointers held by
the client, `st` the pointers freed and not re-allocated since, most recent first. A free
must be of a live pointer and pushes it; an allocation pops the most recently freed
pointer. The result lists the pointers the allocations return; `none` when a free is not
of a live pointer or an allocation finds the stack empty. -/
def lifoModel : List Nat → List Nat → List Op → Option (List Nat)
  | _, _, [] => some []
  | live, st, .free p :: ops =>
    if p ∈ live then lifoModel (live.erase p) (p :: st) ops else none
  | live, p :: st, .alloc _ _ _ :: ops => (lifoModel (p :: live) st ops).map (p :: ·)
  | _, [], .alloc _ _ _ :: _ => none

/-- The properties of the constants the development relies on: an LP64 machine, a bin step
of at least 16 bytes, at least one bin, every pooled size below `MPZ_POOL_MAX_ALLOC`, and
at least one slot per slab. -/
structure Config.Sane (c : Config) : Prop where
  ptr8 : c.ptr = 8
  shift4 : 4 ≤ c.shift
  bins_pos : 0 < c.bins
  fits : c.bins * 2 ^ c.shift < 2 ^ 28
  mul_pos : 0 < c.mul

/-! ## Abstract description of a pool state

The predicates below describe what a well-formed pool looks like; they are stated over
the byte heap and are used to phrase and prove properties of reachable states. -/

/-- Description of one slab owned by the pool: its address, the payload size of its slots
and whether it is a "huge" slab (a single slot). -/
structure SlabD where
  base : Nat
  size : Nat
  huge : Bool
  deriving DecidableEq

/-- Number of slots in a slab: one in a huge slab, `MPZ_SLAB_ALLOC_MUL` otherwise. -/
def nslots (c : Config) (d : SlabD) : Nat := if d.huge then 1 else c.mul

/-- Length of the block requested from the OS for a slab (see `_mpz_palloc` and
`_mpz_slab_create`). -/
def blockLen (c : Config) (d : SlabD) : Nat :=
  (d.size + MPZ_SLOT_SIZE c) * nslots c d + MPZ_SLAB_SIZE c

/-- Address of slot `j` of a slab. -/
def slotAt (c : Config) (d : SlabD) (j : Nat) : Nat :=
  MPZ_SLAB_TO_SLOT c d.base + j * (d.size + MPZ_SLOT_SIZE c)

/-- The slots of a slab, in address order. -/
def slotList (c : Config) (d : SlabD) : List Nat :=
  (List.range (nslots c d)).map (slotAt c d)

/-- The address `a` is the address of a slot of slab `d`. -/
def IsSlot (c : Config) (d : SlabD) (a : Nat) : Prop :=
  ∃ j, j < nslots c d ∧ a = slotAt c d j

/-- The guard word of a slot of slab `d` that is held by a client. -/
def usedStamp (d : SlabD) : Nat :=
  (if d.huge then MPZ_SLOT_FLAG_HUGE ||| MPZ_SLOT_FLAG_USED else MPZ_SLOT_FLAG_USED) ||| d.size

/-- Head and foot of the slot at `a` (payload size `size`) both hold the word `v`. -/
def Guarded (h : Heap) (a size v : Nat) : Prop :=
  rd h a 4 = v ∧ rd h (MPZ_SLOT_GOTO_FOOT a size) 4 = v

/-- The doubly linked slab list: starting at `a` with predecessor `p`, the `next` pointers
run through exactly the addresses of the list and end with `NULL`, and every `prev`
pointer names the predecessor. -/
def SlabChain (c : Config) (h : Heap) : Nat → Nat → List Nat → Prop
  | _, a, [] => a = 0
  | p, a, x :: xs =>
    a = x ∧ rd h x c.ptr = p ∧ SlabChain c h x (rd h (slabNext c x) c.ptr) xs

/-- A bin free list: starting at `a`, the `next` links run through exactly the slots of
the list and end with `NULL`. -/
def FreeChain (c : Config) (h : Heap) : Nat → List Nat → Prop
  | a, [] => a = 0
  | a, x :: xs => a = x ∧ FreeChain c h (rd h (slotNext c x) c.ptr) xs

/-- The heap `h1` agrees with `h` outside the address range `[lo, hi)`. -/
def Frame (h h1 : Heap) (lo hi : Nat) : Prop := ∀ x, x < lo ∨ hi ≤ x → h1 x = h x

/-- The block of a slab. -/
def slabBlock (c : Config) (d : SlabD) : Nat × Nat := (d.base, blockLen c d)

/-- Two memory blocks (address, length) do not overlap. -/
def BlocksDisjoint (b e : Nat × Nat) : Prop := b.1 + b.2 ≤ e.1 ∨ e.1 + e.2 ≤ b.1

/-- What is assumed of the OS allocator: the blocks it has handed out are non-null,
aligned to `MPZ_ALLOC_ALIGNMENT`, inside the address space and pairwise disjoint. -/
def OsOk (c : Config) (L : List (Nat × Nat)) : Prop :=
  (∀ b ∈ L, b.1 ≠ 0 ∧ MPZ_ALLOC_ALIGNMENT c ∣ b.1 ∧ b.1 + b.2 ≤ 2 ^ (8 * c.ptr)) ∧
  L.Pairwise BlocksDisjoint

/-- A slab description is consistent with the configuration: the slot size is a positive
multiple of the bin step, at most `2 ^ 28`, and the slab is huge exactly when the size
exceeds the largest bin. -/
def SlabOk (c : Config) (d : SlabD) : Prop :=
  (∃ m, 1 ≤ m ∧ d.size = m * 2 ^ c.shift) ∧ d.size ≤ 2 ^ 28 ∧
  (d.huge = true ↔ c.bins <<< c.shift < d.size)

/-- The heaps agree on the slot areas of the slabs `S`. -/
def SlotsSame (c : Config) (S : List SlabD) (h h1 : Heap) : Prop :=
  ∀ d ∈ S, ∀ y, d.base + 16 ≤ y → y < d.base + blockLen c d → h1 y = h y

/-- Slab headers at the two addresses do not overlap. -/
def HeadersApart (u v : Nat) : Prop := u + 16 ≤ v ∨ v + 16 ≤ u

/-- The heap after a slab with predecessor `q` and successor `nx` (`0` when there is
none) has been unlinked on an LP64 machine: `q->next = nx` and `nx->prev = q`. -/
def unlinkH (h : Heap) (q nx : Nat) : Heap :=
  let h1 := if q ≠ 0 then wr h (q + 8) 8 nx else h
  if nx ≠ 0 then wr h1 nx 8 q else h1

/-- The slabs `S` are consistent with the configuration and their blocks are well-formed
OS blocks. -/
def Geo (c : Config) (S : List SlabD) : Prop :=
  OsOk c (S.map (slabBlock c)) ∧ ∀ d ∈ S, SlabOk c d

/-- The pool invariant: `S` lists the slabs in the order of the slab list, `F i` is the
free list of bin `i`, and `U` lists the data pointers held by clients. -/
structure Inv (c : Config) (P : Pool) (S : List SlabD) (F : Nat → List Nat) (U : List Nat) :
    Prop where
  live_eq : P.live = S.map (slabBlock c) ++ [(P.self, MPZ_POOL_SIZE c)]
  os_ok : OsOk c P.live
  slab_ok : ∀ d ∈ S, SlabOk c d
  chain : SlabChain c P.heap 0 P.slabs (S.map SlabD.base)
  free_chain : ∀ i, i < c.bins → FreeChain c P.heap (P.bins i) (F i)
  free_mem : ∀ i, ∀ a ∈ F i, ∃ d ∈ S, IsSlot c d a ∧ d.huge = false ∧
    MPZ_BIN_IDX c d.size = i ∧ Guarded P.heap a d.size d.size
  free_nodup : ∀ i, (F i).Nodup
  used_mem : ∀ p ∈ U, ∃ d ∈ S, ∃ a, IsSlot c d a ∧ p = MPZ_SLOT_TO_DATA a ∧
    Guarded P.heap a d.size (usedStamp d)
  used_nodup : U.Nodup
  excl : ∀ i, ∀ a ∈ F i, MPZ_SLOT_TO_DATA a ∉ U
  total : ∀ d ∈ S, ∀ a, IsSlot c d a →
    MPZ_SLOT_TO_DATA a ∈ U ∨ a ∈ F (MPZ_BIN_IDX c d.size)

/-- The state `Q` of the loop of a soft `_mpz_pool_gc` started in `P`, when the slabs `S1`
have been re-initialised and the slabs `S2` are still to come: nothing was asked of the
OS, the blocks of `S2` are as they were in `P`, and the bins hold exactly the slots of
`S1`, bin `i` in the order `G i`, every slot with head and foot equal to its size. -/
structure ResetInv (c : Config) (P Q : Pool) (S1 S2 : List SlabD) (G : Nat → List Nat) :
    Prop where
  live : Q.live = P.live
  self : Q.self = P.self
  oscalls : Q.oscalls = P.oscalls
  slabs_mem : (∃ e ∈ S1, Q.slabs = e.base) ∨ (S1 = [] ∧ Q.slabs = P.slabs)
  rest_same : ∀ d ∈ S2, ∀ y, d.base ≤ y → y < d.base + blockLen c d → Q.heap y = P.heap y
  free_chain : ∀ i, i < c.bins → FreeChain c Q.heap (Q.bins i) (G i)
  free_mem : ∀ i, ∀ a ∈ G i, ∃ d ∈ S1, IsSlot c d a ∧ MPZ_BIN_IDX c d.size = i ∧
    Guarded Q.heap a d.size d.size
  free_nodup : ∀ i, (G i).Nodup
  total : ∀ d ∈ S1, ∀ a, IsSlot c d a → a ∈ G (MPZ_BIN_IDX c d.size)

/-- States reachable from `mpz_pool_create` by `mpz_pmalloc`, `mpz_pcalloc` and `mpz_free`
of live pointers, together with the list of live data pointers (those returned by an
allocation and not freed since). The OS may answer every request as it likes, provided
its table of blocks stays well-formed (`OsOk`). -/
inductive Reach (c : Config) : Pool → List Nat → Prop
  | create (h : Heap) (os : Option Nat) (P : Pool) :
      mpz_pool_create c h os = some P → OsOk c P.live → Reach c P []
  | alloc (P : Pool) (U : List Nat) (size : Nat) (z : Bool) (os : Option Nat) :
      Reach c P U → OsOk c (_mpz_palloc c P size z os).2.live →
      (_mpz_palloc c P size z os).1 ≠ 0 →
      Reach c (_mpz_palloc c P size z os).2 ((_mpz_palloc c P size z os).1 :: U)
  | allocFail (P : Pool) (U : List Nat) (size : Nat) (z : Bool) (os : Option Nat) :
      Reach c P U → OsOk c (_mpz_palloc c P size z os).2.live →
      (_mpz_palloc c P size z os).1 = 0 →
      Reach c (_mpz_palloc c P size z os).2 U
  | free (P : Pool) (U : List Nat) (p : Nat) (P1 : Pool) :
      Reach c P U → p ∈ U → mpz_free c P p = .ok P1 → Reach c P1 (U.erase p)

/-- A flag set `f ⊆ {USED, HUGE}` as a 32-bit word: `u` tells whether `MPZ_SLOT_FLAG_USED`
is in the set, `g` whether `MPZ_SLOT_FLAG_HUGE` is. -/
def flagWord (u g : Bool) : Nat :=
  (if g then MPZ_SLOT_FLAG_HUGE else 0) ||| (if u then MPZ_SLOT_FLAG_USED else 0)

/-- The pool after a second `mpz_pmalloc(pool, 16)`, on `poolA`: the slot comes from the
bin, the OS is not asked. -/
def poolB : Pool := (mpz_pmalloc cfgS poolA 16 none).2

/-- The pool after `mpz_free(pool, 4116)` on `poolA`: the four slots of the slab at 4096 are
on the free list of bin 0. -/
def poolF : Pool :=
  match mpz_free cfgS poolA 4116 with
  | .ok P => P
  | .error _ => poolA

/-- The two states agree on everything the C program can see -- the bins, the slab list
head, the memory, the blocks held -- and differ at most in the count of OS calls. -/
def CallsApart (P Q : Pool) : Prop :=
  P.bins = Q.bins ∧ P.slabs = Q.slabs ∧ P.self = Q.self ∧ P.heap = Q.heap ∧ P.live = Q.live

/-- Two outcomes of an operation agree: both fail in the same way, or both succeed with
results related by `R`. -/
def ExceptRel {α : Type} (R : α → α → Prop) : Except Fault α → Except Fault α → Prop
  | .ok x, .ok y => R x y
  | .error e, .error f => e = f
  | _, _ => False

/-- The pointers returned by the allocations of a sequence of operations (`none` when an
operation leaves the defined behaviour). -/
def runResults (c : Config) (P : Pool) (ops : List Op) : Option (List Nat) :=
  match runOps c P ops with
  | .ok (res, _) => some res
  | .error _ => none

/-- Scenario S2 of the specification on `poolS`: four allocations of 16 bytes (the OS is
asked once and places the slab at 4096), then the four pointers freed in reverse order of
allocation. -/
def opsS2 : List Op :=
  [.alloc 16 false (some 4096), .alloc 16 false none, .alloc 16 false none,
   .alloc 16 false none, .free 4212, .free 4180, .free 4148, .free 4116]

/-- The head `[a, a + 4)`, the free-list link (the field `next` of `struct _mpz_slot_s`),
the payload `[a + 4, a + 4 + r)` and the foot of the slot at `a` with payload size `r` lie
in `[lo, hi)`, in this order, and the link overlaps neither the head nor the foot. -/
def SlotWithin (c : Config) (a r lo hi : Nat) : Prop :=
  lo ≤ a ∧ a + 4 ≤ slotNext c a ∧ slotNext c a + c.ptr ≤ MPZ_SLOT_GOTO_FOOT a r ∧
  a + 4 ≤ MPZ_SLOT_TO_DATA a ∧ MPZ_SLOT_TO_DATA a + r ≤ MPZ_SLOT_GOTO_FOOT a r ∧
  MPZ_SLOT_GOTO_FOOT a r + 4 ≤ hi

/-! ## States reached through a soft reset -/

/-- What is required of a slot `a` on the free list of `bins[i]`: head equal to foot, the
flags `USED` and `HUGE` clear, and the size of the head equal to `(i + 1) << shift`, the
size whose bin index is `i`. -/
def FreeSlotOk (c : Config) (h : Heap) (i a : Nat) : Prop :=
  MPZ_SLOT_READ_HEAD h a = rd h (MPZ_SLOT_READ_FOOT h a) 4 ∧
  MPZ_SLOT_READ_HEAD h a &&& MPZ_SLOT_FLAG_USED = 0 ∧
  MPZ_SLOT_READ_HEAD h a &&& MPZ_SLOT_FLAG_HUGE = 0 ∧
  MPZ_SLOT_READ_SIZE h a = (i + 1) <<< c.shift ∧
  MPZ_BIN_IDX c (MPZ_SLOT_READ_SIZE h a) = i

/-- The bin invariant: the free list of every bin is a finite list of distinct slots ending
with `NULL`, each slot as `FreeSlotOk` requires. -/
def BinsOk (c : Config) (P : Pool) : Prop :=
  ∀ i, i < c.bins →
    ∃ L : List Nat, FreeChain c P.heap (P.bins i) L ∧ L.Nodup ∧ ∀ a ∈ L, FreeSlotOk c P.heap i a

/-- States reachable from `mpz_pool_create` by `mpz_pmalloc`, `mpz_pcalloc`, `mpz_free` of
live pointers and at most one `mpz_pool_reset`, with the list of live data pointers; the
reset reclaims every allocation, so no pointer is live after it. -/
inductive ReachR (c : Config) : Pool → List Nat → Prop
  | start (P : Pool) (U : List Nat) : Reach c P U → ReachR c P U
  | reset (P : Pool) (U : List Nat) (fuel : Nat) (Q : Pool) :
      Reach c P U → mpz_pool_reset c fuel P = .ok Q → ReachR c Q []
  | alloc (P : Pool) (U : List Nat) (size : Nat) (z : Bool) (os : Option Nat) :
      ReachR c P U → OsOk c (_mpz_palloc c P size z os).2.live →
      (_mpz_palloc c P size z os).1 ≠ 0 →
      ReachR c (_mpz_palloc c P size z os).2 ((_mpz_palloc c P size z os).1 :: U)
  | allocFail (P : Pool) (U : List Nat) (size : Nat) (z : Bool) (os : Option Nat) :
      ReachR c P U → OsOk c (_mpz_palloc c P size z os).2.live →
      (_mpz_palloc c P size z os).1 = 0 →
      ReachR c (_mpz_palloc c P size z os).2 U
  | free (P : Pool) (U : List Nat) (p : Nat) (P1 : Pool) :
      ReachR c P U → p ∈ U → mpz_free c P p = .ok P1 → ReachR c P1 (U.erase p)

/-- The state `Q` of the loop of a soft `_mpz_pool_gc` started in `P`, huge slabs allowed:
the pooled slabs `R` have been re-initialised, the huge slabs met so far have been
released, the slabs `S2` are still to come. The blocks held are those of `R` and `S2`;
the slabs to come are as in `P`, except for the `prev` field of the next one, which
names a slab of `R`, or is `NULL` while `R` is empty; the head of the slab list is a slab
of `R`, or else, while `R` is empty, the next slab; the bins hold exactly the slots of
`R`. -/
structure GcInv (c : Config) (P Q : Pool) (R S2 : List SlabD) (G : Nat → List Nat) :
    Prop where
  live : Q.live = (R ++ S2).map (slabBlock c) ++ [(P.self, MPZ_POOL_SIZE c)]
  self : Q.self = P.self
  slabs_mem : (∃ e ∈ R, Q.slabs = e.base) ∨
    (R = [] ∧ Q.slabs = (S2.map SlabD.base).headD 0 ∧
      ∀ d, S2.head? = some d → rd Q.heap d.base 8 = 0)
  cur_prev : ∀ d, S2.head? = some d →
    (R = [] ∧ rd Q.heap d.base 8 = 0) ∨ ∃ e ∈ R, rd Q.heap d.base 8 = e.base
  rest_same : ∀ d ∈ S2, ∀ y, d.base + 8 ≤ y → y < d.base + blockLen c d → Q.heap y = P.heap y
  tail_same : ∀ d ∈ S2.tail, ∀ y, d.base ≤ y → y < d.base + 8 → Q.heap y = P.heap y
  free_chain : ∀ i, i < c.bins → FreeChain c Q.heap (Q.bins i) (G i)
  free_mem : ∀ i, ∀ a ∈ G i, ∃ d ∈ R, IsSlot c d a ∧ MPZ_BIN_IDX c d.size = i ∧
    Guarded Q.heap a d.size d.size
  free_nodup : ∀ i, (G i).Nodup
  total : ∀ d ∈ R, ∀ a, IsSlot c d a → a ∈ G (MPZ_BIN_IDX c d.size)

/-- The pool `P` is the pool `M` up to the contents of the 16-byte slab headers at the
addresses `RB` and the order of the table of OS blocks. -/
def Mirror (RB : List Nat) (P M : Pool) : Prop :=
  P.bins = M.bins ∧ P.slabs = M.slabs ∧ P.self = M.self ∧ P.live.Perm M.live ∧
  ∀ y, (∀ b ∈ RB, y < b ∨ b + 16 ≤ y) → P.heap y = M.heap y

/-- The pool `P` is, up to the headers of some pooled slabs, a pool that satisfies the
pool invariant with the live pointers `U`. -/
def Healed (c : Config) (P : Pool) (U : List Nat) : Prop :=
  ∃ (M : Pool) (S : List SlabD) (F : Nat → List Nat) (RB : List Nat),
    Inv c M S F U ∧ Mirror RB P M ∧ ∀ b ∈ RB, ∃ d ∈ S, d.base = b ∧ d.huge = false

/-! ## The slab list as a walk along `next` -/

theorem wr_out {h : Heap} {a w v x : Nat} (hx : x < a ∨ a + w ≤ x) : wr h a w v x = h x := by
  unfold wr
  rw [if_neg]
  omega

theorem memset_out {h : Heap} {a v n x : Nat} (hx : x < a ∨ a + n ≤ x) :
    memset h a v n x = h x := by
  unfold memset
  rw [if_neg]
  omega

theorem memset_in {h : Heap} {a v n x : Nat} (h1 : a ≤ x) (h2 : x < a + n) :
    memset h a v n x = v % 256 := by
  unfold memset
  rw [if_pos ⟨h1, h2⟩]

theorem rd_congr {h h' : Heap} {w : Nat} : ∀ {a : Nat},
    (∀ x, a ≤ x → x < a + w → h x = h' x) → rd h a w = rd h' a w := by
  induction w with
  | zero => intro a _; rfl
  | succ w ih =>
    intro a H
    simp only [rd]
    rw [H a (Nat.le_refl a) (by omega), ih (fun x h1 h2 => H x (by omega) (by omega))]

theorem rd_wr_disj {h : Heap} {a w v b n : Nat} (H : b + n ≤ a ∨ a + w ≤ b) :
    rd (wr h a w v) b n = rd h b n :=
  rd_congr (fun _ h1 h2 => wr_out (by omega))

theorem rd_memset_disj {h : Heap} {a v m b n : Nat} (H : b + n ≤ a ∨ a + m ≤ b) :
    rd (memset h a v m) b n = rd h b n :=
  rd_congr (fun _ h1 h2 => memset_out (by omega))

theorem rd_wr_same {w : Nat} : ∀ {h : Heap} {a v : Nat},
    rd (wr h a w v) a w = v % 256 ^ w := by
  induction w with
  | zero => intro h a v; simp [rd, Nat.mod_one]
  | succ w ih =>
    intro h a v
    have e1 : wr h a (w + 1) v a = v % 256 := by
      unfold wr
      rw [if_pos ⟨Nat.le_refl a, by omega⟩]
      simp
    have e2 : rd (wr h a (w + 1) v) (a + 1) w = rd (wr h (a + 1) w (v / 256)) (a + 1) w := by
      apply rd_congr
      intro x h1 h2
      unfold wr
      rw [if_pos ⟨by omega, by omega⟩, if_pos ⟨h1, h2⟩]
      have : x - a = (x - (a + 1)) + 1 := by omega
      rw [this, Nat.pow_succ, Nat.mul_comm, Nat.div_div_eq_div_mul]
    simp only [rd]
    rw [e1, e2, ih, Nat.pow_succ, Nat.mul_comm (256 ^ w) 256, Nat.mod_mul]
    simp

theorem rd_lt {h : Heap} {w : Nat} : ∀ {a : Nat}, rd h a w < 256 ^ w := by
  induction w with
  | zero => intro a; simp [rd]
  | succ w ih =>
    intro a
    simp only [rd]
    have := @ih (a + 1)
    have h2 : h a % 256 < 256 := Nat.mod_lt _ (by decide)
    rw [Nat.pow_succ]
    omega

theorem rd_wr_val {h : Heap} {a w v : Nat} (hv : v < 256 ^ w) : rd (wr h a w v) a w = v := by
  rw [rd_wr_same, Nat.mod_eq_of_lt hv]

/-! ## Arithmetic of the macros -/

theorem and_mask {X k W : Nat} (hk : k ≤ W) (hX : X < 2 ^ W) :
    X &&& (2 ^ W - 1 - (2 ^ k - 1)) = X / 2 ^ k * 2 ^ k := by
  have hpos : 0 < 2 ^ k := Nat.two_pow_pos k
  have hle : 2 ^ k ≤ 2 ^ W := Nat.pow_le_pow_right (by decide) hk
  have e : 2 ^ W - 1 - (2 ^ k - 1) = 2 ^ W - ((2 ^ k - 1) + 1) := by omega
  apply Nat.eq_of_testBit_eq
  intro i
  rw [e, Nat.testBit_and, Nat.testBit_two_pow_sub_succ (by omega), Nat.testBit_two_pow_sub_one,
    Nat.mul_comm, Nat.testBit_mul_pow_two, ← Nat.shiftRight_eq_div_pow, Nat.testBit_shiftRight]
  by_cases hik : i < k
  · simp [hik, Nat.not_le.mpr hik]
  · have hki : k ≤ i := Nat.le_of_not_lt hik
    have e2 : k + (i - k) = i := by omega
    by_cases hiW : i < W
    · simp [hik, hki, hiW, e2]
    · have : X.testBit i = false :=
        Nat.testBit_lt_two_pow (Nat.lt_of_lt_of_le hX (Nat.pow_le_pow_right (by decide) (by omega)))
      simp [hik, hki, hiW, e2, this]

theorem mpz_align_eq (c : Config) {s k : Nat} (hk : k ≤ 8 * c.ptr)
    (hs : s + (2 ^ k - 1) < 2 ^ (8 * c.ptr)) :
    mpz_align c s (2 ^ k) = (s + (2 ^ k - 1)) / 2 ^ k * 2 ^ k := by
  unfold mpz_align
  rw [Nat.mod_eq_of_lt hs, and_mask hk hs]

theorem slots_alignment_eq (c : Config) : MPZ_SLOTS_ALIGNMENT c = 2 ^ c.shift := by
  simp [MPZ_SLOTS_ALIGNMENT, Nat.shiftLeft_eq]

theorem max_alloc_eq : MPZ_POOL_MAX_ALLOC = 2 ^ 28 - 1 := by
  simp [MPZ_POOL_MAX_ALLOC, Nat.shiftLeft_eq]

theorem bins_shift_eq (c : Config) : c.bins <<< c.shift = c.bins * 2 ^ c.shift := by
  simp [Nat.shiftLeft_eq]

/-- Rounding up to a multiple of `a`. -/
theorem roundup_spec {a : Nat} (ha : 0 < a) (s : Nat) :
    a ∣ (s + (a - 1)) / a * a ∧ s ≤ (s + (a - 1)) / a * a ∧
    (s + (a - 1)) / a * a < s + a ∧
    ∀ m, a ∣ m → s ≤ m → (s + (a - 1)) / a * a ≤ m := by
  have h1 := Nat.div_add_mod (s + (a - 1)) a
  have h2 := Nat.mod_lt (s + (a - 1)) ha
  have e : (s + (a - 1)) / a * a = a * ((s + (a - 1)) / a) := Nat.mul_comm _ _
  refine ⟨Dvd.intro_left _ rfl, by omega, by omega, ?_⟩
  rintro m ⟨q, rfl⟩ hm
  rw [Nat.mul_comm a q]
  apply Nat.mul_le_mul_right
  have : (s + (a - 1)) / a < q + 1 := by
    apply Nat.div_lt_of_lt_mul
    rw [Nat.mul_add]
    omega
  omega

/-! ## Constants -/

theorem cfgS_sane : cfgS.Sane := ⟨rfl, by decide, by decide, by decide, by decide⟩

theorem Config.Sane.shift_le {c : Config} (hc : c.Sane) : c.shift ≤ 27 := by
  have h1 := hc.fits
  have h2 := hc.bins_pos
  by_contra h
  have h3 : 2 ^ 28 ≤ 2 ^ c.shift := Nat.pow_le_pow_right (by decide) (by omega)
  have h4 : 1 * 2 ^ c.shift ≤ c.bins * 2 ^ c.shift := Nat.mul_le_mul_right _ h2
  omega

theorem Config.Sane.align_pos {c : Config} (_hc : c.Sane) : 0 < 2 ^ c.shift := Nat.two_pow_pos _

theorem Config.Sane.align_le {c : Config} (hc : c.Sane) : 2 ^ c.shift < 2 ^ 28 := by
  have h1 := hc.fits
  have h2 := hc.bins_pos
  have h4 : 1 * 2 ^ c.shift ≤ c.bins * 2 ^ c.shift := Nat.mul_le_mul_right _ h2
  omega

theorem Config.Sane.align_ge {c : Config} (hc : c.Sane) : 16 ≤ 2 ^ c.shift := by
  have : 2 ^ 4 ≤ 2 ^ c.shift := Nat.pow_le_pow_right (by decide) hc.shift4
  simpa using this

theorem Config.Sane.sixteen_dvd {c : Config} (hc : c.Sane) : 16 ∣ 2 ^ c.shift := by
  have : 2 ^ 4 ∣ 2 ^ c.shift := Nat.pow_dvd_pow 2 hc.shift4
  simpa using this

theorem slab_size_eq {c : Config} (hc : c.Sane) : MPZ_SLAB_SIZE c = 16 := by
  simp only [MPZ_SLAB_SIZE, MPZ_ALLOC_ALIGNMENT, mpz_align, hc.ptr8]
  decide

theorem slot_size_eq {c : Config} (hc : c.Sane) : MPZ_SLOT_SIZE c = 16 := by
  simp [MPZ_SLOT_SIZE, hc.ptr8]

theorem alloc_alignment_eq {c : Config} (hc : c.Sane) : MPZ_ALLOC_ALIGNMENT c = 16 := by
  simp [MPZ_ALLOC_ALIGNMENT, hc.ptr8]

/-- On sizes that fit, `mpz_align(s, MPZ_SLOTS_ALIGNMENT)` rounds up to the bin step. -/
theorem align_slots_eq {c : Config} (hc : c.Sane) {s : Nat} (hs : s ≤ 2 ^ 28) :
    mpz_align c s (MPZ_SLOTS_ALIGNMENT c) = (s + (2 ^ c.shift - 1)) / 2 ^ c.shift * 2 ^ c.shift := by
  rw [slots_alignment_eq]
  apply mpz_align_eq
  · have := hc.shift_le; have := hc.ptr8; omega
  · have := hc.align_le
    rw [hc.ptr8]
    have : (2:Nat) ^ 28 + 2 ^ 28 < 2 ^ (8 * 8) := by decide
    omega

theorem align_mul_eq {c : Config} (hc : c.Sane) {m : Nat} (hs : m * 2 ^ c.shift ≤ 2 ^ 28) :
    mpz_align c (m * 2 ^ c.shift) (MPZ_SLOTS_ALIGNMENT c) = m * 2 ^ c.shift := by
  rw [align_slots_eq hc hs]
  have hpos := hc.align_pos
  congr 1
  rw [Nat.add_comm, Nat.add_mul_div_right _ _ hpos, Nat.div_eq_of_lt (by omega)]
  simp

theorem bin_idx_mul {c : Config} (hc : c.Sane) {m : Nat} (hs : m * 2 ^ c.shift ≤ 2 ^ 28) :
    MPZ_BIN_IDX c (m * 2 ^ c.shift) = m - 1 := by
  unfold MPZ_BIN_IDX
  rw [align_mul_eq hc hs, Nat.shiftRight_eq_div_pow, Nat.mul_div_cancel _ hc.align_pos]

/-- The rounded size of a request that passes the `MPZ_POOL_MAX_ALLOC` check. -/
theorem allocSize_eq {c : Config} (hc : c.Sane) {size : Nat} (hs : size ≤ MPZ_POOL_MAX_ALLOC) :
    allocSize c size =
      (max size (2 ^ c.shift) + (2 ^ c.shift - 1)) / 2 ^ c.shift * 2 ^ c.shift := by
  unfold allocSize MPZ_POOL_MIN_ALLOC
  rw [max_alloc_eq] at hs
  have h1 := hc.align_le
  have e : (if size < MPZ_SLOTS_ALIGNMENT c then MPZ_SLOTS_ALIGNMENT c else size)
      = max size (2 ^ c.shift) := by
    rw [slots_alignment_eq]
    split <;> omega
  rw [e, align_slots_eq hc (by omega)]

/-! ## Shape of the results of `_mpz_palloc` -/

theorem slab_create_some (c : Config) (P : Pool) (n a : Nat) (ha : a ≠ 0) :
    _mpz_slab_create c P n (some a) =
      (a, _mpz_slab_push c { P with live := (a, n + MPZ_SLAB_SIZE c) :: P.live,
                                    oscalls := P.oscalls + 1 } a) := by
  simp [_mpz_slab_create, mpz_memalign, ha]

theorem slab_create_none (c : Config) (P : Pool) (n : Nat) :
    _mpz_slab_create c P n none = (0, { P with oscalls := P.oscalls + 1 }) := by
  simp [_mpz_slab_create, mpz_memalign]

theorem pallocPop_fst (c : Config) (P : Pool) (size idx : Nat) (z : Bool) :
    (pallocPop c P size idx z).1 = P.bins idx + 4 := rfl

theorem pallocPop_bins (c : Config) (P : Pool) (size idx : Nat) (z : Bool) :
    (pallocPop c P size idx z).2.bins =
      upd P.bins idx (rd P.heap (slotNext c (P.bins idx)) c.ptr) := rfl

theorem slabInitLoop_frame (c : Config) (slab size idx : Nat) :
    ∀ (n k slot : Nat) (P : Pool),
      (slabInitLoop c slab size idx n k slot P).slabs = P.slabs ∧
      (slabInitLoop c slab size idx n k slot P).self = P.self ∧
      (slabInitLoop c slab size idx n k slot P).live = P.live ∧
      (slabInitLoop c slab size idx n k slot P).oscalls = P.oscalls := by
  intro n
  induction n with
  | zero => intro k slot P; exact ⟨rfl, rfl, rfl, rfl⟩
  | succ n ih =>
    intro k slot P
    simp only [slabInitLoop]
    split
    · exact ih _ _ _
    · exact ih _ _ _

theorem slab_push_bins (c : Config) (P : Pool) (a : Nat) :
    (_mpz_slab_push c P a).bins = P.bins := rfl

theorem pallocHuge_bins (c : Config) (P : Pool) (size : Nat) (os : Option Nat) :
    (pallocHuge c P size os).2.bins = P.bins := by
  unfold pallocHuge _mpz_slab_create mpz_memalign
  cases os with
  | none => simp
  | some a =>
    by_cases ha : a = 0
    · simp [ha]
    · simp [ha, _mpz_slab_push]

/-- C8. A request larger than `MPZ_POOL_MAX_ALLOC` is answered with `NULL` by `mpz_pmalloc`
and `mpz_pcalloc`, the state (bins, slab list, heap, OS table and OS call counter) is
left exactly as it was; a request of exactly `MPZ_POOL_MAX_ALLOC` is not rejected: it
succeeds whenever the OS provides the block it may need. -/
theorem alloc_rejects_oversize (c : Config) (hs : c.shift ≤ 28) (P : Pool) :
    (∀ size os, MPZ_POOL_MAX_ALLOC < size →
        mpz_pmalloc c P size os = (0, P) ∧ mpz_pcalloc c P size os = (0, P)) ∧
    (∀ a, a ≠ 0 →
        (mpz_pmalloc c P MPZ_POOL_MAX_ALLOC (some a)).1 ≠ 0 ∧
        (mpz_pcalloc c P MPZ_POOL_MAX_ALLOC (some a)).1 ≠ 0) := by
  have hmin : MPZ_POOL_MIN_ALLOC c ≤ MPZ_POOL_MAX_ALLOC + 1 := by
    rw [MPZ_POOL_MIN_ALLOC, slots_alignment_eq, max_alloc_eq]
    have : 2 ^ c.shift ≤ 2 ^ 28 := Nat.pow_le_pow_right (by decide) hs
    omega
  constructor
  · intro size os h
    have h1 : ¬ size < MPZ_POOL_MIN_ALLOC c := by omega
    simp [mpz_pmalloc, mpz_pcalloc, _mpz_palloc, h1, h]
  · intro a ha
    have key : ∀ z, (_mpz_palloc c P MPZ_POOL_MAX_ALLOC z (some a)).1 ≠ 0 := by
      intro z
      unfold _mpz_palloc
      rw [if_neg (by omega)]
      simp only []
      split
      · unfold pallocHuge
        rw [slab_create_some c P _ a ha]
        simp [ha, MPZ_SLOT_TO_DATA]
      · unfold pallocPooled
        simp only []
        split
        · rw [slab_create_some c P _ a ha]
          simp [ha, pallocPop_fst]
        · simp [pallocPop_fst]
    exact ⟨key false, key true⟩

theorem alloc_rejects_oversize_witness :
    (∀ size os, MPZ_POOL_MAX_ALLOC < size →
        mpz_pmalloc cfgS poolS size os = (0, poolS) ∧
        mpz_pcalloc cfgS poolS size os = (0, poolS)) ∧
    (∀ a, a ≠ 0 →
        (mpz_pmalloc cfgS poolS MPZ_POOL_MAX_ALLOC (some a)).1 ≠ 0 ∧
        (mpz_pcalloc cfgS poolS MPZ_POOL_MAX_ALLOC (some a)).1 ≠ 0) :=
  alloc_rejects_oversize cfgS (by decide) poolS

/-- The rounded size of an accepted request is a positive multiple of the bin step, at
most `2 ^ 28`. -/
theorem allocSize_mul {c : Config} (hc : c.Sane) {size : Nat}
    (hs : size ≤ MPZ_POOL_MAX_ALLOC) :
    ∃ m, 1 ≤ m ∧ allocSize c size = m * 2 ^ c.shift ∧ m * 2 ^ c.shift ≤ 2 ^ 28 ∧
      size ≤ m * 2 ^ c.shift := by
  have hpos := hc.align_pos
  have hle := hc.align_le
  have hsl := hc.shift_le
  obtain ⟨h1, h2, _, h4⟩ := roundup_spec hpos (max size (2 ^ c.shift))
  rw [← allocSize_eq hc hs] at h1 h2 h4
  obtain ⟨m, hm⟩ := h1
  rw [max_alloc_eq] at hs
  have h28 : allocSize c size ≤ 2 ^ 28 := by
    apply h4
    · exact Nat.pow_dvd_pow 2 (by omega)
    · omega
  rw [Nat.mul_comm] at hm
  refine ⟨m, ?_, hm, by omega, by omega⟩
  rcases Nat.eq_zero_or_pos m with h0 | h0
  · subst h0; omega
  · exact h0

theorem slotAt_eq {c : Config} (hc : c.Sane) (d : SlabD) (j : Nat) :
    slotAt c d j = d.base + 16 + j * (d.size + 16) := by
  simp [slotAt, MPZ_SLAB_TO_SLOT, slab_size_eq hc, slot_size_eq hc]

theorem blockLen_eq {c : Config} (hc : c.Sane) (d : SlabD) :
    blockLen c d = (d.size + 16) * nslots c d + 16 := by
  simp [blockLen, slab_size_eq hc, slot_size_eq hc]

theorem nslots_pos {c : Config} (hc : c.Sane) (d : SlabD) : 0 < nslots c d := by
  unfold nslots
  split
  · decide
  · exact hc.mul_pos

/-- A slot lies inside the block of its slab, after the slab header. -/
theorem IsSlot.bounds {c : Config} (hc : c.Sane) {d : SlabD} {a : Nat} (h : IsSlot c d a) :
    d.base + 16 ≤ a ∧ a + (d.size + 16) ≤ d.base + blockLen c d := by
  obtain ⟨j, hj, rfl⟩ := h
  rw [slotAt_eq hc, blockLen_eq hc]
  have h1 : (j + 1) * (d.size + 16) ≤ nslots c d * (d.size + 16) :=
    Nat.mul_le_mul_right _ hj
  rw [Nat.add_mul, Nat.one_mul] at h1
  rw [Nat.mul_comm (d.size + 16) (nslots c d)]
  omega

/-- Distinct slots of one slab do not overlap. -/
theorem IsSlot.disjoint_same {c : Config} (hc : c.Sane) {d : SlabD} {a b : Nat}
    (ha : IsSlot c d a) (hb : IsSlot c d b) (hab : a ≠ b) :
    a + (d.size + 16) ≤ b ∨ b + (d.size + 16) ≤ a := by
  obtain ⟨j, _, rfl⟩ := ha
  obtain ⟨k, _, rfl⟩ := hb
  rw [slotAt_eq hc, slotAt_eq hc]
  rcases Nat.lt_trichotomy j k with h | h | h
  · left
    have h1 : (j + 1) * (d.size + 16) ≤ k * (d.size + 16) := Nat.mul_le_mul_right _ h
    rw [Nat.add_mul, Nat.one_mul] at h1
    omega
  · subst h; exact absurd rfl hab
  · right
    have h1 : (k + 1) * (d.size + 16) ≤ j * (d.size + 16) := Nat.mul_le_mul_right _ h
    rw [Nat.add_mul, Nat.one_mul] at h1
    omega

theorem pairwise_mem {α : Type} {R : α → α → Prop} {l : List α} (h : l.Pairwise R)
    {a b : α} (ha : a ∈ l) (hb : b ∈ l) : a = b ∨ R a b ∨ R b a := by
  induction l with
  | nil => cases ha
  | cons x xs ih =>
    rw [List.pairwise_cons] at h
    rcases List.mem_cons.mp ha with rfl | ha'
    · rcases List.mem_cons.mp hb with rfl | hb'
      · exact Or.inl rfl
      · exact Or.inr (Or.inl (h.1 b hb'))
    · rcases List.mem_cons.mp hb with rfl | hb'
      · exact Or.inr (Or.inr (h.1 a ha'))
      · exact ih h.2 ha' hb'

/-! ## Guard words -/

theorem flag_used_eq : MPZ_SLOT_FLAG_USED = 2 ^ 30 := by
  simp [MPZ_SLOT_FLAG_USED, Nat.shiftLeft_eq]

theorem flag_huge_eq : MPZ_SLOT_FLAG_HUGE = 2 ^ 31 := by
  simp [MPZ_SLOT_FLAG_HUGE, Nat.shiftLeft_eq]

/-- A guard word is `flags | size` with the flags in bits 30 and 31: as a number it is
`2 ^ 30 * f + r` with `f < 4`. -/
theorem stamp_or {f r : Nat} (hr : r < 2 ^ 30) : 2 ^ 30 * f ||| r = 2 ^ 30 * f + r :=
  (Nat.mul_add_lt_is_or hr f).symm

theorem stamp_size {f r : Nat} (hr : r < 2 ^ 30) :
    (((2 ^ 30 * f + r) <<< 2) % 2 ^ 32) >>> 2 = r := by
  rw [Nat.shiftLeft_eq, Nat.shiftRight_eq_div_pow]
  norm_num
  omega

theorem stamp_test_used {f r : Nat} (hr : r < 2 ^ 30) :
    (2 ^ 30 * f + r) &&& 2 ^ 30 = 2 ^ 30 * (f % 2) := by
  rw [Nat.land_comm, Nat.two_pow_and, Nat.testBit_to_div_mod]
  have e : (2 ^ 30 * f + r) / 2 ^ 30 = f := by
    rw [Nat.mul_add_div (Nat.two_pow_pos 30), Nat.div_eq_of_lt hr, Nat.add_zero]
  rw [e]
  rcases Nat.mod_two_eq_zero_or_one f with h | h <;> simp [h]

theorem stamp_test_huge {f r : Nat} (hf : f < 4) (hr : r < 2 ^ 30) :
    (2 ^ 30 * f + r) &&& 2 ^ 31 = 2 ^ 31 * (f / 2) := by
  rw [Nat.land_comm, Nat.two_pow_and, Nat.testBit_to_div_mod]
  have e : (2 ^ 30 * f + r) / 2 ^ 31 = f / 2 := by
    norm_num at hr ⊢
    omega
  rw [e]
  have : f / 2 < 2 := by omega
  interval_cases h : f / 2 <;> simp

theorem usedStamp_pooled {d : SlabD} (hd : d.huge = false) (hr : d.size < 2 ^ 30) :
    usedStamp d = 2 ^ 30 * 1 + d.size := by
  simp only [usedStamp, hd, flag_used_eq]
  have := @stamp_or 1 d.size hr
  simpa using this

theorem usedStamp_huge {d : SlabD} (hd : d.huge = true) (hr : d.size < 2 ^ 30) :
    usedStamp d = 2 ^ 30 * 3 + d.size := by
  simp only [usedStamp, hd, flag_used_eq, flag_huge_eq]
  have e : (2:Nat) ^ 31 ||| 2 ^ 30 = 2 ^ 30 * 3 := by decide
  simp only [if_true]
  rw [e]
  exact stamp_or hr

/-- The words written by `_mpz_slot_init`. -/
theorem slot_init_word {f r : Nat} (hf : f < 4) (hr : r < 2 ^ 30) :
    (0 ||| 2 ^ 30 * f ||| r % 2 ^ 32) % 2 ^ 32 = 2 ^ 30 * f + r := by
  have h1 : r % 2 ^ 32 = r := Nat.mod_eq_of_lt (by norm_num at hr ⊢; omega)
  rw [h1, Nat.zero_or, stamp_or hr]
  apply Nat.mod_eq_of_lt
  norm_num at hr ⊢
  omega

/-! ## Frames: what a write leaves alone -/

theorem Frame.refl (h : Heap) (lo hi : Nat) : Frame h h lo hi := fun _ _ => rfl

theorem Frame.mono {h h1 : Heap} {lo hi lo1 hi1 : Nat} (H : Frame h h1 lo hi)
    (h1lo : lo1 ≤ lo) (h1hi : hi ≤ hi1) : Frame h h1 lo1 hi1 :=
  fun x hx => H x (by omega)

theorem Frame.andThen {h h1 h2 : Heap} {lo hi : Nat} (H1 : Frame h h1 lo hi)
    (H2 : Frame h1 h2 lo hi) : Frame h h2 lo hi :=
  fun x hx => (H2 x hx).trans (H1 x hx)

theorem Frame.rd {h h1 : Heap} {lo hi b n : Nat} (H : Frame h h1 lo hi)
    (hb : b + n ≤ lo ∨ hi ≤ b) : rd h1 b n = rd h b n :=
  rd_congr (fun x _ _ => H x (by omega))

theorem frame_wr (h : Heap) {a w lo hi : Nat} (v : Nat) (h1 : lo ≤ a) (h2 : a + w ≤ hi) :
    Frame h (wr h a w v) lo hi :=
  fun _ hx => wr_out (by omega)

theorem frame_memset (h : Heap) {a n lo hi : Nat} (v : Nat) (h1 : lo ≤ a) (h2 : a + n ≤ hi) :
    Frame h (memset h a v n) lo hi :=
  fun _ hx => memset_out (by omega)

theorem Guarded.framed {h h1 : Heap} {a r v lo hi : Nat} (G : Guarded h a r v)
    (H : Frame h h1 lo hi) (hd : a + r + 8 ≤ lo ∨ hi ≤ a) : Guarded h1 a r v := by
  unfold Guarded MPZ_SLOT_GOTO_FOOT at *
  rw [H.rd (by omega), H.rd (by omega)]
  exact G

theorem FreeChain.framedChain {c : Config} (hc : c.Sane) {h h1 : Heap} {lo hi : Nat}
    (H : Frame h h1 lo hi) : ∀ {L : List Nat} {a : Nat}, FreeChain c h a L →
    (∀ x ∈ L, x + 16 ≤ lo ∨ hi ≤ x + 8) → FreeChain c h1 a L := by
  intro L
  induction L with
  | nil => intro a hch _; exact hch
  | cons x xs ih =>
    intro a hch hd
    obtain ⟨h1a, h2⟩ := hch
    refine ⟨h1a, ?_⟩
    have hx := hd x (List.mem_cons_self _ _)
    have e : rd h1 (slotNext c x) c.ptr = rd h (slotNext c x) c.ptr := by
      apply H.rd
      simp only [slotNext, hc.ptr8]
      omega
    rw [e]
    exact ih h2 (fun y hy => hd y (List.mem_cons_of_mem _ hy))

theorem SlabChain.framedSlabs {c : Config} (hc : c.Sane) {h h1 : Heap} {lo hi : Nat}
    (H : Frame h h1 lo hi) : ∀ {L : List Nat} {p a : Nat}, SlabChain c h p a L →
    (∀ x ∈ L, x + 16 ≤ lo ∨ hi ≤ x) → SlabChain c h1 p a L := by
  intro L
  induction L with
  | nil => intro p a hch _; exact hch
  | cons x xs ih =>
    intro p a hch hd
    obtain ⟨h1a, h2, h3⟩ := hch
    have hx := hd x (List.mem_cons_self _ _)
    have e1 : rd h1 x c.ptr = rd h x c.ptr := by
      apply H.rd
      simp only [hc.ptr8]
      omega
    have e2 : rd h1 (slabNext c x) c.ptr = rd h (slabNext c x) c.ptr := by
      apply H.rd
      simp only [slabNext, hc.ptr8]
      omega
    refine ⟨h1a, by rw [e1]; exact h2, ?_⟩
    rw [e2]
    exact ih h3 (fun y hy => hd y (List.mem_cons_of_mem _ hy))

/-- The function `_mpz_slot_init` writes only inside the slot. -/
theorem frame_slot_init (h : Heap) (a : Nat) {r : Nat} (f : Nat) (hr : r < 2 ^ 30) :
    Frame h (_mpz_slot_init h a r f) a (a + r + 8) := by
  have h1 : r % 2 ^ 32 = r := Nat.mod_eq_of_lt (by norm_num at hr ⊢; omega)
  unfold _mpz_slot_init MPZ_SLOT_GOTO_FOOT
  simp only [h1]
  exact (frame_wr h _ (by omega) (by omega)).andThen (frame_wr _ _ (Nat.le_refl a) (by omega))

/-- After `_mpz_slot_init(slot, r, flags)` head and foot hold `flags | r`. -/
theorem guarded_slot_init (h : Heap) (a : Nat) {f r : Nat} (hf : f < 4) (hr : r < 2 ^ 30) :
    Guarded (_mpz_slot_init h a r (2 ^ 30 * f)) a r (2 ^ 30 * f + r) := by
  have h1 : r % 2 ^ 32 = r := Nat.mod_eq_of_lt (by norm_num at hr ⊢; omega)
  have hv : 2 ^ 30 * f + r < 256 ^ 4 := by norm_num at hr ⊢; omega
  have hw : (0 ||| 2 ^ 30 * f ||| r) % 2 ^ 32 = 2 ^ 30 * f + r := by
    have := slot_init_word hf hr
    rwa [h1] at this
  unfold _mpz_slot_init Guarded
  simp only [h1, hw]
  constructor
  · exact rd_wr_val hv
  · rw [rd_wr_disj (by unfold MPZ_SLOT_GOTO_FOOT; omega)]
    exact rd_wr_val hv

/-! ## Consequences of the geometry of well-formed slabs -/

theorem OsOk.sublist {c : Config} {L L1 : List (Nat × Nat)} (h : OsOk c L)
    (hs : L1.Sublist L) : OsOk c L1 :=
  ⟨fun b hb => h.1 b (hs.subset hb), h.2.sublist hs⟩

theorem Inv.geo {c : Config} {P : Pool} {S : List SlabD} {F : Nat → List Nat} {U : List Nat}
    (hI : Inv c P S F U) : Geo c S := by
  refine ⟨?_, hI.slab_ok⟩
  have h := hI.os_ok
  rw [hI.live_eq] at h
  exact h.sublist (List.sublist_append_left _ _)

theorem Geo.base_ok {c : Config} (hc : c.Sane) {S : List SlabD} (hG : Geo c S) {d : SlabD}
    (hd : d ∈ S) : d.base ≠ 0 ∧ 16 ∣ d.base ∧ d.base + blockLen c d ≤ 2 ^ 64 := by
  have h := hG.1.1 (slabBlock c d) (List.mem_map_of_mem _ hd)
  simp only [slabBlock, alloc_alignment_eq hc, hc.ptr8] at h
  exact h

theorem Geo.size_ok {c : Config} (hc : c.Sane) {S : List SlabD} (hG : Geo c S) {d : SlabD}
    (hd : d ∈ S) : 16 ≤ d.size ∧ d.size ≤ 2 ^ 28 ∧ 16 ∣ d.size := by
  obtain ⟨⟨m, hm1, hm⟩, h28, _⟩ := hG.2 d hd
  have h16 := hc.align_ge
  refine ⟨?_, h28, ?_⟩
  · have : 1 * 2 ^ c.shift ≤ m * 2 ^ c.shift := Nat.mul_le_mul_right _ hm1
    omega
  · rw [hm]
    exact Dvd.dvd.mul_left hc.sixteen_dvd m

theorem Geo.eq_or_disj {c : Config} {S : List SlabD} (hG : Geo c S) {d e : SlabD}
    (hd : d ∈ S) (he : e ∈ S) :
    d = e ∨ d.base + blockLen c d ≤ e.base ∨ e.base + blockLen c e ≤ d.base := by
  have hp : S.Pairwise (fun x y => BlocksDisjoint (slabBlock c x) (slabBlock c y)) :=
    List.pairwise_map.mp hG.1.2
  rcases pairwise_mem hp hd he with h | h | h
  · exact Or.inl h
  · right; exact h
  · right
    rcases h with h | h
    · exact Or.inr h
    · exact Or.inl h

/-- A slot address determines its slab. -/
theorem Geo.slot_unique {c : Config} (hc : c.Sane) {S : List SlabD} (hG : Geo c S)
    {d e : SlabD} (hd : d ∈ S) (he : e ∈ S) {a : Nat} (ha : IsSlot c d a)
    (hb : IsSlot c e a) : d = e := by
  rcases hG.eq_or_disj hd he with h | h
  · exact h
  · have h1 := ha.bounds hc
    have h2 := hb.bounds hc
    omega

/-- Distinct slots of well-formed slabs do not overlap. -/
theorem Geo.slots_disj {c : Config} (hc : c.Sane) {S : List SlabD} (hG : Geo c S)
    {d e : SlabD} (hd : d ∈ S) (he : e ∈ S) {a b : Nat} (ha : IsSlot c d a)
    (hb : IsSlot c e b) (hab : a ≠ b) :
    a + (d.size + 16) ≤ b ∨ b + (e.size + 16) ≤ a := by
  rcases hG.eq_or_disj hd he with h | h
  · subst h
    exact ha.disjoint_same hc hb hab
  · have h1 := ha.bounds hc
    have h2 := hb.bounds hc
    omega

/-- A slot never overlaps a slab header. -/
theorem Geo.slot_header {c : Config} (hc : c.Sane) {S : List SlabD} (hG : Geo c S)
    {d e : SlabD} (hd : d ∈ S) (he : e ∈ S) {a : Nat} (ha : IsSlot c d a) :
    e.base + 16 ≤ a ∨ a + (d.size + 16) ≤ e.base := by
  have h1 := ha.bounds hc
  rcases hG.eq_or_disj hd he with h | h
  · subst h; omega
  · have h2 := blockLen_eq hc e
    have h3 := nslots_pos hc e
    have h4 : (e.size + 16) * 1 ≤ (e.size + 16) * nslots c e := Nat.mul_le_mul_left _ h3
    omega

/-- Slab headers of distinct slabs do not overlap. -/
theorem Geo.header_disj {c : Config} (hc : c.Sane) {S : List SlabD} (hG : Geo c S)
    {d e : SlabD} (hd : d ∈ S) (he : e ∈ S) (hne : d ≠ e) :
    d.base + 16 ≤ e.base ∨ e.base + 16 ≤ d.base := by
  rcases hG.eq_or_disj hd he with h | h
  · exact absurd h hne
  · have h2 := blockLen_eq hc e
    have h3 := blockLen_eq hc d
    omega

theorem Geo.slot_lt {c : Config} (hc : c.Sane) {S : List SlabD} (hG : Geo c S)
    {d : SlabD} (hd : d ∈ S) {a : Nat} (ha : IsSlot c d a) :
    a ≠ 0 ∧ a + (d.size + 16) ≤ 2 ^ 64 ∧ 16 ∣ a := by
  have h1 := ha.bounds hc
  have h2 := hG.base_ok hc hd
  refine ⟨by omega, by omega, ?_⟩
  obtain ⟨j, _, rfl⟩ := ha
  rw [slotAt_eq hc]
  have h3 := (hG.size_ok hc hd).2.2
  have h4 : 16 ∣ d.size + 16 := Dvd.dvd.add h3 (dvd_refl 16)
  exact Dvd.dvd.add (Dvd.dvd.add h2.2.1 (dvd_refl 16)) (Dvd.dvd.mul_left h4 j)

/-! ## Allocation from a non-empty bin -/

theorem pop_heap_frame (c : Config) (P : Pool) {r : Nat} (idx : Nat) (z : Bool)
    (hr : r < 2 ^ 30) :
    Frame P.heap (pallocPop c P r idx z).2.heap (P.bins idx) (P.bins idx + r + 8) := by
  unfold pallocPop
  simp only []
  cases z with
  | false => exact frame_slot_init _ _ _ hr
  | true =>
    exact (frame_slot_init _ _ _ hr).andThen
      (frame_memset _ _ (by unfold MPZ_SLOT_TO_DATA; omega) (by unfold MPZ_SLOT_TO_DATA; omega))

theorem pop_guarded (c : Config) (P : Pool) {r : Nat} (idx : Nat) (z : Bool)
    (hr : r < 2 ^ 30) :
    Guarded (pallocPop c P r idx z).2.heap (P.bins idx) r (2 ^ 30 * 1 + r) := by
  have hg := guarded_slot_init P.heap (P.bins idx) (show 1 < 4 by decide) hr
  have e : MPZ_SLOT_FLAG_USED = 2 ^ 30 * 1 := by rw [flag_used_eq, Nat.mul_one]
  unfold pallocPop
  simp only [e]
  cases z with
  | false => exact hg
  | true =>
    simp only [if_true]
    unfold Guarded MPZ_SLOT_GOTO_FOOT MPZ_SLOT_TO_DATA at *
    rw [rd_memset_disj (by omega), rd_memset_disj (by omega)]
    exact hg

/-- After `mpz_pcalloc` from a bin the payload is zero. -/
theorem pop_zero (c : Config) (P : Pool) (r idx : Nat) {x : Nat}
    (h1 : P.bins idx + 4 ≤ x) (h2 : x < P.bins idx + 4 + r) :
    (pallocPop c P r idx true).2.heap x = 0 := by
  unfold pallocPop
  simp only [if_true]
  exact memset_in (by unfold MPZ_SLOT_TO_DATA; omega) (by unfold MPZ_SLOT_TO_DATA; omega)

theorem pop_inv {c : Config} (hc : c.Sane) {P : Pool} {S : List SlabD}
    {F : Nat → List Nat} {U : List Nat} (hI : Inv c P S F U) {idx : Nat} (z : Bool)
    (hidx : idx < c.bins) {a : Nat} {L : List Nat} (hF : F idx = a :: L) :
    ∃ d ∈ S, IsSlot c d a ∧ d.huge = false ∧ MPZ_BIN_IDX c d.size = idx ∧
      (pallocPop c P d.size idx z).1 = MPZ_SLOT_TO_DATA a ∧
      Inv c (pallocPop c P d.size idx z).2 S (Function.update F idx L)
        (MPZ_SLOT_TO_DATA a :: U) := by
  have hG := hI.geo
  have haF : a ∈ F idx := by rw [hF]; exact List.mem_cons_self _ _
  obtain ⟨d, hd, hda, hdh, hdi, hdg⟩ := hI.free_mem idx a haF
  have hch := hI.free_chain idx hidx
  rw [hF] at hch
  obtain ⟨hba, hch2⟩ := hch
  obtain ⟨hs16, hs28, _⟩ := hG.size_ok hc hd
  have hr30 : d.size < 2 ^ 30 := by
    have : (2:Nat) ^ 28 < 2 ^ 30 := by decide
    omega
  have hfr := pop_heap_frame c P idx z hr30
  have hgd := pop_guarded c P idx z hr30
  rw [hba] at hfr hgd
  have hnd := hI.free_nodup idx
  rw [hF, List.nodup_cons] at hnd
  -- every other free slot is different from `a`
  have hne : ∀ i, ∀ x ∈ Function.update F idx L i, x ≠ a ∧ x ∈ F i := by
    intro i x hx
    by_cases hi : i = idx
    · subst hi
      rw [Function.update_same] at hx
      refine ⟨fun h => hnd.1 (h ▸ hx), ?_⟩
      rw [hF]; exact List.mem_cons_of_mem _ hx
    · rw [Function.update_noteq hi] at hx
      refine ⟨?_, hx⟩
      rintro rfl
      obtain ⟨e, he, hea, _, hei, _⟩ := hI.free_mem i x hx
      have := hG.slot_unique hc hd he hda hea
      subst this
      exact hi (hei.symm.trans hdi)
  have hex : MPZ_SLOT_TO_DATA a ∉ U := hI.excl idx a haF
  refine ⟨d, hd, hda, hdh, hdi, by rw [pallocPop_fst, hba]; rfl, ?_⟩
  refine
    { live_eq := hI.live_eq
      os_ok := hI.os_ok
      slab_ok := hI.slab_ok
      chain := ?_
      free_chain := ?_
      free_mem := ?_
      free_nodup := ?_
      used_mem := ?_
      used_nodup := List.nodup_cons.mpr ⟨hex, hI.used_nodup⟩
      excl := ?_
      total := ?_ }
  · -- slab list
    apply SlabChain.framedSlabs hc hfr hI.chain
    intro x hx
    obtain ⟨e, he, rfl⟩ := List.mem_map.mp hx
    have := hG.slot_header hc hd he hda
    omega
  · -- free lists
    intro i hi
    have hbins : (pallocPop c P d.size idx z).2.bins i
        = if i = idx then rd P.heap (slotNext c a) c.ptr else P.bins i := by
      rw [pallocPop_bins, hba]; rfl
    rw [hbins]
    have hfrm : ∀ x ∈ Function.update F idx L i, x + 16 ≤ a ∨ a + d.size + 8 ≤ x + 8 := by
      intro x hx
      obtain ⟨hxa, hxF⟩ := hne i x hx
      obtain ⟨e, he, hea, _, _, _⟩ := hI.free_mem i x hxF
      have := hG.slots_disj hc hd he hda hea (Ne.symm hxa)
      have := (hG.size_ok hc he).1
      omega
    by_cases hi2 : i = idx
    · subst hi2
      rw [if_pos rfl]
      have := FreeChain.framedChain hc hfr hch2 (by
        intro x hx
        exact hfrm x (by rw [Function.update_same]; exact hx))
      rw [Function.update_same]
      exact this
    · rw [if_neg hi2]
      have := FreeChain.framedChain hc hfr (hI.free_chain i hi) (by
        intro x hx
        exact hfrm x (by rw [Function.update_noteq hi2]; exact hx))
      rw [Function.update_noteq hi2]
      exact this
  · -- free slots keep their guards
    intro i x hx
    obtain ⟨hxa, hxF⟩ := hne i x hx
    obtain ⟨e, he, hea, heh, hei, heg⟩ := hI.free_mem i x hxF
    refine ⟨e, he, hea, heh, hei, heg.framed hfr ?_⟩
    have := hG.slots_disj hc hd he hda hea (Ne.symm hxa)
    omega
  · intro i
    by_cases hi : i = idx
    · subst hi; rw [Function.update_same]; exact hnd.2
    · rw [Function.update_noteq hi]; exact hI.free_nodup i
  · -- used slots
    intro p hp
    rcases List.mem_cons.mp hp with rfl | hp
    · refine ⟨d, hd, a, hda, rfl, ?_⟩
      rw [usedStamp_pooled hdh hr30]
      exact hgd
    · obtain ⟨e, he, b, heb, hpb, hbg⟩ := hI.used_mem p hp
      refine ⟨e, he, b, heb, hpb, hbg.framed hfr ?_⟩
      have hab : a ≠ b := by
        rintro rfl
        exact hex (hpb ▸ hp)
      have := hG.slots_disj hc hd he hda heb hab
      omega
  · intro i x hx
    obtain ⟨hxa, hxF⟩ := hne i x hx
    intro hmem
    rcases List.mem_cons.mp hmem with h | h
    · unfold MPZ_SLOT_TO_DATA at h
      exact hxa (by omega)
    · exact hI.excl i x hxF h
  · intro e he b heb
    by_cases hab : b = a
    · left; rw [hab]; exact List.mem_cons_self _ _
    · rcases hI.total e he b heb with h | h
      · left; exact List.mem_cons_of_mem _ h
      · right
        by_cases hi : MPZ_BIN_IDX c e.size = idx
        · rw [hi, Function.update_same]
          rw [hi, hF] at h
          rcases List.mem_cons.mp h with h | h
          · exact absurd h hab
          · exact h
        · rw [Function.update_noteq hi]; exact h

/-! ## Freeing a pooled slot -/

theorem SlabOk.idx_lt {c : Config} (hc : c.Sane) {d : SlabD} (h : SlabOk c d)
    (hh : d.huge = false) : MPZ_BIN_IDX c d.size < c.bins := by
  obtain ⟨⟨m, hm1, hm⟩, h28, hhuge⟩ := h
  have hle : d.size ≤ c.bins <<< c.shift := by
    by_contra hn
    have := hhuge.mpr (by omega)
    rw [hh] at this
    cases this
  rw [hm] at h28 hle ⊢
  rw [bin_idx_mul hc h28]
  rw [bins_shift_eq] at hle
  have := Nat.le_of_mul_le_mul_right hle hc.align_pos
  omega

/-- The head of a bin is `NULL` or a slot address, hence fits a pointer. -/
theorem Inv.bins_lt {c : Config} (hc : c.Sane) {P : Pool} {S : List SlabD}
    {F : Nat → List Nat} {U : List Nat} (hI : Inv c P S F U) {i : Nat} (hi : i < c.bins) :
    P.bins i < 2 ^ 64 := by
  have hch := hI.free_chain i hi
  cases hF : F i with
  | nil =>
    rw [hF] at hch
    have : P.bins i = 0 := hch
    rw [this]; decide
  | cons x xs =>
    rw [hF] at hch
    obtain ⟨hx, _⟩ := hch
    obtain ⟨d, hd, hda, _⟩ := hI.free_mem i x (by rw [hF]; exact List.mem_cons_self _ _)
    have := hI.geo.slot_lt hc hd hda
    omega

/-- Evaluation of `mpz_free` on a pooled slot whose guards are intact. -/
theorem free_eval_pooled (c : Config) (P : Pool) {a r : Nat} (hr : r < 2 ^ 30)
    (hg : Guarded P.heap a r (2 ^ 30 * 1 + r)) (hidx : MPZ_BIN_IDX c r < c.bins) :
    mpz_free c P (MPZ_SLOT_TO_DATA a) = .ok (freePush c P a r) := by
  obtain ⟨hhead, hfoot⟩ := hg
  have hsz : MPZ_SLOT_READ_SIZE P.heap a = r := by
    unfold MPZ_SLOT_READ_SIZE MPZ_SLOT_READ_HEAD
    rw [hhead]; exact stamp_size hr
  have hu : (2 ^ 30 * 1 + r) &&& MPZ_SLOT_FLAG_USED ≠ 0 := by
    rw [flag_used_eq, stamp_test_used hr]; decide
  have hh : (2 ^ 30 * 1 + r) &&& MPZ_SLOT_FLAG_HUGE = 0 := by
    rw [flag_huge_eq, stamp_test_huge (by decide) hr]; decide
  have hcond : ¬ ((2 ^ 30 * 1 + r) ≠ (2 ^ 30 * 1 + r) ∨
      (2 ^ 30 * 1 + r) &&& MPZ_SLOT_FLAG_USED = 0) := by
    rintro (h | h)
    · exact h rfl
    · exact hu h
  have hcond2 : ¬ ((2 ^ 30 * 1 + r) &&& MPZ_SLOT_FLAG_HUGE ≠ 0) := fun h => h hh
  unfold mpz_free
  have e1 : MPZ_DATA_TO_SLOT (MPZ_SLOT_TO_DATA a) = a := by
    simp [MPZ_DATA_TO_SLOT, MPZ_SLOT_TO_DATA]
  have e0 : MPZ_SLOT_TO_DATA a ≠ 0 := by simp [MPZ_SLOT_TO_DATA]
  rw [if_neg e0]
  simp only [e1, MPZ_SLOT_READ_FOOT, hsz, MPZ_SLOT_READ_HEAD, hhead, hfoot]
  rw [if_neg hcond, if_neg hcond2, if_pos hidx]

theorem freePush_frame {c : Config} (hc : c.Sane) (P : Pool) (a : Nat) {r : Nat}
    (hr : r < 2 ^ 30) (hr16 : 16 ≤ r) :
    Frame P.heap (freePush c P a r).heap a (a + r + 8) := by
  unfold freePush
  simp only [slotNext, hc.ptr8]
  exact (frame_slot_init _ _ _ hr).andThen (frame_wr _ _ (by omega) (by omega))

theorem freePush_guarded {c : Config} (hc : c.Sane) (P : Pool) (a : Nat) {r : Nat}
    (hr : r < 2 ^ 30) (hr16 : 16 ≤ r) : Guarded (freePush c P a r).heap a r r := by
  have hg := guarded_slot_init P.heap a (show 0 < 4 by decide) hr
  simp only [Nat.mul_zero, Nat.zero_add] at hg
  unfold freePush
  simp only [slotNext, hc.ptr8]
  unfold Guarded MPZ_SLOT_GOTO_FOOT at *
  rw [rd_wr_disj (by omega), rd_wr_disj (by omega)]
  exact hg

theorem freePush_link {c : Config} (hc : c.Sane) (P : Pool) (a r : Nat)
    (hb : P.bins (MPZ_BIN_IDX c r) < 2 ^ 64) :
    rd (freePush c P a r).heap (slotNext c a) c.ptr = P.bins (MPZ_BIN_IDX c r) := by
  unfold freePush
  simp only [hc.ptr8]
  exact rd_wr_val (by norm_num at hb ⊢; exact hb)

theorem free_pooled_inv {c : Config} (hc : c.Sane) {P : Pool} {S : List SlabD}
    {F : Nat → List Nat} {U : List Nat} (hI : Inv c P S F U) {d : SlabD} (hd : d ∈ S)
    {a : Nat} (hda : IsSlot c d a) (hp : MPZ_SLOT_TO_DATA a ∈ U) (hdh : d.huge = false) :
    mpz_free c P (MPZ_SLOT_TO_DATA a) = .ok (freePush c P a d.size) ∧
    Inv c (freePush c P a d.size) S
      (Function.update F (MPZ_BIN_IDX c d.size) (a :: F (MPZ_BIN_IDX c d.size)))
      (U.erase (MPZ_SLOT_TO_DATA a)) := by
  have hG := hI.geo
  obtain ⟨hs16, hs28, _⟩ := hG.size_ok hc hd
  have hr30 : d.size < 2 ^ 30 := by
    have : (2:Nat) ^ 28 < 2 ^ 30 := by decide
    omega
  have hidx := (hI.slab_ok d hd).idx_lt hc hdh
  -- the guards of the slot being freed
  have hg : Guarded P.heap a d.size (2 ^ 30 * 1 + d.size) := by
    obtain ⟨e, he, b, heb, hpb, hbg⟩ := hI.used_mem _ hp
    have hab : a = b := by unfold MPZ_SLOT_TO_DATA at hpb; omega
    subst hab
    have := hG.slot_unique hc hd he hda heb
    subst this
    rw [usedStamp_pooled hdh hr30] at hbg
    exact hbg
  refine ⟨free_eval_pooled c P hr30 hg hidx, ?_⟩
  have hfr := freePush_frame hc P a hr30 hs16
  have hnotin : ∀ i, a ∉ F i := fun i hi => hI.excl i a hi hp
  have hne : ∀ i, ∀ x ∈ F i, x ≠ a := fun i x hx h => hnotin i (h ▸ hx)
  have hfrm : ∀ i, ∀ x ∈ F i, x + 16 ≤ a ∨ a + d.size + 8 ≤ x + 8 := by
    intro i x hx
    obtain ⟨e, he, hea, _, _, _⟩ := hI.free_mem i x hx
    have := hG.slots_disj hc hd he hda hea (Ne.symm (hne i x hx))
    have := (hG.size_ok hc he).1
    omega
  have hmemF : ∀ i, ∀ x ∈ Function.update F (MPZ_BIN_IDX c d.size)
      (a :: F (MPZ_BIN_IDX c d.size)) i, x = a ∧ i = MPZ_BIN_IDX c d.size ∨ x ∈ F i := by
    intro i x hx
    by_cases hi : i = MPZ_BIN_IDX c d.size
    · subst hi
      rw [Function.update_same] at hx
      rcases List.mem_cons.mp hx with h | h
      · exact Or.inl ⟨h, rfl⟩
      · exact Or.inr h
    · rw [Function.update_noteq hi] at hx
      exact Or.inr hx
  refine
    { live_eq := hI.live_eq
      os_ok := hI.os_ok
      slab_ok := hI.slab_ok
      chain := ?_
      free_chain := ?_
      free_mem := ?_
      free_nodup := ?_
      used_mem := ?_
      used_nodup := hI.used_nodup.erase _
      excl := ?_
      total := ?_ }
  · apply SlabChain.framedSlabs hc hfr hI.chain
    intro x hx
    obtain ⟨e, he, rfl⟩ := List.mem_map.mp hx
    have := hG.slot_header hc hd he hda
    omega
  · intro i hi
    have hbins : (freePush c P a d.size).bins i
        = if i = MPZ_BIN_IDX c d.size then a else P.bins i := rfl
    rw [hbins]
    by_cases hi2 : i = MPZ_BIN_IDX c d.size
    · subst hi2
      rw [if_pos rfl, Function.update_same]
      refine ⟨rfl, ?_⟩
      rw [freePush_link hc P a d.size (hI.bins_lt hc hidx)]
      exact FreeChain.framedChain hc hfr (hI.free_chain _ hidx) (hfrm _)
    · rw [if_neg hi2, Function.update_noteq hi2]
      exact FreeChain.framedChain hc hfr (hI.free_chain i hi) (hfrm i)
  · intro i x hx
    rcases hmemF i x hx with ⟨rfl, rfl⟩ | hxF
    · exact ⟨d, hd, hda, hdh, rfl, freePush_guarded hc P x hr30 hs16⟩
    · obtain ⟨e, he, hea, heh, hei, heg⟩ := hI.free_mem i x hxF
      refine ⟨e, he, hea, heh, hei, heg.framed hfr ?_⟩
      have := hG.slots_disj hc hd he hda hea (Ne.symm (hne i x hxF))
      omega
  · intro i
    by_cases hi : i = MPZ_BIN_IDX c d.size
    · subst hi
      rw [Function.update_same]
      exact List.nodup_cons.mpr ⟨hnotin _, hI.free_nodup _⟩
    · rw [Function.update_noteq hi]; exact hI.free_nodup i
  · intro p hp2
    have hpU : p ∈ U := List.mem_of_mem_erase hp2
    have hpne : p ≠ MPZ_SLOT_TO_DATA a := fun h => by
      rw [h] at hp2
      exact (List.Nodup.not_mem_erase hI.used_nodup) hp2
    obtain ⟨e, he, b, heb, hpb, hbg⟩ := hI.used_mem p hpU
    refine ⟨e, he, b, heb, hpb, hbg.framed hfr ?_⟩
    have hab : a ≠ b := by
      rintro rfl
      exact hpne hpb
    have := hG.slots_disj hc hd he hda heb hab
    omega
  · intro i x hx hmem
    have hxU : MPZ_SLOT_TO_DATA x ∈ U := List.mem_of_mem_erase hmem
    rcases hmemF i x hx with ⟨rfl, rfl⟩ | hxF
    · exact (List.Nodup.not_mem_erase hI.used_nodup) hmem
    · exact hI.excl i x hxF hxU
  · intro e he b heb
    by_cases hab : b = a
    · right
      subst hab
      have := hG.slot_unique hc hd he hda heb
      subst this
      rw [Function.update_same]
      exact List.mem_cons_self _ _
    · rcases hI.total e he b heb with h | h
      · left
        apply (List.mem_erase_of_ne ?_).mpr h
        unfold MPZ_SLOT_TO_DATA
        omega
      · right
        by_cases hi : MPZ_BIN_IDX c e.size = MPZ_BIN_IDX c d.size
        · rw [hi, Function.update_same]
          rw [hi] at h
          exact List.mem_cons_of_mem _ h
        · rw [Function.update_noteq hi]; exact h

/-! ## Pointwise transfer of the heap-dependent predicates -/

theorem Guarded.sameBytes {h h1 : Heap} {a r v : Nat} (G : Guarded h a r v)
    (H : ∀ y, a ≤ y → y < a + r + 8 → h1 y = h y) : Guarded h1 a r v := by
  unfold Guarded MPZ_SLOT_GOTO_FOOT at *
  rw [rd_congr (fun y h1 h2 => H y (by omega) (by omega)),
    rd_congr (fun y h1 h2 => H y (by omega) (by omega))]
  exact G

theorem FreeChain.sameLinks {c : Config} (hc : c.Sane) {h h1 : Heap} :
    ∀ {L : List Nat} {a : Nat}, FreeChain c h a L →
    (∀ x ∈ L, ∀ y, x + 8 ≤ y → y < x + 16 → h1 y = h y) → FreeChain c h1 a L := by
  intro L
  induction L with
  | nil => intro a hch _; exact hch
  | cons x xs ih =>
    intro a hch hd
    obtain ⟨h1a, h2⟩ := hch
    refine ⟨h1a, ?_⟩
    have e : rd h1 (slotNext c x) c.ptr = rd h (slotNext c x) c.ptr := by
      simp only [slotNext, hc.ptr8]
      exact rd_congr (fun y hy1 hy2 => hd x (List.mem_cons_self _ _) y hy1 hy2)
    rw [e]
    exact ih h2 (fun y hy => hd y (List.mem_cons_of_mem _ hy))

theorem SlabChain.sameHeaders {c : Config} (hc : c.Sane) {h h1 : Heap} :
    ∀ {L : List Nat} {p a : Nat}, SlabChain c h p a L →
    (∀ x ∈ L, ∀ y, x ≤ y → y < x + 16 → h1 y = h y) → SlabChain c h1 p a L := by
  intro L
  induction L with
  | nil => intro p a hch _; exact hch
  | cons x xs ih =>
    intro p a hch hd
    obtain ⟨h1a, h2, h3⟩ := hch
    have hx := hd x (List.mem_cons_self _ _)
    have e1 : rd h1 x c.ptr = rd h x c.ptr := by
      simp only [hc.ptr8]
      exact rd_congr (fun y hy1 hy2 => hx y hy1 (by omega))
    have e2 : rd h1 (slabNext c x) c.ptr = rd h (slabNext c x) c.ptr := by
      simp only [slabNext, hc.ptr8]
      exact rd_congr (fun y hy1 hy2 => hx y (by omega) (by omega))
    refine ⟨h1a, by rw [e1]; exact h2, ?_⟩
    rw [e2]
    exact ih h3 (fun y hy => hd y (List.mem_cons_of_mem _ hy))

theorem SlotsSame.guarded {c : Config} (hc : c.Sane) {S : List SlabD} {h h1 : Heap}
    (hs : SlotsSame c S h h1) {d : SlabD} (hd : d ∈ S) {a : Nat} (ha : IsSlot c d a)
    {v : Nat} (G : Guarded h a d.size v) : Guarded h1 a d.size v := by
  have hb := ha.bounds hc
  exact G.sameBytes (fun y h1 h2 => hs d hd y (by omega) (by omega))

theorem SlotsSame.freeChain {c : Config} (hc : c.Sane) {S : List SlabD} {h h1 : Heap}
    (hG : Geo c S) (hs : SlotsSame c S h h1) {L : List Nat} {a : Nat}
    (hch : FreeChain c h a L) (hL : ∀ x ∈ L, ∃ d ∈ S, IsSlot c d x) :
    FreeChain c h1 a L := by
  apply hch.sameLinks hc
  intro x hx y hy1 hy2
  obtain ⟨d, hd, hda⟩ := hL x hx
  have hb := hda.bounds hc
  have := (hG.size_ok hc hd).1
  exact hs d hd y (by omega) (by omega)

theorem SlotsSame.of_frame {c : Config} {S : List SlabD} {h h1 : Heap}
    {lo hi : Nat} (H : Frame h h1 lo hi)
    (hd : ∀ d ∈ S, d.base + blockLen c d ≤ lo ∨ hi ≤ d.base + 16) : SlotsSame c S h h1 := by
  intro d hdS y hy1 hy2
  have := hd d hdS
  exact H y (by omega)

theorem SlotsSame.chain2 {c : Config} {S : List SlabD} {h h1 h2 : Heap}
    (H1 : SlotsSame c S h h1) (H2 : SlotsSame c S h1 h2) : SlotsSame c S h h2 :=
  fun d hd y hy1 hy2 => (H2 d hd y hy1 hy2).trans (H1 d hd y hy1 hy2)

/-! ## The slab list: push -/

/-- The function `_mpz_slab_push` writes the header of the new slab and the `prev` field of the old
head, nothing else. -/
theorem push_heap_out {c : Config} (hc : c.Sane) (P : Pool) (b : Nat) {y : Nat}
    (h1 : y < b ∨ b + 16 ≤ y) (h2 : y < P.slabs ∨ P.slabs + 8 ≤ y) (hs : P.slabs < 2 ^ 64) :
    (_mpz_slab_push c P b).heap y = P.heap y := by
  have hnext : rd (wr (wr P.heap b 8 0) (b + 8) 8 P.slabs) (b + 8) 8 = P.slabs :=
    rd_wr_val (by norm_num at hs ⊢; exact hs)
  simp only [_mpz_slab_push, slabNext, hc.ptr8, hnext]
  split
  · rw [wr_out (by omega), wr_out (by omega), wr_out (by omega)]
  · rw [wr_out (by omega), wr_out (by omega)]

theorem push_chain {c : Config} (hc : c.Sane) (P : Pool) {b : Nat} {L : List Nat}
    (hch : SlabChain c P.heap 0 P.slabs L) (hb64 : b < 2 ^ 64)
    (hsep : ∀ x ∈ L, HeadersApart x b) (hL : L.Pairwise HeadersApart)
    (hL64 : ∀ x ∈ L, x ≠ 0 ∧ x < 2 ^ 64) :
    SlabChain c (_mpz_slab_push c P b).heap 0 b (b :: L) := by
  have h256 : (256:Nat) ^ 8 = 2 ^ 64 := by norm_num
  cases L with
  | nil =>
    have hs : P.slabs = 0 := hch
    have hnext : rd (wr (wr P.heap b 8 0) (b + 8) 8 0) (b + 8) 8 = 0 :=
      rd_wr_val (by norm_num)
    simp only [_mpz_slab_push, slabNext, hc.ptr8, hs, hnext]
    refine ⟨rfl, ?_, ?_⟩
    · simp only [hc.ptr8, ne_eq, not_true_eq_false, if_false]
      rw [rd_wr_disj (by omega)]
      exact rd_wr_val (by norm_num)
    · simp only [slabNext, hc.ptr8, ne_eq, not_true_eq_false, if_false, hnext]
      rfl
  | cons x xs =>
    obtain ⟨hs, hprev, hrest⟩ := hch
    obtain ⟨hx0, hx64⟩ := hL64 x (List.mem_cons_self _ _)
    have hxb := hsep x (List.mem_cons_self _ _)
    unfold HeadersApart at hxb
    have hnext : rd (wr (wr P.heap b 8 0) (b + 8) 8 x) (b + 8) 8 = x :=
      rd_wr_val (by rw [h256]; exact hx64)
    have hheap : (_mpz_slab_push c P b).heap = wr (wr (wr P.heap b 8 0) (b + 8) 8 x) x 8 b := by
      simp only [_mpz_slab_push, slabNext, hc.ptr8, hs, hnext, ne_eq, hx0, not_false_eq_true,
        if_true]
    rw [hheap]
    rw [List.pairwise_cons] at hL
    have e1 : rd (wr (wr (wr P.heap b 8 0) (b + 8) 8 x) x 8 b) b 8 = 0 := by
      rw [rd_wr_disj (by omega), rd_wr_disj (by omega)]
      exact rd_wr_val (by norm_num)
    have e2 : rd (wr (wr (wr P.heap b 8 0) (b + 8) 8 x) x 8 b) (b + 8) 8 = x := by
      rw [rd_wr_disj (by omega)]
      exact hnext
    have e3 : rd (wr (wr (wr P.heap b 8 0) (b + 8) 8 x) x 8 b) x 8 = b :=
      rd_wr_val (by rw [h256]; exact hb64)
    have e4 : rd (wr (wr (wr P.heap b 8 0) (b + 8) 8 x) x 8 b) (x + 8) 8
        = rd P.heap (x + 8) 8 := by
      rw [rd_wr_disj (by omega), rd_wr_disj (by omega), rd_wr_disj (by omega)]
    simp only [SlabChain, slabNext, hc.ptr8, e1, e2, e3, e4, true_and]
    simp only [slabNext, hc.ptr8] at hrest
    apply hrest.sameHeaders hc
    intro z hz y hy1 hy2
    have hzb := hsep z (List.mem_cons_of_mem _ hz)
    have hzx := hL.1 z hz
    unfold HeadersApart at hzb hzx
    rw [wr_out (by omega), wr_out (by omega), wr_out (by omega)]

/-! ## `_mpz_slab_init` -/

/-- One iteration of the loop of `_mpz_slab_init` on the slot at `a`: guards and link. -/
theorem init_step_heap (h : Heap) (a : Nat) {r : Nat} (v : Nat) (hr16 : 16 ≤ r)
    (hr30 : r < 2 ^ 30) (hv : v < 2 ^ 64) :
    Frame h (wr (_mpz_slot_init h a r 0) (a + 8) 8 v) a (a + r + 8) ∧
    Guarded (wr (_mpz_slot_init h a r 0) (a + 8) 8 v) a r r ∧
    rd (wr (_mpz_slot_init h a r 0) (a + 8) 8 v) (a + 8) 8 = v := by
  refine ⟨?_, ?_, ?_⟩
  · exact (frame_slot_init _ _ _ hr30).andThen (frame_wr _ _ (by omega) (by omega))
  · have hg := guarded_slot_init h a (show 0 < 4 by decide) hr30
    simp only [Nat.mul_zero, Nat.zero_add] at hg
    unfold Guarded MPZ_SLOT_GOTO_FOOT at *
    rw [rd_wr_disj (by omega), rd_wr_disj (by omega)]
    exact hg
  · exact rd_wr_val (by norm_num at hv ⊢; exact hv)

theorem slabInitLoop_spec {c : Config} (hc : c.Sane) (b r idx : Nat) (hr16 : 16 ≤ r)
    (hr30 : r < 2 ^ 30) (hend : b + 16 + c.mul * (r + 16) ≤ 2 ^ 64) :
    ∀ (n i : Nat) (P : Pool), i + n = c.mul → P.bins idx < 2 ^ 64 →
      Frame P.heap (slabInitLoop c b r idx n i (b + 16 + i * (r + 16)) P).heap
        (b + 16 + i * (r + 16)) (b + 16 + c.mul * (r + 16)) ∧
      (∀ j, i ≤ j → j < c.mul →
        Guarded (slabInitLoop c b r idx n i (b + 16 + i * (r + 16)) P).heap
          (b + 16 + j * (r + 16)) r r ∧
        rd (slabInitLoop c b r idx n i (b + 16 + i * (r + 16)) P).heap
          (b + 16 + j * (r + 16) + 8) 8
          = if j + 1 < c.mul then b + 16 + (j + 1) * (r + 16) else P.bins idx) ∧
      (slabInitLoop c b r idx n i (b + 16 + i * (r + 16)) P).bins
        = if n = 0 then P.bins else upd P.bins idx (MPZ_SLAB_TO_SLOT c b) := by
  intro n
  induction n with
  | zero =>
    intro i P hi _
    refine ⟨Frame.refl _ _ _, ?_, rfl⟩
    intro j h1 h2
    omega
  | succ n ih =>
    intro i P hi hb
    have hiK : i < c.mul := by omega
    have hstep : (i + 1) * (r + 16) = i * (r + 16) + (r + 16) := by ring
    have hle : (i + 1) * (r + 16) ≤ c.mul * (r + 16) := Nat.mul_le_mul_right _ hiK
    simp only [slabInitLoop, slotNext, hc.ptr8, slot_size_eq hc]
    by_cases hn : n = 0
    · -- last slot
      subst hn
      have hlast : i = c.mul - 1 := by omega
      obtain ⟨hf, hg, hl⟩ := init_step_heap P.heap (b + 16 + i * (r + 16)) (P.bins idx)
        hr16 hr30 hb
      rw [if_pos hlast]
      simp only [slabInitLoop]
      refine ⟨hf.mono (Nat.le_refl _) (by omega), ?_, by simp⟩
      intro j h1 h2
      have hj : j = i := by omega
      subst hj
      refine ⟨hg, ?_⟩
      rw [hl, if_neg (by omega)]
    · have hnl : ¬ i = c.mul - 1 := by omega
      have hv : b + 16 + i * (r + 16) + (r + 16) < 2 ^ 64 := by
        have : (i + 2) * (r + 16) ≤ c.mul * (r + 16) := Nat.mul_le_mul_right _ (by omega)
        have e : (i + 2) * (r + 16) = i * (r + 16) + (r + 16) + (r + 16) := by ring
        omega
      obtain ⟨hf, hg, hl⟩ := init_step_heap P.heap (b + 16 + i * (r + 16))
        (b + 16 + i * (r + 16) + (r + 16)) hr16 hr30 hv
      rw [if_neg hnl, hl]
      have hslot : b + 16 + i * (r + 16) + (r + 16) = b + 16 + (i + 1) * (r + 16) := by
        rw [hstep]; omega
      rw [hslot] at hl hf hg ⊢
      obtain ⟨ihf, ihg, ihb⟩ := ih (i + 1)
        { P with heap := wr (_mpz_slot_init P.heap (b + 16 + i * (r + 16)) r 0)
                           (b + 16 + i * (r + 16) + 8) 8 (b + 16 + (i + 1) * (r + 16)) }
        (by omega) hb
      refine ⟨?_, ?_, ?_⟩
      · exact (hf.mono (Nat.le_refl _) (by omega)).andThen (ihf.mono (by omega) (Nat.le_refl _))
      · intro j h1 h2
        by_cases hj : j = i
        · subst hj
          refine ⟨hg.framed ihf (by omega), ?_⟩
          rw [ihf.rd (by omega), hl, if_pos (by omega)]
        · exact ihg j (by omega) h2
      · rw [ihb, if_neg hn, if_neg (by omega)]

theorem slab_init_spec {c : Config} (hc : c.Sane) (P : Pool) (d : SlabD)
    (hdh : d.huge = false) (hr16 : 16 ≤ d.size) (hr30 : d.size < 2 ^ 30)
    (hend : d.base + blockLen c d ≤ 2 ^ 64)
    (hb : P.bins (MPZ_BIN_IDX c d.size) < 2 ^ 64) {L : List Nat}
    (hch : FreeChain c P.heap (P.bins (MPZ_BIN_IDX c d.size)) L)
    (hL : ∀ x ∈ L, x + 16 ≤ d.base + 16 ∨ d.base + blockLen c d ≤ x + 8) :
    Frame P.heap (_mpz_slab_init c P d.base d.size).heap (d.base + 16)
      (d.base + blockLen c d) ∧
    (∀ a, IsSlot c d a → Guarded (_mpz_slab_init c P d.base d.size).heap a d.size d.size) ∧
    (_mpz_slab_init c P d.base d.size).bins
      = upd P.bins (MPZ_BIN_IDX c d.size) (MPZ_SLAB_TO_SLOT c d.base) ∧
    FreeChain c (_mpz_slab_init c P d.base d.size).heap (MPZ_SLAB_TO_SLOT c d.base)
      (slotList c d ++ L) := by
  have hK : nslots c d = c.mul := by simp [nslots, hdh]
  have hbl : d.base + blockLen c d = d.base + 16 + c.mul * (d.size + 16) := by
    rw [blockLen_eq hc, hK, Nat.mul_comm]; omega
  rw [hbl] at hend hL ⊢
  have hs0 : MPZ_SLAB_TO_SLOT c d.base = d.base + 16 + 0 * (d.size + 16) := by
    simp [MPZ_SLAB_TO_SLOT, slab_size_eq hc]
  obtain ⟨hf, hg, hbins⟩ := slabInitLoop_spec hc d.base d.size (MPZ_BIN_IDX c d.size)
    hr16 hr30 hend c.mul 0 P (by omega) hb
  have hinit : _mpz_slab_init c P d.base d.size
      = slabInitLoop c d.base d.size (MPZ_BIN_IDX c d.size) c.mul 0
          (d.base + 16 + 0 * (d.size + 16)) P := by
    unfold _mpz_slab_init; rw [hs0]
  rw [hinit]
  have hmul := hc.mul_pos
  refine ⟨?_, ?_, ?_, ?_⟩
  · simpa using hf
  · rintro a ⟨j, hj, rfl⟩
    rw [slotAt_eq hc]
    exact (hg j (Nat.zero_le _) (by omega)).1
  · rw [hbins, if_neg (by omega)]
  · -- the chain through the new slots
    have key : ∀ m i, i + m = c.mul →
        FreeChain c (slabInitLoop c d.base d.size (MPZ_BIN_IDX c d.size) c.mul 0
            (d.base + 16 + 0 * (d.size + 16)) P).heap
          (if m = 0 then P.bins (MPZ_BIN_IDX c d.size) else d.base + 16 + i * (d.size + 16))
          ((List.range' i m).map (slotAt c d) ++ L) := by
      intro m
      induction m with
      | zero =>
        intro i _
        simp only [List.range'_zero, List.map_nil, List.nil_append, if_true]
        apply FreeChain.framedChain hc hf hch
        intro x hx
        have := hL x hx
        omega
      | succ m ih =>
        intro i hi
        rw [List.range'_succ, List.map_cons, List.cons_append, if_neg (by omega)]
        refine ⟨(slotAt_eq hc d i).symm, ?_⟩
        have hl := (hg i (Nat.zero_le _) (by omega)).2
        simp only [slotNext, hc.ptr8, slotAt_eq hc]
        rw [hl]
        have := ih (i + 1) (by omega)
        by_cases hm : m = 0
        · rw [if_pos hm] at this
          rw [if_neg (by omega)]
          exact this
        · rw [if_neg hm] at this
          rw [if_pos (by omega)]
          exact this
    have := key c.mul 0 (by omega)
    rw [if_neg (by omega)] at this
    rw [hs0]
    unfold slotList
    rw [hK, List.range_eq_range']
    exact this

/-! ## A new slab -/

theorem Inv.slabs_lt {c : Config} (hc : c.Sane) {P : Pool} {S : List SlabD}
    {F : Nat → List Nat} {U : List Nat} (hI : Inv c P S F U) : P.slabs < 2 ^ 64 := by
  have hch := hI.chain
  cases S with
  | nil =>
    have : P.slabs = 0 := hch
    rw [this]; decide
  | cons d ds =>
    obtain ⟨hs, _⟩ := hch
    have := hI.geo.base_ok hc (List.mem_cons_self d ds)
    have h2 := blockLen_eq hc d
    rw [hs]
    omega

theorem Geo.headers_pairwise {c : Config} (hc : c.Sane) {S : List SlabD} (hG : Geo c S) :
    (S.map SlabD.base).Pairwise HeadersApart := by
  have hp : S.Pairwise (fun x y => BlocksDisjoint (slabBlock c x) (slabBlock c y)) :=
    List.pairwise_map.mp hG.1.2
  rw [List.pairwise_map]
  refine hp.imp ?_
  intro x y hxy
  have h1 := blockLen_eq hc x
  have h2 := blockLen_eq hc y
  unfold BlocksDisjoint slabBlock at hxy
  unfold HeadersApart
  simp only at hxy
  omega

theorem Geo.cons_disj {c : Config} {S : List SlabD} {d : SlabD} (hG : Geo c (d :: S))
    {e : SlabD} (he : e ∈ S) :
    d.base + blockLen c d ≤ e.base ∨ e.base + blockLen c e ≤ d.base := by
  have hp : (d :: S).Pairwise (fun x y => BlocksDisjoint (slabBlock c x) (slabBlock c y)) :=
    List.pairwise_map.mp hG.1.2
  exact (List.pairwise_cons.mp hp).1 e he

theorem Geo.tail {c : Config} {S : List SlabD} {d : SlabD} (hG : Geo c (d :: S)) :
    Geo c S :=
  ⟨hG.1.sublist (List.sublist_cons_self _ _), fun e he => hG.2 e (List.mem_cons_of_mem _ he)⟩

/-- The state after `_mpz_slab_create` succeeded with a block for the slab `d`. -/
theorem create_spec {c : Config} (hc : c.Sane) {P : Pool} {S : List SlabD}
    {F : Nat → List Nat} {U : List Nat} (hI : Inv c P S F U) (d : SlabD) (n : Nat)
    (hn : n + MPZ_SLAB_SIZE c = blockLen c d) (hdok : SlabOk c d)
    (hos : OsOk c (slabBlock c d :: P.live)) :
    Geo c (d :: S) ∧
    (_mpz_slab_create c P n (some d.base)).1 = d.base ∧
    (_mpz_slab_create c P n (some d.base)).2.bins = P.bins ∧
    (_mpz_slab_create c P n (some d.base)).2.slabs = d.base ∧
    (_mpz_slab_create c P n (some d.base)).2.self = P.self ∧
    (_mpz_slab_create c P n (some d.base)).2.live = slabBlock c d :: P.live ∧
    SlabChain c (_mpz_slab_create c P n (some d.base)).2.heap 0 d.base
      ((d :: S).map SlabD.base) ∧
    SlotsSame c (d :: S) P.heap (_mpz_slab_create c P n (some d.base)).2.heap := by
  have hG' : Geo c (d :: S) := by
    refine ⟨?_, ?_⟩
    · rw [hI.live_eq] at hos
      have hsub : ((d :: S).map (slabBlock c)).Sublist
          (slabBlock c d :: (S.map (slabBlock c) ++ [(P.self, MPZ_POOL_SIZE c)])) := by
        rw [List.map_cons]
        exact (List.sublist_append_left _ _).cons₂ _
      exact hos.sublist hsub
    · intro e he
      rcases List.mem_cons.mp he with rfl | he
      · exact hdok
      · exact hI.slab_ok e he
  have hd0 := hG'.base_ok hc (List.mem_cons_self d S)
  have hbl := blockLen_eq hc d
  rw [slab_create_some c P n d.base hd0.1, hn]
  have hs64 := hI.slabs_lt hc
  have hch := push_chain hc
    { P with live := (d.base, blockLen c d) :: P.live, oscalls := P.oscalls + 1 }
    (b := d.base) (L := S.map SlabD.base) hI.chain (by omega)
    (by
      intro x hx
      obtain ⟨e, he, rfl⟩ := List.mem_map.mp hx
      have := hG'.cons_disj he
      have h2 := blockLen_eq hc e
      unfold HeadersApart
      omega)
    (hG'.tail.headers_pairwise hc)
    (by
      intro x hx
      obtain ⟨e, he, rfl⟩ := List.mem_map.mp hx
      have := hG'.tail.base_ok hc he
      have h2 := blockLen_eq hc e
      exact ⟨this.1, by omega⟩)
  refine ⟨hG', rfl, rfl, rfl, rfl, rfl, hch, ?_⟩
  intro e he y hy1 hy2
  apply push_heap_out hc _ d.base _ _ hs64
  · rcases List.mem_cons.mp he with rfl | he
    · omega
    · have := hG'.cons_disj he
      omega
  · -- the old head of the slab list is a slab header
    show y < P.slabs ∨ P.slabs + 8 ≤ y
    have hch0 := hI.chain
    cases hS : S with
    | nil =>
      rw [hS] at hch0
      have : P.slabs = 0 := hch0
      rw [this]
      have := (hG'.base_ok hc he).1
      have := (hG'.base_ok hc he).2.1
      omega
    | cons s0 ss =>
      rw [hS] at hch0
      obtain ⟨hs, _⟩ := hch0
      rw [hs]
      have hs0 : s0 ∈ d :: S := by rw [hS]; simp
      rcases hG'.eq_or_disj he hs0 with h | h
      · subst h; omega
      · have h2 := blockLen_eq hc s0
        have h3 := blockLen_eq hc e
        omega

/-- What the slots of the old slabs keep when a new slab `d` is added and the heap is
changed outside the old slot areas. -/
theorem Inv.transfer_old {c : Config} (hc : c.Sane) {P : Pool} {S : List SlabD}
    {F : Nat → List Nat} {U : List Nat} (hI : Inv c P S F U) {d : SlabD}
    (hG' : Geo c (d :: S)) {h1 : Heap} (hs : SlotsSame c S P.heap h1) :
    (∀ i, i < c.bins → FreeChain c h1 (P.bins i) (F i)) ∧
    (∀ i, ∀ a ∈ F i, ∃ e ∈ d :: S, IsSlot c e a ∧ e.huge = false ∧
      MPZ_BIN_IDX c e.size = i ∧ Guarded h1 a e.size e.size) ∧
    (∀ p ∈ U, ∃ e ∈ d :: S, ∃ a, IsSlot c e a ∧ p = MPZ_SLOT_TO_DATA a ∧
      Guarded h1 a e.size (usedStamp e)) ∧
    (∀ i, ∀ a ∈ F i, ¬ IsSlot c d a) ∧
    (∀ a, IsSlot c d a → MPZ_SLOT_TO_DATA a ∉ U) := by
  have hG := hI.geo
  have hfresh : ∀ e ∈ S, ∀ a, IsSlot c e a → ¬ IsSlot c d a := by
    intro e he a hea hda
    have h1 := hea.bounds hc
    have h2 := hda.bounds hc
    have := hG'.cons_disj he
    omega
  refine ⟨?_, ?_, ?_, ?_, ?_⟩
  · intro i hi
    apply hs.freeChain hc hG (hI.free_chain i hi)
    intro x hx
    obtain ⟨e, he, hea, _⟩ := hI.free_mem i x hx
    exact ⟨e, he, hea⟩
  · intro i a ha
    obtain ⟨e, he, hea, heh, hei, heg⟩ := hI.free_mem i a ha
    exact ⟨e, List.mem_cons_of_mem _ he, hea, heh, hei, hs.guarded hc he hea heg⟩
  · intro p hp
    obtain ⟨e, he, a, hea, hpa, hag⟩ := hI.used_mem p hp
    exact ⟨e, List.mem_cons_of_mem _ he, a, hea, hpa, hs.guarded hc he hea hag⟩
  · intro i a ha hda
    obtain ⟨e, he, hea, _⟩ := hI.free_mem i a ha
    exact hfresh e he a hea hda
  · intro a hda hp
    obtain ⟨e, he, b, heb, hpb, _⟩ := hI.used_mem _ hp
    have : a = b := by unfold MPZ_SLOT_TO_DATA at hpb; omega
    subst this
    exact hfresh e he a heb hda

theorem isSlot_huge {c : Config} {d : SlabD} (hd : d.huge = true) {a : Nat} :
    IsSlot c d a ↔ a = MPZ_SLAB_TO_SLOT c d.base := by
  unfold IsSlot
  simp only [nslots, hd, if_true, Nat.lt_one_iff]
  constructor
  · rintro ⟨j, rfl, rfl⟩
    simp [slotAt]
  · intro h
    exact ⟨0, rfl, by simp [slotAt, h]⟩

/-- The huge path of `_mpz_palloc`, when the OS provides the block at `b`. -/
theorem huge_inv {c : Config} (hc : c.Sane) {P : Pool} {S : List SlabD}
    {F : Nat → List Nat} {U : List Nat} (hI : Inv c P S F U) (r b : Nat)
    (hdok : SlabOk c ⟨b, r, true⟩) (hos : OsOk c (slabBlock c ⟨b, r, true⟩ :: P.live)) :
    (pallocHuge c P r (some b)).1 = MPZ_SLOT_TO_DATA (MPZ_SLAB_TO_SLOT c b) ∧
    Inv c (pallocHuge c P r (some b)).2 (⟨b, r, true⟩ :: S) F
      (MPZ_SLOT_TO_DATA (MPZ_SLAB_TO_SLOT c b) :: U) := by
  have hn : r + MPZ_SLOT_SIZE c + MPZ_SLAB_SIZE c = blockLen c ⟨b, r, true⟩ := by
    simp [blockLen, nslots]
  obtain ⟨hG', hc1, hcb, hcs, hcself, hcl, hcch, hcss⟩ :=
    create_spec hc hI ⟨b, r, true⟩ (r + MPZ_SLOT_SIZE c) hn hdok hos
  simp only at hc1 hcb hcs hcself hcl hcch hcss
  have hd0 := hG'.base_ok hc (List.mem_cons_self _ S)
  simp only at hd0
  have hbl : blockLen c ⟨b, r, true⟩ = r + 32 := by
    rw [blockLen_eq hc]; simp [nslots]
  obtain ⟨hs16, hs28, _⟩ := hG'.size_ok hc (List.mem_cons_self _ S)
  simp only at hs16 hs28
  have hr30 : r < 2 ^ 30 := by
    have : (2:Nat) ^ 28 < 2 ^ 30 := by decide
    omega
  have hslot : MPZ_SLAB_TO_SLOT c b = b + 16 := by simp [MPZ_SLAB_TO_SLOT, slab_size_eq hc]
  have hflags : MPZ_SLOT_FLAG_HUGE ||| MPZ_SLOT_FLAG_USED = 2 ^ 30 * 3 := by
    rw [flag_used_eq, flag_huge_eq]; decide
  -- unfold the call
  have hres : pallocHuge c P r (some b) =
      (MPZ_SLOT_TO_DATA (b + 16),
        { (_mpz_slab_create c P (r + MPZ_SLOT_SIZE c) (some b)).2 with
          heap := _mpz_slot_init (_mpz_slab_create c P (r + MPZ_SLOT_SIZE c) (some b)).2.heap
            (b + 16) r (2 ^ 30 * 3) }) := by
    unfold pallocHuge
    simp only [hc1, hd0.1, if_false, hslot, hflags]
  rw [hres, hslot]
  refine ⟨rfl, ?_⟩
  have hfr := frame_slot_init (_mpz_slab_create c P (r + MPZ_SLOT_SIZE c) (some b)).2.heap
    (b + 16) (2 ^ 30 * 3) hr30
  have hgd := guarded_slot_init (_mpz_slab_create c P (r + MPZ_SLOT_SIZE c) (some b)).2.heap
    (b + 16) (show 3 < 4 by decide) hr30
  have hss2 : SlotsSame c S P.heap
      (_mpz_slot_init (_mpz_slab_create c P (r + MPZ_SLOT_SIZE c) (some b)).2.heap
        (b + 16) r (2 ^ 30 * 3)) := by
    apply SlotsSame.chain2 (fun e he => hcss e (List.mem_cons_of_mem _ he))
    apply SlotsSame.of_frame hfr
    intro e he
    have := hG'.cons_disj he
    simp only at this
    omega
  obtain ⟨t1, t2, t3, t4, t5⟩ := hI.transfer_old hc hG' hss2
  have hslotd : ∀ a, IsSlot c ⟨b, r, true⟩ a ↔ a = b + 16 := by
    intro a
    rw [isSlot_huge rfl, hslot]
  refine
    { live_eq := ?_
      os_ok := ?_
      slab_ok := hG'.2
      chain := ?_
      free_chain := ?_
      free_mem := t2
      free_nodup := hI.free_nodup
      used_mem := ?_
      used_nodup := ?_
      excl := ?_
      total := ?_ }
  · show (_mpz_slab_create c P (r + MPZ_SLOT_SIZE c) (some b)).2.live = _
    rw [hcl, hI.live_eq, hcself]
    rfl
  · show OsOk c (_mpz_slab_create c P (r + MPZ_SLOT_SIZE c) (some b)).2.live
    rw [hcl]; exact hos
  · show SlabChain c _ 0 (_mpz_slab_create c P (r + MPZ_SLOT_SIZE c) (some b)).2.slabs _
    rw [hcs]
    apply SlabChain.framedSlabs hc hfr hcch
    intro x hx
    obtain ⟨e, he, rfl⟩ := List.mem_map.mp hx
    rcases List.mem_cons.mp he with rfl | he
    · left; simp
    · have := hG'.cons_disj he
      have h2 := blockLen_eq hc e
      simp only at this
      omega
  · intro i hi
    show FreeChain c _ ((_mpz_slab_create c P (r + MPZ_SLOT_SIZE c) (some b)).2.bins i) _
    rw [hcb]
    exact t1 i hi
  · intro p hp
    rcases List.mem_cons.mp hp with rfl | hp
    · refine ⟨⟨b, r, true⟩, List.mem_cons_self _ _, b + 16, (hslotd _).mpr rfl, rfl, ?_⟩
      rw [usedStamp_huge rfl hr30]
      exact hgd
    · exact t3 p hp
  · exact List.nodup_cons.mpr ⟨t5 _ ((hslotd _).mpr rfl), hI.used_nodup⟩
  · intro i a ha hmem
    rcases List.mem_cons.mp hmem with h | h
    · have : a = b + 16 := by unfold MPZ_SLOT_TO_DATA at h; omega
      exact t4 i a ha ((hslotd a).mpr this)
    · exact hI.excl i a ha h
  · intro e he a hea
    rcases List.mem_cons.mp he with rfl | he
    · left
      rw [(hslotd a).mp hea]
      exact List.mem_cons_self _ _
    · rcases hI.total e he a hea with h | h
      · left; exact List.mem_cons_of_mem _ h
      · right; exact h

theorem mem_slotList {c : Config} {d : SlabD} {a : Nat} :
    a ∈ slotList c d ↔ IsSlot c d a := by
  unfold slotList IsSlot
  rw [List.mem_map]
  constructor
  · rintro ⟨j, hj, rfl⟩
    exact ⟨j, List.mem_range.mp hj, rfl⟩
  · rintro ⟨j, hj, rfl⟩
    exact ⟨j, List.mem_range.mpr hj, rfl⟩

theorem slotList_nodup {c : Config} (hc : c.Sane) (d : SlabD) : (slotList c d).Nodup := by
  unfold slotList
  apply List.Nodup.map_on _ (List.nodup_range _)
  intro j _ k _ hjk
  rw [slotAt_eq hc, slotAt_eq hc] at hjk
  have h : j * (d.size + 16) = k * (d.size + 16) := by omega
  exact Nat.eq_of_mul_eq_mul_right (by omega) h

/-- The state after `_mpz_slab_create` and `_mpz_slab_init` for a new pooled slab: its
slots are spliced in front of the free list of their bin. -/
theorem refill_inv {c : Config} (hc : c.Sane) {P : Pool} {S : List SlabD}
    {F : Nat → List Nat} {U : List Nat} (hI : Inv c P S F U) (r b : Nat)
    (hdok : SlabOk c ⟨b, r, false⟩) (hos : OsOk c (slabBlock c ⟨b, r, false⟩ :: P.live)) :
    (_mpz_slab_create c P ((r + MPZ_SLOT_SIZE c) * c.mul) (some b)).1 = b ∧ b ≠ 0 ∧
    Inv c (_mpz_slab_init c (_mpz_slab_create c P ((r + MPZ_SLOT_SIZE c) * c.mul) (some b)).2
        b r) (⟨b, r, false⟩ :: S)
      (Function.update F (MPZ_BIN_IDX c r)
        (slotList c ⟨b, r, false⟩ ++ F (MPZ_BIN_IDX c r))) U := by
  have hn : (r + MPZ_SLOT_SIZE c) * c.mul + MPZ_SLAB_SIZE c = blockLen c ⟨b, r, false⟩ := by
    simp [blockLen, nslots]
  obtain ⟨hG', hc1, hcb, hcs, hcself, hcl, hcch, hcss⟩ :=
    create_spec hc hI ⟨b, r, false⟩ _ hn hdok hos
  simp only at hc1 hcb hcs hcself hcl hcch hcss
  have hd0 := hG'.base_ok hc (List.mem_cons_self _ S)
  simp only at hd0
  obtain ⟨hs16, hs28, _⟩ := hG'.size_ok hc (List.mem_cons_self _ S)
  simp only at hs16 hs28
  have hr30 : r < 2 ^ 30 := by
    have : (2:Nat) ^ 28 < 2 ^ 30 := by decide
    omega
  have hidx : MPZ_BIN_IDX c r < c.bins := hdok.idx_lt hc rfl
  refine ⟨hc1, hd0.1, ?_⟩
  generalize hP1 : (_mpz_slab_create c P ((r + MPZ_SLOT_SIZE c) * c.mul) (some b)).2 = P1
    at hcb hcs hcself hcl hcch hcss
  have hss1 : SlotsSame c S P.heap P1.heap := fun e he => hcss e (List.mem_cons_of_mem _ he)
  obtain ⟨o1, _, _, _, _⟩ := hI.transfer_old hc hG' hss1
  have hb64 : P1.bins (MPZ_BIN_IDX c r) < 2 ^ 64 := by
    rw [hcb]; exact hI.bins_lt hc hidx
  have hold : ∀ i, ∀ x ∈ F i, x + 16 ≤ b + 16 ∨ b + blockLen c ⟨b, r, false⟩ ≤ x + 8 := by
    intro i x hx
    obtain ⟨e, he, hea, _⟩ := hI.free_mem i x hx
    have h1 := hea.bounds hc
    have h2 := hG'.cons_disj he
    have h3 := (hG'.tail.size_ok hc he).1
    simp only at h2
    omega
  obtain ⟨hf, hg, hbins, hchain⟩ := slab_init_spec hc P1 ⟨b, r, false⟩ rfl hs16 hr30 hd0.2.2
    hb64 (L := F (MPZ_BIN_IDX c r))
    (by rw [hcb]; exact o1 _ hidx) (hold _)
  simp only at hf hg hbins hchain
  obtain ⟨fs, fself, flive, _⟩ := slabInitLoop_frame c b r (MPZ_BIN_IDX c r) c.mul 0
    (MPZ_SLAB_TO_SLOT c b) P1
  have hinit : _mpz_slab_init c P1 b r
      = slabInitLoop c b r (MPZ_BIN_IDX c r) c.mul 0 (MPZ_SLAB_TO_SLOT c b) P1 := rfl
  rw [← hinit] at fs fself flive
  have hss2 : SlotsSame c S P.heap (_mpz_slab_init c P1 b r).heap := by
    apply SlotsSame.chain2 (fun e he => hcss e (List.mem_cons_of_mem _ he))
    apply SlotsSame.of_frame hf
    intro e he
    have := hG'.cons_disj he
    simp only at this
    omega
  obtain ⟨t1, t2, t3, t4, t5⟩ := hI.transfer_old hc hG' hss2
  have hmemF : ∀ i, ∀ x ∈ Function.update F (MPZ_BIN_IDX c r)
      (slotList c ⟨b, r, false⟩ ++ F (MPZ_BIN_IDX c r)) i,
      (IsSlot c ⟨b, r, false⟩ x ∧ i = MPZ_BIN_IDX c r) ∨ x ∈ F i := by
    intro i x hx
    by_cases hi : i = MPZ_BIN_IDX c r
    · subst hi
      rw [Function.update_same] at hx
      rcases List.mem_append.mp hx with h | h
      · exact Or.inl ⟨mem_slotList.mp h, rfl⟩
      · exact Or.inr h
    · rw [Function.update_noteq hi] at hx
      exact Or.inr hx
  refine
    { live_eq := ?_
      os_ok := ?_
      slab_ok := hG'.2
      chain := ?_
      free_chain := ?_
      free_mem := ?_
      free_nodup := ?_
      used_mem := t3
      used_nodup := hI.used_nodup
      excl := ?_
      total := ?_ }
  · rw [flive, hcl, hI.live_eq, fself, hcself]; rfl
  · rw [flive, hcl]; exact hos
  · rw [fs, hcs]
    apply SlabChain.framedSlabs hc hf hcch
    intro x hx
    obtain ⟨e, he, rfl⟩ := List.mem_map.mp hx
    rcases List.mem_cons.mp he with rfl | he
    · left; simp
    · have := hG'.cons_disj he
      have h2 := blockLen_eq hc e
      simp only at this
      omega
  · intro i hi
    rw [hbins]
    by_cases hi2 : i = MPZ_BIN_IDX c r
    · subst hi2
      simp only [upd, if_true, Function.update_same]
      exact hchain
    · simp only [upd, hi2, if_false, Function.update_noteq hi2 _ F]
      rw [hcb]
      exact t1 i hi
  · intro i x hx
    rcases hmemF i x hx with ⟨hxs, rfl⟩ | hxF
    · exact ⟨⟨b, r, false⟩, List.mem_cons_self _ _, hxs, rfl, rfl, hg x hxs⟩
    · exact t2 i x hxF
  · intro i
    by_cases hi : i = MPZ_BIN_IDX c r
    · subst hi
      rw [Function.update_same]
      apply List.Nodup.append (slotList_nodup hc _) (hI.free_nodup _)
      intro x hx1 hx2
      exact t4 _ x hx2 (mem_slotList.mp hx1)
    · rw [Function.update_noteq hi]; exact hI.free_nodup i
  · intro i x hx
    rcases hmemF i x hx with ⟨hxs, rfl⟩ | hxF
    · exact t5 x hxs
    · exact hI.excl i x hxF
  · intro e he a hea
    rcases List.mem_cons.mp he with rfl | he
    · right
      simp only [Function.update_same]
      exact List.mem_append_left _ (mem_slotList.mpr hea)
    · rcases hI.total e he a hea with h | h
      · left; exact h
      · right
        by_cases hi : MPZ_BIN_IDX c e.size = MPZ_BIN_IDX c r
        · rw [hi, Function.update_same]
          rw [hi] at h
          exact List.mem_append_right _ h
        · rw [Function.update_noteq hi]; exact h

/-! ## The slab list: unlink -/

theorem unlinkH_out (h : Heap) (q nx : Nat) {y : Nat}
    (h1 : q = 0 ∨ y < q + 8 ∨ q + 16 ≤ y) (h2 : nx = 0 ∨ y < nx ∨ nx + 8 ≤ y) :
    unlinkH h q nx y = h y := by
  unfold unlinkH
  by_cases hq : q = 0
  · by_cases hn : nx = 0
    · simp [hq, hn]
    · simp only [hq, hn, ne_eq, not_true_eq_false, not_false_eq_true, if_true, if_false]
      exact wr_out (by omega)
  · by_cases hn : nx = 0
    · simp only [hq, hn, ne_eq, not_true_eq_false, not_false_eq_true, if_true, if_false]
      exact wr_out (by omega)
    · simp only [hq, hn, ne_eq, not_false_eq_true, if_true]
      rw [wr_out (by omega), wr_out (by omega)]

theorem unlink_eval {c : Config} (hc : c.Sane) (P : Pool) (x : Nat) {q nx : Nat}
    (hq : rd P.heap x 8 = q) (hnx : rd P.heap (x + 8) 8 = nx)
    (hqx : q ≠ 0 → HeadersApart q x) :
    (slabUnlink c P x).heap = unlinkH P.heap q nx ∧
    (slabUnlink c P x).slabs = (if q ≠ 0 then P.slabs else nx) ∧
    (slabUnlink c P x).bins = P.bins ∧ (slabUnlink c P x).live = P.live ∧
    (slabUnlink c P x).self = P.self ∧ (slabUnlink c P x).oscalls = P.oscalls := by
  unfold slabUnlink unlinkH
  simp only [slabNext, hc.ptr8, hq, hnx]
  by_cases hq0 : q = 0
  · subst hq0
    simp only [ne_eq, not_true_eq_false, if_false, hnx, hq]
    split <;> exact ⟨rfl, rfl, rfl, rfl, rfl, rfl⟩
  · have ha := hqx hq0
    unfold HeadersApart at ha
    have e1 : rd (wr P.heap (q + 8) 8 nx) (x + 8) 8 = nx := by
      rw [rd_wr_disj (by omega)]; exact hnx
    have e2 : rd (wr P.heap (q + 8) 8 nx) x 8 = q := by
      rw [rd_wr_disj (by omega)]; exact hq
    simp only [ne_eq, hq0, not_false_eq_true, if_true, e1, e2]
    split <;> exact ⟨rfl, rfl, rfl, rfl, rfl, rfl⟩

/-- In a slab chain the `prev` field of a member is the element before it and its `next`
field the element after it. -/
theorem chain_neighbours {c : Config} (hc : c.Sane) {h : Heap} {x : Nat} {L2 : List Nat} :
    ∀ {L1 : List Nat} {p s : Nat}, SlabChain c h p s (L1 ++ x :: L2) →
      rd h x 8 = (p :: L1).getLast (List.cons_ne_nil _ _) ∧
      rd h (x + 8) 8 = L2.headD 0 ∧ SlabChain c h x (L2.headD 0) L2 := by
  intro L1
  induction L1 with
  | nil =>
    intro p s hch
    obtain ⟨_, h2, h3⟩ := hch
    simp only [slabNext, hc.ptr8] at h2 h3
    refine ⟨h2, ?_⟩
    cases L2 with
    | nil => exact ⟨h3, rfl⟩
    | cons y ys => exact ⟨h3.1, by rw [h3.1] at h3; exact h3⟩
  | cons y ys ih =>
    intro p s hch
    obtain ⟨_, _, h3⟩ := hch
    have := ih h3
    rw [List.getLast_cons (List.cons_ne_nil _ _)]
    exact this

theorem unlink_chain {c : Config} (hc : c.Sane) {h : Heap} {x q : Nat} {L2 : List Nat} :
    ∀ {L1 : List Nat} {p s : Nat}, SlabChain c h p s (L1 ++ x :: L2) →
      (p :: L1).getLast (List.cons_ne_nil _ _) = q →
      (p ≠ 0 → p < 2 ^ 64 ∧ ∀ z ∈ L1 ++ x :: L2, HeadersApart p z) →
      (L1 ++ x :: L2).Pairwise HeadersApart →
      (∀ z ∈ L1 ++ x :: L2, z ≠ 0 ∧ z < 2 ^ 64) →
      SlabChain c (unlinkH h q (L2.headD 0)) p (if L1 = [] then L2.headD 0 else s)
        (L1 ++ L2) ∧
      (L1 = [] → p ≠ 0 → rd (unlinkH h q (L2.headD 0)) (p + 8) 8 = L2.headD 0) := by
  have h256 : (256:Nat) ^ 8 = 2 ^ 64 := by norm_num
  intro L1
  induction L1 with
  | nil =>
    intro p s hch hq hp hpw h64
    simp only [List.getLast_singleton] at hq
    subst hq
    simp only [List.nil_append] at hch hp hpw h64 ⊢
    obtain ⟨_, _, h3⟩ := hch
    simp only [slabNext, hc.ptr8] at h3
    rw [List.pairwise_cons] at hpw
    cases L2 with
    | nil =>
      simp only [List.headD_nil, if_true]
      refine ⟨rfl, ?_⟩
      intro _ hp0
      unfold unlinkH
      simp only [ne_eq, hp0, not_false_eq_true, if_true, not_true_eq_false, if_false]
      exact rd_wr_val (by norm_num)
    | cons y ys =>
      obtain ⟨hy, hyp, hrest⟩ := h3
      simp only [slabNext, hc.ptr8] at hrest
      obtain ⟨hy0, hy64⟩ := h64 y (by simp)
      have hxy := hpw.1 y (List.mem_cons_self _ _)
      have hpw2 := (List.pairwise_cons.mp hpw.2).1
      simp only [List.headD_cons, if_true]
      have hpy : p ≠ 0 → HeadersApart p y := fun h0 => (hp h0).2 y (by simp)
      refine ⟨⟨rfl, ?_, ?_⟩, ?_⟩
      · -- prev of y is now p
        simp only [hc.ptr8]
        unfold unlinkH
        simp only [ne_eq, hy0, not_false_eq_true, if_true]
        by_cases hp0 : p = 0
        · subst hp0; exact rd_wr_val (by norm_num)
        · exact rd_wr_val (by rw [h256]; exact (hp hp0).1)
      · -- the rest of the chain is untouched
        simp only [slabNext, hc.ptr8]
        have e : rd (unlinkH h p y) (y + 8) 8 = rd h (y + 8) 8 := by
          apply rd_congr
          intro z hz1 hz2
          apply unlinkH_out
          · by_cases hp0 : p = 0
            · exact Or.inl hp0
            · have := hpy hp0
              unfold HeadersApart at this
              omega
          · omega
        rw [e]
        apply hrest.sameHeaders hc
        intro z hz w hw1 hw2
        apply unlinkH_out
        · by_cases hp0 : p = 0
          · exact Or.inl hp0
          · have := (hp hp0).2 z (by simp [hz])
            unfold HeadersApart at this
            omega
        · have := hpw2 z hz
          unfold HeadersApart at this
          omega
      · intro _ hp0
        have := hpy hp0
        unfold HeadersApart at this
        unfold unlinkH
        simp only [ne_eq, hp0, not_false_eq_true, if_true, hy0]
        rw [rd_wr_disj (by omega)]
        exact rd_wr_val (by rw [h256]; exact hy64)
  | cons y ys ih =>
    intro p s hch hq hp hpw h64
    obtain ⟨hs, hyp, hrest⟩ := hch
    simp only [slabNext, hc.ptr8] at hrest
    rw [List.getLast_cons (List.cons_ne_nil _ _)] at hq
    simp only [List.cons_append] at hpw h64 hp ⊢
    rw [List.pairwise_cons] at hpw
    obtain ⟨hy0, hy64⟩ := h64 y (List.mem_cons_self _ _)
    obtain ⟨ih1, ih2⟩ := ih hrest hq
      (fun _ => ⟨hy64, hpw.1⟩) hpw.2 (fun z hz => h64 z (List.mem_cons_of_mem _ hz))
    -- q is a member of y :: ys, the successor is a member of L2
    have hqmem : q ∈ y :: ys := by rw [← hq]; exact List.getLast_mem _
    have hnmem : L2.headD 0 = 0 ∨ L2.headD 0 ∈ ys ++ x :: L2 := by
      cases L2 with
      | nil => left; rfl
      | cons w ws => right; simp
    have hq_y : ∀ z, y ≤ z → z < y + 8 → unlinkH h q (L2.headD 0) z = h z := by
      intro z hz1 hz2
      apply unlinkH_out
      · rcases List.mem_cons.mp hqmem with h | h
        · omega
        · have := hpw.1 q (by simp [h])
          unfold HeadersApart at this
          omega
      · rcases hnmem with h | h
        · exact Or.inl h
        · have := hpw.1 _ h
          unfold HeadersApart at this
          omega
    simp only [List.cons_ne_nil, if_false]
    refine ⟨⟨hs, ?_, ?_⟩, fun h => by cases h⟩
    · simp only [hc.ptr8] at hyp ⊢
      rw [rd_congr hq_y]
      exact hyp
    · simp only [slabNext, hc.ptr8]
      by_cases hys : ys = []
      · subst hys
        rw [ih2 rfl hy0]
        simpa using ih1
      · rw [if_neg hys] at ih1
        have e : rd (unlinkH h q (L2.headD 0)) (y + 8) 8 = rd h (y + 8) 8 := by
          apply rd_congr
          intro z hz1 hz2
          apply unlinkH_out
          · rcases List.mem_cons.mp hqmem with h | h
            · exfalso
              -- q = y is impossible when ys is not empty
              have hl : q ∈ ys := by
                rw [← hq, List.getLast_cons hys]
                exact List.getLast_mem _
              have := hpw.1 q (by simp [hl])
              unfold HeadersApart at this
              omega
            · have := hpw.1 q (by simp [h])
              unfold HeadersApart at this
              omega
          · rcases hnmem with h | h
            · exact Or.inl h
            · have := hpw.1 _ h
              unfold HeadersApart at this
              omega
        rw [e]
        exact ih1

/-! ## Freeing a huge slot -/

theorem pool_size_pos {c : Config} (hc : c.Sane) : 0 < MPZ_POOL_SIZE c := by
  unfold MPZ_POOL_SIZE
  rw [alloc_alignment_eq hc]
  have hb : c.bins < 2 ^ 28 := by
    have h1 := hc.fits
    have h2 : c.bins * 1 ≤ c.bins * 2 ^ c.shift := Nat.mul_le_mul_left _ hc.align_pos
    omega
  have e := mpz_align_eq c (s := c.bins * c.ptr + c.ptr) (k := 4)
    (by rw [hc.ptr8]; decide)
    (by rw [hc.ptr8]; norm_num at hb ⊢; omega)
  norm_num at e
  rw [e, hc.ptr8]
  omega

theorem blockLen_pos {c : Config} (hc : c.Sane) (d : SlabD) : 16 < blockLen c d := by
  rw [blockLen_eq hc]
  have h3 := nslots_pos hc d
  have h4 : (d.size + 16) * 1 ≤ (d.size + 16) * nslots c d := Nat.mul_le_mul_left _ h3
  omega

/-- In a well-formed slab list no slab occurs twice. -/
theorem Geo.not_mem_rest {c : Config} (hc : c.Sane) {S1 S2 : List SlabD} {d : SlabD}
    (hG : Geo c (S1 ++ d :: S2)) : ∀ e ∈ S1 ++ S2, e.base ≠ d.base := by
  have hp : (S1 ++ d :: S2).Pairwise
      (fun x y => BlocksDisjoint (slabBlock c x) (slabBlock c y)) :=
    List.pairwise_map.mp hG.1.2
  rw [List.pairwise_append] at hp
  obtain ⟨_, h2, h3⟩ := hp
  rw [List.pairwise_cons] at h2
  intro e he hbase
  have hbe := blockLen_pos hc e
  have hbd := blockLen_pos hc d
  rcases List.mem_append.mp he with h | h
  · have := h3 e h d (List.mem_cons_self _ _)
    unfold BlocksDisjoint slabBlock at this
    simp only at this
    omega
  · have := h2.1 e h
    unfold BlocksDisjoint slabBlock at this
    simp only at this
    omega

theorem Geo.remove {c : Config} {S1 S2 : List SlabD} {d : SlabD}
    (hG : Geo c (S1 ++ d :: S2)) : Geo c (S1 ++ S2) := by
  refine ⟨hG.1.sublist ?_, fun e he => hG.2 e ?_⟩
  · apply List.Sublist.map
    exact List.Sublist.append (List.Sublist.refl _) (List.sublist_cons_self _ _)
  · rcases List.mem_append.mp he with h | h
    · exact List.mem_append_left _ h
    · exact List.mem_append_right _ (List.mem_cons_of_mem _ h)

theorem filter_base {c : Config} {S1 S2 : List SlabD} {d : SlabD} {tl : List (Nat × Nat)}
    (h1 : ∀ e ∈ S1 ++ S2, e.base ≠ d.base) (h2 : ∀ b ∈ tl, b.1 ≠ d.base) :
    ((S1 ++ d :: S2).map (slabBlock c) ++ tl).filter (fun b => b.1 != d.base)
      = (S1 ++ S2).map (slabBlock c) ++ tl := by
  have e1 : ∀ (L : List SlabD), (∀ e ∈ L, e.base ≠ d.base) →
      (L.map (slabBlock c)).filter (fun b => b.1 != d.base) = L.map (slabBlock c) := by
    intro L hL
    apply List.filter_eq_self.mpr
    intro b hb
    obtain ⟨e, he, rfl⟩ := List.mem_map.mp hb
    simpa [slabBlock] using hL e he
  have e2 : tl.filter (fun b => b.1 != d.base) = tl := by
    apply List.filter_eq_self.mpr
    intro b hb
    simpa using h2 b hb
  simp only [List.map_append, List.map_cons, List.filter_append, List.filter_cons]
  rw [e1 S1 (fun e he => h1 e (List.mem_append_left _ he)),
    e1 S2 (fun e he => h1 e (List.mem_append_right _ he)), e2]
  simp [slabBlock]

/-- Freeing a huge slot whose guards are intact releases the slab. -/
theorem free_eval_huge (c : Config) (P : Pool) {a r : Nat} (hr : r < 2 ^ 30)
    (hg : Guarded P.heap a r (2 ^ 30 * 3 + r)) :
    mpz_free c P (MPZ_SLOT_TO_DATA a) = _mpz_slab_free c P a := by
  obtain ⟨hhead, hfoot⟩ := hg
  have hsz : MPZ_SLOT_READ_SIZE P.heap a = r := by
    unfold MPZ_SLOT_READ_SIZE MPZ_SLOT_READ_HEAD
    rw [hhead]; exact stamp_size hr
  have hu : (2 ^ 30 * 3 + r) &&& MPZ_SLOT_FLAG_USED ≠ 0 := by
    rw [flag_used_eq, stamp_test_used hr]; decide
  have hh : (2 ^ 30 * 3 + r) &&& MPZ_SLOT_FLAG_HUGE ≠ 0 := by
    rw [flag_huge_eq, stamp_test_huge (by decide) hr]; decide
  have hcond : ¬ ((2 ^ 30 * 3 + r) ≠ (2 ^ 30 * 3 + r) ∨
      (2 ^ 30 * 3 + r) &&& MPZ_SLOT_FLAG_USED = 0) := by
    rintro (h | h)
    · exact h rfl
    · exact hu h
  unfold mpz_free
  have e1 : MPZ_DATA_TO_SLOT (MPZ_SLOT_TO_DATA a) = a := by
    simp [MPZ_DATA_TO_SLOT, MPZ_SLOT_TO_DATA]
  have e0 : MPZ_SLOT_TO_DATA a ≠ 0 := by simp [MPZ_SLOT_TO_DATA]
  rw [if_neg e0]
  simp only [e1, MPZ_SLOT_READ_FOOT, hsz, MPZ_SLOT_READ_HEAD, hhead, hfoot]
  rw [if_neg hcond, if_pos hh]

theorem free_huge_inv {c : Config} (hc : c.Sane) {P : Pool} {S1 S2 : List SlabD}
    {F : Nat → List Nat} {U : List Nat} {d : SlabD}
    (hI : Inv c P (S1 ++ d :: S2) F U) (hdh : d.huge = true)
    (hp : MPZ_SLOT_TO_DATA (MPZ_SLAB_TO_SLOT c d.base) ∈ U) :
    ∃ P1, mpz_free c P (MPZ_SLOT_TO_DATA (MPZ_SLAB_TO_SLOT c d.base)) = .ok P1 ∧
      P1.bins = P.bins ∧
      P1.slabs = (if S1 = [] then (S2.map SlabD.base).headD 0 else P.slabs) ∧
      P1.oscalls = P.oscalls + 1 ∧ P1.self = P.self ∧
      Inv c P1 (S1 ++ S2) F (U.erase (MPZ_SLOT_TO_DATA (MPZ_SLAB_TO_SLOT c d.base))) := by
  have hG := hI.geo
  have hd : d ∈ S1 ++ d :: S2 := by simp
  obtain ⟨hs16, hs28, _⟩ := hG.size_ok hc hd
  have hr30 : d.size < 2 ^ 30 := by
    have : (2:Nat) ^ 28 < 2 ^ 30 := by decide
    omega
  have hslot : MPZ_SLAB_TO_SLOT c d.base = d.base + 16 := by
    simp [MPZ_SLAB_TO_SLOT, slab_size_eq hc]
  have hda : IsSlot c d (d.base + 16) := by rw [isSlot_huge hdh, hslot]
  rw [hslot] at hp ⊢
  have hg : Guarded P.heap (d.base + 16) d.size (2 ^ 30 * 3 + d.size) := by
    obtain ⟨e, he, b, heb, hpb, hbg⟩ := hI.used_mem _ hp
    have hab : d.base + 16 = b := by unfold MPZ_SLOT_TO_DATA at hpb; omega
    subst hab
    have := hG.slot_unique hc hd he hda heb
    subst this
    rw [usedStamp_huge hdh hr30] at hbg
    exact hbg
  rw [free_eval_huge c P hr30 hg]
  -- the chain around the slab
  have hch := hI.chain
  rw [List.map_append, List.map_cons] at hch
  obtain ⟨hprev, hnext, _⟩ := chain_neighbours hc hch
  have hpw := hG.headers_pairwise hc
  rw [List.map_append, List.map_cons] at hpw
  have h64 : ∀ z ∈ S1.map SlabD.base ++ d.base :: S2.map SlabD.base, z ≠ 0 ∧ z < 2 ^ 64 := by
    intro z hz
    rw [← List.map_cons, ← List.map_append] at hz
    obtain ⟨e, he, rfl⟩ := List.mem_map.mp hz
    have := hG.base_ok hc he
    have := blockLen_pos hc e
    exact ⟨by omega, by omega⟩
  obtain ⟨hch2, _⟩ := unlink_chain hc hch rfl (fun h => absurd rfl h) hpw h64
  -- neighbours are slab headers (or null)
  have hqmem : (0 :: S1.map SlabD.base).getLast (List.cons_ne_nil _ _) = 0 ∧ S1 = [] ∨
      (0 :: S1.map SlabD.base).getLast (List.cons_ne_nil _ _) ∈ S1.map SlabD.base := by
    cases S1 with
    | nil => left; exact ⟨rfl, rfl⟩
    | cons s ss =>
      right
      rw [List.map_cons, List.getLast_cons (List.cons_ne_nil _ _)]
      exact List.getLast_mem _
  have hnmem : (S2.map SlabD.base).headD 0 = 0 ∨
      (S2.map SlabD.base).headD 0 ∈ S2.map SlabD.base := by
    cases S2 with
    | nil => left; rfl
    | cons w ws => right; simp
  generalize hq : (0 :: S1.map SlabD.base).getLast (List.cons_ne_nil _ _) = q
    at hprev hch2 hqmem
  generalize hn : (S2.map SlabD.base).headD 0 = nx at hnext hch2 hnmem
  have hqd : q ≠ 0 → HeadersApart q d.base := by
    intro hq0
    rcases hqmem with ⟨h, _⟩ | h
    · exact absurd h hq0
    · rw [List.pairwise_append] at hpw
      exact hpw.2.2 q h d.base (List.mem_cons_self _ _)
  obtain ⟨ueh, ues, ueb, uel, ueself, ueo⟩ := unlink_eval hc P d.base hprev hnext hqd
  have hslab : MPZ_SLOT_TO_SLAB c (d.base + 16) = d.base := by
    simp [MPZ_SLOT_TO_SLAB, slab_size_eq hc]
  have hnot := hG.not_mem_rest hc
  have hlive : (slabUnlink c P d.base).live.any (fun b => b.1 == d.base) = true := by
    rw [uel, hI.live_eq, List.any_eq_true]
    exact ⟨slabBlock c d, by simp, by simp [slabBlock]⟩
  have hpool : P.self ≠ d.base := by
    have hos := hI.os_ok
    rw [hI.live_eq, List.map_append, List.map_cons] at hos
    have hp2 := hos.2
    rw [List.pairwise_append] at hp2
    have := hp2.2.2 (slabBlock c d) (by simp) (P.self, MPZ_POOL_SIZE c) (by simp)
    have h1 := pool_size_pos hc
    have h2 := blockLen_pos hc d
    unfold BlocksDisjoint slabBlock at this
    simp only at this
    omega
  unfold _mpz_slab_free os_free
  simp only [hslab, hlive, if_true]
  refine ⟨_, rfl, ueb, ?_, by simp [ueo], ueself, ?_⟩
  · show (slabUnlink c P d.base).slabs = _
    rw [ues]
    rcases hqmem with ⟨h, hS1⟩ | h
    · simp [h, hS1]
    · have hS1 : S1 ≠ [] := by
        rintro rfl
        simp at h
      have hq0 : q ≠ 0 := (h64 q (List.mem_append_left _ h)).1
      simp [hq0, hS1]
  -- the heap changed only inside slab headers
  have hss : SlotsSame c (S1 ++ d :: S2) P.heap (unlinkH P.heap q nx) := by
    intro e he y hy1 hy2
    apply unlinkH_out
    · by_cases hq0 : q = 0
      · exact Or.inl hq0
      · right
        rcases hqmem with ⟨h, _⟩ | h
        · exact absurd h hq0
        · obtain ⟨e2, he2, rfl⟩ := List.mem_map.mp h
          have he2' : e2 ∈ S1 ++ d :: S2 := List.mem_append_left _ he2
          rcases hG.eq_or_disj he he2' with h | h
          · subst h; omega
          · have := blockLen_pos hc e2
            omega
    · rcases hnmem with h | h
      · exact Or.inl h
      · right
        obtain ⟨e2, he2, rfl⟩ := List.mem_map.mp h
        have he2' : e2 ∈ S1 ++ d :: S2 :=
          List.mem_append_right _ (List.mem_cons_of_mem _ he2)
        rcases hG.eq_or_disj he he2' with h | h
        · subst h; omega
        · have := blockLen_pos hc e2
          omega
  have hmem_rest : ∀ e ∈ S1 ++ d :: S2, e ≠ d → e ∈ S1 ++ S2 := by
    intro e he hne
    rcases List.mem_append.mp he with h | h
    · exact List.mem_append_left _ h
    · rcases List.mem_cons.mp h with h | h
      · exact absurd h hne
      · exact List.mem_append_right _ h
  have hmem_all : ∀ e ∈ S1 ++ S2, e ∈ S1 ++ d :: S2 := by
    intro e he
    rcases List.mem_append.mp he with h | h
    · exact List.mem_append_left _ h
    · exact List.mem_append_right _ (List.mem_cons_of_mem _ h)
  refine
    { live_eq := ?_
      os_ok := ?_
      slab_ok := hG.remove.2
      chain := ?_
      free_chain := ?_
      free_mem := ?_
      free_nodup := hI.free_nodup
      used_mem := ?_
      used_nodup := hI.used_nodup.erase _
      excl := ?_
      total := ?_ }
  · show (slabUnlink c P d.base).live.filter _ = _
    rw [uel, hI.live_eq, ueself]
    apply filter_base hnot
    intro b hb
    rw [List.mem_singleton] at hb
    rw [hb]; exact hpool
  · show OsOk c ((slabUnlink c P d.base).live.filter _)
    rw [uel]
    exact hI.os_ok.sublist (List.filter_sublist _)
  · show SlabChain c (slabUnlink c P d.base).heap 0 (slabUnlink c P d.base).slabs _
    rw [ueh, ues, List.map_append]
    rcases hqmem with ⟨h, hS1⟩ | h
    · subst hS1
      simp only [hn, List.map_nil, if_true] at hch2
      simpa [h] using hch2
    · have hS1 : S1.map SlabD.base ≠ [] := by
        intro h0
        rw [h0] at h
        cases h
      have hq0 : q ≠ 0 := (h64 q (List.mem_append_left _ h)).1
      rw [if_neg hS1] at hch2
      simpa [hq0] using hch2
  · intro i hi
    show FreeChain c (slabUnlink c P d.base).heap ((slabUnlink c P d.base).bins i) _
    rw [ueh, ueb]
    apply hss.freeChain hc hG (hI.free_chain i hi)
    intro x hx
    obtain ⟨e, he, hea, _⟩ := hI.free_mem i x hx
    exact ⟨e, he, hea⟩
  · intro i a ha
    show ∃ e ∈ S1 ++ S2, _ ∧ _ ∧ _ ∧ Guarded (slabUnlink c P d.base).heap _ _ _
    rw [ueh]
    obtain ⟨e, he, hea, heh, hei, heg⟩ := hI.free_mem i a ha
    refine ⟨e, hmem_rest e he ?_, hea, heh, hei, hss.guarded hc he hea heg⟩
    rintro rfl
    rw [hdh] at heh
    cases heh
  · intro p hp2
    show ∃ e ∈ S1 ++ S2, ∃ a, _ ∧ _ ∧ Guarded (slabUnlink c P d.base).heap _ _ _
    rw [ueh]
    have hpU : p ∈ U := List.mem_of_mem_erase hp2
    have hpne : p ≠ MPZ_SLOT_TO_DATA (d.base + 16) := fun h => by
      rw [h] at hp2
      exact (List.Nodup.not_mem_erase hI.used_nodup) hp2
    obtain ⟨e, he, b, heb, hpb, hbg⟩ := hI.used_mem p hpU
    refine ⟨e, hmem_rest e he ?_, b, heb, hpb, hss.guarded hc he heb hbg⟩
    rintro rfl
    rw [isSlot_huge hdh, hslot] at heb
    exact hpne (by rw [hpb, heb])
  · intro i a ha hmem
    exact hI.excl i a ha (List.mem_of_mem_erase hmem)
  · intro e he a hea
    rcases hI.total e (hmem_all e he) a hea with h | h
    · left
      apply (List.mem_erase_of_ne ?_).mpr h
      intro heq
      have hab : a = d.base + 16 := by unfold MPZ_SLOT_TO_DATA at heq; omega
      rw [hab] at hea
      have := hG.slot_unique hc (hmem_all e he) hd hea hda
      exact hnot e he (by rw [this])
    · right; exact h

/-! ## The invariant holds in every reachable state -/

theorem Inv.of_eq {c : Config} {P P1 : Pool} {S : List SlabD} {F : Nat → List Nat}
    {U : List Nat} (hI : Inv c P S F U) (h1 : P1.bins = P.bins) (h2 : P1.slabs = P.slabs)
    (h3 : P1.self = P.self) (h4 : P1.heap = P.heap) (h5 : P1.live = P.live) :
    Inv c P1 S F U := by
  refine
    { live_eq := by rw [h5, h3]; exact hI.live_eq
      os_ok := by rw [h5]; exact hI.os_ok
      slab_ok := hI.slab_ok
      chain := by rw [h4, h2]; exact hI.chain
      free_chain := by intro i hi; rw [h4, h1]; exact hI.free_chain i hi
      free_mem := by rw [h4]; exact hI.free_mem
      free_nodup := hI.free_nodup
      used_mem := by rw [h4]; exact hI.used_mem
      used_nodup := hI.used_nodup
      excl := hI.excl
      total := hI.total }

theorem create_inv {c : Config} {h : Heap} {os : Option Nat} {P : Pool}
    (hP : mpz_pool_create c h os = some P) (hos : OsOk c P.live) :
    Inv c P [] (fun _ => []) [] := by
  unfold mpz_pool_create mpz_memalign at hP
  cases os with
  | none => simp at hP
  | some a =>
    by_cases ha : a = 0
    · simp [ha] at hP
    · simp only [ha, if_false, Option.some.injEq] at hP
      subst hP
      refine
        { live_eq := rfl
          os_ok := hos
          slab_ok := fun d hd => by cases hd
          chain := rfl
          free_chain := fun i _ => rfl
          free_mem := fun i a ha => by cases ha
          free_nodup := fun i => List.nodup_nil
          used_mem := fun p hp => by cases hp
          used_nodup := List.nodup_nil
          excl := fun i a ha => by cases ha
          total := fun d hd => by cases hd }

/-- Slot sizes of one bin agree. -/
theorem bin_idx_inj {c : Config} (hc : c.Sane) {r s : Nat}
    (hr : ∃ m, 1 ≤ m ∧ r = m * 2 ^ c.shift) (hr28 : r ≤ 2 ^ 28)
    (hs : ∃ m, 1 ≤ m ∧ s = m * 2 ^ c.shift) (hs28 : s ≤ 2 ^ 28)
    (h : MPZ_BIN_IDX c r = MPZ_BIN_IDX c s) : r = s := by
  obtain ⟨m, hm1, rfl⟩ := hr
  obtain ⟨n, hn1, rfl⟩ := hs
  rw [bin_idx_mul hc hr28, bin_idx_mul hc hs28] at h
  have : m = n := by omega
  rw [this]

theorem free_inv {c : Config} (hc : c.Sane) {P : Pool} {S : List SlabD}
    {F : Nat → List Nat} {U : List Nat} (hI : Inv c P S F U) {p : Nat} (hp : p ∈ U) :
    ∃ P1 S1 F1, mpz_free c P p = .ok P1 ∧ Inv c P1 S1 F1 (U.erase p) := by
  obtain ⟨d, hd, a, hda, rfl, _⟩ := hI.used_mem p hp
  cases hdh : d.huge with
  | false =>
    obtain ⟨h1, h2⟩ := free_pooled_inv hc hI hd hda hp hdh
    exact ⟨_, _, _, h1, h2⟩
  | true =>
    obtain ⟨S1, S2, rfl⟩ := List.append_of_mem hd
    rw [isSlot_huge hdh] at hda
    subst hda
    obtain ⟨P1, h1, _, _, _, _, h2⟩ := free_huge_inv hc hI hdh hp
    exact ⟨P1, _, _, h1, h2⟩

theorem pallocHuge_none (c : Config) (P : Pool) (r : Nat) :
    pallocHuge c P r none = (0, { P with oscalls := P.oscalls + 1 }) := by
  simp [pallocHuge, slab_create_none]

theorem pallocPooled_none (c : Config) (P : Pool) (r : Nat) (z : Bool)
    (h : P.bins (MPZ_BIN_IDX c r) = 0) :
    pallocPooled c P r z none = (0, { P with oscalls := P.oscalls + 1 }) := by
  simp [pallocPooled, slab_create_none, h]

theorem slab_create_zero_live (c : Config) (P : Pool) (n : Nat) :
    (0, n + MPZ_SLAB_SIZE c) ∈ (_mpz_slab_create c P n (some 0)).2.live := by
  simp [_mpz_slab_create, mpz_memalign]

theorem osok_no_null {c : Config} {L : List (Nat × Nat)} (h : OsOk c L) {n : Nat} :
    (0, n) ∉ L := fun hm => (h.1 _ hm).1 rfl

theorem pallocPop_live (c : Config) (P : Pool) (size idx : Nat) (z : Bool) :
    (pallocPop c P size idx z).2.live = P.live := rfl

theorem slab_init_live (c : Config) (P : Pool) (b r : Nat) :
    (_mpz_slab_init c P b r).live = P.live :=
  (slabInitLoop_frame c b r _ _ _ _ P).2.2.1

theorem slotList_cons {c : Config} (hc : c.Sane) (d : SlabD) :
    ∃ L, slotList c d = MPZ_SLAB_TO_SLOT c d.base :: L := by
  unfold slotList
  obtain ⟨n, hn⟩ : ∃ n, nslots c d = n + 1 :=
    ⟨nslots c d - 1, by have := nslots_pos hc d; omega⟩
  rw [hn, List.range_succ_eq_map, List.map_cons]
  exact ⟨List.map (slotAt c d) (List.map Nat.succ (List.range n)), by simp [slotAt]⟩

/-- The pooled branch of `_mpz_palloc` keeps the invariant. -/
theorem pooled_inv {c : Config} (hc : c.Sane) {P : Pool} {S : List SlabD}
    {F : Nat → List Nat} {U : List Nat} (hI : Inv c P S F U) {r : Nat}
    (hr : ∃ m, 1 ≤ m ∧ r = m * 2 ^ c.shift) (hr28 : r ≤ 2 ^ 28)
    (hrb : r ≤ c.bins <<< c.shift) (z : Bool) (os : Option Nat)
    (hos : OsOk c (pallocPooled c P r z os).2.live) :
    ∃ S1 F1, Inv c (pallocPooled c P r z os).2 S1 F1
      (if (pallocPooled c P r z os).1 = 0 then U
        else (pallocPooled c P r z os).1 :: U) := by
  have hok : ∀ b, SlabOk c ⟨b, r, false⟩ := fun b =>
    ⟨hr, hr28, by simp only [Bool.false_eq_true, false_iff]; omega⟩
  have hidx : MPZ_BIN_IDX c r < c.bins := (hok 0).idx_lt hc rfl
  by_cases hb : P.bins (MPZ_BIN_IDX c r) = 0
  · cases os with
    | none =>
      rw [pallocPooled_none c P r z hb]
      refine ⟨S, F, ?_⟩
      simp only [if_true]
      exact hI.of_eq rfl rfl rfl rfl rfl
    | some b =>
      have hres : pallocPooled c P r z (some b)
          = if (_mpz_slab_create c P ((r + MPZ_SLOT_SIZE c) * c.mul) (some b)).1 = 0
            then (0, (_mpz_slab_create c P ((r + MPZ_SLOT_SIZE c) * c.mul) (some b)).2)
            else pallocPop c (_mpz_slab_init c
              (_mpz_slab_create c P ((r + MPZ_SLOT_SIZE c) * c.mul) (some b)).2
              (_mpz_slab_create c P ((r + MPZ_SLOT_SIZE c) * c.mul) (some b)).1 r) r
              (MPZ_BIN_IDX c r) z := by
        unfold pallocPooled
        simp only [hb, if_true]
      by_cases hb0 : b = 0
      · exfalso
        subst hb0
        rw [hres] at hos
        have h1 : (_mpz_slab_create c P ((r + MPZ_SLOT_SIZE c) * c.mul) (some 0)).1 = 0 := by
          simp [_mpz_slab_create, mpz_memalign]
        rw [if_pos h1] at hos
        exact osok_no_null hos (slab_create_zero_live c P _)
      · have hlive : (pallocPooled c P r z (some b)).2.live
            = slabBlock c ⟨b, r, false⟩ :: P.live := by
          rw [hres, slab_create_some c P _ b hb0]
          simp only [hb0, if_false]
          rw [pallocPop_live, slab_init_live]
          simp [_mpz_slab_push, slabBlock, blockLen, nslots]
        rw [hlive] at hos
        obtain ⟨h1, _, hI2⟩ := refill_inv hc hI r b (hok b) hos
        obtain ⟨L, hL⟩ := slotList_cons hc ⟨b, r, false⟩
        have hF : Function.update F (MPZ_BIN_IDX c r)
            (slotList c ⟨b, r, false⟩ ++ F (MPZ_BIN_IDX c r)) (MPZ_BIN_IDX c r)
            = MPZ_SLAB_TO_SLOT c b :: (L ++ F (MPZ_BIN_IDX c r)) := by
          rw [Function.update_same, hL]; rfl
        obtain ⟨d, hd, _, _, hdi, hfst, hI3⟩ := pop_inv hc hI2 z hidx hF
        have hsz : d.size = r :=
          bin_idx_inj hc (hI2.slab_ok d hd).1 (hI2.slab_ok d hd).2.1 hr hr28 hdi
        rw [hsz] at hfst hI3
        rw [hres, h1, if_neg hb0, hfst, if_neg (by simp [MPZ_SLOT_TO_DATA])]
        exact ⟨_, _, hI3⟩
  · have hch := hI.free_chain _ hidx
    cases hF : F (MPZ_BIN_IDX c r) with
    | nil =>
      rw [hF] at hch
      exact absurd hch hb
    | cons a L =>
      obtain ⟨d, hd, _, _, hdi, hfst, hI3⟩ := pop_inv hc hI z hidx hF
      have hsz : d.size = r :=
        bin_idx_inj hc (hI.slab_ok d hd).1 (hI.slab_ok d hd).2.1 hr hr28 hdi
      rw [hsz] at hfst hI3
      have hres : pallocPooled c P r z os = pallocPop c P r (MPZ_BIN_IDX c r) z := by
        unfold pallocPooled
        simp only [hb, if_false]
      rw [hres, hfst, if_neg (by simp [MPZ_SLOT_TO_DATA])]
      exact ⟨_, _, hI3⟩

/-- The huge branch of `_mpz_palloc` keeps the invariant. -/
theorem hugeBranch_inv {c : Config} (hc : c.Sane) {P : Pool} {S : List SlabD}
    {F : Nat → List Nat} {U : List Nat} (hI : Inv c P S F U) {r : Nat}
    (hr : ∃ m, 1 ≤ m ∧ r = m * 2 ^ c.shift) (hr28 : r ≤ 2 ^ 28)
    (hrb : c.bins <<< c.shift < r) (os : Option Nat)
    (hos : OsOk c (pallocHuge c P r os).2.live) :
    ∃ S1 F1, Inv c (pallocHuge c P r os).2 S1 F1
      (if (pallocHuge c P r os).1 = 0 then U else (pallocHuge c P r os).1 :: U) := by
  cases os with
  | none =>
    rw [pallocHuge_none]
    refine ⟨S, F, ?_⟩
    simp only [if_true]
    exact hI.of_eq rfl rfl rfl rfl rfl
  | some b =>
    by_cases hb0 : b = 0
    · exfalso
      subst hb0
      have h1 : (_mpz_slab_create c P (r + MPZ_SLOT_SIZE c) (some 0)).1 = 0 := by
        simp [_mpz_slab_create, mpz_memalign]
      have hres : (pallocHuge c P r (some 0)).2
          = (_mpz_slab_create c P (r + MPZ_SLOT_SIZE c) (some 0)).2 := by
        unfold pallocHuge
        simp only [h1, if_true]
      rw [hres] at hos
      exact osok_no_null hos (slab_create_zero_live c P _)
    · have hlive : (pallocHuge c P r (some b)).2.live = slabBlock c ⟨b, r, true⟩ :: P.live := by
        unfold pallocHuge
        rw [slab_create_some c P _ b hb0]
        simp [hb0, _mpz_slab_push, slabBlock, blockLen, nslots]
      rw [hlive] at hos
      have hok : SlabOk c ⟨b, r, true⟩ := ⟨hr, hr28, by simp only [true_iff]; exact hrb⟩
      obtain ⟨hfst, hI2⟩ := huge_inv hc hI r b hok hos
      rw [hfst, if_neg (by simp [MPZ_SLOT_TO_DATA])]
      exact ⟨_, _, hI2⟩

/-- The function `_mpz_palloc` keeps the invariant; the returned pointer, when not `NULL`, joins the
live pointers. -/
theorem alloc_inv {c : Config} (hc : c.Sane) {P : Pool} {S : List SlabD}
    {F : Nat → List Nat} {U : List Nat} (hI : Inv c P S F U) (size : Nat) (z : Bool)
    (os : Option Nat) (hos : OsOk c (_mpz_palloc c P size z os).2.live) :
    ∃ S1 F1, Inv c (_mpz_palloc c P size z os).2 S1 F1
      (if (_mpz_palloc c P size z os).1 = 0 then U
        else (_mpz_palloc c P size z os).1 :: U) := by
  by_cases hrej : ¬ size < MPZ_POOL_MIN_ALLOC c ∧ size > MPZ_POOL_MAX_ALLOC
  · have : _mpz_palloc c P size z os = (0, P) := by
      unfold _mpz_palloc; rw [if_pos hrej]
    rw [this]
    exact ⟨S, F, by simpa using hI⟩
  · have hsz : size ≤ MPZ_POOL_MAX_ALLOC := by
      by_contra hgt
      apply hrej
      refine ⟨?_, by omega⟩
      rw [MPZ_POOL_MIN_ALLOC, slots_alignment_eq]
      rw [max_alloc_eq] at hgt
      have := hc.align_le
      omega
    obtain ⟨m, hm1, hm, hm28, _⟩ := allocSize_mul hc hsz
    have hdisp : _mpz_palloc c P size z os =
        if allocSize c size > c.bins <<< c.shift then pallocHuge c P (allocSize c size) os
        else pallocPooled c P (allocSize c size) z os := by
      unfold _mpz_palloc
      rw [if_neg hrej]
    by_cases hh : allocSize c size > c.bins <<< c.shift
    · rw [hdisp, if_pos hh] at hos ⊢
      exact hugeBranch_inv hc hI ⟨m, hm1, hm⟩ (by rw [hm]; exact hm28) hh os hos
    · rw [hdisp, if_neg hh] at hos ⊢
      exact pooled_inv hc hI ⟨m, hm1, hm⟩ (by rw [hm]; exact hm28) (by omega) z os hos

theorem reach_inv {c : Config} (hc : c.Sane) {P : Pool} {U : List Nat}
    (hR : Reach c P U) : ∃ S F, Inv c P S F U := by
  induction hR with
  | create h os P hP hos => exact ⟨_, _, create_inv hP hos⟩
  | alloc P U size z os _ hos hne ih =>
    obtain ⟨S, F, hI⟩ := ih
    obtain ⟨S1, F1, hI1⟩ := alloc_inv hc hI size z os hos
    rw [if_neg hne] at hI1
    exact ⟨S1, F1, hI1⟩
  | allocFail P U size z os _ hos heq ih =>
    obtain ⟨S, F, hI⟩ := ih
    obtain ⟨S1, F1, hI1⟩ := alloc_inv hc hI size z os hos
    rw [if_pos heq] at hI1
    exact ⟨S1, F1, hI1⟩
  | free P U p P1 _ hp hfree ih =>
    obtain ⟨S, F, hI⟩ := ih
    obtain ⟨P2, S1, F1, h1, hI1⟩ := free_inv hc hI hp
    rw [h1] at hfree
    cases hfree
    exact ⟨S1, F1, hI1⟩

/-! ## Claims -/

theorem poolS_created : mpz_pool_create cfgS heapAA (some 1024) = some poolS := rfl

theorem poolS_osok : OsOk cfgS poolS.live := by
  refine ⟨?_, ?_⟩
  · intro b hb
    simp only [poolS, List.mem_singleton] at hb
    subst hb
    exact ⟨by decide, by decide, by decide⟩
  · simp [poolS]

theorem poolS_reach : Reach cfgS poolS [] :=
  Reach.create heapAA (some 1024) poolS poolS_created poolS_osok

theorem poolA_osok : OsOk cfgS (_mpz_palloc cfgS poolS 16 false (some 4096)).2.live := by
  have e : (_mpz_palloc cfgS poolS 16 false (some 4096)).2.live
      = [(4096, 144), (1024, 80)] := by decide
  rw [e]
  refine ⟨?_, ?_⟩
  · intro b hb
    simp only [List.mem_cons, List.mem_singleton, List.not_mem_nil, or_false] at hb
    rcases hb with rfl | rfl
    · exact ⟨by decide, by decide, by decide⟩
    · exact ⟨by decide, by decide, by decide⟩
  · simp [BlocksDisjoint]

/-- C1, counterexample. On a fresh pool, with the OS placing the slab at the
`MPZ_ALLOC_ALIGNMENT`-aligned address 4096, `mpz_pmalloc(pool, 16)` succeeds and returns
4116, which is not a multiple of `MPZ_ALLOC_ALIGNMENT = 16`. -/
theorem data_pointer_unaligned :
    Reach cfgS poolS [] ∧ MPZ_ALLOC_ALIGNMENT cfgS ∣ 4096 ∧
    OsOk cfgS (mpz_pmalloc cfgS poolS 16 (some 4096)).2.live ∧
    (mpz_pmalloc cfgS poolS 16 (some 4096)).1 = 4116 ∧
    ¬ MPZ_ALLOC_ALIGNMENT cfgS ∣ (mpz_pmalloc cfgS poolS 16 (some 4096)).1 :=
  ⟨poolS_reach, by decide, poolA_osok, by decide, by decide⟩

/-- C1, amended. In every reachable state, for every successful `mpz_pmalloc` or
`mpz_pcalloc` call (any path, any slot), when the OS hands out blocks aligned to
`MPZ_ALLOC_ALIGNMENT`, the slot address (the returned data pointer minus
`sizeof(uint32) = 4`) is a multiple of `MPZ_ALLOC_ALIGNMENT`; the data pointer itself is
congruent to 4 modulo `MPZ_ALLOC_ALIGNMENT`. -/
theorem data_pointer_alignment (c : Config) (hc : c.Sane) (P : Pool) (U : List Nat)
    (hR : Reach c P U) (size : Nat) (z : Bool) (os : Option Nat)
    (hos : OsOk c (_mpz_palloc c P size z os).2.live)
    (hne : (_mpz_palloc c P size z os).1 ≠ 0) :
    (_mpz_palloc c P size z os).1 = MPZ_SLOT_TO_DATA (MPZ_DATA_TO_SLOT (_mpz_palloc c P size z os).1) ∧
    MPZ_ALLOC_ALIGNMENT c ∣ MPZ_DATA_TO_SLOT (_mpz_palloc c P size z os).1 ∧
    (_mpz_palloc c P size z os).1 % MPZ_ALLOC_ALIGNMENT c = 4 := by
  obtain ⟨S, F, hI⟩ := reach_inv hc hR
  obtain ⟨S1, F1, hI1⟩ := alloc_inv hc hI size z os hos
  rw [if_neg hne] at hI1
  obtain ⟨d, hd, a, hda, hpa, _⟩ := hI1.used_mem _ (List.mem_cons_self _ _)
  obtain ⟨_, _, h16⟩ := hI1.geo.slot_lt hc hd hda
  rw [hpa, alloc_alignment_eq hc]
  have e : MPZ_DATA_TO_SLOT (MPZ_SLOT_TO_DATA a) = a := by
    simp [MPZ_DATA_TO_SLOT, MPZ_SLOT_TO_DATA]
  rw [e]
  refine ⟨rfl, h16, ?_⟩
  unfold MPZ_SLOT_TO_DATA
  omega

theorem data_pointer_alignment_witness :
    (_mpz_palloc cfgS poolS 16 false (some 4096)).1
      = MPZ_SLOT_TO_DATA (MPZ_DATA_TO_SLOT (_mpz_palloc cfgS poolS 16 false (some 4096)).1) ∧
    MPZ_ALLOC_ALIGNMENT cfgS ∣ MPZ_DATA_TO_SLOT (_mpz_palloc cfgS poolS 16 false (some 4096)).1 ∧
    (_mpz_palloc cfgS poolS 16 false (some 4096)).1 % MPZ_ALLOC_ALIGNMENT cfgS = 4 :=
  data_pointer_alignment cfgS ⟨rfl, by decide, by decide, by decide, by decide⟩ poolS []
    (Reach.create heapAA (some 1024) poolS rfl poolS_osok) 16 false (some 4096)
    poolA_osok (by decide)

/-- C2, evaluation at the failing input. On a fresh pool whose memory holds stale bytes
`0xAA`, `mpz_pcalloc(pool, 129)` takes the huge path (129 rounds to 144 > 128), succeeds
with the data pointer 4116, and the first byte of the data region is still `0xAA`. -/
theorem calloc_huge_not_zeroed :
    allocSize cfgS 129 = 144 ∧ cfgS.bins <<< cfgS.shift = 128 ∧
    (mpz_pcalloc cfgS poolS 129 (some 4096)).1 = 4116 ∧
    (mpz_pcalloc cfgS poolS 129 (some 4096)).2.heap 4116 = 0xAA :=
  ⟨by decide, by decide, by decide, by decide⟩

/-- On the pooled path `mpz_pcalloc` zero-fills the whole rounded payload, hence the
`size` bytes asked for. -/
theorem calloc_pooled_zeroed (c : Config) (hc : c.Sane) (P : Pool) (size : Nat)
    (os : Option Nat) (hs : size ≤ MPZ_POOL_MAX_ALLOC)
    (hp : allocSize c size ≤ c.bins <<< c.shift)
    (hne : (mpz_pcalloc c P size os).1 ≠ 0) (x : Nat)
    (h1 : (mpz_pcalloc c P size os).1 ≤ x) (h2 : x < (mpz_pcalloc c P size os).1 + size) :
    (mpz_pcalloc c P size os).2.heap x = 0 := by
  obtain ⟨m, _, hm, _, hle⟩ := allocSize_mul hc hs
  have hdisp : mpz_pcalloc c P size os = pallocPooled c P (allocSize c size) true os := by
    unfold mpz_pcalloc _mpz_palloc
    rw [if_neg (by omega), if_neg (by omega)]
  rw [hdisp] at hne h1 h2 ⊢
  unfold pallocPooled at hne h1 h2 ⊢
  simp only [] at hne h1 h2 ⊢
  split at hne
  · rename_i hb
    simp only [hb, if_true] at h1 h2 ⊢
    split at hne
    · exact absurd rfl hne
    · rename_i hr
      simp only [hr, if_false] at h1 h2 ⊢
      rw [pallocPop_fst] at h1 h2
      exact pop_zero c _ _ _ h1 (by omega)
  · rename_i hb
    simp only [hb, if_false] at h1 h2 ⊢
    rw [pallocPop_fst] at h1 h2
    exact pop_zero c _ _ _ h1 (by omega)

theorem poolR_eq : mpz_pool_reset cfgS 1 poolA = .ok poolR := rfl

theorem poolR_next : rd poolR.heap (slabNext cfgS 4096) cfgS.ptr = 4096 := by decide

/-- C4, evaluation at the failing input. After `create`, `mpz_pmalloc(pool, 16)` and
`mpz_pool_reset`, the only slab is its own successor: following `next` from
`pool->slabs` never reaches `NULL`. -/
theorem reset_makes_slab_list_cyclic :
    mpz_pool_reset cfgS 1 (mpz_pmalloc cfgS poolS 16 (some 4096)).2 = .ok poolR ∧
    poolR.slabs = 4096 ∧ poolR.live = [(4096, 144), (1024, 80)] ∧
    ∀ n, slabWalk cfgS poolR.heap n poolR.slabs = 4096 := by
  refine ⟨rfl, by decide, by decide, ?_⟩
  have hs : poolR.slabs = 4096 := by decide
  rw [hs]
  intro n
  induction n with
  | zero => rfl
  | succ n ih =>
    simp only [slabWalk]
    rw [poolR_next]
    exact ih

/-- C6, evaluation at the failing input. `mpz_pool_destroy` after `create`,
`mpz_pmalloc(pool, 16)` and `mpz_pool_reset` never completes normally: the loop of
`_mpz_pool_gc` releases the slab, reads `slab->next` from the released slab, finds the
slab itself and releases it a second time (`Fault.badFree`), whatever the iteration
budget; with a budget of one iteration it is cut off after the first release. -/
theorem destroy_after_reset_double_free :
    mpz_pool_reset cfgS 1 (mpz_pmalloc cfgS poolS 16 (some 4096)).2 = .ok poolR ∧
    mpz_pool_destroy cfgS 0 poolR = .error .fuel ∧
    mpz_pool_destroy cfgS 1 poolR = .error .fuel ∧
    ∀ fuel, mpz_pool_destroy cfgS (fuel + 2) poolR = .error .badFree :=
  ⟨rfl, rfl, rfl, fun _ => rfl⟩

/-! ## A soft reset on a slab that is its own successor never ends -/

theorem push_self_next {c : Config} (hc : c.Sane) (Q : Pool) {a : Nat} (ha : a ≠ 0)
    (ha64 : a < 2 ^ 64) (hs : Q.slabs = a) :
    (_mpz_slab_push c Q a).slabs = a ∧ (_mpz_slab_push c Q a).bins = Q.bins ∧
    rd (_mpz_slab_push c Q a).heap (a + 8) 8 = a ∧
    Frame Q.heap (_mpz_slab_push c Q a).heap a (a + 16) := by
  have h256 : (256:Nat) ^ 8 = 2 ^ 64 := by norm_num
  have hnext : rd (wr (wr Q.heap a 8 0) (a + 8) 8 a) (a + 8) 8 = a :=
    rd_wr_val (by rw [h256]; exact ha64)
  have hheap : (_mpz_slab_push c Q a).heap = wr (wr (wr Q.heap a 8 0) (a + 8) 8 a) a 8 a := by
    simp only [_mpz_slab_push, slabNext, hc.ptr8, hs, hnext, ne_eq, ha, not_false_eq_true,
      if_true]
  refine ⟨rfl, rfl, ?_, ?_⟩
  · rw [hheap, rd_wr_disj (by omega)]
    exact hnext
  · rw [hheap]
    have f1 : Frame Q.heap (wr Q.heap a 8 0) a (a + 16) :=
      frame_wr _ _ (Nat.le_refl a) (by omega)
    have f2 : Frame (wr Q.heap a 8 0) (wr (wr Q.heap a 8 0) (a + 8) 8 a) a (a + 16) :=
      frame_wr _ _ (by omega) (Nat.le_refl _)
    have f3 : Frame (wr (wr Q.heap a 8 0) (a + 8) 8 a)
        (wr (wr (wr Q.heap a 8 0) (a + 8) 8 a) a 8 a) a (a + 16) :=
      frame_wr _ _ (Nat.le_refl a) (by omega)
    exact (f1.andThen f2).andThen f3

theorem gcLoop_cycle {c : Config} (hc : c.Sane) {a r : Nat} (ha : a ≠ 0)
    (hr16 : 16 ≤ r) (hr30 : r < 2 ^ 30) (hidx : MPZ_BIN_IDX c r < c.bins)
    (hend : a + 16 + c.mul * (r + 16) ≤ 2 ^ 64) :
    ∀ (fuel : Nat) (Q : Pool), Q.slabs = a → rd Q.heap (a + 8) 8 = a →
      MPZ_SLOT_READ_SIZE Q.heap (a + 16) = r →
      MPZ_SLOT_READ_HEAD Q.heap (a + 16) &&& MPZ_SLOT_FLAG_HUGE = 0 →
      Q.bins (MPZ_BIN_IDX c r) < 2 ^ 64 →
      gcLoop c true fuel a Q = .error .fuel := by
  have hmul := hc.mul_pos
  have hK : 1 * (r + 16) ≤ c.mul * (r + 16) := Nat.mul_le_mul_right _ hmul
  intro fuel
  induction fuel with
  | zero =>
    intro Q _ _ _ _ _
    simp [gcLoop, ha]
  | succ fuel ih =>
    intro Q hs hnext hsize hhuge hb
    obtain ⟨ps, pb, pn, pf⟩ := push_self_next hc Q ha (by omega) hs
    have hslot : MPZ_SLAB_TO_SLOT c a = a + 16 := by simp [MPZ_SLAB_TO_SLOT, slab_size_eq hc]
    have hsize1 : MPZ_SLOT_READ_SIZE (_mpz_slab_push c Q a).heap (a + 16) = r := by
      unfold MPZ_SLOT_READ_SIZE MPZ_SLOT_READ_HEAD at hsize ⊢
      rw [pf.rd (by omega)]
      exact hsize
    have hstep : gcLoop c true (fuel + 1) a Q
        = gcLoop c true fuel a (_mpz_slab_init c (_mpz_slab_push c Q a) a r) := by
      simp only [gcLoop, ha, if_false, hslot, slabNext, hc.ptr8, hnext, hhuge, hsize1, hidx,
        if_true, Bool.not_true, Bool.false_or, ne_eq, not_true_eq_false, decide_False]
      rfl
    rw [hstep]
    obtain ⟨hf, hg, hbins⟩ := slabInitLoop_spec hc a r (MPZ_BIN_IDX c r) hr16 hr30 hend
      c.mul 0 (_mpz_slab_push c Q a) (by omega) (by rw [pb]; exact hb)
    obtain ⟨fs, _, _, _⟩ := slabInitLoop_frame c a r (MPZ_BIN_IDX c r) c.mul 0
      (MPZ_SLAB_TO_SLOT c a) (_mpz_slab_push c Q a)
    have hinit : _mpz_slab_init c (_mpz_slab_push c Q a) a r
        = slabInitLoop c a r (MPZ_BIN_IDX c r) c.mul 0 (a + 16 + 0 * (r + 16))
            (_mpz_slab_push c Q a) := by
      unfold _mpz_slab_init
      rw [hslot]
      simp
    rw [hslot] at fs
    have e0 : a + 16 + 0 * (r + 16) = a + 16 := by simp
    rw [e0] at hinit hf hg hbins
    rw [← hinit] at hf hg hbins fs
    have hg0 := (hg 0 (Nat.le_refl 0) hmul).1
    rw [e0] at hg0
    apply ih
    · rw [fs, ps]
    · rw [hf.rd (by omega)]
      exact pn
    · unfold MPZ_SLOT_READ_SIZE MPZ_SLOT_READ_HEAD
      rw [hg0.1]
      have := @stamp_size 0 r hr30
      simpa using this
    · unfold MPZ_SLOT_READ_HEAD
      rw [hg0.1, flag_huge_eq]
      have := @stamp_test_huge 0 r (by decide) hr30
      simpa using this
    · rw [hbins, if_neg (by omega)]
      simp only [upd, if_true, hslot]
      omega

/-- C5, evaluation at the failing input. After `create`, `mpz_pmalloc(pool, 16)` and a
first `mpz_pool_reset`, a second `mpz_pool_reset` does not terminate: whatever the
iteration budget, the loop of `_mpz_pool_gc` is still running when it is used up. -/
theorem second_reset_never_terminates :
    mpz_pool_reset cfgS 1 (mpz_pmalloc cfgS poolS 16 (some 4096)).2 = .ok poolR ∧
    ∀ fuel, mpz_pool_reset cfgS fuel poolR = .error .fuel := by
  refine ⟨rfl, ?_⟩
  intro fuel
  have hs : poolR.slabs = 4096 := by decide
  unfold mpz_pool_reset _mpz_pool_gc
  simp only [hs, Bool.not_true, Bool.false_eq_true, if_false]
  exact gcLoop_cycle cfgS_sane (a := 4096) (r := 16) (by decide) (by decide) (by decide)
    (by decide) (by decide) fuel _ hs (by decide) (by decide) (by decide) (by decide)

/-! ## Huge round trip -/

theorem pallocHuge_frame (c : Config) (P : Pool) (r : Nat) {b : Nat} (hb : b ≠ 0) :
    (pallocHuge c P r (some b)).2.self = P.self ∧
    (pallocHuge c P r (some b)).2.slabs = b ∧
    (pallocHuge c P r (some b)).2.oscalls = P.oscalls + 1 ∧
    (pallocHuge c P r (some b)).2.live
      = (b, r + MPZ_SLOT_SIZE c + MPZ_SLAB_SIZE c) :: P.live := by
  unfold pallocHuge
  rw [slab_create_some c P _ b hb]
  simp [hb, _mpz_slab_push]

/-- Huge round trip before any reset: in every state reached from `create` by allocations
and frees of live pointers, a successful allocation whose rounded size exceeds
`MPZ_BINS << MPZ_BINS_BIT_SHIFT` puts exactly one new slab at the head of the slab list
(its `prev` is `NULL`, its `next` the old head, its block the only new OS block), holding
one slot stamped `HUGE | USED | size`, and leaves all bins unchanged; `mpz_free` of the
returned pointer succeeds and brings back the slab list head, the bins and the OS block
table, and the pool is again described by the same slab list `S` and the same free lists
`F` as before the allocation. -/
theorem huge_round_trip (c : Config) (hc : c.Sane) (P : Pool) (U : List Nat)
    (hR : Reach c P U) (size : Nat) (z : Bool) (b : Nat)
    (hs : size ≤ MPZ_POOL_MAX_ALLOC) (hh : c.bins <<< c.shift < allocSize c size)
    (hos : OsOk c (_mpz_palloc c P size z (some b)).2.live) :
    (_mpz_palloc c P size z (some b)).1 = MPZ_SLOT_TO_DATA (MPZ_SLAB_TO_SLOT c b) ∧
    (_mpz_palloc c P size z (some b)).1 ≠ 0 ∧
    (_mpz_palloc c P size z (some b)).2.slabs = b ∧
    rd (_mpz_palloc c P size z (some b)).2.heap b c.ptr = 0 ∧
    rd (_mpz_palloc c P size z (some b)).2.heap (slabNext c b) c.ptr = P.slabs ∧
    (_mpz_palloc c P size z (some b)).2.live
      = (b, allocSize c size + MPZ_SLOT_SIZE c + MPZ_SLAB_SIZE c) :: P.live ∧
    (_mpz_palloc c P size z (some b)).2.bins = P.bins ∧
    Guarded (_mpz_palloc c P size z (some b)).2.heap (MPZ_SLAB_TO_SLOT c b) (allocSize c size)
      (MPZ_SLOT_FLAG_HUGE ||| MPZ_SLOT_FLAG_USED ||| allocSize c size) ∧
    ∃ P2, mpz_free c (_mpz_palloc c P size z (some b)).2 (_mpz_palloc c P size z (some b)).1
        = .ok P2 ∧
      P2.slabs = P.slabs ∧ P2.bins = P.bins ∧ P2.live = P.live ∧
      ∃ S F, Inv c P S F U ∧
        Inv c (_mpz_palloc c P size z (some b)).2 (⟨b, allocSize c size, true⟩ :: S) F
          ((_mpz_palloc c P size z (some b)).1 :: U) ∧
        Inv c P2 S F U := by
  obtain ⟨S, F, hI⟩ := reach_inv hc hR
  obtain ⟨m, hm1, hm, hm28, _⟩ := allocSize_mul hc hs
  have hdisp : _mpz_palloc c P size z (some b) = pallocHuge c P (allocSize c size) (some b) := by
    unfold _mpz_palloc
    rw [if_neg (by omega), if_pos hh]
  rw [hdisp] at hos ⊢
  generalize allocSize c size = r at *
  have hb0 : b ≠ 0 := by
    rintro rfl
    have h1 : (_mpz_slab_create c P (r + MPZ_SLOT_SIZE c) (some 0)).1 = 0 := by
      simp [_mpz_slab_create, mpz_memalign]
    have hres : (pallocHuge c P r (some 0)).2
        = (_mpz_slab_create c P (r + MPZ_SLOT_SIZE c) (some 0)).2 := by
      unfold pallocHuge
      simp only [h1, if_true]
    rw [hres] at hos
    exact osok_no_null hos (slab_create_zero_live c P _)
  obtain ⟨fself, fslabs, _, flive⟩ := pallocHuge_frame c P r hb0
  have hos2 : OsOk c (slabBlock c ⟨b, r, true⟩ :: P.live) := by
    rw [flive] at hos
    simpa [slabBlock, blockLen, nslots] using hos
  have hok : SlabOk c ⟨b, r, true⟩ :=
    ⟨⟨m, hm1, hm⟩, by rw [hm]; exact hm28, by simp only [true_iff]; exact hh⟩
  obtain ⟨hfst, hI2⟩ := huge_inv hc hI r b hok hos2
  have hr30 : r < 2 ^ 30 := by
    have : (2:Nat) ^ 28 < 2 ^ 30 := by decide
    omega
  -- the new slab is the head of the chain
  have hch := hI2.chain
  rw [List.map_cons] at hch
  obtain ⟨_, hprev, hrest⟩ := hch
  have hnext : rd (pallocHuge c P r (some b)).2.heap (slabNext c b) c.ptr = P.slabs := by
    have h0 := hI.chain
    cases hS : S.map SlabD.base with
    | nil =>
      rw [hS] at hrest h0
      have e1 : P.slabs = 0 := h0
      rw [e1]; exact hrest
    | cons x xs =>
      rw [hS] at hrest h0
      rw [hrest.1, h0.1]
  -- the stamp
  obtain ⟨d, hd, a, hda, hpa, hag⟩ := hI2.used_mem _ (List.mem_cons_self _ _)
  have hguard : Guarded (pallocHuge c P r (some b)).2.heap (MPZ_SLAB_TO_SLOT c b) r
      (MPZ_SLOT_FLAG_HUGE ||| MPZ_SLOT_FLAG_USED ||| r) := by
    have ha : a = MPZ_SLAB_TO_SLOT c b := by
      unfold MPZ_SLOT_TO_DATA at hpa
      omega
    subst ha
    have hd' : d = ⟨b, r, true⟩ :=
      hI2.geo.slot_unique hc hd (List.mem_cons_self _ _) hda
        ((isSlot_huge (d := ⟨b, r, true⟩) rfl).mpr rfl)
    subst hd'
    simpa [usedStamp] using hag
  -- free
  have hp : MPZ_SLOT_TO_DATA (MPZ_SLAB_TO_SLOT c (SlabD.mk b r true).base)
      ∈ MPZ_SLOT_TO_DATA (MPZ_SLAB_TO_SLOT c b) :: U := List.mem_cons_self _ _
  obtain ⟨P2, hfree, hb2, hs2, _, hself2, hI3⟩ :=
    @free_huge_inv c hc _ [] S _ _ ⟨b, r, true⟩ hI2 rfl hp
  simp only [List.nil_append, if_true, List.erase_cons_head] at hs2 hI3
  have hslabs : P2.slabs = P.slabs := by
    rw [hs2]
    have h0 := hI.chain
    cases hS : S.map SlabD.base with
    | nil =>
      rw [hS] at h0
      have e1 : P.slabs = 0 := h0
      rw [e1]; rfl
    | cons x xs =>
      rw [hS] at h0
      rw [h0.1]; rfl
  refine ⟨hfst, by rw [hfst]; simp [MPZ_SLOT_TO_DATA], fslabs, hprev, hnext, flive,
    pallocHuge_bins c P r _, hguard, P2, ?_, hslabs, ?_, ?_, S, F, hI, ?_, hI3⟩
  · rw [hfst]; exact hfree
  · rw [hb2]; exact pallocHuge_bins c P r _
  · rw [hI3.live_eq, hI.live_eq, hself2, fself]
  · rw [hfst]; exact hI2

theorem hugeS_osok : OsOk cfgS (_mpz_palloc cfgS poolS (1 <<< 20) false (some 4096)).2.live := by
  have e : (_mpz_palloc cfgS poolS (1 <<< 20) false (some 4096)).2.live
      = [(4096, 1048608), (1024, 80)] := by decide
  rw [e]
  refine ⟨?_, ?_⟩
  · intro b hb
    simp only [List.mem_cons, List.mem_singleton, List.not_mem_nil, or_false] at hb
    rcases hb with rfl | rfl
    · exact ⟨by decide, by decide, by decide⟩
    · exact ⟨by decide, by decide, by decide⟩
  · simp [BlocksDisjoint]

theorem huge_round_trip_witness :
    (_mpz_palloc cfgS poolS (1 <<< 20) false (some 4096)).1
      = MPZ_SLOT_TO_DATA (MPZ_SLAB_TO_SLOT cfgS 4096) ∧
    (_mpz_palloc cfgS poolS (1 <<< 20) false (some 4096)).1 ≠ 0 ∧
    (_mpz_palloc cfgS poolS (1 <<< 20) false (some 4096)).2.slabs = 4096 ∧
    rd (_mpz_palloc cfgS poolS (1 <<< 20) false (some 4096)).2.heap 4096 cfgS.ptr = 0 ∧
    rd (_mpz_palloc cfgS poolS (1 <<< 20) false (some 4096)).2.heap (slabNext cfgS 4096) cfgS.ptr
      = poolS.slabs ∧
    (_mpz_palloc cfgS poolS (1 <<< 20) false (some 4096)).2.live
      = (4096, allocSize cfgS (1 <<< 20) + MPZ_SLOT_SIZE cfgS + MPZ_SLAB_SIZE cfgS)
          :: poolS.live ∧
    (_mpz_palloc cfgS poolS (1 <<< 20) false (some 4096)).2.bins = poolS.bins ∧
    Guarded (_mpz_palloc cfgS poolS (1 <<< 20) false (some 4096)).2.heap
      (MPZ_SLAB_TO_SLOT cfgS 4096) (allocSize cfgS (1 <<< 20))
      (MPZ_SLOT_FLAG_HUGE ||| MPZ_SLOT_FLAG_USED ||| allocSize cfgS (1 <<< 20)) ∧
    ∃ P2, mpz_free cfgS (_mpz_palloc cfgS poolS (1 <<< 20) false (some 4096)).2
        (_mpz_palloc cfgS poolS (1 <<< 20) false (some 4096)).1 = .ok P2 ∧
      P2.slabs = poolS.slabs ∧ P2.bins = poolS.bins ∧ P2.live = poolS.live ∧
      ∃ S F, Inv cfgS poolS S F [] ∧
        Inv cfgS (_mpz_palloc cfgS poolS (1 <<< 20) false (some 4096)).2
          (⟨4096, allocSize cfgS (1 <<< 20), true⟩ :: S) F
          ((_mpz_palloc cfgS poolS (1 <<< 20) false (some 4096)).1 :: []) ∧
        Inv cfgS P2 S F [] :=
  huge_round_trip cfgS ⟨rfl, by decide, by decide, by decide, by decide⟩ poolS []
    (Reach.create heapAA (some 1024) poolS rfl poolS_osok) (1 <<< 20) false 4096
    (by decide) (by decide) hugeS_osok

/-! ## LIFO reuse -/

/-- The size field of the head of any slot of a well-formed pool is the slot size of its
slab. -/
theorem Inv.read_size {c : Config} (hc : c.Sane) {P : Pool} {S : List SlabD}
    {F : Nat → List Nat} {U : List Nat} (hI : Inv c P S F U) {d : SlabD} (hd : d ∈ S)
    {a : Nat} (hda : IsSlot c d a) : MPZ_SLOT_READ_SIZE P.heap a = d.size := by
  have hG := hI.geo
  obtain ⟨_, hs28, _⟩ := hG.size_ok hc hd
  have hr30 : d.size < 2 ^ 30 := by
    have : (2:Nat) ^ 28 < 2 ^ 30 := by decide
    omega
  unfold MPZ_SLOT_READ_SIZE MPZ_SLOT_READ_HEAD
  rcases hI.total d hd a hda with h | h
  · obtain ⟨e, he, b, heb, hpb, hbg⟩ := hI.used_mem _ h
    have hab : a = b := by unfold MPZ_SLOT_TO_DATA at hpb; omega
    subst hab
    have := hG.slot_unique hc hd he hda heb
    subst this
    rw [hbg.1]
    cases hh : d.huge with
    | false => rw [usedStamp_pooled hh hr30]; exact stamp_size hr30
    | true => rw [usedStamp_huge hh hr30]; exact stamp_size hr30
  · obtain ⟨e, he, hea, _, _, heg⟩ := hI.free_mem _ a h
    have := hG.slot_unique hc hd he hda hea
    subst this
    rw [heg.1]
    have := @stamp_size 0 d.size hr30
    simpa using this

theorem lifo_loop {c : Config} (hc : c.Sane) {S : List SlabD} {r : Nat} {L0 : List Nat} :
    ∀ (ops : List Op) (P : Pool) (U st : List Nat) (F : Nat → List Nat) (res : List Nat),
      Inv c P S F U →
      F (MPZ_BIN_IDX c r) = st.map MPZ_DATA_TO_SLOT ++ L0 →
      (∀ p ∈ st, p = MPZ_SLOT_TO_DATA (MPZ_DATA_TO_SLOT p)) →
      (∀ p, Op.free p ∈ ops → ∀ d ∈ S, ∀ a, IsSlot c d a → p = MPZ_SLOT_TO_DATA a →
        d.size = r ∧ d.huge = false) →
      (∀ size z os, Op.alloc size z os ∈ ops →
        size ≤ MPZ_POOL_MAX_ALLOC ∧ allocSize c size = r) →
      lifoModel U st ops = some res →
      ∃ P1, runOps c P ops = .ok (res, P1) := by
  intro ops
  induction ops with
  | nil =>
    intro P U st F res _ _ _ _ _ hm
    simp only [lifoModel, Option.some.injEq] at hm
    subst hm
    exact ⟨P, rfl⟩
  | cons op ops ih =>
    intro P U st F res hI hF hst hH hA hm
    cases op with
    | free p =>
      simp only [lifoModel] at hm
      split at hm
      · rename_i hpU
        obtain ⟨d, hd, a, hda, hpa, _⟩ := hI.used_mem p hpU
        obtain ⟨hsz, hdh⟩ := hH p (List.mem_cons_self _ _) d hd a hda hpa
        subst hpa
        obtain ⟨hfree, hI2⟩ := free_pooled_inv hc hI hd hda hpU hdh
        rw [hsz] at hfree hI2
        have hds : MPZ_DATA_TO_SLOT (MPZ_SLOT_TO_DATA a) = a := by
          simp [MPZ_DATA_TO_SLOT, MPZ_SLOT_TO_DATA]
        obtain ⟨P1, h1⟩ := ih (freePush c P a r) _ (MPZ_SLOT_TO_DATA a :: st) _ res hI2
          (by rw [Function.update_same, hF, List.map_cons, hds]; rfl)
          (by
            intro q hq
            rcases List.mem_cons.mp hq with rfl | hq
            · rw [hds]
            · exact hst q hq)
          (fun q hq => hH q (List.mem_cons_of_mem _ hq))
          (fun size z os hq => hA size z os (List.mem_cons_of_mem _ hq))
          hm
        exact ⟨P1, by simp only [runOps, hfree]; exact h1⟩
      · cases hm
    | alloc size z os =>
      cases st with
      | nil => simp [lifoModel] at hm
      | cons p st =>
        simp only [lifoModel, Option.map_eq_some'] at hm
        obtain ⟨res1, hm1, rfl⟩ := hm
        obtain ⟨hsz, hr⟩ := hA size z os (List.mem_cons_self _ _)
        obtain ⟨m, hm1', hmr, hm28, _⟩ := allocSize_mul hc hsz
        rw [hr] at hmr
        rw [List.map_cons, List.cons_append] at hF
        have haF : MPZ_DATA_TO_SLOT p ∈ F (MPZ_BIN_IDX c r) := by
          rw [hF]; exact List.mem_cons_self _ _
        obtain ⟨e, he, hea, heh, hei, _⟩ := hI.free_mem _ _ haF
        have hidx : MPZ_BIN_IDX c r < c.bins := by
          rw [← hei]; exact (hI.slab_ok e he).idx_lt hc heh
        obtain ⟨d, hd, hda, _, hdi, hfst, hI2⟩ := pop_inv hc hI z hidx hF
        have hds : d.size = r :=
          bin_idx_inj hc (hI.slab_ok d hd).1 (hI.slab_ok d hd).2.1 ⟨m, hm1', hmr⟩
            (by rw [hmr]; exact hm28) hdi
        rw [hds] at hfst hI2
        have hp := hst p (List.mem_cons_self _ _)
        rw [← hp] at hfst hI2
        -- the call pops from the bin
        have hbins : P.bins (MPZ_BIN_IDX c r) = MPZ_DATA_TO_SLOT p := by
          have := hI.free_chain _ hidx
          rw [hF] at this
          exact this.1
        have hne : P.bins (MPZ_BIN_IDX c r) ≠ 0 := by
          rw [hbins]
          exact (hI.geo.slot_lt hc hd hda).1
        have hrb : ¬ r > c.bins <<< c.shift := by
          intro hgt
          have hsl := (hI.slab_ok d hd).2.2
          have := hsl.mpr (by rw [hds]; exact hgt)
          have hdh : d.huge = false := by
            obtain ⟨e2, he2, hea2, heh2, _, _⟩ := hI.free_mem _ _ haF
            have := hI.geo.slot_unique hc hd he2 hda hea2
            rw [this]; exact heh2
          rw [hdh] at this
          cases this
        have hcall : _mpz_palloc c P size z os = pallocPop c P r (MPZ_BIN_IDX c r) z := by
          unfold _mpz_palloc
          rw [if_neg (by omega)]
          simp only [hr, hrb, if_false]
          unfold pallocPooled
          simp only [hne, if_false]
        obtain ⟨P1, h1⟩ := ih _ _ st _ res1 hI2
          (by rw [Function.update_same])
          (fun q hq => hst q (List.mem_cons_of_mem _ hq))
          (fun q hq => hH q (List.mem_cons_of_mem _ hq))
          (fun size z os hq => hA size z os (List.mem_cons_of_mem _ hq))
          hm1
        refine ⟨P1, ?_⟩
        simp only [runOps, hcall, h1, hfst]

/-- C3. LIFO reuse. In every state reached from `create` by allocations and frees of live
pointers: (1) freeing a live pooled pointer `A` and then allocating a size that rounds to
the slot size of `A` returns exactly `A`; (2) for every sequence of allocations and frees
confined to one bin, whenever the stack discipline (an allocation takes the most recently
freed pointer that has not been handed out again) yields the answers `res`, the code
returns exactly these pointers. -/
theorem lifo_reuse (c : Config) (hc : c.Sane) (P : Pool) (U : List Nat)
    (hR : Reach c P U) (r : Nat) (hr : r ≤ c.bins <<< c.shift) :
    (∀ A ∈ U, MPZ_SLOT_READ_SIZE P.heap (MPZ_DATA_TO_SLOT A) = r →
      ∀ size z os, size ≤ MPZ_POOL_MAX_ALLOC → allocSize c size = r →
      ∃ P1, mpz_free c P A = .ok P1 ∧ (_mpz_palloc c P1 size z os).1 = A) ∧
    (∀ ops res, (∀ op ∈ ops, OpInBin c P r op) → lifoModel U [] ops = some res →
      ∃ P1, runOps c P ops = .ok (res, P1)) := by
  obtain ⟨S, F, hI⟩ := reach_inv hc hR
  have gen : ∀ ops res, (∀ op ∈ ops, OpInBin c P r op) → lifoModel U [] ops = some res →
      ∃ P1, runOps c P ops = .ok (res, P1) := by
    intro ops res hops hm
    apply @lifo_loop c hc S r (F (MPZ_BIN_IDX c r)) ops P U [] F res hI
      (by simp) (by intro p hp; cases hp) ?_ ?_ hm
    · intro p hp d hd a hda hpa
      have h1 : MPZ_SLOT_READ_SIZE P.heap (MPZ_DATA_TO_SLOT p) = r := hops _ hp
      have hds : MPZ_DATA_TO_SLOT p = a := by
        rw [hpa]; simp [MPZ_DATA_TO_SLOT, MPZ_SLOT_TO_DATA]
      rw [hds, hI.read_size hc hd hda] at h1
      refine ⟨h1, ?_⟩
      cases hh : d.huge with
      | false => rfl
      | true =>
        have := (hI.slab_ok d hd).2.2.mp hh
        omega
    · intro size z os hp
      exact hops _ hp
  refine ⟨?_, gen⟩
  intro A hA hsz size z os hs hrs
  obtain ⟨P1, h1⟩ := gen [Op.free A, Op.alloc size z os] [A]
    (by
      intro op hop
      simp only [List.mem_cons, List.mem_singleton, List.not_mem_nil, or_false] at hop
      rcases hop with rfl | rfl
      · exact hsz
      · exact ⟨hs, hrs⟩)
    (by simp [lifoModel, hA])
  simp only [runOps] at h1
  cases hf : mpz_free c P A with
  | error e => rw [hf] at h1; cases h1
  | ok P2 =>
    rw [hf] at h1
    simp only [Except.ok.injEq, Prod.mk.injEq, List.cons.injEq, and_true] at h1
    exact ⟨P2, rfl, h1.1⟩

/-! ## Soft reset -/

/-- The head of a slot of a pooled slab never carries the "huge" flag. -/
theorem Inv.read_huge {c : Config} (hc : c.Sane) {P : Pool} {S : List SlabD}
    {F : Nat → List Nat} {U : List Nat} (hI : Inv c P S F U) {d : SlabD} (hd : d ∈ S)
    (hdh : d.huge = false) {a : Nat} (hda : IsSlot c d a) :
    MPZ_SLOT_READ_HEAD P.heap a &&& MPZ_SLOT_FLAG_HUGE = 0 := by
  have hG := hI.geo
  obtain ⟨_, hs28, _⟩ := hG.size_ok hc hd
  have hr30 : d.size < 2 ^ 30 := by
    have : (2:Nat) ^ 28 < 2 ^ 30 := by decide
    omega
  unfold MPZ_SLOT_READ_HEAD
  rw [flag_huge_eq]
  rcases hI.total d hd a hda with h | h
  · obtain ⟨e, he, b, heb, hpb, hbg⟩ := hI.used_mem _ h
    have hab : a = b := by unfold MPZ_SLOT_TO_DATA at hpb; omega
    subst hab
    have := hG.slot_unique hc hd he hda heb
    subst this
    rw [hbg.1, usedStamp_pooled hdh hr30, stamp_test_huge (by decide) hr30]
    decide
  · obtain ⟨e, he, hea, _, _, heg⟩ := hI.free_mem _ a h
    have := hG.slot_unique hc hd he hda hea
    subst this
    rw [heg.1]
    have := @stamp_test_huge 0 d.size (by decide) hr30
    simpa using this

theorem Geo.cross_disj {c : Config} {S1 S2 : List SlabD} (hG : Geo c (S1 ++ S2))
    {d e : SlabD} (hd : d ∈ S1) (he : e ∈ S2) :
    d.base + blockLen c d ≤ e.base ∨ e.base + blockLen c e ≤ d.base := by
  have hp : (S1 ++ S2).Pairwise
      (fun x y => BlocksDisjoint (slabBlock c x) (slabBlock c y)) :=
    List.pairwise_map.mp hG.1.2
  rw [List.pairwise_append] at hp
  exact hp.2.2 d hd e he

theorem isSlot_zero {c : Config} (hc : c.Sane) (d : SlabD) :
    IsSlot c d (MPZ_SLAB_TO_SLOT c d.base) :=
  ⟨0, nslots_pos hc d, by simp [slotAt]⟩

/-- One iteration of the loop of a soft `_mpz_pool_gc` on a pooled slab. -/
theorem gcLoop_soft_step {c : Config} (hc : c.Sane) (Q : Pool) {b r : Nat} (fuel : Nat)
    (hb : b ≠ 0)
    (hhuge : MPZ_SLOT_READ_HEAD Q.heap (b + 16) &&& MPZ_SLOT_FLAG_HUGE = 0)
    (hsize : MPZ_SLOT_READ_SIZE (_mpz_slab_push c Q b).heap (b + 16) = r)
    (hidx : MPZ_BIN_IDX c r < c.bins) :
    gcLoop c true (fuel + 1) b Q
      = gcLoop c true fuel (rd Q.heap (b + 8) 8)
          (_mpz_slab_init c (_mpz_slab_push c Q b) b r) := by
  have hslot : MPZ_SLAB_TO_SLOT c b = b + 16 := by simp [MPZ_SLAB_TO_SLOT, slab_size_eq hc]
  simp only [gcLoop, hb, if_false, hslot, slabNext, hc.ptr8, hhuge, hsize, hidx,
    if_true, Bool.not_true, Bool.false_or, ne_eq, not_true_eq_false, decide_False]
  rfl

theorem ResetInv.slabs_header {c : Config} {P Q : Pool} {S1 S2 : List SlabD}
    {F G : Nat → List Nat} {U : List Nat} {d : SlabD}
    (hI : Inv c P (S1 ++ d :: S2) F U) (hQ : ResetInv c P Q S1 (d :: S2) G) :
    ∃ e ∈ S1 ++ [d], Q.slabs = e.base := by
  rcases hQ.slabs_mem with ⟨e, he, h⟩ | ⟨h1, h2⟩
  · exact ⟨e, List.mem_append_left _ he, h⟩
  · subst h1
    have := hI.chain
    simp only [List.nil_append, List.map_cons] at this
    exact ⟨d, by simp, by rw [h2]; exact this.1⟩

theorem blockLen_ge {c : Config} (hc : c.Sane) (d : SlabD) : d.size + 32 ≤ blockLen c d := by
  rw [blockLen_eq hc]
  have h3 := nslots_pos hc d
  have h4 : (d.size + 16) * 1 ≤ (d.size + 16) * nslots c d := Nat.mul_le_mul_left _ h3
  omega

theorem reset_step {c : Config} (hc : c.Sane) {P Q : Pool} {S1 S2 : List SlabD}
    {F G : Nat → List Nat} {U : List Nat} {d : SlabD}
    (hI : Inv c P (S1 ++ d :: S2) F U) (hnh : ∀ e ∈ S1 ++ d :: S2, e.huge = false)
    (hQ : ResetInv c P Q S1 (d :: S2) G) (fuel : Nat) :
    gcLoop c true (fuel + 1) d.base Q
      = gcLoop c true fuel ((S2.map SlabD.base).headD 0)
          (_mpz_slab_init c (_mpz_slab_push c Q d.base) d.base d.size) ∧
    ResetInv c P (_mpz_slab_init c (_mpz_slab_push c Q d.base) d.base d.size)
      (S1 ++ [d]) S2
      (Function.update G (MPZ_BIN_IDX c d.size)
        (slotList c d ++ G (MPZ_BIN_IDX c d.size))) := by
  have hG := hI.geo
  have hd : d ∈ S1 ++ d :: S2 := by simp
  have hdh := hnh d hd
  obtain ⟨hs16, hs28, _⟩ := hG.size_ok hc hd
  have hr30 : d.size < 2 ^ 30 := by
    have : (2:Nat) ^ 28 < 2 ^ 30 := by decide
    omega
  have hd0 := hG.base_ok hc hd
  have hbl := blockLen_ge hc d
  have hidx := (hI.slab_ok d hd).idx_lt hc hdh
  have hslot : MPZ_SLAB_TO_SLOT c d.base = d.base + 16 := by
    simp [MPZ_SLAB_TO_SLOT, slab_size_eq hc]
  have hS1mem : ∀ e ∈ S1, e ∈ S1 ++ d :: S2 := fun e he => List.mem_append_left _ he
  have hS2mem : ∀ e ∈ S2, e ∈ S1 ++ d :: S2 :=
    fun e he => List.mem_append_right _ (List.mem_cons_of_mem _ he)
  -- the old head of the slab list is the header of a slab of `S1 ++ [d]`
  obtain ⟨s0, hs0, hs0b⟩ := hQ.slabs_header hI
  have hs0S : s0 ∈ S1 ++ d :: S2 := by
    rcases List.mem_append.mp hs0 with h | h
    · exact hS1mem s0 h
    · rw [List.mem_singleton] at h; rw [h]; exact hd
  have hs64 : Q.slabs < 2 ^ 64 := by
    have := hG.base_ok hc hs0S
    have := blockLen_pos hc s0
    omega
  -- what the push leaves alone
  have hpush : ∀ y, (y < d.base ∨ d.base + 16 ≤ y) → (y < s0.base ∨ s0.base + 8 ≤ y) →
      (_mpz_slab_push c Q d.base).heap y = Q.heap y := by
    intro y h1 h2
    exact push_heap_out hc Q d.base h1 (by rw [hs0b]; exact h2) hs64
  -- blocks of S1, d, S2 are apart
  have hap1 : ∀ e ∈ S1, d.base + blockLen c d ≤ e.base ∨ e.base + blockLen c e ≤ d.base := by
    intro e he
    have := hG.cross_disj he (List.mem_cons_self d S2)
    omega
  have hap2 : ∀ e ∈ S2, d.base + blockLen c d ≤ e.base ∨ e.base + blockLen c e ≤ d.base := by
    intro e he
    have hG2 : Geo c ((S1 ++ [d]) ++ S2) := by simpa using hG
    exact hG2.cross_disj (by simp) he
  have hap3 : ∀ e ∈ S2, s0.base + blockLen c s0 ≤ e.base ∨ e.base + blockLen c e ≤ s0.base := by
    intro e he
    have hG2 : Geo c ((S1 ++ [d]) ++ S2) := by simpa using hG
    exact hG2.cross_disj hs0 he
  -- slot areas do not meet the header of s0
  have hslots_s0 : ∀ e ∈ S1 ++ d :: S2, ∀ y, e.base + 16 ≤ y → y < e.base + blockLen c e →
      y < s0.base ∨ s0.base + 8 ≤ y := by
    intro e he y hy1 hy2
    rcases hG.eq_or_disj he hs0S with h | h
    · subst h; omega
    · have := blockLen_pos hc s0
      omega
  -- reading the first slot of d
  have hrest_d := hQ.rest_same d (List.mem_cons_self _ _)
  have hslot0 := isSlot_zero hc d
  rw [hslot] at hslot0
  have hhead : MPZ_SLOT_READ_HEAD Q.heap (d.base + 16) = MPZ_SLOT_READ_HEAD P.heap (d.base + 16) := by
    unfold MPZ_SLOT_READ_HEAD
    exact rd_congr (fun y h1 h2 => hrest_d y (by omega) (by omega))
  have hhuge : MPZ_SLOT_READ_HEAD Q.heap (d.base + 16) &&& MPZ_SLOT_FLAG_HUGE = 0 := by
    rw [hhead]; exact hI.read_huge hc hd hdh hslot0
  have hsize : MPZ_SLOT_READ_SIZE (_mpz_slab_push c Q d.base).heap (d.base + 16) = d.size := by
    have e1 : MPZ_SLOT_READ_SIZE (_mpz_slab_push c Q d.base).heap (d.base + 16)
        = MPZ_SLOT_READ_SIZE P.heap (d.base + 16) := by
      unfold MPZ_SLOT_READ_SIZE MPZ_SLOT_READ_HEAD
      congr 3
      apply rd_congr
      intro y h1 h2
      rw [hpush y (by omega) (hslots_s0 d hd y (by omega) (by omega))]
      exact hrest_d y (by omega) (by omega)
    rw [e1]; exact hI.read_size hc hd hslot0
  have hnext : rd Q.heap (d.base + 8) 8 = (S2.map SlabD.base).headD 0 := by
    have hch := hI.chain
    rw [List.map_append, List.map_cons] at hch
    obtain ⟨_, hn, _⟩ := chain_neighbours hc hch
    rw [← hn]
    exact rd_congr (fun y h1 h2 => hrest_d y (by omega) (by omega))
  refine ⟨by rw [gcLoop_soft_step hc Q fuel hd0.1 hhuge hsize hidx, hnext], ?_⟩
  -- the state after `_mpz_slab_init`
  generalize hQ1 : _mpz_slab_push c Q d.base = Q1 at hpush
  have hQ1b : Q1.bins = Q.bins := by rw [← hQ1]; rfl
  have hQ1s : Q1.slabs = d.base := by rw [← hQ1]; rfl
  have hQ1l : Q1.live = Q.live ∧ Q1.self = Q.self ∧ Q1.oscalls = Q.oscalls := by
    rw [← hQ1]; exact ⟨rfl, rfl, rfl⟩
  have hGslots : ∀ i, ∀ x ∈ G i, ∃ e ∈ S1, IsSlot c e x := by
    intro i x hx
    obtain ⟨e, he, hea, _⟩ := hQ.free_mem i x hx
    exact ⟨e, he, hea⟩
  have hGout : ∀ i, ∀ x ∈ G i, ∀ y, x ≤ y → y < x + 16 + 8 →
      (y < d.base ∨ d.base + blockLen c d ≤ y) ∧ (y < s0.base ∨ s0.base + 8 ≤ y) := by
    intro i x hx y hy1 hy2
    obtain ⟨e, he, hea, _⟩ := hQ.free_mem i x hx
    have hb := hea.bounds hc
    have := hap1 e he
    have := (hG.size_ok hc (hS1mem e he)).1
    exact ⟨by omega, hslots_s0 e (hS1mem e he) y (by omega) (by omega)⟩
  have hchQ1 : ∀ i, i < c.bins → FreeChain c Q1.heap (Q1.bins i) (G i) := by
    intro i hi
    rw [hQ1b]
    apply (hQ.free_chain i hi).sameLinks hc
    intro x hx y hy1 hy2
    obtain ⟨h1, h2⟩ := hGout i x hx y (by omega) (by omega)
    exact hpush y (by omega) h2
  have hb64 : Q1.bins (MPZ_BIN_IDX c d.size) < 2 ^ 64 := by
    have hch := hchQ1 _ hidx
    cases hGi : G (MPZ_BIN_IDX c d.size) with
    | nil =>
      rw [hGi] at hch
      have : Q1.bins (MPZ_BIN_IDX c d.size) = 0 := hch
      rw [this]; decide
    | cons x xs =>
      rw [hGi] at hch
      obtain ⟨e, he, hea⟩ := hGslots _ x (by rw [hGi]; exact List.mem_cons_self _ _)
      have := hG.slot_lt hc (hS1mem e he) hea
      rw [hch.1]
      omega
  obtain ⟨hf, hg, hbins, hchain⟩ := slab_init_spec hc Q1 d hdh hs16 hr30 hd0.2.2 hb64
    (L := G (MPZ_BIN_IDX c d.size)) (hchQ1 _ hidx)
    (by
      intro x hx
      obtain ⟨e, he, hea⟩ := hGslots _ x hx
      have hb := hea.bounds hc
      have := hap1 e he
      have := (hG.size_ok hc (hS1mem e he)).1
      omega)
  obtain ⟨fs, fself, flive, fos⟩ := slabInitLoop_frame c d.base d.size (MPZ_BIN_IDX c d.size)
    c.mul 0 (MPZ_SLAB_TO_SLOT c d.base) Q1
  have hinit : _mpz_slab_init c Q1 d.base d.size
      = slabInitLoop c d.base d.size (MPZ_BIN_IDX c d.size) c.mul 0
          (MPZ_SLAB_TO_SLOT c d.base) Q1 := rfl
  rw [← hinit] at fs fself flive fos
  -- what the whole iteration leaves alone
  have hout : ∀ y, (y < d.base ∨ d.base + blockLen c d ≤ y) → (y < s0.base ∨ s0.base + 8 ≤ y) →
      (_mpz_slab_init c Q1 d.base d.size).heap y = Q.heap y := by
    intro y h1 h2
    rw [hf y (by omega)]
    exact hpush y (by omega) h2
  have hmemG : ∀ i, ∀ x ∈ Function.update G (MPZ_BIN_IDX c d.size)
      (slotList c d ++ G (MPZ_BIN_IDX c d.size)) i,
      (IsSlot c d x ∧ i = MPZ_BIN_IDX c d.size) ∨ x ∈ G i := by
    intro i x hx
    by_cases hi : i = MPZ_BIN_IDX c d.size
    · subst hi
      rw [Function.update_same] at hx
      rcases List.mem_append.mp hx with h | h
      · exact Or.inl ⟨mem_slotList.mp h, rfl⟩
      · exact Or.inr h
    · rw [Function.update_noteq hi] at hx
      exact Or.inr hx
  refine
    { live := by rw [flive, hQ1l.1, hQ.live]
      self := by rw [fself, hQ1l.2.1, hQ.self]
      oscalls := by rw [fos, hQ1l.2.2, hQ.oscalls]
      slabs_mem := Or.inl ⟨d, by simp, by rw [fs, hQ1s]⟩
      rest_same := ?_
      free_chain := ?_
      free_mem := ?_
      free_nodup := ?_
      total := ?_ }
  · intro e he y hy1 hy2
    rw [hout y (by have := hap2 e he; omega) (by have := hap3 e he; have := blockLen_pos hc s0; omega)]
    exact hQ.rest_same e (List.mem_cons_of_mem _ he) y hy1 hy2
  · intro i hi
    rw [hbins]
    by_cases hi2 : i = MPZ_BIN_IDX c d.size
    · subst hi2
      simp only [upd, if_true, Function.update_same]
      exact hchain
    · simp only [upd, hi2, if_false, Function.update_noteq hi2 _ G]
      apply (hchQ1 i hi).sameLinks hc
      intro x hx y hy1 hy2
      obtain ⟨h1, _⟩ := hGout i x hx y (by omega) (by omega)
      exact hf y (by omega)
  · intro i x hx
    rcases hmemG i x hx with ⟨hxs, rfl⟩ | hxG
    · exact ⟨d, by simp, hxs, rfl, hg x hxs⟩
    · obtain ⟨e, he, hea, hei, heg⟩ := hQ.free_mem i x hxG
      refine ⟨e, List.mem_append_left _ he, hea, hei, heg.sameBytes ?_⟩
      intro y hy1 hy2
      have hb := hea.bounds hc
      have := hap1 e he
      exact hout y (by omega) (hslots_s0 e (hS1mem e he) y (by omega) (by omega))
  · intro i
    by_cases hi : i = MPZ_BIN_IDX c d.size
    · subst hi
      rw [Function.update_same]
      apply List.Nodup.append (slotList_nodup hc _) (hQ.free_nodup _)
      intro x hx1 hx2
      obtain ⟨e, he, hea⟩ := hGslots _ x hx2
      have h1 := hea.bounds hc
      have h2 := (mem_slotList.mp hx1).bounds hc
      have := hap1 e he
      omega
    · rw [Function.update_noteq hi]; exact hQ.free_nodup i
  · intro e he a hea
    rcases List.mem_append.mp he with h | h
    · have := hQ.total e h a hea
      by_cases hi : MPZ_BIN_IDX c e.size = MPZ_BIN_IDX c d.size
      · rw [hi, Function.update_same]
        rw [hi] at this
        exact List.mem_append_right _ this
      · rw [Function.update_noteq hi]; exact this
    · rw [List.mem_singleton] at h
      subst h
      rw [Function.update_same]
      exact List.mem_append_left _ (mem_slotList.mpr hea)

theorem gcLoop_null (c : Config) (soft : Bool) (fuel : Nat) (Q : Pool) :
    gcLoop c soft fuel 0 Q = .ok Q := by
  cases fuel <;> simp [gcLoop]

theorem reset_loop {c : Config} (hc : c.Sane) {P : Pool} {F : Nat → List Nat}
    {U : List Nat} :
    ∀ (S2 S1 : List SlabD) (Q : Pool) (G : Nat → List Nat),
      Inv c P (S1 ++ S2) F U → (∀ e ∈ S1 ++ S2, e.huge = false) →
      ResetInv c P Q S1 S2 G →
      ∃ Q1 G1, ResetInv c P Q1 (S1 ++ S2) [] G1 ∧
        ∀ fuel, S2.length ≤ fuel →
          gcLoop c true fuel ((S2.map SlabD.base).headD 0) Q = .ok Q1 := by
  intro S2
  induction S2 with
  | nil =>
    intro S1 Q G _ _ hQ
    refine ⟨Q, G, by simpa using hQ, ?_⟩
    intro fuel _
    exact gcLoop_null c true fuel Q
  | cons d S2 ih =>
    intro S1 Q G hI hnh hQ
    have hI2 : Inv c P ((S1 ++ [d]) ++ S2) F U := by simpa using hI
    have hnh2 : ∀ e ∈ (S1 ++ [d]) ++ S2, e.huge = false := by simpa using hnh
    obtain ⟨Q1, G1, hQ1, hrun⟩ := ih (S1 ++ [d]) _ _ hI2 hnh2 (reset_step hc hI hnh hQ 0).2
    refine ⟨Q1, G1, by simpa using hQ1, ?_⟩
    intro fuel hfuel
    obtain ⟨n, rfl⟩ : ∃ n, fuel = n + 1 := ⟨fuel - 1, by simp at hfuel; omega⟩
    simp only [List.map_cons, List.headD_cons]
    rw [(reset_step hc hI hnh hQ n).1]
    exact hrun n (by simp at hfuel; omega)

theorem poolA_reach : Reach cfgS poolA [4116] :=
  Reach.alloc poolS [] 16 false (some 4096) poolS_reach poolA_osok (by decide)

theorem lifo_reuse_witness :
    (∀ A ∈ [4116], MPZ_SLOT_READ_SIZE poolA.heap (MPZ_DATA_TO_SLOT A) = 16 →
      ∀ size z os, size ≤ MPZ_POOL_MAX_ALLOC → allocSize cfgS size = 16 →
      ∃ P1, mpz_free cfgS poolA A = .ok P1 ∧ (_mpz_palloc cfgS P1 size z os).1 = A) ∧
    (∀ ops res, (∀ op ∈ ops, OpInBin cfgS poolA 16 op) → lifoModel [4116] [] ops = some res →
      ∃ P1, runOps cfgS poolA ops = .ok (res, P1)) :=
  lifo_reuse cfgS ⟨rfl, by decide, by decide, by decide, by decide⟩ poolA [4116]
    (Reach.alloc poolS [] 16 false (some 4096) poolS_reach poolA_osok (by decide)) 16
    (by decide)

/-! ## Guard words read back -/

theorem flagWord_eq (u g : Bool) :
    flagWord u g = 2 ^ 30 * ((if u then 1 else 0) + (if g then 2 else 0)) := by
  cases u <;> cases g <;> simp [flagWord, flag_used_eq, flag_huge_eq]

/-- What the macros of `mpz_alloc.c` read from a slot whose head and foot hold the word
`flags | r`. -/
theorem guard_reads {h : Heap} {a r f : Nat} (hf : f < 4) (hr : r < 2 ^ 30)
    (hg : Guarded h a r (2 ^ 30 * f + r)) :
    MPZ_SLOT_READ_SIZE h a = r ∧ MPZ_SLOT_READ_FOOT h a = a + 4 + r ∧
    rd h (MPZ_SLOT_READ_FOOT h a) 4 = MPZ_SLOT_READ_HEAD h a ∧
    MPZ_SLOT_READ_HEAD h a &&& MPZ_SLOT_FLAG_USED = 2 ^ 30 * (f % 2) ∧
    MPZ_SLOT_READ_HEAD h a &&& MPZ_SLOT_FLAG_HUGE = 2 ^ 31 * (f / 2) := by
  obtain ⟨g1, g2⟩ := hg
  have e1 : MPZ_SLOT_READ_SIZE h a = r := by
    unfold MPZ_SLOT_READ_SIZE MPZ_SLOT_READ_HEAD
    rw [g1]
    exact stamp_size hr
  have e2 : MPZ_SLOT_READ_FOOT h a = a + 4 + r := by
    unfold MPZ_SLOT_READ_FOOT MPZ_SLOT_GOTO_FOOT
    rw [e1]
  refine ⟨e1, e2, ?_, ?_, ?_⟩
  · rw [e2]
    unfold MPZ_SLOT_READ_HEAD
    rw [g1]
    exact g2
  · unfold MPZ_SLOT_READ_HEAD
    rw [g1, flag_used_eq]
    exact stamp_test_used hr
  · unfold MPZ_SLOT_READ_HEAD
    rw [g1, flag_huge_eq]
    exact stamp_test_huge hf hr

/-- C16. Guard word round trip: for every payload size below `2 ^ 30` (every size
`_mpz_palloc` can store is at most `2 ^ 28`) and every flag set `f ⊆ {USED, HUGE}`, after
`_mpz_slot_init(slot, size, f)` the head and the foot both hold the 32-bit word `f | size`,
`MPZ_SLOT_READ_SIZE` returns `size`, the tests of `MPZ_SLOT_FLAG_USED` and
`MPZ_SLOT_FLAG_HUGE` on the head return exactly the bits of `f`, and `MPZ_SLOT_READ_FOOT`
is the address `slot + 4 + size` of the word `_mpz_slot_init` wrote as foot. -/
theorem guard_word_round_trip (h : Heap) (slot size : Nat) (u g : Bool)
    (hs : size < 2 ^ 30) :
    MPZ_SLOT_READ_HEAD (_mpz_slot_init h slot size (flagWord u g)) slot
      = (flagWord u g ||| size) ∧
    rd (_mpz_slot_init h slot size (flagWord u g)) (MPZ_SLOT_GOTO_FOOT slot size) 4
      = (flagWord u g ||| size) ∧
    (flagWord u g ||| size) < 2 ^ 32 ∧
    MPZ_SLOT_READ_SIZE (_mpz_slot_init h slot size (flagWord u g)) slot = size ∧
    (MPZ_SLOT_READ_HEAD (_mpz_slot_init h slot size (flagWord u g)) slot
        &&& MPZ_SLOT_FLAG_USED ≠ 0 ↔ u = true) ∧
    (MPZ_SLOT_READ_HEAD (_mpz_slot_init h slot size (flagWord u g)) slot
        &&& MPZ_SLOT_FLAG_HUGE ≠ 0 ↔ g = true) ∧
    MPZ_SLOT_READ_FOOT (_mpz_slot_init h slot size (flagWord u g)) slot = slot + 4 + size ∧
    MPZ_SLOT_READ_FOOT (_mpz_slot_init h slot size (flagWord u g)) slot
      = MPZ_SLOT_GOTO_FOOT slot size := by
  have hk : (if u then 1 else 0) + (if g then 2 else 0) < 4 := by
    cases u <;> cases g <;> decide
  have hG := guarded_slot_init h slot hk hs
  rw [← flagWord_eq] at hG
  obtain ⟨e1, e2, _, e4, e5⟩ := guard_reads hk hs (by rw [← flagWord_eq]; exact hG)
  have hor : flagWord u g ||| size = flagWord u g + size := by
    rw [flagWord_eq]; exact stamp_or hs
  refine ⟨?_, ?_, ?_, e1, ?_, ?_, e2, ?_⟩
  · rw [hor]; exact hG.1
  · rw [hor]; exact hG.2
  · rw [hor, flagWord_eq]
    have : (2:Nat) ^ 30 * 4 = 2 ^ 32 := by decide
    have h2 := Nat.mul_le_mul_left (2 ^ 30) (Nat.le_of_lt_succ hk)
    omega
  · rw [e4]
    cases u <;> cases g <;> simp
  · rw [e5]
    cases u <;> cases g <;> simp
  · rw [e2]; rfl

theorem guard_word_round_trip_witness :
    MPZ_SLOT_READ_HEAD (_mpz_slot_init heapAA 4112 16 (flagWord true false)) 4112
      = (flagWord true false ||| 16) ∧
    rd (_mpz_slot_init heapAA 4112 16 (flagWord true false)) (MPZ_SLOT_GOTO_FOOT 4112 16) 4
      = (flagWord true false ||| 16) ∧
    (flagWord true false ||| 16) < 2 ^ 32 ∧
    MPZ_SLOT_READ_SIZE (_mpz_slot_init heapAA 4112 16 (flagWord true false)) 4112 = 16 ∧
    (MPZ_SLOT_READ_HEAD (_mpz_slot_init heapAA 4112 16 (flagWord true false)) 4112
        &&& MPZ_SLOT_FLAG_USED ≠ 0 ↔ true = true) ∧
    (MPZ_SLOT_READ_HEAD (_mpz_slot_init heapAA 4112 16 (flagWord true false)) 4112
        &&& MPZ_SLOT_FLAG_HUGE ≠ 0 ↔ false = true) ∧
    MPZ_SLOT_READ_FOOT (_mpz_slot_init heapAA 4112 16 (flagWord true false)) 4112
      = 4112 + 4 + 16 ∧
    MPZ_SLOT_READ_FOOT (_mpz_slot_init heapAA 4112 16 (flagWord true false)) 4112
      = MPZ_SLOT_GOTO_FOOT 4112 16 :=
  guard_word_round_trip heapAA 4112 16 true false (by decide)

/-! ## The guard word of a slot returned by an allocation -/

theorem palloc_dispatch (c : Config) (P : Pool) {size : Nat} (hs : size ≤ MPZ_POOL_MAX_ALLOC)
    (z : Bool) (os : Option Nat) :
    _mpz_palloc c P size z os =
      if allocSize c size > c.bins <<< c.shift then pallocHuge c P (allocSize c size) os
      else pallocPooled c P (allocSize c size) z os := by
  unfold _mpz_palloc
  rw [if_neg (by omega)]

/-- The rounded size is the least multiple of `MPZ_SLOTS_ALIGNMENT` that is at least
`max(size, MPZ_POOL_MIN_ALLOC)`. -/
theorem allocSize_least {c : Config} (hc : c.Sane) {size : Nat}
    (hs : size ≤ MPZ_POOL_MAX_ALLOC) :
    MPZ_SLOTS_ALIGNMENT c ∣ allocSize c size ∧
    max size (MPZ_POOL_MIN_ALLOC c) ≤ allocSize c size ∧
    ∀ m, MPZ_SLOTS_ALIGNMENT c ∣ m → max size (MPZ_POOL_MIN_ALLOC c) ≤ m →
      allocSize c size ≤ m := by
  obtain ⟨h1, h2, _, h4⟩ := roundup_spec hc.align_pos (max size (2 ^ c.shift))
  rw [← allocSize_eq hc hs] at h1 h2 h4
  rw [slots_alignment_eq, MPZ_POOL_MIN_ALLOC, slots_alignment_eq]
  exact ⟨h1, h2, h4⟩

theorem allocSize_zero {c : Config} (hc : c.Sane) : allocSize c 0 = MPZ_POOL_MIN_ALLOC c := by
  have h0 : (0:Nat) ≤ MPZ_POOL_MAX_ALLOC := Nat.zero_le _
  obtain ⟨_, h2, h3⟩ := allocSize_least hc h0
  have h4 := h3 (MPZ_POOL_MIN_ALLOC c) (by unfold MPZ_POOL_MIN_ALLOC; exact Nat.dvd_refl _)
    (by simp)
  have h5 : MPZ_POOL_MIN_ALLOC c ≤ allocSize c 0 := le_trans (le_max_right _ _) h2
  omega

/-- A successful pooled allocation ends with the pop of the head of the bin. -/
theorem pallocPooled_pop (c : Config) (P : Pool) (r : Nat) (z : Bool) (os : Option Nat)
    (hne : (pallocPooled c P r z os).1 ≠ 0) :
    ∃ Q : Pool, pallocPooled c P r z os = pallocPop c Q r (MPZ_BIN_IDX c r) z := by
  unfold pallocPooled at hne ⊢
  simp only [] at hne ⊢
  split
  · split
    · rename_i h1 h2
      rw [if_pos h1, if_pos h2] at hne
      exact absurd rfl hne
    · exact ⟨_, rfl⟩
  · exact ⟨_, rfl⟩

/-- A successful huge allocation ends with the stamp of the only slot of a new slab. -/
theorem pallocHuge_some (c : Config) (P : Pool) (r : Nat) (os : Option Nat)
    (hne : (pallocHuge c P r os).1 ≠ 0) :
    ∃ (h : Heap) (b : Nat),
      (pallocHuge c P r os).1 = MPZ_SLOT_TO_DATA (MPZ_SLAB_TO_SLOT c b) ∧
      (pallocHuge c P r os).2.heap
        = _mpz_slot_init h (MPZ_SLAB_TO_SLOT c b) r (MPZ_SLOT_FLAG_HUGE ||| MPZ_SLOT_FLAG_USED) := by
  unfold pallocHuge at hne ⊢
  simp only [] at hne ⊢
  split
  · rename_i h1
    rw [if_pos h1] at hne
    exact absurd rfl hne
  · exact ⟨_, _, rfl, rfl⟩

/-- The guard word of the slot a successful `_mpz_palloc` returns: the flags are `USED`,
with `HUGE` exactly on the huge branch, and the size is the rounded size. -/
theorem palloc_guarded {c : Config} (hc : c.Sane) (P : Pool) {size : Nat} (z : Bool)
    (os : Option Nat) (hs : size ≤ MPZ_POOL_MAX_ALLOC)
    (hne : (_mpz_palloc c P size z os).1 ≠ 0) :
    ∃ a, (_mpz_palloc c P size z os).1 = MPZ_SLOT_TO_DATA a ∧
      Guarded (_mpz_palloc c P size z os).2.heap a (allocSize c size)
        (2 ^ 30 * (if c.bins <<< c.shift < allocSize c size then 3 else 1)
          + allocSize c size) := by
  obtain ⟨m, _, hm, hm28, _⟩ := allocSize_mul hc hs
  have hr30 : allocSize c size < 2 ^ 30 := by
    have : (2:Nat) ^ 28 < 2 ^ 30 := by decide
    omega
  rw [palloc_dispatch c P hs z os] at hne ⊢
  by_cases hh : c.bins <<< c.shift < allocSize c size
  · rw [if_pos hh] at hne ⊢
    rw [if_pos hh]
    obtain ⟨h, b, e1, e2⟩ := pallocHuge_some c P _ os hne
    refine ⟨_, e1, ?_⟩
    rw [e2]
    have e : MPZ_SLOT_FLAG_HUGE ||| MPZ_SLOT_FLAG_USED = 2 ^ 30 * 3 := by
      rw [flag_used_eq, flag_huge_eq]; decide
    rw [e]
    exact guarded_slot_init h _ (by decide) hr30
  · rw [if_neg hh] at hne ⊢
    rw [if_neg hh]
    obtain ⟨Q, e⟩ := pallocPooled_pop c P _ z os hne
    rw [e]
    exact ⟨Q.bins (MPZ_BIN_IDX c (allocSize c size)), rfl, pop_guarded c Q _ z hr30⟩

/-- C11. The slot of a successful allocation: for every pool state and every request of at
most `MPZ_POOL_MAX_ALLOC` bytes for which `mpz_pmalloc` (`z = false`) or `mpz_pcalloc`
(`z = true`) returns a non-null pointer, the slot `MPZ_DATA_TO_SLOT` of the pointer has
head equal to foot, the `USED` bit set, the `HUGE` bit set exactly when the rounded size
exceeds `MPZ_BINS << MPZ_BINS_BIT_SHIFT`, and the size read from the head is the rounded
size: the least multiple of `MPZ_SLOTS_ALIGNMENT` that is at least
`max(size, MPZ_POOL_MIN_ALLOC)`, hence at least `size`. A request of `0` bytes rounds to
`MPZ_POOL_MIN_ALLOC`. -/
theorem alloc_stamps_guard (c : Config) (hc : c.Sane) (P : Pool) (size : Nat) (z : Bool)
    (os : Option Nat) (hs : size ≤ MPZ_POOL_MAX_ALLOC)
    (hne : (_mpz_palloc c P size z os).1 ≠ 0) :
    MPZ_SLOT_READ_HEAD (_mpz_palloc c P size z os).2.heap
        (MPZ_DATA_TO_SLOT (_mpz_palloc c P size z os).1)
      = rd (_mpz_palloc c P size z os).2.heap
          (MPZ_SLOT_READ_FOOT (_mpz_palloc c P size z os).2.heap
            (MPZ_DATA_TO_SLOT (_mpz_palloc c P size z os).1)) 4 ∧
    MPZ_SLOT_READ_HEAD (_mpz_palloc c P size z os).2.heap
        (MPZ_DATA_TO_SLOT (_mpz_palloc c P size z os).1) &&& MPZ_SLOT_FLAG_USED ≠ 0 ∧
    (MPZ_SLOT_READ_HEAD (_mpz_palloc c P size z os).2.heap
        (MPZ_DATA_TO_SLOT (_mpz_palloc c P size z os).1) &&& MPZ_SLOT_FLAG_HUGE ≠ 0
      ↔ c.bins <<< c.shift < allocSize c size) ∧
    MPZ_SLOT_READ_SIZE (_mpz_palloc c P size z os).2.heap
        (MPZ_DATA_TO_SLOT (_mpz_palloc c P size z os).1) = allocSize c size ∧
    (MPZ_SLOTS_ALIGNMENT c ∣ allocSize c size ∧
      max size (MPZ_POOL_MIN_ALLOC c) ≤ allocSize c size ∧
      ∀ m, MPZ_SLOTS_ALIGNMENT c ∣ m → max size (MPZ_POOL_MIN_ALLOC c) ≤ m →
        allocSize c size ≤ m) ∧
    size ≤ MPZ_SLOT_READ_SIZE (_mpz_palloc c P size z os).2.heap
        (MPZ_DATA_TO_SLOT (_mpz_palloc c P size z os).1) ∧
    allocSize c 0 = MPZ_POOL_MIN_ALLOC c := by
  obtain ⟨m, _, hm, hm28, hsm⟩ := allocSize_mul hc hs
  have hr30 : allocSize c size < 2 ^ 30 := by
    have : (2:Nat) ^ 28 < 2 ^ 30 := by decide
    omega
  obtain ⟨a, ha, hg⟩ := palloc_guarded hc P z os hs hne
  have hslot : MPZ_DATA_TO_SLOT (_mpz_palloc c P size z os).1 = a := by
    rw [ha]; unfold MPZ_DATA_TO_SLOT MPZ_SLOT_TO_DATA; omega
  rw [hslot]
  have hf : (if c.bins <<< c.shift < allocSize c size then 3 else 1) < 4 := by
    split <;> decide
  obtain ⟨e1, _, e3, e4, e5⟩ := guard_reads hf hr30 hg
  refine ⟨e3.symm, ?_, ?_, e1, allocSize_least hc hs, by rw [e1]; omega, allocSize_zero hc⟩
  · rw [e4]
    split <;> decide
  · rw [e5]
    by_cases hh : c.bins <<< c.shift < allocSize c size
    · simp [hh]
    · simp [hh]

theorem alloc_stamps_guard_witness :
    MPZ_SLOT_READ_HEAD (_mpz_palloc cfgS poolS 16 false (some 4096)).2.heap
        (MPZ_DATA_TO_SLOT (_mpz_palloc cfgS poolS 16 false (some 4096)).1)
      = rd (_mpz_palloc cfgS poolS 16 false (some 4096)).2.heap
          (MPZ_SLOT_READ_FOOT (_mpz_palloc cfgS poolS 16 false (some 4096)).2.heap
            (MPZ_DATA_TO_SLOT (_mpz_palloc cfgS poolS 16 false (some 4096)).1)) 4 ∧
    MPZ_SLOT_READ_HEAD (_mpz_palloc cfgS poolS 16 false (some 4096)).2.heap
        (MPZ_DATA_TO_SLOT (_mpz_palloc cfgS poolS 16 false (some 4096)).1)
      &&& MPZ_SLOT_FLAG_USED ≠ 0 ∧
    (MPZ_SLOT_READ_HEAD (_mpz_palloc cfgS poolS 16 false (some 4096)).2.heap
        (MPZ_DATA_TO_SLOT (_mpz_palloc cfgS poolS 16 false (some 4096)).1)
        &&& MPZ_SLOT_FLAG_HUGE ≠ 0
      ↔ cfgS.bins <<< cfgS.shift < allocSize cfgS 16) ∧
    MPZ_SLOT_READ_SIZE (_mpz_palloc cfgS poolS 16 false (some 4096)).2.heap
        (MPZ_DATA_TO_SLOT (_mpz_palloc cfgS poolS 16 false (some 4096)).1)
      = allocSize cfgS 16 ∧
    (MPZ_SLOTS_ALIGNMENT cfgS ∣ allocSize cfgS 16 ∧
      max 16 (MPZ_POOL_MIN_ALLOC cfgS) ≤ allocSize cfgS 16 ∧
      ∀ m, MPZ_SLOTS_ALIGNMENT cfgS ∣ m → max 16 (MPZ_POOL_MIN_ALLOC cfgS) ≤ m →
        allocSize cfgS 16 ≤ m) ∧
    16 ≤ MPZ_SLOT_READ_SIZE (_mpz_palloc cfgS poolS 16 false (some 4096)).2.heap
        (MPZ_DATA_TO_SLOT (_mpz_palloc cfgS poolS 16 false (some 4096)).1) ∧
    allocSize cfgS 0 = MPZ_POOL_MIN_ALLOC cfgS :=
  alloc_stamps_guard cfgS cfgS_sane poolS 16 false (some 4096) (by decide) (by decide)

/-! ## Freeing a slot whose guards fail the check -/

/-- Evaluation of `mpz_free` when the corruption check fires and the SIGSEGV policy is
off: the call falls through into the push. -/
theorem free_eval_fallthrough (c : Config) (P : Pool) {a r : Nat} (hsig : c.sigsegv = false)
    (hsz : MPZ_SLOT_READ_SIZE P.heap a = r)
    (hcond : MPZ_SLOT_READ_HEAD P.heap a ≠ rd P.heap (MPZ_SLOT_READ_FOOT P.heap a) 4 ∨
      MPZ_SLOT_READ_HEAD P.heap a &&& MPZ_SLOT_FLAG_USED = 0)
    (hidx : MPZ_BIN_IDX c r < c.bins) :
    mpz_free c P (MPZ_SLOT_TO_DATA a) = .ok (freePush c P a r) := by
  unfold mpz_free
  have e1 : MPZ_DATA_TO_SLOT (MPZ_SLOT_TO_DATA a) = a := by
    simp [MPZ_DATA_TO_SLOT, MPZ_SLOT_TO_DATA]
  have e0 : MPZ_SLOT_TO_DATA a ≠ 0 := by simp [MPZ_SLOT_TO_DATA]
  rw [if_neg e0]
  simp only [e1, hsz]
  rw [if_pos hcond, hsig, if_pos hidx]
  rfl

/-- Evaluation of `mpz_free` when the corruption check fires and the SIGSEGV policy is
on. -/
theorem free_eval_sigsegv (c : Config) (P : Pool) {a : Nat} (hsig : c.sigsegv = true)
    (hcond : MPZ_SLOT_READ_HEAD P.heap a ≠ rd P.heap (MPZ_SLOT_READ_FOOT P.heap a) 4 ∨
      MPZ_SLOT_READ_HEAD P.heap a &&& MPZ_SLOT_FLAG_USED = 0) :
    mpz_free c P (MPZ_SLOT_TO_DATA a) = .error .sigsegv := by
  unfold mpz_free
  have e1 : MPZ_DATA_TO_SLOT (MPZ_SLOT_TO_DATA a) = a := by
    simp [MPZ_DATA_TO_SLOT, MPZ_SLOT_TO_DATA]
  have e0 : MPZ_SLOT_TO_DATA a ≠ 0 := by simp [MPZ_SLOT_TO_DATA]
  rw [if_neg e0]
  simp only [e1]
  rw [if_pos hcond, hsig]
  rfl

/-- The stamp of `_mpz_slot_init` overwrites the foot word: heaps that differ only there
are stamped to the same heap. -/
theorem slot_init_forgets_foot {h h1 : Heap} {a r : Nat} (f : Nat) (hr : r < 2 ^ 30)
    (hfr : Frame h h1 (a + 4 + r) (a + 8 + r)) :
    _mpz_slot_init h1 a r f = _mpz_slot_init h a r f := by
  have hm : r % 2 ^ 32 = r := Nat.mod_eq_of_lt (by norm_num at hr ⊢; omega)
  funext x
  unfold _mpz_slot_init MPZ_SLOT_GOTO_FOOT wr
  simp only [hm]
  by_cases h1x : a ≤ x ∧ x < a + 4
  · rw [if_pos h1x, if_pos h1x]
  · rw [if_neg h1x, if_neg h1x]
    by_cases h2x : a + 4 + r ≤ x ∧ x < a + 4 + r + 4
    · rw [if_pos h2x, if_pos h2x]
    · rw [if_neg h2x, if_neg h2x]
      exact hfr x (by omega)

/-- C17. Corrupted foot: let the slot at `a` hold a live pooled allocation of size `r`, head
and foot both `USED | r`, and let a client overwrite the foot word only (the heap `hcor`
differs from the pool's heap at most in the four foot bytes, and the foot no longer
equals the head). The head is still intact and the check of `mpz_free` fires. With the
SIGSEGV policy on the call raises the signal; with the policy off it returns the very
state that `mpz_free` produces from the uncorrupted pool: head and foot are rewritten to
the plain size `r`, the slot is the new head of `bins[MPZ_BIN_IDX(r)]` with the old head
as its successor, and nothing else changes. -/
theorem free_corrupt_foot (c : Config) (hc : c.Sane) (P : Pool) (a r : Nat) (hcor : Heap)
    (hr16 : 16 ≤ r) (hr : r < 2 ^ 30) (hidx : MPZ_BIN_IDX c r < c.bins)
    (hb : P.bins (MPZ_BIN_IDX c r) < 2 ^ 64)
    (hg : Guarded P.heap a r (MPZ_SLOT_FLAG_USED ||| r))
    (hfr : Frame P.heap hcor (a + 4 + r) (a + 8 + r))
    (hne : rd hcor (MPZ_SLOT_GOTO_FOOT a r) 4 ≠ MPZ_SLOT_FLAG_USED ||| r) :
    MPZ_SLOT_READ_HEAD hcor a = MPZ_SLOT_FLAG_USED ||| r ∧
    rd hcor (MPZ_SLOT_READ_FOOT hcor a) 4 ≠ MPZ_SLOT_READ_HEAD hcor a ∧
    (c.sigsegv = true →
      mpz_free c { P with heap := hcor } (MPZ_SLOT_TO_DATA a) = .error .sigsegv) ∧
    (c.sigsegv = false →
      mpz_free c { P with heap := hcor } (MPZ_SLOT_TO_DATA a) = .ok (freePush c P a r) ∧
      mpz_free c P (MPZ_SLOT_TO_DATA a) = .ok (freePush c P a r) ∧
      Guarded (freePush c P a r).heap a r r ∧
      (freePush c P a r).bins (MPZ_BIN_IDX c r) = a ∧
      rd (freePush c P a r).heap (slotNext c a) c.ptr = P.bins (MPZ_BIN_IDX c r) ∧
      (∀ i, i ≠ MPZ_BIN_IDX c r → (freePush c P a r).bins i = P.bins i) ∧
      (freePush c P a r).slabs = P.slabs ∧ (freePush c P a r).live = P.live) := by
  have hst : MPZ_SLOT_FLAG_USED ||| r = 2 ^ 30 * 1 + r := by
    rw [flag_used_eq]
    have := @stamp_or 1 r hr
    simpa using this
  rw [hst] at hg hne ⊢
  have hhead : rd hcor a 4 = 2 ^ 30 * 1 + r := by
    rw [hfr.rd (Or.inl (by omega))]
    exact hg.1
  have hsz : MPZ_SLOT_READ_SIZE hcor a = r := by
    unfold MPZ_SLOT_READ_SIZE MPZ_SLOT_READ_HEAD
    rw [hhead]; exact stamp_size hr
  have hfoot : MPZ_SLOT_READ_FOOT hcor a = MPZ_SLOT_GOTO_FOOT a r := by
    unfold MPZ_SLOT_READ_FOOT
    rw [hsz]
  have hcond : MPZ_SLOT_READ_HEAD hcor a ≠ rd hcor (MPZ_SLOT_READ_FOOT hcor a) 4 ∨
      MPZ_SLOT_READ_HEAD hcor a &&& MPZ_SLOT_FLAG_USED = 0 := by
    left
    rw [hfoot]
    unfold MPZ_SLOT_READ_HEAD
    rw [hhead]
    exact fun h => hne h.symm
  refine ⟨hhead, ?_, ?_, ?_⟩
  · rw [hfoot]
    unfold MPZ_SLOT_READ_HEAD
    rw [hhead]
    exact hne
  · intro hsig
    exact free_eval_sigsegv c { P with heap := hcor } hsig hcond
  · intro hsig
    have e := free_eval_fallthrough c { P with heap := hcor } hsig hsz hcond hidx
    have e2 : freePush c { P with heap := hcor } a r = freePush c P a r := by
      unfold freePush
      simp only [slot_init_forgets_foot 0 hr hfr]
    rw [e2] at e
    refine ⟨e, free_eval_pooled c P hr hg hidx, freePush_guarded hc P a hr hr16, ?_,
      freePush_link hc P a r hb, ?_, rfl, rfl⟩
    · simp [freePush, upd]
    · intro i hi
      simp [freePush, upd, hi]

theorem free_corrupt_foot_witness :
    MPZ_SLOT_READ_HEAD (wr poolA.heap 4132 1 0) 4112 = MPZ_SLOT_FLAG_USED ||| 16 ∧
    rd (wr poolA.heap 4132 1 0) (MPZ_SLOT_READ_FOOT (wr poolA.heap 4132 1 0) 4112) 4
      ≠ MPZ_SLOT_READ_HEAD (wr poolA.heap 4132 1 0) 4112 ∧
    (cfgS.sigsegv = true →
      mpz_free cfgS { poolA with heap := wr poolA.heap 4132 1 0 } (MPZ_SLOT_TO_DATA 4112)
        = .error .sigsegv) ∧
    (cfgS.sigsegv = false →
      mpz_free cfgS { poolA with heap := wr poolA.heap 4132 1 0 } (MPZ_SLOT_TO_DATA 4112)
        = .ok (freePush cfgS poolA 4112 16) ∧
      mpz_free cfgS poolA (MPZ_SLOT_TO_DATA 4112) = .ok (freePush cfgS poolA 4112 16) ∧
      Guarded (freePush cfgS poolA 4112 16).heap 4112 16 16 ∧
      (freePush cfgS poolA 4112 16).bins (MPZ_BIN_IDX cfgS 16) = 4112 ∧
      rd (freePush cfgS poolA 4112 16).heap (slotNext cfgS 4112) cfgS.ptr
        = poolA.bins (MPZ_BIN_IDX cfgS 16) ∧
      (∀ i, i ≠ MPZ_BIN_IDX cfgS 16 → (freePush cfgS poolA 4112 16).bins i = poolA.bins i) ∧
      (freePush cfgS poolA 4112 16).slabs = poolA.slabs ∧
      (freePush cfgS poolA 4112 16).live = poolA.live) :=
  free_corrupt_foot cfgS cfgS_sane poolA 4112 16 (wr poolA.heap 4132 1 0) (by decide)
    (by decide) (by decide) (by decide) ⟨by decide, by decide⟩
    (frame_wr poolA.heap 0 (by decide) (by decide)) (by decide)

/-! ## Double free -/

theorem pallocPooled_nonempty (c : Config) (P : Pool) (r : Nat) (z : Bool) (os : Option Nat)
    (h : P.bins (MPZ_BIN_IDX c r) ≠ 0) :
    pallocPooled c P r z os = pallocPop c P r (MPZ_BIN_IDX c r) z := by
  unfold pallocPooled
  simp only [h, if_false]

/-- A live pointer whose slot head carries a pooled size lies in a pooled slab. -/
theorem Inv.live_pooled {c : Config} (hc : c.Sane) {P : Pool} {S : List SlabD}
    {F : Nat → List Nat} {U : List Nat} (hI : Inv c P S F U) {p : Nat} (hp : p ∈ U)
    (hr : MPZ_SLOT_READ_SIZE P.heap (MPZ_DATA_TO_SLOT p) ≤ c.bins <<< c.shift) :
    ∃ d ∈ S, ∃ a, IsSlot c d a ∧ p = MPZ_SLOT_TO_DATA a ∧ MPZ_DATA_TO_SLOT p = a ∧
      d.huge = false ∧ MPZ_SLOT_READ_SIZE P.heap (MPZ_DATA_TO_SLOT p) = d.size := by
  obtain ⟨d, hd, a, hda, hpa, _⟩ := hI.used_mem p hp
  have hds : MPZ_DATA_TO_SLOT p = a := by
    rw [hpa]; simp [MPZ_DATA_TO_SLOT, MPZ_SLOT_TO_DATA]
  have hsz := hI.read_size hc hd hda
  rw [hds] at hr ⊢
  refine ⟨d, hd, a, hda, hpa, rfl, ?_, hsz⟩
  cases hh : d.huge with
  | false => rfl
  | true =>
    have := (hI.slab_ok d hd).2.2.mp hh
    omega

/-- C20. Double free: in every reachable state, freeing a live pooled pointer `p` succeeds
and leaves the slot with the `USED` bit clear, so a second `mpz_free(pool, p)` meets the
corruption check. With the SIGSEGV policy on the second call raises the signal. With the
policy off it pushes the slot again: the slot is the head of its bin and its own
successor on the free list, and the next two allocations of that size class (by
`mpz_pmalloc` or `mpz_pcalloc`, whatever the OS would answer) both return `p`. -/
theorem double_free_cycle (c : Config) (hc : c.Sane) (P : Pool) (U : List Nat)
    (hR : Reach c P U) (p : Nat) (hp : p ∈ U)
    (hr : MPZ_SLOT_READ_SIZE P.heap (MPZ_DATA_TO_SLOT p) ≤ c.bins <<< c.shift) :
    ∃ P1, mpz_free c P p = .ok P1 ∧
      MPZ_SLOT_READ_HEAD P1.heap (MPZ_DATA_TO_SLOT p) &&& MPZ_SLOT_FLAG_USED = 0 ∧
      (c.sigsegv = true → mpz_free c P1 p = .error .sigsegv) ∧
      (c.sigsegv = false → ∃ P2, mpz_free c P1 p = .ok P2 ∧
        P2.bins (MPZ_BIN_IDX c (MPZ_SLOT_READ_SIZE P.heap (MPZ_DATA_TO_SLOT p)))
          = MPZ_DATA_TO_SLOT p ∧
        rd P2.heap (slotNext c (MPZ_DATA_TO_SLOT p)) c.ptr = MPZ_DATA_TO_SLOT p ∧
        ∀ size z os size2 z2 os2,
          size ≤ MPZ_POOL_MAX_ALLOC →
          allocSize c size = MPZ_SLOT_READ_SIZE P.heap (MPZ_DATA_TO_SLOT p) →
          size2 ≤ MPZ_POOL_MAX_ALLOC →
          allocSize c size2 = MPZ_SLOT_READ_SIZE P.heap (MPZ_DATA_TO_SLOT p) →
          (_mpz_palloc c P2 size z os).1 = p ∧
          (_mpz_palloc c (_mpz_palloc c P2 size z os).2 size2 z2 os2).1 = p) := by
  obtain ⟨S, F, hI⟩ := reach_inv hc hR
  obtain ⟨d, hd, a, hda, hpa, hds, hdh, hsz⟩ := hI.live_pooled hc hp hr
  rw [hsz] at hr ⊢
  rw [hds]
  have hG := hI.geo
  obtain ⟨hs16, hs28, _⟩ := hG.size_ok hc hd
  have hr30 : d.size < 2 ^ 30 := by
    have : (2:Nat) ^ 28 < 2 ^ 30 := by decide
    omega
  have hidx := (hI.slab_ok d hd).idx_lt hc hdh
  obtain ⟨ha0, ha64, _⟩ := hG.slot_lt hc hd hda
  have hp' : MPZ_SLOT_TO_DATA a ∈ U := hpa ▸ hp
  obtain ⟨hf1, _⟩ := free_pooled_inv hc hI hd hda hp' hdh
  rw [← hpa] at hf1
  have hg1 : Guarded (freePush c P a d.size).heap a d.size (2 ^ 30 * 0 + d.size) := by
    simpa using freePush_guarded hc P a hr30 hs16
  obtain ⟨e1, _, _, e4, _⟩ := guard_reads (show 0 < 4 by decide) hr30 hg1
  have hu : MPZ_SLOT_READ_HEAD (freePush c P a d.size).heap a &&& MPZ_SLOT_FLAG_USED = 0 := by
    rw [e4]; rfl
  refine ⟨_, hf1, hu, ?_, ?_⟩
  · intro hsig
    rw [hpa]
    exact free_eval_sigsegv c _ hsig (Or.inr hu)
  · intro hsig
    have hf2 := free_eval_fallthrough c (freePush c P a d.size) hsig e1 (Or.inr hu) hidx
    rw [← hpa] at hf2
    have hb1 : (freePush c P a d.size).bins (MPZ_BIN_IDX c d.size) = a := by
      simp [freePush, upd]
    have hb2 : (freePush c (freePush c P a d.size) a d.size).bins (MPZ_BIN_IDX c d.size) = a := by
      simp [freePush, upd]
    have hlink : rd (freePush c (freePush c P a d.size) a d.size).heap (slotNext c a) c.ptr
        = a := by
      rw [freePush_link hc _ a d.size (by rw [hb1]; omega), hb1]
    refine ⟨_, hf2, hb2, hlink, ?_⟩
    intro size z os size2 z2 os2 hs1 hr1 hs2 hr2
    have hd1 : _mpz_palloc c (freePush c (freePush c P a d.size) a d.size) size z os
        = pallocPop c (freePush c (freePush c P a d.size) a d.size) d.size
            (MPZ_BIN_IDX c d.size) z := by
      rw [palloc_dispatch c _ hs1 z os, hr1, if_neg (by omega)]
      exact pallocPooled_nonempty c _ _ z os (by rw [hb2]; exact ha0)
    have hb3 : (pallocPop c (freePush c (freePush c P a d.size) a d.size) d.size
        (MPZ_BIN_IDX c d.size) z).2.bins (MPZ_BIN_IDX c d.size) = a := by
      rw [pallocPop_bins, hb2, hlink]
      simp [upd]
    rw [hd1]
    refine ⟨by rw [pallocPop_fst, hb2, hpa]; rfl, ?_⟩
    rw [palloc_dispatch c _ hs2 z2 os2, hr2, if_neg (by omega),
      pallocPooled_nonempty c _ _ z2 os2 (by rw [hb3]; exact ha0), pallocPop_fst, hb3, hpa]
    rfl

theorem double_free_cycle_witness :
    ∃ P1, mpz_free cfgS poolA 4116 = .ok P1 ∧
      MPZ_SLOT_READ_HEAD P1.heap (MPZ_DATA_TO_SLOT 4116) &&& MPZ_SLOT_FLAG_USED = 0 ∧
      (cfgS.sigsegv = true → mpz_free cfgS P1 4116 = .error .sigsegv) ∧
      (cfgS.sigsegv = false → ∃ P2, mpz_free cfgS P1 4116 = .ok P2 ∧
        P2.bins (MPZ_BIN_IDX cfgS (MPZ_SLOT_READ_SIZE poolA.heap (MPZ_DATA_TO_SLOT 4116)))
          = MPZ_DATA_TO_SLOT 4116 ∧
        rd P2.heap (slotNext cfgS (MPZ_DATA_TO_SLOT 4116)) cfgS.ptr = MPZ_DATA_TO_SLOT 4116 ∧
        ∀ size z os size2 z2 os2,
          size ≤ MPZ_POOL_MAX_ALLOC →
          allocSize cfgS size = MPZ_SLOT_READ_SIZE poolA.heap (MPZ_DATA_TO_SLOT 4116) →
          size2 ≤ MPZ_POOL_MAX_ALLOC →
          allocSize cfgS size2 = MPZ_SLOT_READ_SIZE poolA.heap (MPZ_DATA_TO_SLOT 4116) →
          (_mpz_palloc cfgS P2 size z os).1 = 4116 ∧
          (_mpz_palloc cfgS (_mpz_palloc cfgS P2 size z os).2 size2 z2 os2).1 = 4116) :=
  double_free_cycle cfgS cfgS_sane poolA [4116] poolA_reach 4116 (by decide) (by decide)

/-! ## Live allocations do not alias -/

/-- C18. No aliasing of live allocations: in every state reached from a fresh pool by
allocations and frees of live pointers (the OS handing out pairwise disjoint blocks), the
live pointers are pairwise distinct, the slot regions (head, rounded payload, foot) of
two different live pointers are disjoint, and a successful allocation never returns a
pointer that is live. -/
theorem live_allocations_disjoint (c : Config) (hc : c.Sane) (P : Pool) (U : List Nat)
    (hR : Reach c P U) :
    U.Nodup ∧
    (∀ p ∈ U, p = MPZ_SLOT_TO_DATA (MPZ_DATA_TO_SLOT p)) ∧
    (∀ p ∈ U, ∀ q ∈ U, p ≠ q →
      MPZ_DATA_TO_SLOT p + (4 + MPZ_SLOT_READ_SIZE P.heap (MPZ_DATA_TO_SLOT p) + 4)
        ≤ MPZ_DATA_TO_SLOT q ∨
      MPZ_DATA_TO_SLOT q + (4 + MPZ_SLOT_READ_SIZE P.heap (MPZ_DATA_TO_SLOT q) + 4)
        ≤ MPZ_DATA_TO_SLOT p) ∧
    (∀ size z os, OsOk c (_mpz_palloc c P size z os).2.live →
      (_mpz_palloc c P size z os).1 ≠ 0 → (_mpz_palloc c P size z os).1 ∉ U) := by
  obtain ⟨S, F, hI⟩ := reach_inv hc hR
  have hG := hI.geo
  have hslot : ∀ p ∈ U, ∃ d ∈ S, IsSlot c d (MPZ_DATA_TO_SLOT p) ∧
      p = MPZ_SLOT_TO_DATA (MPZ_DATA_TO_SLOT p) ∧
      MPZ_SLOT_READ_SIZE P.heap (MPZ_DATA_TO_SLOT p) = d.size := by
    intro p hp
    obtain ⟨d, hd, a, hda, hpa, _⟩ := hI.used_mem p hp
    have hds : MPZ_DATA_TO_SLOT p = a := by
      rw [hpa]; simp [MPZ_DATA_TO_SLOT, MPZ_SLOT_TO_DATA]
    rw [hds]
    exact ⟨d, hd, hda, hpa, hI.read_size hc hd hda⟩
  refine ⟨hI.used_nodup, ?_, ?_, ?_⟩
  · intro p hp
    obtain ⟨_, _, _, h, _⟩ := hslot p hp
    exact h
  · intro p hp q hq hpq
    obtain ⟨d, hd, hda, hpa, hsd⟩ := hslot p hp
    obtain ⟨e, he, heb, hqb, hse⟩ := hslot q hq
    have hab : MPZ_DATA_TO_SLOT p ≠ MPZ_DATA_TO_SLOT q := by
      intro h
      apply hpq
      rw [hpa, hqb, h]
    have := hG.slots_disj hc hd he hda heb hab
    rw [hsd, hse]
    omega
  · intro size z os hos hne
    obtain ⟨S1, F1, hI1⟩ := alloc_inv hc hI size z os hos
    rw [if_neg hne] at hI1
    exact (List.nodup_cons.mp hI1.used_nodup).1

theorem poolB_osok : OsOk cfgS (_mpz_palloc cfgS poolA 16 false none).2.live := by
  have e : (_mpz_palloc cfgS poolA 16 false none).2.live
      = (_mpz_palloc cfgS poolS 16 false (some 4096)).2.live := by decide
  rw [e]
  exact poolA_osok

theorem poolB_reach : Reach cfgS poolB [4148, 4116] :=
  Reach.alloc poolA [4116] 16 false none poolA_reach poolB_osok (by decide)

theorem live_allocations_disjoint_witness :
    [4148, 4116].Nodup ∧
    (∀ p ∈ [4148, 4116], p = MPZ_SLOT_TO_DATA (MPZ_DATA_TO_SLOT p)) ∧
    (∀ p ∈ [4148, 4116], ∀ q ∈ [4148, 4116], p ≠ q →
      MPZ_DATA_TO_SLOT p + (4 + MPZ_SLOT_READ_SIZE poolB.heap (MPZ_DATA_TO_SLOT p) + 4)
        ≤ MPZ_DATA_TO_SLOT q ∨
      MPZ_DATA_TO_SLOT q + (4 + MPZ_SLOT_READ_SIZE poolB.heap (MPZ_DATA_TO_SLOT q) + 4)
        ≤ MPZ_DATA_TO_SLOT p) ∧
    (∀ size z os, OsOk cfgS (_mpz_palloc cfgS poolB size z os).2.live →
      (_mpz_palloc cfgS poolB size z os).1 ≠ 0 →
      (_mpz_palloc cfgS poolB size z os).1 ∉ [4148, 4116]) :=
  live_allocations_disjoint cfgS cfgS_sane poolB [4148, 4116] poolB_reach

/-! ## Slab layout -/

theorem pallocPooled_refill (c : Config) (P : Pool) (r : Nat) (z : Bool) {b : Nat}
    (hb : b ≠ 0) (h0 : P.bins (MPZ_BIN_IDX c r) = 0) :
    pallocPooled c P r z (some b)
      = pallocPop c (_mpz_slab_init c
          (_mpz_slab_create c P ((r + MPZ_SLOT_SIZE c) * c.mul) (some b)).2 b r) r
          (MPZ_BIN_IDX c r) z ∧
    (pallocPooled c P r z (some b)).2.live
      = (b, (r + MPZ_SLOT_SIZE c) * c.mul + MPZ_SLAB_SIZE c) :: P.live := by
  have e : pallocPooled c P r z (some b)
      = pallocPop c (_mpz_slab_init c
          (_mpz_slab_create c P ((r + MPZ_SLOT_SIZE c) * c.mul) (some b)).2 b r) r
          (MPZ_BIN_IDX c r) z := by
    unfold pallocPooled
    simp only [h0, if_true]
    rw [slab_create_some c P _ b hb]
    simp only [hb, if_false]
  refine ⟨e, ?_⟩
  rw [e, pallocPop_live, slab_init_live, slab_create_some c P _ b hb]
  rfl

theorem slabInitLoop_bins (c : Config) (slab size idx : Nat) :
    ∀ (n i slot : Nat) (P : Pool), i + n = c.mul →
      (slabInitLoop c slab size idx n i slot P).bins
        = if n = 0 then P.bins else upd P.bins idx (MPZ_SLAB_TO_SLOT c slab) := by
  intro n
  induction n with
  | zero => intro i slot P _; rfl
  | succ n ih =>
    intro i slot P hin
    simp only [slabInitLoop]
    rw [if_neg (Nat.succ_ne_zero n)]
    split
    · rename_i hlast
      have hn : n = 0 := by omega
      subst hn
      rfl
    · rename_i hlast
      have hn : n ≠ 0 := by omega
      rw [ih _ _ _ (by omega), if_neg hn]

theorem slotWithin_of_size {c : Config} (hc : c.Sane) (a : Nat) {r : Nat} (hr : 16 ≤ r) :
    SlotWithin c a r a (a + (r + MPZ_SLOT_SIZE c)) := by
  unfold SlotWithin slotNext MPZ_SLOT_GOTO_FOOT MPZ_SLOT_TO_DATA
  rw [slot_size_eq hc, hc.ptr8]
  omega

/-- C19. Slab layout stays in bounds. For a request that rounds to the size `r`: on the
pooled branch with an empty bin, the block `_mpz_slab_create` asks of the OS has
`MPZ_SLAB_SIZE + K * (r + MPZ_SLOT_SIZE)` bytes (`K = MPZ_SLAB_ALLOC_MUL`), the pointer
returned is the data pointer of slot 0, and for every `j < K` the slot at offset
`MPZ_SLAB_SIZE + j * (r + MPZ_SLOT_SIZE)` has its head, link, payload and foot inside its
own `r + MPZ_SLOT_SIZE` bytes, which follow the slab header, end inside the block and do
not overlap the bytes of any other slot; the link overlaps neither head nor foot. On the
huge branch the block has `MPZ_SLAB_SIZE + r + MPZ_SLOT_SIZE` bytes and its only slot
fits in the same way. -/
theorem slab_layout_in_bounds (c : Config) (hc : c.Sane) (P : Pool) (size : Nat) (z : Bool)
    (b : Nat) (hs : size ≤ MPZ_POOL_MAX_ALLOC) (hb : b ≠ 0) :
    (allocSize c size ≤ c.bins <<< c.shift → P.bins (MPZ_BIN_IDX c (allocSize c size)) = 0 →
      (_mpz_palloc c P size z (some b)).2.live
        = (b, MPZ_SLAB_SIZE c + c.mul * (allocSize c size + MPZ_SLOT_SIZE c)) :: P.live ∧
      (_mpz_palloc c P size z (some b)).1
        = MPZ_SLOT_TO_DATA (slotAt c ⟨b, allocSize c size, false⟩ 0) ∧
      ∀ j, j < c.mul →
        slotAt c ⟨b, allocSize c size, false⟩ j
          = b + MPZ_SLAB_SIZE c + j * (allocSize c size + MPZ_SLOT_SIZE c) ∧
        SlotWithin c (slotAt c ⟨b, allocSize c size, false⟩ j) (allocSize c size)
          (slotAt c ⟨b, allocSize c size, false⟩ j)
          (slotAt c ⟨b, allocSize c size, false⟩ j + (allocSize c size + MPZ_SLOT_SIZE c)) ∧
        b + MPZ_SLAB_SIZE c ≤ slotAt c ⟨b, allocSize c size, false⟩ j ∧
        slotAt c ⟨b, allocSize c size, false⟩ j + (allocSize c size + MPZ_SLOT_SIZE c)
          ≤ b + (MPZ_SLAB_SIZE c + c.mul * (allocSize c size + MPZ_SLOT_SIZE c)) ∧
        ∀ i, i < c.mul → i ≠ j →
          slotAt c ⟨b, allocSize c size, false⟩ i + (allocSize c size + MPZ_SLOT_SIZE c)
            ≤ slotAt c ⟨b, allocSize c size, false⟩ j ∨
          slotAt c ⟨b, allocSize c size, false⟩ j + (allocSize c size + MPZ_SLOT_SIZE c)
            ≤ slotAt c ⟨b, allocSize c size, false⟩ i) ∧
    (c.bins <<< c.shift < allocSize c size →
      (_mpz_palloc c P size z (some b)).2.live
        = (b, MPZ_SLAB_SIZE c + (allocSize c size + MPZ_SLOT_SIZE c)) :: P.live ∧
      (_mpz_palloc c P size z (some b)).1 = MPZ_SLOT_TO_DATA (MPZ_SLAB_TO_SLOT c b) ∧
      MPZ_SLAB_TO_SLOT c b = b + MPZ_SLAB_SIZE c ∧
      SlotWithin c (MPZ_SLAB_TO_SLOT c b) (allocSize c size) (b + MPZ_SLAB_SIZE c)
        (b + (MPZ_SLAB_SIZE c + (allocSize c size + MPZ_SLOT_SIZE c)))) := by
  obtain ⟨m, hm1, hm, hm28, _⟩ := allocSize_mul hc hs
  have h16 := hc.align_ge
  have hr16 : 16 ≤ allocSize c size := by
    rw [hm]
    calc 16 ≤ 2 ^ c.shift := h16
      _ = 1 * 2 ^ c.shift := (Nat.one_mul _).symm
      _ ≤ m * 2 ^ c.shift := Nat.mul_le_mul_right _ hm1
  refine ⟨?_, ?_⟩
  · intro hle h0
    obtain ⟨e1, e2⟩ := pallocPooled_refill c P (allocSize c size) z hb h0
    have hd : _mpz_palloc c P size z (some b) = pallocPooled c P (allocSize c size) z (some b) := by
      rw [palloc_dispatch c P hs z (some b), if_neg (by omega)]
    have hbin : (_mpz_slab_init c
        (_mpz_slab_create c P ((allocSize c size + MPZ_SLOT_SIZE c) * c.mul) (some b)).2 b
        (allocSize c size)).bins (MPZ_BIN_IDX c (allocSize c size)) = MPZ_SLAB_TO_SLOT c b := by
      unfold _mpz_slab_init
      rw [slabInitLoop_bins c b _ _ c.mul 0 _ _ (Nat.zero_add _),
        if_neg (Nat.pos_iff_ne_zero.mp hc.mul_pos)]
      simp [upd]
    rw [hd, e2]
    refine ⟨?_, ?_, ?_⟩
    · rw [Nat.mul_comm c.mul, Nat.add_comm (MPZ_SLAB_SIZE c)]
    · rw [e1, pallocPop_fst, hbin]
      simp [MPZ_SLOT_TO_DATA, slotAt]
    · intro j hj
      have hsl : ∀ i, i < c.mul → IsSlot c ⟨b, allocSize c size, false⟩
          (slotAt c ⟨b, allocSize c size, false⟩ i) := fun i hi => ⟨i, by simpa [nslots] using hi, rfl⟩
      have hbd := (hsl j hj).bounds hc
      have hbl := blockLen_eq hc ⟨b, allocSize c size, false⟩
      simp only [nslots, Bool.false_eq_true, if_false] at hbl
      rw [hbl] at hbd
      simp only [] at hbd
      refine ⟨rfl, slotWithin_of_size hc _ hr16, ?_, ?_, ?_⟩
      · rw [slab_size_eq hc]; exact hbd.1
      · rw [slab_size_eq hc, slot_size_eq hc, Nat.mul_comm c.mul]
        omega
      · intro i hi hij
        have hne : slotAt c ⟨b, allocSize c size, false⟩ i
            ≠ slotAt c ⟨b, allocSize c size, false⟩ j := by
          rw [slotAt_eq hc, slotAt_eq hc]
          simp only []
          intro h
          have h2 : i * (allocSize c size + 16) = j * (allocSize c size + 16) := by omega
          exact hij (Nat.eq_of_mul_eq_mul_right (by omega) h2)
        have := (hsl i hi).disjoint_same hc (hsl j hj) hne
        rw [slot_size_eq hc]
        exact this
  · intro hgt
    have hd : _mpz_palloc c P size z (some b) = pallocHuge c P (allocSize c size) (some b) := by
      rw [palloc_dispatch c P hs z (some b), if_pos hgt]
    obtain ⟨_, _, _, hl⟩ := pallocHuge_frame c P (allocSize c size) hb
    rw [hd, hl]
    refine ⟨by rw [Nat.add_comm (MPZ_SLAB_SIZE c)], ?_, rfl, ?_⟩
    · unfold pallocHuge
      rw [slab_create_some c P _ b hb]
      simp only [hb, if_false]
    · have := slotWithin_of_size hc (MPZ_SLAB_TO_SLOT c b) hr16
      unfold SlotWithin MPZ_SLAB_TO_SLOT at *
      omega

theorem slab_layout_in_bounds_witness :
    (allocSize cfgS 16 ≤ cfgS.bins <<< cfgS.shift → poolS.bins (MPZ_BIN_IDX cfgS (allocSize cfgS 16)) = 0 →
      (_mpz_palloc cfgS poolS 16 false (some 4096)).2.live
        = (4096, MPZ_SLAB_SIZE cfgS + cfgS.mul * (allocSize cfgS 16 + MPZ_SLOT_SIZE cfgS)) :: poolS.live ∧
      (_mpz_palloc cfgS poolS 16 false (some 4096)).1
        = MPZ_SLOT_TO_DATA (slotAt cfgS ⟨4096, allocSize cfgS 16, false⟩ 0) ∧
      ∀ j, j < cfgS.mul →
        slotAt cfgS ⟨4096, allocSize cfgS 16, false⟩ j
          = 4096 + MPZ_SLAB_SIZE cfgS + j * (allocSize cfgS 16 + MPZ_SLOT_SIZE cfgS) ∧
        SlotWithin cfgS (slotAt cfgS ⟨4096, allocSize cfgS 16, false⟩ j) (allocSize cfgS 16)
          (slotAt cfgS ⟨4096, allocSize cfgS 16, false⟩ j)
          (slotAt cfgS ⟨4096, allocSize cfgS 16, false⟩ j + (allocSize cfgS 16 + MPZ_SLOT_SIZE cfgS)) ∧
        4096 + MPZ_SLAB_SIZE cfgS ≤ slotAt cfgS ⟨4096, allocSize cfgS 16, false⟩ j ∧
        slotAt cfgS ⟨4096, allocSize cfgS 16, false⟩ j + (allocSize cfgS 16 + MPZ_SLOT_SIZE cfgS)
          ≤ 4096 + (MPZ_SLAB_SIZE cfgS + cfgS.mul * (allocSize cfgS 16 + MPZ_SLOT_SIZE cfgS)) ∧
        ∀ i, i < cfgS.mul → i ≠ j →
          slotAt cfgS ⟨4096, allocSize cfgS 16, false⟩ i + (allocSize cfgS 16 + MPZ_SLOT_SIZE cfgS)
            ≤ slotAt cfgS ⟨4096, allocSize cfgS 16, false⟩ j ∨
          slotAt cfgS ⟨4096, allocSize cfgS 16, false⟩ j + (allocSize cfgS 16 + MPZ_SLOT_SIZE cfgS)
            ≤ slotAt cfgS ⟨4096, allocSize cfgS 16, false⟩ i) ∧
    (cfgS.bins <<< cfgS.shift < allocSize cfgS 16 →
      (_mpz_palloc cfgS poolS 16 false (some 4096)).2.live
        = (4096, MPZ_SLAB_SIZE cfgS + (allocSize cfgS 16 + MPZ_SLOT_SIZE cfgS)) :: poolS.live ∧
      (_mpz_palloc cfgS poolS 16 false (some 4096)).1 = MPZ_SLOT_TO_DATA (MPZ_SLAB_TO_SLOT cfgS 4096) ∧
      MPZ_SLAB_TO_SLOT cfgS 4096 = 4096 + MPZ_SLAB_SIZE cfgS ∧
      SlotWithin cfgS (MPZ_SLAB_TO_SLOT cfgS 4096) (allocSize cfgS 16) (4096 + MPZ_SLAB_SIZE cfgS)
        (4096 + (MPZ_SLAB_SIZE cfgS + (allocSize cfgS 16 + MPZ_SLOT_SIZE cfgS)))) :=
  slab_layout_in_bounds cfgS cfgS_sane poolS 16 false 4096 (by decide) (by decide)

/-! ## What `_mpz_slab_init` builds -/

/-- C15. Population of a fresh slab: let the block of the slab at `b` (slot size `r`,
`K = MPZ_SLAB_ALLOC_MUL` slots) lie in the address space and let `L` be the free list of
`bins[MPZ_BIN_IDX(r)]` before the call, none of its slots inside the new block. After
`_mpz_slab_init(pool, slab, r)` the free list of that bin is slot 0, slot 1, ..., slot
`K - 1` of the slab (slot `j` at `b + MPZ_SLAB_SIZE + j * (r + MPZ_SLOT_SIZE)`) followed by
`L`; head and foot of each of the `K` slots hold the plain size `r`; the other bins, the
slab list and the memory outside the slots of the slab are unchanged. -/
theorem slab_init_threads_slots (c : Config) (hc : c.Sane) (P : Pool) (b r : Nat)
    (L : List Nat) (hr16 : 16 ≤ r) (hr30 : r < 2 ^ 30)
    (hend : b + (MPZ_SLAB_SIZE c + c.mul * (r + MPZ_SLOT_SIZE c)) ≤ 2 ^ 64)
    (hb : P.bins (MPZ_BIN_IDX c r) < 2 ^ 64)
    (hch : FreeChain c P.heap (P.bins (MPZ_BIN_IDX c r)) L)
    (hL : ∀ x ∈ L, slotNext c x + c.ptr ≤ b + MPZ_SLAB_SIZE c ∨
      b + (MPZ_SLAB_SIZE c + c.mul * (r + MPZ_SLOT_SIZE c)) ≤ slotNext c x) :
    slotList c ⟨b, r, false⟩
      = (List.range c.mul).map (fun j => b + MPZ_SLAB_SIZE c + j * (r + MPZ_SLOT_SIZE c)) ∧
    FreeChain c (_mpz_slab_init c P b r).heap
      ((_mpz_slab_init c P b r).bins (MPZ_BIN_IDX c r)) (slotList c ⟨b, r, false⟩ ++ L) ∧
    (∀ a ∈ slotList c ⟨b, r, false⟩,
      MPZ_SLOT_READ_HEAD (_mpz_slab_init c P b r).heap a = r ∧
      rd (_mpz_slab_init c P b r).heap (MPZ_SLOT_READ_FOOT (_mpz_slab_init c P b r).heap a) 4
        = r ∧
      MPZ_SLOT_READ_FOOT (_mpz_slab_init c P b r).heap a = MPZ_SLOT_GOTO_FOOT a r) ∧
    (∀ i, i ≠ MPZ_BIN_IDX c r → (_mpz_slab_init c P b r).bins i = P.bins i) ∧
    (_mpz_slab_init c P b r).slabs = P.slabs ∧
    (_mpz_slab_init c P b r).live = P.live ∧
    Frame P.heap (_mpz_slab_init c P b r).heap (b + MPZ_SLAB_SIZE c)
      (b + (MPZ_SLAB_SIZE c + c.mul * (r + MPZ_SLOT_SIZE c))) := by
  have hbl : blockLen c ⟨b, r, false⟩ = MPZ_SLAB_SIZE c + c.mul * (r + MPZ_SLOT_SIZE c) := by
    simp only [blockLen, nslots, Bool.false_eq_true, if_false]
    rw [Nat.mul_comm, Nat.add_comm]
  have hend' : b + blockLen c ⟨b, r, false⟩ ≤ 2 ^ 64 := by rw [hbl]; exact hend
  have hL' : ∀ x ∈ L, x + 16 ≤ b + 16 ∨ b + blockLen c ⟨b, r, false⟩ ≤ x + 8 := by
    intro x hx
    have := hL x hx
    rw [hbl]
    simp only [slotNext, hc.ptr8, slab_size_eq hc] at this ⊢
    omega
  obtain ⟨hf, hg, hbins, hchain⟩ :=
    slab_init_spec hc P ⟨b, r, false⟩ rfl hr16 hr30 hend' hb hch hL'
  simp only [] at hf hg hbins hchain
  refine ⟨?_, ?_, ?_, ?_, ?_, ?_, ?_⟩
  · unfold slotList
    simp only [nslots, Bool.false_eq_true, if_false]
    apply List.map_congr_left
    intro j _
    rfl
  · rw [hbins]
    simp only [upd, if_true]
    exact hchain
  · intro a ha
    have hG := hg a (mem_slotList.mp ha)
    have hG0 : Guarded (_mpz_slab_init c P b r).heap a r (2 ^ 30 * 0 + r) := by
      simpa using hG
    obtain ⟨_, e2, e3, _, _⟩ := guard_reads (show 0 < 4 by decide) hr30 hG0
    refine ⟨hG.1, ?_, ?_⟩
    · rw [e3]; exact hG.1
    · rw [e2]; rfl
  · intro i hi
    rw [hbins]
    simp [upd, hi]
  · exact (slabInitLoop_frame c b r _ c.mul 0 _ P).1
  · exact slab_init_live c P b r
  · rw [hbl, slab_size_eq hc] at *
    exact hf

theorem slab_init_threads_slots_witness :
    slotList cfgS ⟨8192, 16, false⟩
      = (List.range cfgS.mul).map (fun j => 8192 + MPZ_SLAB_SIZE cfgS + j * (16 + MPZ_SLOT_SIZE cfgS)) ∧
    FreeChain cfgS (_mpz_slab_init cfgS (_mpz_slab_create cfgS poolF 128 (some 8192)).2 8192 16).heap
      ((_mpz_slab_init cfgS (_mpz_slab_create cfgS poolF 128 (some 8192)).2 8192 16).bins (MPZ_BIN_IDX cfgS 16)) (slotList cfgS ⟨8192, 16, false⟩ ++ [4112, 4144, 4176, 4208]) ∧
    (∀ a ∈ slotList cfgS ⟨8192, 16, false⟩,
      MPZ_SLOT_READ_HEAD (_mpz_slab_init cfgS (_mpz_slab_create cfgS poolF 128 (some 8192)).2 8192 16).heap a = 16 ∧
      rd (_mpz_slab_init cfgS (_mpz_slab_create cfgS poolF 128 (some 8192)).2 8192 16).heap (MPZ_SLOT_READ_FOOT (_mpz_slab_init cfgS (_mpz_slab_create cfgS poolF 128 (some 8192)).2 8192 16).heap a) 4
        = 16 ∧
      MPZ_SLOT_READ_FOOT (_mpz_slab_init cfgS (_mpz_slab_create cfgS poolF 128 (some 8192)).2 8192 16).heap a = MPZ_SLOT_GOTO_FOOT a 16) ∧
    (∀ i, i ≠ MPZ_BIN_IDX cfgS 16 → (_mpz_slab_init cfgS (_mpz_slab_create cfgS poolF 128 (some 8192)).2 8192 16).bins i = (_mpz_slab_create cfgS poolF 128 (some 8192)).2.bins i) ∧
    (_mpz_slab_init cfgS (_mpz_slab_create cfgS poolF 128 (some 8192)).2 8192 16).slabs = (_mpz_slab_create cfgS poolF 128 (some 8192)).2.slabs ∧
    (_mpz_slab_init cfgS (_mpz_slab_create cfgS poolF 128 (some 8192)).2 8192 16).live = (_mpz_slab_create cfgS poolF 128 (some 8192)).2.live ∧
    Frame (_mpz_slab_create cfgS poolF 128 (some 8192)).2.heap (_mpz_slab_init cfgS (_mpz_slab_create cfgS poolF 128 (some 8192)).2 8192 16).heap (8192 + MPZ_SLAB_SIZE cfgS)
      (8192 + (MPZ_SLAB_SIZE cfgS + cfgS.mul * (16 + MPZ_SLOT_SIZE cfgS))) :=
  slab_init_threads_slots cfgS cfgS_sane (_mpz_slab_create cfgS poolF 128 (some 8192)).2 8192 16
    [4112, 4144, 4176, 4208] (by decide) (by decide) (by decide) (by decide)
    (by simp only [FreeChain]; decide) (by decide)

/-! ## Failure of the OS allocator -/

theorem CallsApart.push {c : Config} {P Q : Pool} (h : CallsApart P Q) (a : Nat) :
    CallsApart (_mpz_slab_push c P a) (_mpz_slab_push c Q a) := by
  obtain ⟨h1, h2, h3, h4, h5⟩ := h
  simp only [CallsApart, _mpz_slab_push, h1, h2, h3, h4, h5, and_self]

theorem CallsApart.memalign {P Q : Pool} (h : CallsApart P Q) (a s : Nat) (os : Option Nat) :
    (mpz_memalign P a s os).1 = (mpz_memalign Q a s os).1 ∧
    CallsApart (mpz_memalign P a s os).2 (mpz_memalign Q a s os).2 := by
  obtain ⟨h1, h2, h3, h4, h5⟩ := h
  cases os with
  | none => exact ⟨rfl, h1, h2, h3, h4, h5⟩
  | some p => exact ⟨rfl, h1, h2, h3, h4, by simp only [mpz_memalign, h5]⟩

theorem CallsApart.create {c : Config} {P Q : Pool} (h : CallsApart P Q) (n : Nat)
    (os : Option Nat) :
    (_mpz_slab_create c P n os).1 = (_mpz_slab_create c Q n os).1 ∧
    CallsApart (_mpz_slab_create c P n os).2 (_mpz_slab_create c Q n os).2 := by
  obtain ⟨e1, e2⟩ := h.memalign (MPZ_ALLOC_ALIGNMENT c) (n + MPZ_SLAB_SIZE c) os
  unfold _mpz_slab_create
  simp only [e1]
  by_cases hz : (mpz_memalign Q (MPZ_ALLOC_ALIGNMENT c) (n + MPZ_SLAB_SIZE c) os).1 = 0
  · simp only [hz, if_true]
    exact ⟨trivial, e2⟩
  · simp only [hz, if_false]
    exact ⟨trivial, e2.push _⟩

theorem CallsApart.initLoop {c : Config} (slab size idx : Nat) :
    ∀ (n i slot : Nat) {P Q : Pool}, CallsApart P Q →
      CallsApart (slabInitLoop c slab size idx n i slot P)
        (slabInitLoop c slab size idx n i slot Q) := by
  intro n
  induction n with
  | zero => intro i slot P Q h; exact h
  | succ n ih =>
    intro i slot P Q h
    obtain ⟨h1, h2, h3, h4, h5⟩ := h
    simp only [slabInitLoop, h1, h4]
    by_cases hl : i = c.mul - 1
    · simp only [hl, if_true]
      exact ih _ _ ⟨rfl, h2, h3, rfl, h5⟩
    · simp only [hl, if_false]
      exact ih _ _ ⟨rfl, h2, h3, rfl, h5⟩

theorem CallsApart.pop {c : Config} {P Q : Pool} (h : CallsApart P Q) (r idx : Nat)
    (z : Bool) :
    (pallocPop c P r idx z).1 = (pallocPop c Q r idx z).1 ∧
    CallsApart (pallocPop c P r idx z).2 (pallocPop c Q r idx z).2 := by
  obtain ⟨h1, h2, h3, h4, h5⟩ := h
  simp only [CallsApart, pallocPop, h1, h2, h3, h4, h5, and_self]

theorem CallsApart.huge {c : Config} {P Q : Pool} (h : CallsApart P Q) (r : Nat)
    (os : Option Nat) :
    (pallocHuge c P r os).1 = (pallocHuge c Q r os).1 ∧
    CallsApart (pallocHuge c P r os).2 (pallocHuge c Q r os).2 := by
  obtain ⟨e1, g1, g2, g3, g4, g5⟩ := h.create (c := c) (r + MPZ_SLOT_SIZE c) os
  unfold pallocHuge
  simp only [e1]
  by_cases hz : (_mpz_slab_create c Q (r + MPZ_SLOT_SIZE c) os).1 = 0
  · simp only [hz, if_true]
    exact ⟨trivial, g1, g2, g3, g4, g5⟩
  · simp only [hz, if_false]
    exact ⟨trivial, g1, g2, g3, by simp only [g4], g5⟩

theorem CallsApart.pooled {c : Config} {P Q : Pool} (h : CallsApart P Q) (r : Nat)
    (z : Bool) (os : Option Nat) :
    (pallocPooled c P r z os).1 = (pallocPooled c Q r z os).1 ∧
    CallsApart (pallocPooled c P r z os).2 (pallocPooled c Q r z os).2 := by
  obtain ⟨e1, e2⟩ := h.create (c := c) ((r + MPZ_SLOT_SIZE c) * c.mul) os
  unfold pallocPooled
  simp only [h.1, e1]
  by_cases hb : Q.bins (MPZ_BIN_IDX c r) = 0
  · simp only [hb, if_true]
    by_cases hz : (_mpz_slab_create c Q ((r + MPZ_SLOT_SIZE c) * c.mul) os).1 = 0
    · simp only [hz, if_true]
      exact ⟨trivial, e2⟩
    · simp only [hz, if_false]
      exact CallsApart.pop (CallsApart.initLoop _ _ _ _ _ _ e2) _ _ _
  · simp only [hb, if_false]
    exact CallsApart.pop h _ _ _

theorem CallsApart.palloc {c : Config} {P Q : Pool} (h : CallsApart P Q) (size : Nat)
    (z : Bool) (os : Option Nat) :
    (_mpz_palloc c P size z os).1 = (_mpz_palloc c Q size z os).1 ∧
    CallsApart (_mpz_palloc c P size z os).2 (_mpz_palloc c Q size z os).2 := by
  unfold _mpz_palloc
  by_cases h1 : ¬ size < MPZ_POOL_MIN_ALLOC c ∧ size > MPZ_POOL_MAX_ALLOC
  · rw [if_pos h1, if_pos h1]
    exact ⟨rfl, h⟩
  · rw [if_neg h1, if_neg h1]
    simp only []
    by_cases h2 : allocSize c size > c.bins <<< c.shift
    · rw [if_pos h2, if_pos h2]
      exact h.huge _ _
    · rw [if_neg h2, if_neg h2]
      exact h.pooled _ _ _

theorem CallsApart.pushFreed {c : Config} {P Q : Pool} (h : CallsApart P Q) (a r : Nat) :
    CallsApart (freePush c P a r) (freePush c Q a r) := by
  obtain ⟨h1, h2, h3, h4, h5⟩ := h
  simp only [CallsApart, freePush, h1, h2, h3, h4, h5, and_self]

theorem CallsApart.unlink {c : Config} {P Q : Pool} (h : CallsApart P Q) (a : Nat) :
    CallsApart (slabUnlink c P a) (slabUnlink c Q a) := by
  obtain ⟨h1, h2, h3, h4, h5⟩ := h
  unfold slabUnlink
  simp only [h2, h4]
  by_cases hp : rd Q.heap a c.ptr ≠ 0
  · simp only [if_pos hp]
    split <;> exact ⟨h1, rfl, h3, rfl, h5⟩
  · simp only [if_neg hp]
    split <;> exact ⟨h1, rfl, h3, rfl, h5⟩

theorem CallsApart.slabFree {c : Config} {P Q : Pool} (h : CallsApart P Q) (a : Nat) :
    ExceptRel CallsApart (_mpz_slab_free c P a) (_mpz_slab_free c Q a) := by
  obtain ⟨g1, g2, g3, g4, g5⟩ := h.unlink (c := c) (MPZ_SLOT_TO_SLAB c a)
  unfold _mpz_slab_free os_free
  simp only [g5]
  split
  · exact ⟨g1, g2, g3, g4, by simp only [g5]⟩
  · exact rfl

theorem CallsApart.free {c : Config} {P Q : Pool} (h : CallsApart P Q) (p : Nat) :
    ExceptRel CallsApart (mpz_free c P p) (mpz_free c Q p) := by
  have h4 := h.2.2.2.1
  unfold mpz_free
  simp only [h4]
  by_cases hp : p = 0
  · simp only [hp, if_true]
    exact h
  · simp only [hp, if_false]
    split
    · split
      · exact rfl
      · split
        · exact h.pushFreed _ _
        · exact rfl
    · split
      · exact h.slabFree _
      · split
        · exact h.pushFreed _ _
        · exact rfl

theorem CallsApart.run {c : Config} :
    ∀ (ops : List Op) {P Q : Pool}, CallsApart P Q →
      ExceptRel (fun x y => x.1 = y.1 ∧ CallsApart x.2 y.2) (runOps c P ops) (runOps c Q ops) := by
  intro ops
  induction ops with
  | nil => intro P Q h; exact ⟨rfl, h⟩
  | cons op ops ih =>
    intro P Q h
    cases op with
    | free p =>
      have hf := h.free (c := c) p
      simp only [runOps]
      cases h1 : mpz_free c P p with
      | error e =>
        cases h2 : mpz_free c Q p with
        | error f => rw [h1, h2] at hf; exact hf
        | ok Q1 => rw [h1, h2] at hf; exact hf.elim
      | ok P1 =>
        cases h2 : mpz_free c Q p with
        | error f => rw [h1, h2] at hf; exact hf.elim
        | ok Q1 =>
          rw [h1, h2] at hf
          exact ih hf
    | alloc size z os =>
      obtain ⟨e1, e2⟩ := h.palloc (c := c) size z os
      have hr := ih e2
      simp only [runOps]
      cases h1 : runOps c (_mpz_palloc c P size z os).2 ops with
      | error e =>
        cases h2 : runOps c (_mpz_palloc c Q size z os).2 ops with
        | error f => rw [h1, h2] at hr; exact hr
        | ok y => rw [h1, h2] at hr; exact hr.elim
      | ok x =>
        cases h2 : runOps c (_mpz_palloc c Q size z os).2 ops with
        | error f => rw [h1, h2] at hr; exact hr.elim
        | ok y =>
          rw [h1, h2] at hr
          obtain ⟨r1, r2⟩ := hr
          exact ⟨by simp only [e1, r1], r2⟩

/-- C14. Atomic failure on OS out-of-memory. For a request of at most
`MPZ_POOL_MAX_ALLOC` bytes: when the call has to ask the OS (huge branch, or pooled branch
with an empty bin) and the OS fails, `_mpz_palloc` returns `NULL` and the memory, every
bin, the slab list and the table of blocks are exactly as before (only the count of OS
calls has grown); every later sequence of operations then has the same outcome -- the
same pointers returned, the same fault if any -- as it has from the state before the
failed call. When the call does not have to ask the OS, its result does not depend on the
answer of the OS. A failing `mpz_pool_create` returns `NULL`. -/
theorem alloc_oom_atomic (c : Config) (P : Pool) (size : Nat) (z : Bool)
    (hs : size ≤ MPZ_POOL_MAX_ALLOC) :
    ((c.bins <<< c.shift < allocSize c size ∨
        P.bins (MPZ_BIN_IDX c (allocSize c size)) = 0) →
      _mpz_palloc c P size z none = (0, { P with oscalls := P.oscalls + 1 }) ∧
      (_mpz_palloc c P size z none).2.heap = P.heap ∧
      (_mpz_palloc c P size z none).2.bins = P.bins ∧
      (_mpz_palloc c P size z none).2.slabs = P.slabs ∧
      (_mpz_palloc c P size z none).2.live = P.live ∧
      ∀ ops, ExceptRel (fun x y => x.1 = y.1 ∧ CallsApart x.2 y.2)
        (runOps c (_mpz_palloc c P size z none).2 ops) (runOps c P ops)) ∧
    (¬ (c.bins <<< c.shift < allocSize c size ∨
        P.bins (MPZ_BIN_IDX c (allocSize c size)) = 0) →
      ∀ os, _mpz_palloc c P size z os = _mpz_palloc c P size z none ∧
        (_mpz_palloc c P size z os).2.oscalls = P.oscalls) ∧
    (∀ h, mpz_pool_create c h none = none) := by
  refine ⟨?_, ?_, ?_⟩
  · intro hos
    have e : _mpz_palloc c P size z none = (0, { P with oscalls := P.oscalls + 1 }) := by
      rw [palloc_dispatch c P hs z none]
      by_cases hh : c.bins <<< c.shift < allocSize c size
      · rw [if_pos hh]
        exact pallocHuge_none c P _
      · rw [if_neg hh]
        exact pallocPooled_none c P _ z (hos.resolve_left hh)
    refine ⟨e, ?_⟩
    rw [e]
    refine ⟨rfl, rfl, rfl, rfl, ?_⟩
    intro ops
    exact CallsApart.run ops ⟨rfl, rfl, rfl, rfl, rfl⟩
  · intro hos os
    have hh : ¬ c.bins <<< c.shift < allocSize c size := fun h => hos (Or.inl h)
    have hb : P.bins (MPZ_BIN_IDX c (allocSize c size)) ≠ 0 := fun h => hos (Or.inr h)
    rw [palloc_dispatch c P hs z os, palloc_dispatch c P hs z none, if_neg hh, if_neg hh,
      pallocPooled_nonempty c P _ z os hb, pallocPooled_nonempty c P _ z none hb]
    exact ⟨rfl, rfl⟩
  · intro h
    rfl

theorem alloc_oom_atomic_witness :
    ((cfgS.bins <<< cfgS.shift < allocSize cfgS 16 ∨
        poolS.bins (MPZ_BIN_IDX cfgS (allocSize cfgS 16)) = 0) →
      _mpz_palloc cfgS poolS 16 false none = (0, { poolS with oscalls := poolS.oscalls + 1 }) ∧
      (_mpz_palloc cfgS poolS 16 false none).2.heap = poolS.heap ∧
      (_mpz_palloc cfgS poolS 16 false none).2.bins = poolS.bins ∧
      (_mpz_palloc cfgS poolS 16 false none).2.slabs = poolS.slabs ∧
      (_mpz_palloc cfgS poolS 16 false none).2.live = poolS.live ∧
      ∀ ops, ExceptRel (fun x y => x.1 = y.1 ∧ CallsApart x.2 y.2)
        (runOps cfgS (_mpz_palloc cfgS poolS 16 false none).2 ops) (runOps cfgS poolS ops)) ∧
    (¬ (cfgS.bins <<< cfgS.shift < allocSize cfgS 16 ∨
        poolS.bins (MPZ_BIN_IDX cfgS (allocSize cfgS 16)) = 0) →
      ∀ os, _mpz_palloc cfgS poolS 16 false os = _mpz_palloc cfgS poolS 16 false none ∧
        (_mpz_palloc cfgS poolS 16 false os).2.oscalls = poolS.oscalls) ∧
    (∀ h, mpz_pool_create cfgS h none = none) :=
  alloc_oom_atomic cfgS poolS 16 false (by decide)

/-! ## Exact effect of a pooled allocation on the invariant -/

theorem allocSize_ok {c : Config} (hc : c.Sane) {size : Nat} (hs : size ≤ MPZ_POOL_MAX_ALLOC)
    (hrb : allocSize c size ≤ c.bins <<< c.shift) (b : Nat) :
    (∃ m, 1 ≤ m ∧ allocSize c size = m * 2 ^ c.shift) ∧ allocSize c size ≤ 2 ^ 28 ∧
    SlabOk c ⟨b, allocSize c size, false⟩ ∧ MPZ_BIN_IDX c (allocSize c size) < c.bins := by
  obtain ⟨m, hm1, hm, hm28, _⟩ := allocSize_mul hc hs
  have hok : SlabOk c ⟨b, allocSize c size, false⟩ :=
    ⟨⟨m, hm1, hm⟩, by rw [hm]; exact hm28,
      by simp only [Bool.false_eq_true, false_iff]; omega⟩
  exact ⟨⟨m, hm1, hm⟩, by rw [hm]; exact hm28, hok, hok.idx_lt hc rfl⟩

/-- A pooled allocation from a non-empty bin returns the head of the free list. -/
theorem palloc_pop_inv {c : Config} (hc : c.Sane) {P : Pool} {S : List SlabD}
    {F : Nat → List Nat} {U : List Nat} (hI : Inv c P S F U) {size : Nat}
    (hs : size ≤ MPZ_POOL_MAX_ALLOC) (hrb : allocSize c size ≤ c.bins <<< c.shift)
    (z : Bool) (os : Option Nat) {a : Nat} {L : List Nat}
    (hF : F (MPZ_BIN_IDX c (allocSize c size)) = a :: L) :
    (_mpz_palloc c P size z os).1 = MPZ_SLOT_TO_DATA a ∧
    Inv c (_mpz_palloc c P size z os).2 S
      (Function.update F (MPZ_BIN_IDX c (allocSize c size)) L) (MPZ_SLOT_TO_DATA a :: U) ∧
    (_mpz_palloc c P size z os).2.live = P.live ∧
    (_mpz_palloc c P size z os).2.oscalls = P.oscalls := by
  obtain ⟨hr, hr28, _, hidx⟩ := allocSize_ok hc hs hrb 0
  have hch := hI.free_chain _ hidx
  rw [hF] at hch
  obtain ⟨d0, hd0, hda0, _⟩ := hI.free_mem _ a (by rw [hF]; exact List.mem_cons_self _ _)
  have ha0 := (hI.geo.slot_lt hc hd0 hda0).1
  have hb : P.bins (MPZ_BIN_IDX c (allocSize c size)) ≠ 0 := by rw [hch.1]; exact ha0
  obtain ⟨d, hd, _, _, hdi, hfst, hI3⟩ := pop_inv hc hI z hidx hF
  have hsz : d.size = allocSize c size :=
    bin_idx_inj hc (hI.slab_ok d hd).1 (hI.slab_ok d hd).2.1 hr hr28 hdi
  rw [hsz] at hfst hI3
  rw [palloc_dispatch c P hs z os, if_neg (by omega), pallocPooled_nonempty c P _ z os hb]
  exact ⟨hfst, hI3, rfl, rfl⟩

/-- A pooled allocation from an empty bin takes a new slab and returns its slot 0. -/
theorem palloc_refill_inv {c : Config} (hc : c.Sane) {P : Pool} {S : List SlabD}
    {F : Nat → List Nat} {U : List Nat} (hI : Inv c P S F U) {size : Nat}
    (hs : size ≤ MPZ_POOL_MAX_ALLOC) (hrb : allocSize c size ≤ c.bins <<< c.shift)
    (z : Bool) (b : Nat) (hF : F (MPZ_BIN_IDX c (allocSize c size)) = [])
    (hos : OsOk c (slabBlock c ⟨b, allocSize c size, false⟩ :: P.live)) :
    ∃ L, slotList c ⟨b, allocSize c size, false⟩ = MPZ_SLAB_TO_SLOT c b :: L ∧
      (_mpz_palloc c P size z (some b)).1 = MPZ_SLOT_TO_DATA (MPZ_SLAB_TO_SLOT c b) ∧
      Inv c (_mpz_palloc c P size z (some b)).2 (⟨b, allocSize c size, false⟩ :: S)
        (Function.update F (MPZ_BIN_IDX c (allocSize c size)) L)
        (MPZ_SLOT_TO_DATA (MPZ_SLAB_TO_SLOT c b) :: U) ∧
      (_mpz_palloc c P size z (some b)).2.live
        = slabBlock c ⟨b, allocSize c size, false⟩ :: P.live ∧
      (_mpz_palloc c P size z (some b)).2.oscalls = P.oscalls + 1 := by
  obtain ⟨hr, hr28, hok, hidx⟩ := allocSize_ok hc hs hrb b
  have hch := hI.free_chain _ hidx
  rw [hF] at hch
  have hb0 : b ≠ 0 := (hos.1 _ (List.mem_cons_self _ _)).1
  obtain ⟨e1, e2⟩ := pallocPooled_refill c P (allocSize c size) z hb0 hch
  obtain ⟨h1, _, hI2⟩ := refill_inv hc hI (allocSize c size) b hok hos
  obtain ⟨L, hL⟩ := slotList_cons hc ⟨b, allocSize c size, false⟩
  have hFu : Function.update F (MPZ_BIN_IDX c (allocSize c size))
      (slotList c ⟨b, allocSize c size, false⟩ ++ F (MPZ_BIN_IDX c (allocSize c size)))
      (MPZ_BIN_IDX c (allocSize c size)) = MPZ_SLAB_TO_SLOT c b :: L := by
    rw [Function.update_same, hL, hF, List.append_nil]
  obtain ⟨d, hd, _, _, hdi, hfst, hI3⟩ := pop_inv hc hI2 z hidx hFu
  have hsz : d.size = allocSize c size :=
    bin_idx_inj hc (hI2.slab_ok d hd).1 (hI2.slab_ok d hd).2.1 hr hr28 hdi
  rw [hsz, Function.update_idem] at hI3
  rw [hsz] at hfst
  have hd2 : _mpz_palloc c P size z (some b)
      = pallocPooled c P (allocSize c size) z (some b) := by
    rw [palloc_dispatch c P hs z (some b), if_neg (by omega)]
  refine ⟨L, hL, ?_, ?_, ?_, ?_⟩
  · rw [hd2, e1]; exact hfst
  · rw [hd2, e1]; exact hI3
  · rw [hd2, e2]
    simp [slabBlock, blockLen, nslots]
  · rw [hd2, e1, slab_create_some c P _ b hb0]
    exact (slabInitLoop_frame c b _ _ c.mul 0 _ _).2.2.2

/-- Allocations of one size class, as many as the bin holds free slots, return the slots
of the free list in order. -/
theorem alloc_run {c : Config} (hc : c.Sane) {S : List SlabD} {size : Nat}
    (hs : size ≤ MPZ_POOL_MAX_ALLOC) (hrb : allocSize c size ≤ c.bins <<< c.shift)
    (z : Bool) (os : Option Nat) :
    ∀ (L1 : List Nat) (P : Pool) (F : Nat → List Nat) (U L2 : List Nat),
      Inv c P S F U → F (MPZ_BIN_IDX c (allocSize c size)) = L1 ++ L2 →
      ∃ P1, runOps c P (List.replicate L1.length (Op.alloc size z os))
          = .ok (L1.map MPZ_SLOT_TO_DATA, P1) ∧
        Inv c P1 S (Function.update F (MPZ_BIN_IDX c (allocSize c size)) L2)
          ((L1.map MPZ_SLOT_TO_DATA).reverse ++ U) ∧
        P1.live = P.live ∧ P1.oscalls = P.oscalls := by
  intro L1
  induction L1 with
  | nil =>
    intro P F U L2 hI hF
    refine ⟨P, rfl, ?_, rfl, rfl⟩
    rw [List.nil_append] at hF
    rw [← hF, Function.update_eq_self]
    exact hI
  | cons a L1 ih =>
    intro P F U L2 hI hF
    have hF' : F (MPZ_BIN_IDX c (allocSize c size)) = a :: (L1 ++ L2) := by rw [hF]; rfl
    obtain ⟨h1, hI2, hl, ho⟩ := palloc_pop_inv hc hI hs hrb z os hF'
    obtain ⟨P1, hrun, hI3, hl3, ho3⟩ := ih _ _ _ L2 hI2 (by rw [Function.update_same])
    refine ⟨P1, ?_, ?_, by rw [hl3, hl], by rw [ho3, ho]⟩
    · simp only [List.length_cons, List.replicate_succ, runOps, hrun, h1, List.map_cons]
    · rw [Function.update_idem] at hI3
      simpa using hI3

/-- Frees of pooled live pointers of one size class push their slots on the bin, the last
freed first. -/
theorem free_run {c : Config} (hc : c.Sane) {S : List SlabD} {r : Nat} :
    ∀ (L : List Nat) (P : Pool) (F : Nat → List Nat) (U : List Nat),
      Inv c P S F U → L.Nodup →
      (∀ a ∈ L, MPZ_SLOT_TO_DATA a ∈ U ∧
        ∃ d ∈ S, IsSlot c d a ∧ d.huge = false ∧ d.size = r) →
      ∃ P1 U1, runOps c P (L.map (fun a => Op.free (MPZ_SLOT_TO_DATA a))) = .ok ([], P1) ∧
        Inv c P1 S (Function.update F (MPZ_BIN_IDX c r) (L.reverse ++ F (MPZ_BIN_IDX c r))) U1 ∧
        P1.live = P.live ∧ P1.oscalls = P.oscalls := by
  intro L
  induction L with
  | nil =>
    intro P F U hI _ _
    refine ⟨P, U, rfl, ?_, rfl, rfl⟩
    rw [List.reverse_nil, List.nil_append, Function.update_eq_self]
    exact hI
  | cons a L ih =>
    intro P F U hI hnd hL
    obtain ⟨hp, d, hd, hda, hdh, hsz⟩ := hL a (List.mem_cons_self _ _)
    obtain ⟨hf, hI2⟩ := free_pooled_inv hc hI hd hda hp hdh
    rw [hsz] at hf hI2
    obtain ⟨hna, hnd2⟩ := List.nodup_cons.mp hnd
    obtain ⟨P1, U1, hrun, hI3, hl3, ho3⟩ := ih _ _ _ hI2 hnd2 (by
      intro x hx
      obtain ⟨hxp, hxd⟩ := hL x (List.mem_cons_of_mem _ hx)
      refine ⟨?_, hxd⟩
      have hne : MPZ_SLOT_TO_DATA x ≠ MPZ_SLOT_TO_DATA a := by
        intro h
        unfold MPZ_SLOT_TO_DATA at h
        have : x = a := by omega
        exact hna (this ▸ hx)
      exact (List.mem_erase_of_ne hne).mpr hxp)
    refine ⟨P1, U1, ?_, ?_, by rw [hl3]; rfl, by rw [ho3]; rfl⟩
    · simp only [List.map_cons, runOps, hf, hrun]
    · rw [Function.update_idem, Function.update_same] at hI3
      simpa using hI3

/-! ## Scenario S2: a slab's worth of allocations freed in reverse order -/

/-- C13, evaluation of scenario S2 (`K = 4`, size 16): the four allocations return
`xs = [4116, 4148, 4180, 4212]`; after the four pointers are freed in reverse order
(`xs[3]` first, `xs[0]` last) the next allocation of 16 bytes returns `4116 = xs[0]`, not
`xs[3] = 4212`. -/
theorem reverse_free_returns_first :
    runResults cfgS poolS opsS2 = some [4116, 4148, 4180, 4212] ∧
    runResults cfgS poolS (opsS2 ++ [.alloc 16 false none])
      = some [4116, 4148, 4180, 4212, 4116] ∧
    runResults cfgS poolS (opsS2 ++ [.alloc 16 false none])
      ≠ some [4116, 4148, 4180, 4212, 4212] := by
  refine ⟨by decide, by decide, by decide⟩

theorem slotList_length (c : Config) (b r : Nat) :
    (slotList c ⟨b, r, false⟩).length = c.mul := by
  simp [slotList, nslots]

/-- C13, amended. On a fresh pool, `K = MPZ_SLAB_ALLOC_MUL` allocations of one pooled size
class return the data pointers `xs[j]` of slot `j = 0, ..., K - 1` of one new slab and
empty the bin; freeing them in reverse order of allocation (`xs[K - 1]` first, `xs[0]`
last) leaves the bin holding exactly the `K` slots, in the order slot 0, ..., slot
`K - 1`, with one slab requested in all; the next allocation of the class returns
`xs[0]`, the pointer freed last, without asking the OS. For `K ≥ 2` this is not
`xs[K - 1]`. -/
theorem reverse_free_then_alloc (c : Config) (hc : c.Sane) (h : Heap) (os0 : Option Nat)
    (P : Pool) (hP : mpz_pool_create c h os0 = some P) (size : Nat) (z : Bool) (b : Nat)
    (os1 os2 : Option Nat) (hs : size ≤ MPZ_POOL_MAX_ALLOC)
    (hrb : allocSize c size ≤ c.bins <<< c.shift)
    (hos : OsOk c (slabBlock c ⟨b, allocSize c size, false⟩ :: P.live)) :
    ∃ Pa Pf,
      runOps c P (Op.alloc size z (some b) :: List.replicate (c.mul - 1) (Op.alloc size z os1))
        = .ok ((slotList c ⟨b, allocSize c size, false⟩).map MPZ_SLOT_TO_DATA, Pa) ∧
      (slotList c ⟨b, allocSize c size, false⟩).length = c.mul ∧
      Pa.bins (MPZ_BIN_IDX c (allocSize c size)) = 0 ∧
      runOps c Pa
          ((((slotList c ⟨b, allocSize c size, false⟩).map MPZ_SLOT_TO_DATA).reverse).map
            Op.free)
        = .ok ([], Pf) ∧
      FreeChain c Pf.heap (Pf.bins (MPZ_BIN_IDX c (allocSize c size)))
        (slotList c ⟨b, allocSize c size, false⟩) ∧
      Pf.live = slabBlock c ⟨b, allocSize c size, false⟩ :: P.live ∧
      Pf.oscalls = P.oscalls + 1 ∧
      (_mpz_palloc c Pf size z os2).1
        = MPZ_SLOT_TO_DATA (slotAt c ⟨b, allocSize c size, false⟩ 0) ∧
      (_mpz_palloc c Pf size z os2).2.live = Pf.live ∧
      (_mpz_palloc c Pf size z os2).2.oscalls = Pf.oscalls ∧
      (2 ≤ c.mul → (_mpz_palloc c Pf size z os2).1
        ≠ MPZ_SLOT_TO_DATA (slotAt c ⟨b, allocSize c size, false⟩ (c.mul - 1))) := by
  obtain ⟨_, _, hok, hidx⟩ := allocSize_ok hc hs hrb b
  have hI0 := create_inv hP (hos.sublist (List.sublist_cons_self _ _))
  obtain ⟨L, hL, h1, hI1, hl1, ho1⟩ := palloc_refill_inv hc hI0 hs hrb z b rfl hos
  have hlen := slotList_length c b (allocSize c size)
  have hLlen : L.length = c.mul - 1 := by
    rw [hL, List.length_cons] at hlen
    omega
  obtain ⟨Pa, hrun, hIa, hla, hoa⟩ := alloc_run hc hs hrb z os1 L _ _ _ [] hI1
    (by rw [Function.update_same, List.append_nil])
  rw [Function.update_idem] at hIa
  have hnd := slotList_nodup hc ⟨b, allocSize c size, false⟩
  have hslot0 : MPZ_SLAB_TO_SLOT c b = slotAt c ⟨b, allocSize c size, false⟩ 0 := by
    simp [slotAt]
  obtain ⟨Pf, Uf, hrunf, hIf, hlf, hof⟩ := free_run hc (r := allocSize c size)
    (slotList c ⟨b, allocSize c size, false⟩).reverse Pa _ _ hIa
    (List.nodup_reverse.mpr hnd) (by
      intro a ha
      rw [List.mem_reverse] at ha
      refine ⟨?_, ⟨b, allocSize c size, false⟩, List.mem_singleton.mpr rfl,
        mem_slotList.mp ha, rfl, rfl⟩
      rw [hL] at ha
      rcases List.mem_cons.mp ha with rfl | ha
      · simp
      · simp only [List.mem_append, List.mem_reverse, List.mem_map, List.mem_singleton]
        exact Or.inl ⟨a, ha, rfl⟩)
  rw [List.reverse_reverse, Function.update_same, List.append_nil, Function.update_idem] at hIf
  have hFf : Function.update (fun _ => ([] : List Nat)) (MPZ_BIN_IDX c (allocSize c size))
      (slotList c ⟨b, allocSize c size, false⟩) (MPZ_BIN_IDX c (allocSize c size))
      = MPZ_SLAB_TO_SLOT c b :: L := by
    rw [Function.update_same, hL]
  obtain ⟨h2, _, hl2, ho2⟩ := palloc_pop_inv hc hIf hs hrb z os2 hFf
  refine ⟨Pa, Pf, ?_, hlen, ?_, ?_, ?_, by rw [hlf, hla, hl1], by rw [hof, hoa, ho1],
    by rw [h2, hslot0], hl2, ho2, ?_⟩
  · rw [← hLlen]
    simp only [runOps, hrun, h1, hL, List.map_cons]
  · have := hIa.free_chain _ hidx
    rw [Function.update_same] at this
    exact this
  · rw [← hrunf]
    congr 1
    simp [List.map_reverse, List.map_map, Function.comp_def]
  · have := hIf.free_chain _ hidx
    rw [Function.update_same] at this
    exact this
  · intro hK
    rw [h2, hslot0]
    intro heq
    unfold MPZ_SLOT_TO_DATA at heq
    rw [slotAt_eq hc, slotAt_eq hc] at heq
    simp only [] at heq
    have hpos : 0 < (c.mul - 1) * (allocSize c size + 16) :=
      Nat.mul_pos (by omega) (by omega)
    omega

theorem reverse_free_then_alloc_witness :
    ∃ Pa Pf,
      runOps cfgS poolS (Op.alloc 16 false (some 4096) :: List.replicate (cfgS.mul - 1) (Op.alloc 16 false none))
        = .ok ((slotList cfgS ⟨4096, allocSize cfgS 16, false⟩).map MPZ_SLOT_TO_DATA, Pa) ∧
      (slotList cfgS ⟨4096, allocSize cfgS 16, false⟩).length = cfgS.mul ∧
      Pa.bins (MPZ_BIN_IDX cfgS (allocSize cfgS 16)) = 0 ∧
      runOps cfgS Pa
          ((((slotList cfgS ⟨4096, allocSize cfgS 16, false⟩).map MPZ_SLOT_TO_DATA).reverse).map
            Op.free)
        = .ok ([], Pf) ∧
      FreeChain cfgS Pf.heap (Pf.bins (MPZ_BIN_IDX cfgS (allocSize cfgS 16)))
        (slotList cfgS ⟨4096, allocSize cfgS 16, false⟩) ∧
      Pf.live = slabBlock cfgS ⟨4096, allocSize cfgS 16, false⟩ :: poolS.live ∧
      Pf.oscalls = poolS.oscalls + 1 ∧
      (_mpz_palloc cfgS Pf 16 false none).1
        = MPZ_SLOT_TO_DATA (slotAt cfgS ⟨4096, allocSize cfgS 16, false⟩ 0) ∧
      (_mpz_palloc cfgS Pf 16 false none).2.live = Pf.live ∧
      (_mpz_palloc cfgS Pf 16 false none).2.oscalls = Pf.oscalls ∧
      (2 ≤ cfgS.mul → (_mpz_palloc cfgS Pf 16 false none).1
        ≠ MPZ_SLOT_TO_DATA (slotAt cfgS ⟨4096, allocSize cfgS 16, false⟩ (cfgS.mul - 1))) :=
  reverse_free_then_alloc cfgS cfgS_sane heapAA (some 1024) poolS poolS_created 16 false 4096 none
    none (by decide) (by decide) poolA_osok

/-! ## The bin invariant from the pool invariant -/

theorem Geo.ofSublist {c : Config} {S S1 : List SlabD} (hG : Geo c S) (hs : S1.Sublist S) :
    Geo c S1 :=
  ⟨hG.1.sublist (hs.map _), fun d hd => hG.2 d (hs.subset hd)⟩

/-- A slot whose head and foot hold the plain size of its pooled slab is as the bin
invariant requires. -/
theorem freeSlotOk_of_guarded {c : Config} (hc : c.Sane) {h : Heap} {d : SlabD} {a : Nat}
    (hok : SlabOk c d) (hg : Guarded h a d.size d.size) :
    FreeSlotOk c h (MPZ_BIN_IDX c d.size) a := by
  obtain ⟨⟨m, hm1, hm⟩, hs28, _⟩ := hok
  have hr30 : d.size < 2 ^ 30 := by
    have : (2:Nat) ^ 28 < 2 ^ 30 := by decide
    omega
  have hg0 : Guarded h a d.size (2 ^ 30 * 0 + d.size) := by simpa using hg
  obtain ⟨e1, _, e3, e4, e5⟩ := guard_reads (show 0 < 4 by decide) hr30 hg0
  refine ⟨e3.symm, by rw [e4]; rfl, by rw [e5]; rfl, ?_, by rw [e1]⟩
  rw [e1, hm, bin_idx_mul hc (by rw [← hm]; exact hs28), Nat.shiftLeft_eq]
  congr 1
  omega

theorem Inv.binsOk {c : Config} (hc : c.Sane) {P : Pool} {S : List SlabD}
    {F : Nat → List Nat} {U : List Nat} (hI : Inv c P S F U) : BinsOk c P := by
  intro i hi
  refine ⟨F i, hI.free_chain i hi, hI.free_nodup i, ?_⟩
  intro a ha
  obtain ⟨d, hd, _, _, hdi, hg⟩ := hI.free_mem i a ha
  rw [← hdi]
  exact freeSlotOk_of_guarded hc (hI.slab_ok d hd) hg

/-- Heaps that agree outside slab headers agree on every slot. -/
theorem Mirror.slot_bytes {c : Config} (hc : c.Sane) {RB : List Nat} {P M : Pool}
    {S : List SlabD} (hm : Mirror RB P M) (hG : Geo c S)
    (hRB : ∀ b ∈ RB, ∃ d ∈ S, d.base = b ∧ d.huge = false)
    {d : SlabD} (hd : d ∈ S) {a : Nat} (hda : IsSlot c d a) :
    ∀ y, a ≤ y → y < a + (d.size + 16) → P.heap y = M.heap y := by
  intro y h1 h2
  apply hm.2.2.2.2
  intro b hb
  obtain ⟨e, he, heb, _⟩ := hRB b hb
  have := hG.slot_header hc hd he hda
  omega

theorem Healed.bins {c : Config} (hc : c.Sane) {P : Pool} {U : List Nat}
    (hH : Healed c P U) : BinsOk c P := by
  obtain ⟨M, S, F, RB, hI, hm, hRB⟩ := hH
  have hG := hI.geo
  intro i hi
  refine ⟨F i, ?_, hI.free_nodup i, ?_⟩
  · rw [hm.1]
    apply (hI.free_chain i hi).sameLinks hc
    intro x hx y hy1 hy2
    obtain ⟨d, hd, hda, _⟩ := hI.free_mem i x hx
    have := (hG.size_ok hc hd).1
    exact hm.slot_bytes hc hG hRB hd hda y (by omega) (by omega)
  · intro a ha
    obtain ⟨d, hd, hda, _, hdi, hg⟩ := hI.free_mem i a ha
    rw [← hdi]
    apply freeSlotOk_of_guarded hc (hI.slab_ok d hd)
    apply hg.sameBytes
    intro y hy1 hy2
    exact hm.slot_bytes hc hG hRB hd hda y (by omega) (by omega)

theorem Inv.healed {c : Config} {P : Pool} {S : List SlabD} {F : Nat → List Nat}
    {U : List Nat} (hI : Inv c P S F U) : Healed c P U :=
  ⟨P, S, F, [], hI, ⟨rfl, rfl, rfl, List.Perm.refl _, fun _ _ => rfl⟩,
    fun _ hb => absurd hb (List.not_mem_nil _)⟩

/-! ## Soft reset with huge slabs -/

/-- One iteration of the loop of a soft `_mpz_pool_gc` on a huge slab. -/
theorem gcLoop_huge_step {c : Config} (hc : c.Sane) (Q : Pool) {b : Nat} (fuel : Nat)
    (hb : b ≠ 0)
    (hhuge : MPZ_SLOT_READ_HEAD Q.heap (b + 16) &&& MPZ_SLOT_FLAG_HUGE ≠ 0) {Q1 : Pool}
    (hfree : _mpz_slab_free c Q (b + 16) = .ok Q1) :
    gcLoop c true (fuel + 1) b Q = gcLoop c true fuel (rd Q.heap (b + 8) 8) Q1 := by
  have hslot : MPZ_SLAB_TO_SLOT c b = b + 16 := by simp [MPZ_SLAB_TO_SLOT, slab_size_eq hc]
  simp only [gcLoop, hb, if_false, hslot, slabNext, hc.ptr8, hhuge, hfree,
    Bool.not_true, Bool.false_or, ne_eq, not_false_eq_true, decide_True, if_true]

/-- The only slot of a huge slab carries the "huge" flag. -/
theorem Inv.read_huge_set {c : Config} (hc : c.Sane) {P : Pool} {S : List SlabD}
    {F : Nat → List Nat} {U : List Nat} (hI : Inv c P S F U) {d : SlabD} (hd : d ∈ S)
    (hdh : d.huge = true) :
    MPZ_SLOT_READ_HEAD P.heap (MPZ_SLAB_TO_SLOT c d.base) &&& MPZ_SLOT_FLAG_HUGE ≠ 0 := by
  have hG := hI.geo
  obtain ⟨_, hs28, _⟩ := hG.size_ok hc hd
  have hr30 : d.size < 2 ^ 30 := by
    have : (2:Nat) ^ 28 < 2 ^ 30 := by decide
    omega
  have hda := isSlot_zero hc d
  unfold MPZ_SLOT_READ_HEAD
  rw [flag_huge_eq]
  rcases hI.total d hd _ hda with h | h
  · obtain ⟨e, he, b, heb, hpb, hbg⟩ := hI.used_mem _ h
    have hab : MPZ_SLAB_TO_SLOT c d.base = b := by unfold MPZ_SLOT_TO_DATA at hpb; omega
    rw [← hab] at heb hbg
    have := hG.slot_unique hc hd he hda heb
    subst this
    rw [hbg.1, usedStamp_huge hdh hr30, stamp_test_huge (by decide) hr30]
    decide
  · obtain ⟨e, he, hea, heh, _, _⟩ := hI.free_mem _ _ h
    have := hG.slot_unique hc hd he hda hea
    subst this
    rw [hdh] at heh
    cases heh

/-- The pool object and a slab have different addresses. -/
theorem Inv.self_ne_base {c : Config} (hc : c.Sane) {P : Pool} {S : List SlabD}
    {F : Nat → List Nat} {U : List Nat} (hI : Inv c P S F U) {d : SlabD} (hd : d ∈ S) :
    P.self ≠ d.base := by
  have hos := hI.os_ok
  rw [hI.live_eq] at hos
  have hp2 := hos.2
  rw [List.pairwise_append] at hp2
  have := hp2.2.2 (slabBlock c d) (List.mem_map_of_mem _ hd) (P.self, MPZ_POOL_SIZE c)
    (by simp)
  have h1 := pool_size_pos hc
  have h2 := blockLen_pos hc d
  unfold BlocksDisjoint slabBlock at this
  simp only at this
  omega

/-- The iteration of the loop of a soft `_mpz_pool_gc` on a huge slab: the slab is
unlinked from whatever its `prev` field names and released. -/
theorem gc_huge_step {c : Config} (hc : c.Sane) {P Q : Pool} {S1 S2 R : List SlabD}
    {F G : Nat → List Nat} {U : List Nat} {d : SlabD}
    (hI : Inv c P (S1 ++ d :: S2) F U) (hdh : d.huge = true) (hRs : ∀ e ∈ R, e ∈ S1)
    (hQ : GcInv c P Q R (d :: S2) G) :
    ∃ Q1, (∀ fuel, gcLoop c true (fuel + 1) d.base Q
        = gcLoop c true fuel ((S2.map SlabD.base).headD 0) Q1) ∧
      GcInv c P Q1 R S2 G := by
  have hG := hI.geo
  have hd : d ∈ S1 ++ d :: S2 := by simp
  have hS1mem : ∀ e ∈ S1, e ∈ S1 ++ d :: S2 := fun e he => List.mem_append_left _ he
  have hS2mem : ∀ e ∈ S2, e ∈ S1 ++ d :: S2 :=
    fun e he => List.mem_append_right _ (List.mem_cons_of_mem _ he)
  have hRmem : ∀ e ∈ R, e ∈ S1 ++ d :: S2 := fun e he => hS1mem e (hRs e he)
  have hd0 := hG.base_ok hc hd
  have hbl := blockLen_ge hc d
  have hslot : MPZ_SLAB_TO_SLOT c d.base = d.base + 16 := by
    simp [MPZ_SLAB_TO_SLOT, slab_size_eq hc]
  have hslab : MPZ_SLOT_TO_SLAB c (d.base + 16) = d.base := by
    simp [MPZ_SLOT_TO_SLAB, slab_size_eq hc]
  have hnot := hG.not_mem_rest hc
  have hrest_d := hQ.rest_same d (List.mem_cons_self _ _)
  -- the head of the slot still carries the flag
  have hhuge : MPZ_SLOT_READ_HEAD Q.heap (d.base + 16) &&& MPZ_SLOT_FLAG_HUGE ≠ 0 := by
    have h1 := hI.read_huge_set hc hd hdh
    rw [hslot] at h1
    have e : MPZ_SLOT_READ_HEAD Q.heap (d.base + 16)
        = MPZ_SLOT_READ_HEAD P.heap (d.base + 16) := by
      unfold MPZ_SLOT_READ_HEAD
      exact rd_congr (fun y h1 h2 => hrest_d y (by omega) (by omega))
    rw [e]; exact h1
  -- the successor is the one of the original list
  have hnext : rd Q.heap (d.base + 8) 8 = (S2.map SlabD.base).headD 0 := by
    have hch := hI.chain
    rw [List.map_append, List.map_cons] at hch
    obtain ⟨_, hn, _⟩ := chain_neighbours hc hch
    rw [← hn]
    exact rd_congr (fun y h1 h2 => hrest_d y (by omega) (by omega))
  -- the predecessor is a retained slab or null
  have hprev := hQ.cur_prev d rfl
  have hnext0 := hnext
  generalize hq : rd Q.heap d.base 8 = q at hprev
  generalize hn : (S2.map SlabD.base).headD 0 = nx at hnext
  have hqR : q ≠ 0 → ∃ e ∈ R, q = e.base := by
    intro h0
    rcases hprev with ⟨_, h⟩ | h
    · exact absurd h h0
    · exact h
  have hqd : q ≠ 0 → HeadersApart q d.base := by
    intro h0
    obtain ⟨e, he, rfl⟩ := hqR h0
    have hne : e ≠ d := by
      intro h
      exact hnot e (List.mem_append_left _ (hRs e he)) (by rw [h])
    have := hG.header_disj hc (hRmem e he) hd hne
    unfold HeadersApart
    omega
  have hq64 : q < 2 ^ 64 := by
    rw [← hq]
    have := @rd_lt Q.heap 8 d.base
    norm_num at this ⊢
    exact this
  have hnS2 : nx = 0 ∧ S2 = [] ∨ ∃ w ws, S2 = w :: ws ∧ nx = w.base := by
    cases S2 with
    | nil => left; exact ⟨hn.symm, rfl⟩
    | cons w ws => right; exact ⟨w, ws, rfl, by rw [← hn]; rfl⟩
  obtain ⟨ueh, ues, ueb, uel, ueself, _⟩ := unlink_eval hc Q d.base hq hnext hqd
  have hlive : (slabUnlink c Q d.base).live.any (fun b => b.1 == d.base) = true := by
    rw [uel, hQ.live, List.any_eq_true]
    exact ⟨slabBlock c d, by simp, by simp [slabBlock]⟩
  obtain ⟨Q1, hQ1h, hQ1s, hQ1b, hQ1l, hQ1self, hfree⟩ : ∃ Q1 : Pool,
      Q1.heap = unlinkH Q.heap q nx ∧ Q1.slabs = (if q ≠ 0 then Q.slabs else nx) ∧
      Q1.bins = Q.bins ∧ Q1.live = Q.live.filter (fun b => b.1 != d.base) ∧
      Q1.self = Q.self ∧ _mpz_slab_free c Q (d.base + 16) = .ok Q1 := by
    refine ⟨{ slabUnlink c Q d.base with
              live := (slabUnlink c Q d.base).live.filter (fun b => b.1 != d.base),
              oscalls := (slabUnlink c Q d.base).oscalls + 1 },
      ueh, ues, ueb, by simp only [uel], ueself, ?_⟩
    unfold _mpz_slab_free os_free
    simp only [hslab, hlive, if_true]
  refine ⟨Q1, fun fuel => by rw [gcLoop_huge_step hc Q fuel hd0.1 hhuge hfree, hnext], ?_⟩
  -- what the unlinking leaves alone: everything but the `next` field of the
  -- predecessor and the `prev` field of the successor
  have hout : ∀ y, (∀ e ∈ R, y < e.base + 8 ∨ e.base + 16 ≤ y) →
      (∀ w ∈ S2.head?, y < w.base ∨ w.base + 8 ≤ y) →
      unlinkH Q.heap q nx y = Q.heap y := by
    intro y h1 h2
    apply unlinkH_out
    · by_cases h0 : q = 0
      · exact Or.inl h0
      · obtain ⟨e, he, rfl⟩ := hqR h0
        exact Or.inr (h1 e he)
    · rcases hnS2 with ⟨h0, _⟩ | ⟨w, ws, hS2, hw⟩
      · exact Or.inl h0
      · right
        rw [hw]
        exact h2 w (by rw [hS2]; rfl)
  have hslots : ∀ e ∈ S1 ++ d :: S2, ∀ a, IsSlot c e a → ∀ y, a ≤ y → y < a + (e.size + 16) →
      unlinkH Q.heap q nx y = Q.heap y := by
    intro e he a hea y hy1 hy2
    apply hout
    · intro e' he'
      have := hG.slot_header hc he (hRmem e' he') hea
      omega
    · intro w hw
      have hwS : w ∈ S2 := List.mem_of_mem_head? hw
      have := hG.slot_header hc he (hS2mem w hwS) hea
      omega
  refine
    { live := ?_
      self := by rw [hQ1self]; exact hQ.self
      slabs_mem := ?_
      cur_prev := ?_
      rest_same := ?_
      tail_same := ?_
      free_chain := ?_
      free_mem := ?_
      free_nodup := hQ.free_nodup
      total := hQ.total }
  · rw [hQ1l, hQ.live]
    apply filter_base
    · intro e he
      apply hnot
      rcases List.mem_append.mp he with h | h
      · exact List.mem_append_left _ (hRs e h)
      · exact List.mem_append_right _ h
    · intro b hb
      rw [List.mem_singleton] at hb
      rw [hb]
      exact hI.self_ne_base hc hd
  · rw [hQ1s, hQ1h]
    by_cases h0 : q = 0
    · right
      rw [if_neg (by simpa using h0)]
      have hRnil : R = [] := by
        rcases hprev with ⟨h, _⟩ | ⟨e, he, hqe⟩
        · exact h
        · exact absurd (hqe ▸ h0) (hG.base_ok hc (hRmem e he)).1
      refine ⟨hRnil, hn.symm, ?_⟩
      intro w hw
      rcases hnS2 with ⟨_, hS2⟩ | ⟨w', ws, hS2, hw'⟩
      · rw [hS2] at hw; cases hw
      · rw [hS2] at hw
        simp only [List.head?_cons, Option.some.injEq] at hw
        subst hw
        have hw0 := (hG.base_ok hc (hS2mem w' (by rw [hS2]; exact List.mem_cons_self _ _))).1
        unfold unlinkH
        simp only [h0, ne_eq, not_true_eq_false, if_false]
        rw [if_pos (by rw [hw']; exact hw0), hw']
        exact rd_wr_val (by decide)
    · left
      rw [if_pos h0]
      rcases hQ.slabs_mem with h | ⟨_, _, h⟩
      · exact h
      · exact absurd (hq ▸ h d rfl) h0
  · intro w hw
    rw [hQ1h]
    rcases hnS2 with ⟨_, hS2⟩ | ⟨w', ws, hS2, hw'⟩
    · rw [hS2] at hw; cases hw
    · rw [hS2] at hw
      simp only [List.head?_cons, Option.some.injEq] at hw
      subst hw
      have hw0 := (hG.base_ok hc (hS2mem w' (by rw [hS2]; exact List.mem_cons_self _ _))).1
      have e : rd (unlinkH Q.heap q nx) w'.base 8 = q := by
        unfold unlinkH
        simp only []
        rw [if_pos (by rw [hw']; exact hw0), hw']
        exact rd_wr_val (by norm_num at hq64 ⊢; exact hq64)
      rw [e]
      exact hprev
  · intro e he y hy1 hy2
    rw [hQ1h, hout y, hQ.rest_same e (List.mem_cons_of_mem _ he) y hy1 hy2]
    · intro e' he'
      have hne : e' ≠ e := by
        intro h
        subst h
        have h1 : e' ∈ S1 := hRs e' he'
        have hp : (S1 ++ d :: S2).Pairwise
            (fun x y => BlocksDisjoint (slabBlock c x) (slabBlock c y)) :=
          List.pairwise_map.mp hG.1.2
        rw [List.pairwise_append] at hp
        have := hp.2.2 e' h1 e' (List.mem_cons_of_mem _ he)
        have := blockLen_pos hc e'
        unfold BlocksDisjoint slabBlock at *
        simp only at *
        omega
      have := blockLen_pos hc e'
      rcases hG.eq_or_disj (hRmem e' he') (hS2mem e he) with h | h
      · exact absurd h hne
      · omega
    · intro w hw
      rcases hnS2 with ⟨_, hS2⟩ | ⟨w', ws, hS2, hw'⟩
      · rw [hS2] at hw; cases hw
      · rw [hS2] at hw he
        simp only [List.head?_cons, Option.mem_def, Option.some.injEq] at hw
        subst hw
        rcases List.mem_cons.mp he with h | h
        · subst h; omega
        · have hG3 : Geo c (w' :: ws) := by
            apply hG.ofSublist
            rw [← hS2]
            exact (List.sublist_cons_self d S2).trans (List.sublist_append_right S1 _)
          have := hG3.cons_disj h
          have := blockLen_pos hc w'
          omega
  · intro e he y hy1 hy2
    have heS2 : e ∈ S2 := List.mem_of_mem_tail he
    rw [hQ1h, hout y, hQ.tail_same e (by simpa using heS2) y hy1 hy2]
    · intro e' he'
      have hp : (S1 ++ d :: S2).Pairwise
          (fun x y => BlocksDisjoint (slabBlock c x) (slabBlock c y)) :=
        List.pairwise_map.mp hG.1.2
      rw [List.pairwise_append] at hp
      have := hp.2.2 e' (hRs e' he') e (List.mem_cons_of_mem _ heS2)
      have := blockLen_pos hc e'
      have := blockLen_pos hc e
      unfold BlocksDisjoint slabBlock at *
      simp only at *
      omega
    · intro w hw
      rcases hnS2 with ⟨_, hS2⟩ | ⟨w', ws, hS2, hw'⟩
      · rw [hS2] at hw; cases hw
      · rw [hS2] at hw he
        simp only [List.head?_cons, Option.mem_def, Option.some.injEq] at hw
        subst hw
        simp only [List.tail_cons] at he
        have hG3 : Geo c (w' :: ws) := by
          apply hG.ofSublist
          rw [← hS2]
          exact (List.sublist_cons_self d S2).trans (List.sublist_append_right S1 _)
        have := hG3.cons_disj he
        have := blockLen_pos hc w'
        have := blockLen_pos hc e
        omega
  · intro i hi
    rw [hQ1h, hQ1b]
    apply (hQ.free_chain i hi).sameLinks hc
    intro x hx y hy1 hy2
    obtain ⟨e, he, hea, _⟩ := hQ.free_mem i x hx
    have := (hG.size_ok hc (hRmem e he)).1
    exact hslots e (hRmem e he) x hea y (by omega) (by omega)
  · intro i x hx
    obtain ⟨e, he, hea, hei, heg⟩ := hQ.free_mem i x hx
    refine ⟨e, he, hea, hei, ?_⟩
    rw [hQ1h]
    apply heg.sameBytes
    intro y hy1 hy2
    exact hslots e (hRmem e he) x hea y (by omega) (by omega)

/-- The iteration of the loop of a soft `_mpz_pool_gc` on a pooled slab: the slab is
pushed on whatever `pool->slabs` names and its slots are threaded on their bin. -/
theorem gc_pooled_step {c : Config} (hc : c.Sane) {P Q : Pool} {S1 S2 R : List SlabD}
    {F G : Nat → List Nat} {U : List Nat} {d : SlabD}
    (hI : Inv c P (S1 ++ d :: S2) F U) (hdh : d.huge = false) (hRs : ∀ e ∈ R, e ∈ S1)
    (hQ : GcInv c P Q R (d :: S2) G) (fuel : Nat) :
    gcLoop c true (fuel + 1) d.base Q
      = gcLoop c true fuel ((S2.map SlabD.base).headD 0)
          (_mpz_slab_init c (_mpz_slab_push c Q d.base) d.base d.size) ∧
    GcInv c P (_mpz_slab_init c (_mpz_slab_push c Q d.base) d.base d.size)
      (R ++ [d]) S2
      (Function.update G (MPZ_BIN_IDX c d.size)
        (slotList c d ++ G (MPZ_BIN_IDX c d.size))) := by
  have hG := hI.geo
  have hd : d ∈ S1 ++ d :: S2 := by simp
  obtain ⟨hs16, hs28, _⟩ := hG.size_ok hc hd
  have hr30 : d.size < 2 ^ 30 := by
    have : (2:Nat) ^ 28 < 2 ^ 30 := by decide
    omega
  have hd0 := hG.base_ok hc hd
  have hbl := blockLen_ge hc d
  have hidx := (hI.slab_ok d hd).idx_lt hc hdh
  have hslot : MPZ_SLAB_TO_SLOT c d.base = d.base + 16 := by
    simp [MPZ_SLAB_TO_SLOT, slab_size_eq hc]
  have hS1mem : ∀ e ∈ S1, e ∈ S1 ++ d :: S2 := fun e he => List.mem_append_left _ he
  have hS2mem : ∀ e ∈ S2, e ∈ S1 ++ d :: S2 :=
    fun e he => List.mem_append_right _ (List.mem_cons_of_mem _ he)
  have hRmem : ∀ e ∈ R, e ∈ S1 ++ d :: S2 := fun e he => hS1mem e (hRs e he)
  -- the old head of the slab list is the header of a slab of `R ++ [d]`
  obtain ⟨s0, hs0, hs0b⟩ : ∃ s0 ∈ S1 ++ [d], Q.slabs = s0.base := by
    rcases hQ.slabs_mem with ⟨e, he, h⟩ | ⟨_, h, _⟩
    · exact ⟨e, List.mem_append_left _ (hRs e he), h⟩
    · exact ⟨d, by simp, by rw [h]; rfl⟩
  have hs0S : s0 ∈ S1 ++ d :: S2 := by
    rcases List.mem_append.mp hs0 with h | h
    · exact hS1mem s0 h
    · rw [List.mem_singleton] at h; rw [h]; exact hd
  have hs64 : Q.slabs < 2 ^ 64 := by
    have := hG.base_ok hc hs0S
    have := blockLen_pos hc s0
    omega
  -- what the push leaves alone
  have hpush : ∀ y, (y < d.base ∨ d.base + 16 ≤ y) → (y < s0.base ∨ s0.base + 8 ≤ y) →
      (_mpz_slab_push c Q d.base).heap y = Q.heap y := by
    intro y h1 h2
    exact push_heap_out hc Q d.base h1 (by rw [hs0b]; exact h2) hs64
  -- blocks of R, d, S2 are apart
  have hap1 : ∀ e ∈ R, d.base + blockLen c d ≤ e.base ∨ e.base + blockLen c e ≤ d.base := by
    intro e he
    have := hG.cross_disj (hRs e he) (List.mem_cons_self d S2)
    omega
  have hap2 : ∀ e ∈ S2, d.base + blockLen c d ≤ e.base ∨ e.base + blockLen c e ≤ d.base := by
    intro e he
    have hG2 : Geo c ((S1 ++ [d]) ++ S2) := by simpa using hG
    exact hG2.cross_disj (by simp) he
  have hap3 : ∀ e ∈ S2, s0.base + blockLen c s0 ≤ e.base ∨ e.base + blockLen c e ≤ s0.base := by
    intro e he
    have hG2 : Geo c ((S1 ++ [d]) ++ S2) := by simpa using hG
    exact hG2.cross_disj hs0 he
  -- slot areas do not meet the header of s0
  have hslots_s0 : ∀ e ∈ S1 ++ d :: S2, ∀ y, e.base + 16 ≤ y → y < e.base + blockLen c e →
      y < s0.base ∨ s0.base + 8 ≤ y := by
    intro e he y hy1 hy2
    rcases hG.eq_or_disj he hs0S with h | h
    · subst h; omega
    · have := blockLen_pos hc s0
      omega
  -- reading the first slot of d
  have hrest_d := hQ.rest_same d (List.mem_cons_self _ _)
  have hslot0 := isSlot_zero hc d
  rw [hslot] at hslot0
  have hhead : MPZ_SLOT_READ_HEAD Q.heap (d.base + 16) = MPZ_SLOT_READ_HEAD P.heap (d.base + 16) := by
    unfold MPZ_SLOT_READ_HEAD
    exact rd_congr (fun y h1 h2 => hrest_d y (by omega) (by omega))
  have hhuge : MPZ_SLOT_READ_HEAD Q.heap (d.base + 16) &&& MPZ_SLOT_FLAG_HUGE = 0 := by
    rw [hhead]; exact hI.read_huge hc hd hdh hslot0
  have hsize : MPZ_SLOT_READ_SIZE (_mpz_slab_push c Q d.base).heap (d.base + 16) = d.size := by
    have e1 : MPZ_SLOT_READ_SIZE (_mpz_slab_push c Q d.base).heap (d.base + 16)
        = MPZ_SLOT_READ_SIZE P.heap (d.base + 16) := by
      unfold MPZ_SLOT_READ_SIZE MPZ_SLOT_READ_HEAD
      congr 3
      apply rd_congr
      intro y h1 h2
      rw [hpush y (by omega) (hslots_s0 d hd y (by omega) (by omega))]
      exact hrest_d y (by omega) (by omega)
    rw [e1]; exact hI.read_size hc hd hslot0
  have hchP := hI.chain
  rw [List.map_append, List.map_cons] at hchP
  have hnext : rd Q.heap (d.base + 8) 8 = (S2.map SlabD.base).headD 0 := by
    obtain ⟨_, hn, _⟩ := chain_neighbours hc hchP
    rw [← hn]
    exact rd_congr (fun y h1 h2 => hrest_d y (by omega) (by omega))
  refine ⟨by rw [gcLoop_soft_step hc Q fuel hd0.1 hhuge hsize hidx, hnext], ?_⟩
  -- the state after `_mpz_slab_init`
  generalize hQ1 : _mpz_slab_push c Q d.base = Q1 at hpush
  have hQ1b : Q1.bins = Q.bins := by rw [← hQ1]; rfl
  have hQ1s : Q1.slabs = d.base := by rw [← hQ1]; rfl
  have hQ1l : Q1.live = Q.live ∧ Q1.self = Q.self := by
    rw [← hQ1]; exact ⟨rfl, rfl⟩
  have hGslots : ∀ i, ∀ x ∈ G i, ∃ e ∈ R, IsSlot c e x := by
    intro i x hx
    obtain ⟨e, he, hea, _⟩ := hQ.free_mem i x hx
    exact ⟨e, he, hea⟩
  have hGout : ∀ i, ∀ x ∈ G i, ∀ y, x ≤ y → y < x + 16 + 8 →
      (y < d.base ∨ d.base + blockLen c d ≤ y) ∧ (y < s0.base ∨ s0.base + 8 ≤ y) := by
    intro i x hx y hy1 hy2
    obtain ⟨e, he, hea, _⟩ := hQ.free_mem i x hx
    have hb := hea.bounds hc
    have := hap1 e he
    have := (hG.size_ok hc (hRmem e he)).1
    exact ⟨by omega, hslots_s0 e (hRmem e he) y (by omega) (by omega)⟩
  have hchQ1 : ∀ i, i < c.bins → FreeChain c Q1.heap (Q1.bins i) (G i) := by
    intro i hi
    rw [hQ1b]
    apply (hQ.free_chain i hi).sameLinks hc
    intro x hx y hy1 hy2
    obtain ⟨h1, h2⟩ := hGout i x hx y (by omega) (by omega)
    exact hpush y (by omega) h2
  have hb64 : Q1.bins (MPZ_BIN_IDX c d.size) < 2 ^ 64 := by
    have hch := hchQ1 _ hidx
    cases hGi : G (MPZ_BIN_IDX c d.size) with
    | nil =>
      rw [hGi] at hch
      have : Q1.bins (MPZ_BIN_IDX c d.size) = 0 := hch
      rw [this]; decide
    | cons x xs =>
      rw [hGi] at hch
      obtain ⟨e, he, hea⟩ := hGslots _ x (by rw [hGi]; exact List.mem_cons_self _ _)
      have := hG.slot_lt hc (hRmem e he) hea
      rw [hch.1]
      omega
  obtain ⟨hf, hg, hbins, hchain⟩ := slab_init_spec hc Q1 d hdh hs16 hr30 hd0.2.2 hb64
    (L := G (MPZ_BIN_IDX c d.size)) (hchQ1 _ hidx)
    (by
      intro x hx
      obtain ⟨e, he, hea⟩ := hGslots _ x hx
      have hb := hea.bounds hc
      have := hap1 e he
      have := (hG.size_ok hc (hRmem e he)).1
      omega)
  obtain ⟨fs, fself, flive, _⟩ := slabInitLoop_frame c d.base d.size (MPZ_BIN_IDX c d.size)
    c.mul 0 (MPZ_SLAB_TO_SLOT c d.base) Q1
  have hinit : _mpz_slab_init c Q1 d.base d.size
      = slabInitLoop c d.base d.size (MPZ_BIN_IDX c d.size) c.mul 0
          (MPZ_SLAB_TO_SLOT c d.base) Q1 := rfl
  rw [← hinit] at fs fself flive
  -- what the whole iteration leaves alone
  have hout : ∀ y, (y < d.base ∨ d.base + blockLen c d ≤ y) → (y < s0.base ∨ s0.base + 8 ≤ y) →
      (_mpz_slab_init c Q1 d.base d.size).heap y = Q.heap y := by
    intro y h1 h2
    rw [hf y (by omega)]
    exact hpush y (by omega) h2
  have houtS2 : ∀ e ∈ S2, ∀ y, e.base ≤ y → y < e.base + blockLen c e →
      (_mpz_slab_init c Q1 d.base d.size).heap y = Q.heap y := by
    intro e he y hy1 hy2
    exact hout y (by have := hap2 e he; omega)
      (by have := hap3 e he; have := blockLen_pos hc s0; omega)
  have hmemG : ∀ i, ∀ x ∈ Function.update G (MPZ_BIN_IDX c d.size)
      (slotList c d ++ G (MPZ_BIN_IDX c d.size)) i,
      (IsSlot c d x ∧ i = MPZ_BIN_IDX c d.size) ∨ x ∈ G i := by
    intro i x hx
    by_cases hi : i = MPZ_BIN_IDX c d.size
    · subst hi
      rw [Function.update_same] at hx
      rcases List.mem_append.mp hx with h | h
      · exact Or.inl ⟨mem_slotList.mp h, rfl⟩
      · exact Or.inr h
    · rw [Function.update_noteq hi] at hx
      exact Or.inr hx
  refine
    { live := by rw [flive, hQ1l.1, hQ.live]; simp
      self := by rw [fself, hQ1l.2, hQ.self]
      slabs_mem := Or.inl ⟨d, by simp, by rw [fs, hQ1s]⟩
      cur_prev := ?_
      rest_same := ?_
      tail_same := ?_
      free_chain := ?_
      free_mem := ?_
      free_nodup := ?_
      total := ?_ }
  · intro w hw
    right
    refine ⟨d, by simp, ?_⟩
    obtain ⟨ws, hS2⟩ : ∃ ws, S2 = w :: ws := by
      cases S2 with
      | nil => cases hw
      | cons x xs =>
        simp only [List.head?_cons, Option.some.injEq] at hw
        exact ⟨xs, by rw [hw]⟩
    have hwS2 : w ∈ S2 := by rw [hS2]; exact List.mem_cons_self _ _
    have hbw := blockLen_pos hc w
    have e1 : rd (_mpz_slab_init c Q1 d.base d.size).heap w.base 8 = rd P.heap w.base 8 := by
      apply rd_congr
      intro y h1 h2
      rw [houtS2 w hwS2 y h1 (by omega)]
      exact hQ.tail_same w (by simpa using hwS2) y h1 (by omega)
    rw [e1]
    have hch2 : SlabChain c P.heap 0 P.slabs
        ((S1.map SlabD.base ++ [d.base]) ++ w.base :: ws.map SlabD.base) := by
      rw [hS2, List.map_cons] at hchP
      simpa using hchP
    obtain ⟨hp, _, _⟩ := chain_neighbours hc hch2
    rw [hp]
    simp
  · intro e he y hy1 hy2
    rw [houtS2 e he y (by omega) hy2]
    exact hQ.rest_same e (List.mem_cons_of_mem _ he) y hy1 hy2
  · intro e he y hy1 hy2
    have heS2 : e ∈ S2 := List.mem_of_mem_tail he
    have := blockLen_pos hc e
    rw [houtS2 e heS2 y hy1 (by omega)]
    exact hQ.tail_same e (by simpa using heS2) y hy1 hy2
  · intro i hi
    rw [hbins]
    by_cases hi2 : i = MPZ_BIN_IDX c d.size
    · subst hi2
      simp only [upd, if_true, Function.update_same]
      exact hchain
    · simp only [upd, hi2, if_false, Function.update_noteq hi2 _ G]
      apply (hchQ1 i hi).sameLinks hc
      intro x hx y hy1 hy2
      obtain ⟨h1, _⟩ := hGout i x hx y (by omega) (by omega)
      exact hf y (by omega)
  · intro i x hx
    rcases hmemG i x hx with ⟨hxs, rfl⟩ | hxG
    · exact ⟨d, by simp, hxs, rfl, hg x hxs⟩
    · obtain ⟨e, he, hea, hei, heg⟩ := hQ.free_mem i x hxG
      refine ⟨e, List.mem_append_left _ he, hea, hei, heg.sameBytes ?_⟩
      intro y hy1 hy2
      have hb := hea.bounds hc
      have := hap1 e he
      exact hout y (by omega) (hslots_s0 e (hRmem e he) y (by omega) (by omega))
  · intro i
    by_cases hi : i = MPZ_BIN_IDX c d.size
    · subst hi
      rw [Function.update_same]
      apply List.Nodup.append (slotList_nodup hc _) (hQ.free_nodup _)
      intro x hx1 hx2
      obtain ⟨e, he, hea⟩ := hGslots _ x hx2
      have h1 := hea.bounds hc
      have h2 := (mem_slotList.mp hx1).bounds hc
      have := hap1 e he
      omega
    · rw [Function.update_noteq hi]; exact hQ.free_nodup i
  · intro e he a hea
    rcases List.mem_append.mp he with h | h
    · have := hQ.total e h a hea
      by_cases hi : MPZ_BIN_IDX c e.size = MPZ_BIN_IDX c d.size
      · rw [hi, Function.update_same]
        rw [hi] at this
        exact List.mem_append_right _ this
      · rw [Function.update_noteq hi]; exact this
    · rw [List.mem_singleton] at h
      subst h
      rw [Function.update_same]
      exact List.mem_append_left _ (mem_slotList.mpr hea)

theorem gc_loop {c : Config} (hc : c.Sane) {P : Pool} {F : Nat → List Nat}
    {U : List Nat} :
    ∀ (S2 S1 R : List SlabD) (Q : Pool) (G : Nat → List Nat),
      Inv c P (S1 ++ S2) F U → R.Sublist S1 → (∀ e ∈ R, e.huge = false) →
      GcInv c P Q R S2 G →
      ∃ (Q1 : Pool) (R1 : List SlabD) (G1 : Nat → List Nat), GcInv c P Q1 R1 [] G1 ∧
        R1.Sublist (S1 ++ S2) ∧ (∀ e ∈ R1, e.huge = false) ∧
        ∀ fuel, S2.length ≤ fuel →
          gcLoop c true fuel ((S2.map SlabD.base).headD 0) Q = .ok Q1 := by
  intro S2
  induction S2 with
  | nil =>
    intro S1 R Q G _ hR hRh hQ
    refine ⟨Q, R, G, hQ, by simpa using hR, hRh, ?_⟩
    intro fuel _
    exact gcLoop_null c true fuel Q
  | cons d S2 ih =>
    intro S1 R Q G hI hR hRh hQ
    have hI2 : Inv c P ((S1 ++ [d]) ++ S2) F U := by simpa using hI
    have hRs : ∀ e ∈ R, e ∈ S1 := fun e he => hR.subset he
    cases hdh : d.huge with
    | true =>
      obtain ⟨Q0, hstep, hQ0⟩ := gc_huge_step hc hI hdh hRs hQ
      obtain ⟨Q1, R1, G1, hQ1, hR1, hRh1, hrun⟩ := ih (S1 ++ [d]) R Q0 G hI2
        (hR.trans (List.sublist_append_left _ _)) hRh hQ0
      refine ⟨Q1, R1, G1, hQ1, by simpa using hR1, hRh1, ?_⟩
      intro fuel hfuel
      obtain ⟨n, rfl⟩ : ∃ n, fuel = n + 1 := ⟨fuel - 1, by simp at hfuel; omega⟩
      simp only [List.map_cons, List.headD_cons]
      rw [hstep n]
      exact hrun n (by simp at hfuel; omega)
    | false =>
      obtain ⟨Q1, R1, G1, hQ1, hR1, hRh1, hrun⟩ := ih (S1 ++ [d]) (R ++ [d]) _ _ hI2
        (hR.append (List.Sublist.refl _))
        (by
          intro e he
          rcases List.mem_append.mp he with h | h
          · exact hRh e h
          · rw [List.mem_singleton] at h
            subst h
            exact hdh)
        (gc_pooled_step hc hI hdh hRs hQ 0).2
      refine ⟨Q1, R1, G1, hQ1, by simpa using hR1, hRh1, ?_⟩
      intro fuel hfuel
      obtain ⟨n, rfl⟩ : ∃ n, fuel = n + 1 := ⟨fuel - 1, by simp at hfuel; omega⟩
      simp only [List.map_cons, List.headD_cons]
      rw [(gc_pooled_step hc hI hdh hRs hQ n).1]
      exact hrun n (by simp at hfuel; omega)

/-- A soft reset of a pool that satisfies the pool invariant, huge slabs or not: it
terminates, keeps the pooled slabs and releases the huge ones, and the bins hold exactly
the slots of the pooled slabs. -/
theorem reset_gc {c : Config} (hc : c.Sane) {P : Pool} {S : List SlabD}
    {F : Nat → List Nat} {U : List Nat} (hI : Inv c P S F U) :
    ∃ (Q : Pool) (R : List SlabD) (G : Nat → List Nat),
      (∀ fuel, S.length ≤ fuel → mpz_pool_reset c fuel P = .ok Q) ∧
      GcInv c P Q R [] G ∧ R.Sublist S ∧ ∀ e ∈ R, e.huge = false := by
  have hch := hI.chain
  have hhead : P.slabs = (S.map SlabD.base).headD 0 ∧
      ∀ d, S.head? = some d → rd P.heap d.base 8 = 0 := by
    cases S with
    | nil => exact ⟨hch, fun d hd => by cases hd⟩
    | cons x xs =>
      obtain ⟨h1, h2, _⟩ := hch
      refine ⟨h1, ?_⟩
      intro d hd
      simp only [List.head?_cons, Option.some.injEq] at hd
      subst hd
      rw [← hc.ptr8]
      exact h2
  have hQ0 : GcInv c P { P with bins := fun _ => 0 } [] S (fun _ => []) :=
    { live := by rw [List.nil_append]; exact hI.live_eq
      self := rfl
      slabs_mem := Or.inr ⟨rfl, hhead⟩
      cur_prev := fun d hd => Or.inl ⟨rfl, hhead.2 d hd⟩
      rest_same := fun _ _ _ _ _ => rfl
      tail_same := fun _ _ _ _ _ => rfl
      free_chain := fun _ _ => rfl
      free_mem := fun _ _ ha => absurd ha (List.not_mem_nil _)
      free_nodup := fun _ => List.nodup_nil
      total := fun _ hd => absurd hd (List.not_mem_nil _) }
  obtain ⟨Q1, R1, G1, hQ1, hR1, hRh1, hrun⟩ := gc_loop hc S [] [] _ _
    (by simpa using hI) (List.nil_sublist _) (fun e he => absurd he (List.not_mem_nil _)) hQ0
  refine ⟨Q1, R1, G1, ?_, hQ1, by simpa using hR1, hRh1⟩
  intro fuel hfuel
  have := hrun fuel hfuel
  rw [← hhead.1] at this
  exact this

/-! ## The state after a soft reset, up to slab headers -/

theorem OsOk.perm {c : Config} {L L1 : List (Nat × Nat)} (h : OsOk c L) (hp : L.Perm L1) :
    OsOk c L1 :=
  ⟨fun b hb => h.1 b (hp.mem_iff.mpr hb),
    (hp.pairwise_iff (fun {_ _} hab => Or.symm hab)).mp h.2⟩

/-- Slab headers can be linked into a proper list without touching anything else. -/
theorem exists_chain {c : Config} (hc : c.Sane) :
    ∀ (L : List Nat) (p : Nat) (h : Heap), L.Pairwise HeadersApart →
      (∀ x ∈ L, x ≠ 0 ∧ x < 2 ^ 64) → p < 2 ^ 64 →
      ∃ h1 : Heap, SlabChain c h1 p (L.headD 0) L ∧
        ∀ y, (∀ b ∈ L, y < b ∨ b + 16 ≤ y) → h1 y = h y := by
  intro L
  induction L with
  | nil =>
    intro p h _ _ _
    exact ⟨h, rfl, fun _ _ => rfl⟩
  | cons x xs ih =>
    intro p h hpw h64 hp
    obtain ⟨hx, hxs⟩ := List.pairwise_cons.mp hpw
    obtain ⟨h1, hch, hag⟩ := ih x h hxs (fun z hz => h64 z (List.mem_cons_of_mem _ hz))
      (h64 x (List.mem_cons_self _ _)).2
    have hn64 : xs.headD 0 < 2 ^ 64 := by
      cases xs with
      | nil => decide
      | cons w ws => exact (h64 w (by simp)).2
    refine ⟨wr (wr h1 x 8 p) (x + 8) 8 (xs.headD 0), ?_, ?_⟩
    · have e1 : rd (wr (wr h1 x 8 p) (x + 8) 8 (xs.headD 0)) x 8 = p := by
        rw [rd_wr_disj (by omega)]
        exact rd_wr_val (by norm_num at hp ⊢; exact hp)
      have e2 : rd (wr (wr h1 x 8 p) (x + 8) 8 (xs.headD 0)) (x + 8) 8 = xs.headD 0 :=
        rd_wr_val (by norm_num at hn64 ⊢; exact hn64)
      refine ⟨rfl, by rw [hc.ptr8]; exact e1, ?_⟩
      simp only [slabNext, hc.ptr8]
      rw [e2]
      apply hch.sameHeaders hc
      intro z hz y hy1 hy2
      have := hx z hz
      unfold HeadersApart at this
      rw [wr_out (by omega), wr_out (by omega)]
    · intro y hy
      have := hy x (List.mem_cons_self _ _)
      rw [wr_out (by omega), wr_out (by omega)]
      exact hag y (fun b hb => hy b (List.mem_cons_of_mem _ hb))

/-- After a soft reset the pool is, up to the headers of the retained slabs, a pool that
satisfies the pool invariant with no live pointer. -/
theorem reset_healed {c : Config} (hc : c.Sane) {P : Pool} {S : List SlabD}
    {F : Nat → List Nat} {U : List Nat} (hI : Inv c P S F U) :
    ∃ Q : Pool, (∀ fuel, S.length ≤ fuel → mpz_pool_reset c fuel P = .ok Q) ∧
      Healed c Q [] := by
  obtain ⟨Q, R, G, hrun, hQ, hRs, hRh⟩ := reset_gc hc hI
  refine ⟨Q, hrun, ?_⟩
  have hG := hI.geo
  have hGR : Geo c R := hG.ofSublist hRs
  have hRmem : ∀ e ∈ R, e ∈ S := fun e he => hRs.subset he
  have hlive : Q.live = R.map (slabBlock c) ++ [(P.self, MPZ_POOL_SIZE c)] := by
    have := hQ.live
    rwa [List.append_nil] at this
  have hosQ : OsOk c Q.live := by
    rw [hlive]
    apply hI.os_ok.sublist
    rw [hI.live_eq]
    exact (hRs.map _).append (List.Sublist.refl _)
  -- a list of the retained slabs that starts with the head of the slab list
  obtain ⟨S', hperm, hhead⟩ : ∃ S' : List SlabD, R.Perm S' ∧
      Q.slabs = (S'.map SlabD.base).headD 0 := by
    rcases hQ.slabs_mem with ⟨e, he, h⟩ | ⟨hR, h, _⟩
    · exact ⟨e :: R.erase e, List.perm_cons_erase he, by rw [h]; rfl⟩
    · exact ⟨[], by rw [hR], h⟩
  have hS'mem : ∀ e, e ∈ S' ↔ e ∈ R := fun e => hperm.mem_iff.symm
  have hGS : Geo c S' :=
    ⟨hGR.1.perm (hperm.map _), fun d hd => hGR.2 d ((hS'mem d).mp hd)⟩
  obtain ⟨h1, hch, hag⟩ := exists_chain hc (S'.map SlabD.base) 0 Q.heap
    (hGS.headers_pairwise hc)
    (by
      intro x hx
      obtain ⟨e, he, rfl⟩ := List.mem_map.mp hx
      have hb := hGS.base_ok hc he
      have := blockLen_pos hc e
      exact ⟨hb.1, by omega⟩)
    (by decide)
  have hslots : ∀ e ∈ R, ∀ a, IsSlot c e a → ∀ y, a ≤ y → y < a + (e.size + 16) →
      h1 y = Q.heap y := by
    intro e he a hea y hy1 hy2
    apply hag
    intro b hb
    obtain ⟨e', he', rfl⟩ := List.mem_map.mp hb
    have := hGR.slot_header hc he ((hS'mem e').mp he') hea
    omega
  refine ⟨{ Q with heap := h1,
                   live := S'.map (slabBlock c) ++ [(Q.self, MPZ_POOL_SIZE c)] },
    S', G, S'.map SlabD.base, ?_, ?_, ?_⟩
  · exact
      { live_eq := rfl
        os_ok := by
          apply hosQ.perm
          rw [hlive, hQ.self]
          exact (hperm.map _).append_right _
        slab_ok := fun d hd => hI.slab_ok d (hRmem d ((hS'mem d).mp hd))
        chain := by rw [← hhead] at hch; exact hch
        free_chain := by
          intro i hi
          apply (hQ.free_chain i hi).sameLinks hc
          intro x hx y hy1 hy2
          obtain ⟨e, he, hea, _⟩ := hQ.free_mem i x hx
          have := (hG.size_ok hc (hRmem e he)).1
          exact hslots e he x hea y (by omega) (by omega)
        free_mem := by
          intro i a ha
          obtain ⟨e, he, hea, hei, heg⟩ := hQ.free_mem i a ha
          refine ⟨e, (hS'mem e).mpr he, hea, hRh e he, hei, heg.sameBytes ?_⟩
          intro y hy1 hy2
          exact hslots e he a hea y (by omega) (by omega)
        free_nodup := hQ.free_nodup
        used_mem := fun p hp => absurd hp (List.not_mem_nil _)
        used_nodup := List.nodup_nil
        excl := fun _ _ _ => List.not_mem_nil _
        total := fun d hd a hda => Or.inr (hQ.total d ((hS'mem d).mp hd) a hda) }
  · refine ⟨rfl, rfl, rfl, ?_, fun y hy => (hag y hy).symm⟩
    show Q.live.Perm (S'.map (slabBlock c) ++ [(Q.self, MPZ_POOL_SIZE c)])
    rw [hlive, hQ.self]
    exact (hperm.map _).append_right _
  · intro b hb
    obtain ⟨e, he, rfl⟩ := List.mem_map.mp hb
    exact ⟨e, he, rfl, hRh e ((hS'mem e).mp he)⟩

/-! ## Operations on pools that agree up to slab headers -/

theorem agree_wr {RB : List Nat} {h h1 : Heap}
    (H : ∀ y, (∀ b ∈ RB, y < b ∨ b + 16 ≤ y) → h y = h1 y) (a w v : Nat) :
    ∀ y, (∀ b ∈ RB, y < b ∨ b + 16 ≤ y) → wr h a w v y = wr h1 a w v y := by
  intro y hy
  unfold wr
  by_cases hx : a ≤ y ∧ y < a + w
  · rw [if_pos hx, if_pos hx]
  · rw [if_neg hx, if_neg hx]
    exact H y hy

theorem agree_memset {RB : List Nat} {h h1 : Heap}
    (H : ∀ y, (∀ b ∈ RB, y < b ∨ b + 16 ≤ y) → h y = h1 y) (a v n : Nat) :
    ∀ y, (∀ b ∈ RB, y < b ∨ b + 16 ≤ y) → memset h a v n y = memset h1 a v n y := by
  intro y hy
  unfold memset
  by_cases hx : a ≤ y ∧ y < a + n
  · rw [if_pos hx, if_pos hx]
  · rw [if_neg hx, if_neg hx]
    exact H y hy

theorem agree_slot_init {RB : List Nat} {h h1 : Heap}
    (H : ∀ y, (∀ b ∈ RB, y < b ∨ b + 16 ≤ y) → h y = h1 y) (a r f : Nat) :
    ∀ y, (∀ b ∈ RB, y < b ∨ b + 16 ≤ y) →
      _mpz_slot_init h a r f y = _mpz_slot_init h1 a r f y := by
  unfold _mpz_slot_init
  exact agree_wr (agree_wr H _ _ _) _ _ _

theorem agree_rd {RB : List Nat} {h h1 : Heap}
    (H : ∀ y, (∀ b ∈ RB, y < b ∨ b + 16 ≤ y) → h y = h1 y) {a w : Nat}
    (ha : ∀ b ∈ RB, a + w ≤ b ∨ b + 16 ≤ a) : rd h a w = rd h1 a w := by
  apply rd_congr
  intro x h1x h2x
  apply H
  intro b hb
  have := ha b hb
  omega

theorem Mirror.pushed {c : Config} {RB : List Nat} {P M : Pool} (hm : Mirror RB P M)
    (a : Nat) : Mirror RB (_mpz_slab_push c P a) (_mpz_slab_push c M a) := by
  obtain ⟨h1, h2, h3, h4, h5⟩ := hm
  refine ⟨h1, rfl, h3, h4, ?_⟩
  unfold _mpz_slab_push
  simp only [rd_wr_same, h2]
  by_cases hn : M.slabs % 256 ^ c.ptr ≠ 0
  · simp only [if_pos hn]
    exact agree_wr (agree_wr (agree_wr h5 _ _ _) _ _ _) _ _ _
  · simp only [if_neg hn]
    exact agree_wr (agree_wr h5 _ _ _) _ _ _

theorem Mirror.created {c : Config} {RB : List Nat} {P M : Pool} (hm : Mirror RB P M)
    (n : Nat) (os : Option Nat) :
    (_mpz_slab_create c P n os).1 = (_mpz_slab_create c M n os).1 ∧
    Mirror RB (_mpz_slab_create c P n os).2 (_mpz_slab_create c M n os).2 := by
  cases os with
  | none =>
    obtain ⟨h1, h2, h3, h4, h5⟩ := hm
    exact ⟨rfl, h1, h2, h3, h4, h5⟩
  | some a =>
    by_cases ha : a = 0
    · subst ha
      obtain ⟨h1, h2, h3, h4, h5⟩ := hm
      simp only [_mpz_slab_create, mpz_memalign, if_true]
      exact ⟨trivial, h1, h2, h3, h4.cons _, h5⟩
    · rw [slab_create_some c P n a ha, slab_create_some c M n a ha]
      refine ⟨rfl, ?_⟩
      apply Mirror.pushed
      obtain ⟨h1, h2, h3, h4, h5⟩ := hm
      exact ⟨h1, h2, h3, h4.cons _, h5⟩

theorem Mirror.threaded {c : Config} {RB : List Nat} (slab size idx : Nat) :
    ∀ (n i slot : Nat) {P M : Pool}, Mirror RB P M →
      Mirror RB (slabInitLoop c slab size idx n i slot P)
        (slabInitLoop c slab size idx n i slot M) := by
  intro n
  induction n with
  | zero => intro i slot P M h; exact h
  | succ n ih =>
    intro i slot P M h
    obtain ⟨h1, h2, h3, h4, h5⟩ := h
    simp only [slabInitLoop, rd_wr_same, h1]
    by_cases hl : i = c.mul - 1
    · simp only [if_pos hl]
      exact ih _ _ ⟨rfl, h2, h3, h4, agree_wr (agree_slot_init h5 _ _ _) _ _ _⟩
    · simp only [if_neg hl]
      exact ih _ _ ⟨rfl, h2, h3, h4, agree_wr (agree_slot_init h5 _ _ _) _ _ _⟩

theorem Mirror.popped {c : Config} {RB : List Nat} {P M : Pool} (hm : Mirror RB P M)
    (r idx : Nat) (z : Bool)
    (hsafe : ∀ b ∈ RB, slotNext c (M.bins idx) + c.ptr ≤ b ∨ b + 16 ≤ slotNext c (M.bins idx)) :
    (pallocPop c P r idx z).1 = (pallocPop c M r idx z).1 ∧
    Mirror RB (pallocPop c P r idx z).2 (pallocPop c M r idx z).2 := by
  obtain ⟨h1, h2, h3, h4, h5⟩ := hm
  have hrd : rd P.heap (slotNext c (M.bins idx)) c.ptr
      = rd M.heap (slotNext c (M.bins idx)) c.ptr := agree_rd h5 hsafe
  unfold pallocPop
  simp only [h1, hrd]
  refine ⟨trivial, rfl, h2, h3, h4, ?_⟩
  cases z with
  | false => exact agree_slot_init h5 _ _ _
  | true => exact agree_memset (agree_slot_init h5 _ _ _) _ _ _

theorem Mirror.hugeAlloc {c : Config} {RB : List Nat} {P M : Pool} (hm : Mirror RB P M)
    (r : Nat) (os : Option Nat) :
    (pallocHuge c P r os).1 = (pallocHuge c M r os).1 ∧
    Mirror RB (pallocHuge c P r os).2 (pallocHuge c M r os).2 := by
  obtain ⟨e1, g1, g2, g3, g4, g5⟩ := hm.created (c := c) (r + MPZ_SLOT_SIZE c) os
  unfold pallocHuge
  simp only [e1]
  by_cases hz : (_mpz_slab_create c M (r + MPZ_SLOT_SIZE c) os).1 = 0
  · simp only [hz, if_true]
    exact ⟨trivial, g1, g2, g3, g4, g5⟩
  · simp only [hz, if_false]
    exact ⟨trivial, g1, g2, g3, g4, agree_slot_init g5 _ _ _⟩

theorem Mirror.pushFree {c : Config} {RB : List Nat} {P M : Pool} (hm : Mirror RB P M)
    (a r : Nat) : Mirror RB (freePush c P a r) (freePush c M a r) := by
  obtain ⟨h1, h2, h3, h4, h5⟩ := hm
  unfold freePush
  simp only [h1]
  exact ⟨rfl, h2, h3, h4, agree_wr (agree_slot_init h5 _ _ _) _ _ _⟩

theorem Mirror.unlinked {c : Config} (hc : c.Sane) {RB : List Nat} {P M : Pool}
    (hm : Mirror RB P M) (slab : Nat) (hs : ∀ b ∈ RB, slab + 16 ≤ b ∨ b + 16 ≤ slab) :
    Mirror RB (slabUnlink c P slab) (slabUnlink c M slab) := by
  obtain ⟨h1, h2, h3, h4, h5⟩ := hm
  have hsafe1 : ∀ b ∈ RB, slab + c.ptr ≤ b ∨ b + 16 ≤ slab := by
    intro b hb
    have := hs b hb
    rw [hc.ptr8]
    omega
  have hsafe2 : ∀ b ∈ RB, slabNext c slab + c.ptr ≤ b ∨ b + 16 ≤ slabNext c slab := by
    intro b hb
    have := hs b hb
    simp only [slabNext, hc.ptr8]
    omega
  have e1 : rd P.heap slab c.ptr = rd M.heap slab c.ptr := agree_rd h5 hsafe1
  have e2 : rd P.heap (slabNext c slab) c.ptr = rd M.heap (slabNext c slab) c.ptr :=
    agree_rd h5 hsafe2
  unfold slabUnlink
  simp only [e1, e2, h2]
  by_cases hp : rd M.heap slab c.ptr ≠ 0
  · simp only [if_pos hp]
    have hag := agree_wr h5 (slabNext c (rd M.heap slab c.ptr)) c.ptr
      (rd M.heap (slabNext c slab) c.ptr)
    have e3 := agree_rd hag hsafe2
    have e4 := agree_rd hag hsafe1
    simp only [e3, e4]
    split
    · exact ⟨h1, rfl, h3, h4, agree_wr hag _ _ _⟩
    · exact ⟨h1, rfl, h3, h4, hag⟩
  · simp only [if_neg hp, e1, e2]
    split
    · exact ⟨h1, rfl, h3, h4, agree_wr h5 _ _ _⟩
    · exact ⟨h1, rfl, h3, h4, h5⟩

theorem Mirror.osFree {RB : List Nat} {P M : Pool} (hm : Mirror RB P M) (p : Nat) :
    ExceptRel (Mirror RB) (os_free P p) (os_free M p) := by
  obtain ⟨h1, h2, h3, h4, h5⟩ := hm
  have hany : P.live.any (fun b => b.1 == p) = M.live.any (fun b => b.1 == p) := by
    rw [Bool.eq_iff_iff, List.any_eq_true, List.any_eq_true]
    constructor
    · rintro ⟨x, hx, hxp⟩
      exact ⟨x, h4.mem_iff.mp hx, hxp⟩
    · rintro ⟨x, hx, hxp⟩
      exact ⟨x, h4.mem_iff.mpr hx, hxp⟩
  unfold os_free
  rw [hany]
  split
  · exact ⟨h1, h2, h3, h4.filter _, h5⟩
  · exact rfl

/-! ## Allocation in a pool that is sound up to slab headers -/

theorem Inv.bin_empty {c : Config} (hc : c.Sane) {P : Pool} {S : List SlabD}
    {F : Nat → List Nat} {U : List Nat} (hI : Inv c P S F U) {i : Nat} (hi : i < c.bins) :
    (P.bins i = 0 → F i = []) ∧
    (P.bins i ≠ 0 → ∃ L, F i = P.bins i :: L) := by
  have hch := hI.free_chain i hi
  cases hF : F i with
  | nil =>
    rw [hF] at hch
    exact ⟨fun _ => rfl, fun h => absurd hch h⟩
  | cons a L =>
    rw [hF] at hch
    obtain ⟨d, hd, hda, _⟩ := hI.free_mem i a (by rw [hF]; exact List.mem_cons_self _ _)
    have ha0 := (hI.geo.slot_lt hc hd hda).1
    refine ⟨fun h => absurd (hch.1 ▸ h) ha0, fun _ => ⟨L, by rw [hch.1]⟩⟩

theorem Mirror.calls {RB : List Nat} {P M : Pool} (hm : Mirror RB P M) (n : Nat) :
    Mirror RB { P with oscalls := n } M := hm

theorem healed_palloc {c : Config} (hc : c.Sane) {P : Pool} {U : List Nat}
    (hH : Healed c P U) (size : Nat) (z : Bool) (os : Option Nat)
    (hos : OsOk c (_mpz_palloc c P size z os).2.live) :
    Healed c (_mpz_palloc c P size z os).2
      (if (_mpz_palloc c P size z os).1 = 0 then U
        else (_mpz_palloc c P size z os).1 :: U) := by
  obtain ⟨M, S, F, RB, hI, hm, hRB⟩ := hH
  have hG := hI.geo
  by_cases hrej : ¬ size < MPZ_POOL_MIN_ALLOC c ∧ size > MPZ_POOL_MAX_ALLOC
  · have : _mpz_palloc c P size z os = (0, P) := by
      unfold _mpz_palloc; rw [if_pos hrej]
    rw [this]
    simp only [if_true]
    exact ⟨M, S, F, RB, hI, hm, hRB⟩
  · have hs : size ≤ MPZ_POOL_MAX_ALLOC := by
      by_contra hgt
      apply hrej
      refine ⟨?_, by omega⟩
      rw [MPZ_POOL_MIN_ALLOC, slots_alignment_eq]
      rw [max_alloc_eq] at hgt
      have := hc.align_le
      omega
    obtain ⟨m, hm1, hmr, hm28, _⟩ := allocSize_mul hc hs
    have hr28 : allocSize c size ≤ 2 ^ 28 := by rw [hmr]; exact hm28
    -- the header of a retained slab lies in a block the pool holds
    have hRBlive : ∀ b ∈ RB, ∃ e ∈ S, e.base = b ∧ slabBlock c e ∈ M.live := by
      intro b hb
      obtain ⟨e, he, heb, _⟩ := hRB b hb
      refine ⟨e, he, heb, ?_⟩
      rw [hI.live_eq]
      exact List.mem_append_left _ (List.mem_map_of_mem _ he)
    have hnew : ∀ (d : SlabD), OsOk c (slabBlock c d :: M.live) →
        ∀ b ∈ RB, d.base + blockLen c d ≤ b ∨ b + 16 ≤ d.base := by
      intro d hosd b hb
      obtain ⟨e, he, heb, hel⟩ := hRBlive b hb
      have := (List.pairwise_cons.mp hosd.2).1 _ hel
      have := blockLen_pos hc e
      unfold BlocksDisjoint slabBlock at *
      simp only at *
      omega
    by_cases hh : allocSize c size > c.bins <<< c.shift
    · -- the huge branch
      rw [palloc_dispatch c P hs z os, if_pos hh] at hos ⊢
      cases os with
      | none =>
        rw [pallocHuge_none]
        simp only [if_true]
        exact ⟨M, S, F, RB, hI, hm.calls _, hRB⟩
      | some b =>
        by_cases hb0 : b = 0
        · exfalso
          subst hb0
          have h1 : (_mpz_slab_create c P (allocSize c size + MPZ_SLOT_SIZE c) (some 0)).1 = 0 := by
            simp [_mpz_slab_create, mpz_memalign]
          have hres : (pallocHuge c P (allocSize c size) (some 0)).2
              = (_mpz_slab_create c P (allocSize c size + MPZ_SLOT_SIZE c) (some 0)).2 := by
            unfold pallocHuge
            simp only [h1, if_true]
          rw [hres] at hos
          exact osok_no_null hos (slab_create_zero_live c P _)
        · have hlive : (pallocHuge c P (allocSize c size) (some b)).2.live
              = slabBlock c ⟨b, allocSize c size, true⟩ :: P.live := by
            rw [(pallocHuge_frame c P (allocSize c size) hb0).2.2.2]
            simp [slabBlock, blockLen, nslots]
          rw [hlive] at hos
          have hosM := hos.perm (hm.2.2.2.1.cons _)
          have hok : SlabOk c ⟨b, allocSize c size, true⟩ :=
            ⟨⟨m, hm1, hmr⟩, hr28, by simp only [true_iff]; exact hh⟩
          obtain ⟨hfst, hI2⟩ := huge_inv hc hI (allocSize c size) b hok hosM
          obtain ⟨e1, hm2⟩ := hm.hugeAlloc (c := c) (allocSize c size) (some b)
          rw [e1, hfst, if_neg (by simp [MPZ_SLOT_TO_DATA])]
          exact ⟨_, _, F, RB, hI2, hm2, fun b' hb' => by
            obtain ⟨e, he, h⟩ := hRB b' hb'
            exact ⟨e, List.mem_cons_of_mem _ he, h⟩⟩
    · -- the pooled branch
      have hrb : allocSize c size ≤ c.bins <<< c.shift := by omega
      obtain ⟨_, _, _, hidx⟩ := allocSize_ok hc hs hrb 0
      have hdP : _mpz_palloc c P size z os = pallocPooled c P (allocSize c size) z os := by
        rw [palloc_dispatch c P hs z os, if_neg hh]
      have hdM : _mpz_palloc c M size z os = pallocPooled c M (allocSize c size) z os := by
        rw [palloc_dispatch c M hs z os, if_neg hh]
      obtain ⟨hemp, hnon⟩ := hI.bin_empty hc hidx
      by_cases hb : M.bins (MPZ_BIN_IDX c (allocSize c size)) = 0
      · have hbP : P.bins (MPZ_BIN_IDX c (allocSize c size)) = 0 := by rw [hm.1]; exact hb
        cases os with
        | none =>
          rw [hdP, pallocPooled_none c P _ z hbP]
          simp only [if_true]
          exact ⟨M, S, F, RB, hI, hm.calls _, hRB⟩
        | some b =>
          by_cases hb0 : b = 0
          · exfalso
            subst hb0
            rw [hdP] at hos
            have h1 : (_mpz_slab_create c P
                ((allocSize c size + MPZ_SLOT_SIZE c) * c.mul) (some 0)).1 = 0 := by
              simp [_mpz_slab_create, mpz_memalign]
            have hres : (pallocPooled c P (allocSize c size) z (some 0)).2
                = (_mpz_slab_create c P
                    ((allocSize c size + MPZ_SLOT_SIZE c) * c.mul) (some 0)).2 := by
              unfold pallocPooled
              simp only [hbP, h1, if_true]
            rw [hres] at hos
            exact osok_no_null hos (slab_create_zero_live c P _)
          · obtain ⟨eP, lP⟩ := pallocPooled_refill c P (allocSize c size) z hb0 hbP
            obtain ⟨eM, _⟩ := pallocPooled_refill c M (allocSize c size) z hb0 hb
            have hlive : (_mpz_palloc c P size z (some b)).2.live
                = slabBlock c ⟨b, allocSize c size, false⟩ :: P.live := by
              rw [hdP, lP]
              simp [slabBlock, blockLen, nslots]
            rw [hlive] at hos
            have hosM := hos.perm (hm.2.2.2.1.cons _)
            obtain ⟨L, _, hfst, hI2, _, _⟩ := palloc_refill_inv hc hI hs hrb z b (hemp hb) hosM
            -- the two runs agree
            obtain ⟨_, hm1⟩ := hm.created (c := c)
              ((allocSize c size + MPZ_SLOT_SIZE c) * c.mul) (some b)
            have hm2 : Mirror RB
                (_mpz_slab_init c (_mpz_slab_create c P
                  ((allocSize c size + MPZ_SLOT_SIZE c) * c.mul) (some b)).2 b (allocSize c size))
                (_mpz_slab_init c (_mpz_slab_create c M
                  ((allocSize c size + MPZ_SLOT_SIZE c) * c.mul) (some b)).2 b (allocSize c size)) :=
              Mirror.threaded _ _ _ _ _ _ hm1
            have hbin : (_mpz_slab_init c (_mpz_slab_create c M
                ((allocSize c size + MPZ_SLOT_SIZE c) * c.mul) (some b)).2 b
                (allocSize c size)).bins (MPZ_BIN_IDX c (allocSize c size))
                = MPZ_SLAB_TO_SLOT c b := by
              unfold _mpz_slab_init
              rw [slabInitLoop_bins c b _ _ c.mul 0 _ _ (Nat.zero_add _),
                if_neg (Nat.pos_iff_ne_zero.mp hc.mul_pos)]
              simp [upd]
            obtain ⟨e3, hm3⟩ := hm2.popped (c := c) (allocSize c size)
              (MPZ_BIN_IDX c (allocSize c size)) z (by
                intro b' hb'
                rw [hbin]
                have := hnew ⟨b, allocSize c size, false⟩ hosM b' hb'
                have := blockLen_ge hc ⟨b, allocSize c size, false⟩
                simp only [MPZ_SLAB_TO_SLOT, slab_size_eq hc, slotNext, hc.ptr8] at *
                omega)
            rw [← eP, ← hdP, ← eM, ← hdM] at e3 hm3
            rw [e3, hfst, if_neg (by simp [MPZ_SLOT_TO_DATA])]
            exact ⟨_, _, _, RB, hI2, hm3, fun b' hb' => by
              obtain ⟨e, he, h⟩ := hRB b' hb'
              exact ⟨e, List.mem_cons_of_mem _ he, h⟩⟩
      · have hbP : P.bins (MPZ_BIN_IDX c (allocSize c size)) ≠ 0 := by rw [hm.1]; exact hb
        obtain ⟨L, hF⟩ := hnon hb
        obtain ⟨hfst, hI2, _, _⟩ := palloc_pop_inv hc hI hs hrb z os hF
        obtain ⟨d, hd, hda, _⟩ := hI.free_mem _ _
          (by rw [hF]; exact List.mem_cons_self _ _)
        obtain ⟨e3, hm3⟩ := hm.popped (c := c) (allocSize c size)
          (MPZ_BIN_IDX c (allocSize c size)) z (by
            intro b' hb'
            obtain ⟨e, he, heb, _⟩ := hRB b' hb'
            have := hG.slot_header hc hd he hda
            have := (hG.size_ok hc hd).1
            simp only [slotNext, hc.ptr8]
            omega)
        rw [← pallocPooled_nonempty c P _ z os hbP, ← hdP,
          ← pallocPooled_nonempty c M _ z os hb, ← hdM] at e3 hm3
        rw [e3, hfst, if_neg (by simp [MPZ_SLOT_TO_DATA])]
        exact ⟨_, _, _, RB, hI2, hm3, hRB⟩

/-! ## Free in a pool that is sound up to slab headers -/

theorem healed_free {c : Config} (hc : c.Sane) {P : Pool} {U : List Nat}
    (hH : Healed c P U) {p : Nat} (hp : p ∈ U) :
    ∃ P1, mpz_free c P p = .ok P1 ∧ Healed c P1 (U.erase p) := by
  obtain ⟨M, S, F, RB, hI, hm, hRB⟩ := hH
  have hG := hI.geo
  obtain ⟨d, hd, a, hda, rfl, hg⟩ := hI.used_mem p hp
  obtain ⟨hs16, hs28, _⟩ := hG.size_ok hc hd
  have hr30 : d.size < 2 ^ 30 := by
    have : (2:Nat) ^ 28 < 2 ^ 30 := by decide
    omega
  have hgP : Guarded P.heap a d.size (usedStamp d) :=
    hg.sameBytes (fun y h1 h2 => hm.slot_bytes hc hG hRB hd hda y h1 (by omega))
  cases hdh : d.huge with
  | false =>
    obtain ⟨_, hI2⟩ := free_pooled_inv hc hI hd hda hp hdh
    have hidx := (hI.slab_ok d hd).idx_lt hc hdh
    rw [usedStamp_pooled hdh hr30] at hgP
    exact ⟨_, free_eval_pooled c P hr30 hgP hidx, _, S, _, RB, hI2, hm.pushFree a d.size, hRB⟩
  | true =>
    obtain ⟨S1, S2, rfl⟩ := List.append_of_mem hd
    rw [isSlot_huge hdh] at hda
    subst hda
    obtain ⟨M1, hfM, _, _, _, _, hI2⟩ := free_huge_inv hc hI hdh hp
    rw [usedStamp_huge hdh hr30] at hgP hg
    rw [free_eval_huge c M hr30 hg] at hfM
    rw [free_eval_huge c P hr30 hgP]
    have hslab : MPZ_SLOT_TO_SLAB c (MPZ_SLAB_TO_SLOT c d.base) = d.base := by
      simp [MPZ_SLOT_TO_SLAB, MPZ_SLAB_TO_SLOT]
    have hne : ∀ b ∈ RB, ∃ e ∈ S1 ++ d :: S2, e.base = b ∧ e.huge = false ∧ e ≠ d := by
      intro b hb
      obtain ⟨e, he, heb, heh⟩ := hRB b hb
      refine ⟨e, he, heb, heh, ?_⟩
      intro h
      rw [h, hdh] at heh
      cases heh
    have hmu := hm.unlinked hc d.base (by
      intro b hb
      obtain ⟨e, he, heb, _, hed⟩ := hne b hb
      have := hG.header_disj hc hd he (Ne.symm hed)
      omega)
    have hrel := @Mirror.osFree RB _ _ hmu d.base
    unfold _mpz_slab_free at hfM ⊢
    simp only [hslab] at hfM ⊢
    rw [hfM] at hrel
    cases hP1 : os_free (slabUnlink c P d.base) d.base with
    | error e =>
      rw [hP1] at hrel
      exact hrel.elim
    | ok P1 =>
      rw [hP1] at hrel
      refine ⟨P1, rfl, M1, S1 ++ S2, F, RB, hI2, hrel, ?_⟩
      intro b hb
      obtain ⟨e, he, heb, heh, hed⟩ := hne b hb
      refine ⟨e, ?_, heb, heh⟩
      rcases List.mem_append.mp he with h | h
      · exact List.mem_append_left _ h
      · rcases List.mem_cons.mp h with h | h
        · exact absurd h hed
        · exact List.mem_append_right _ h

/-! ## The bin invariant in every state reached through at most one reset -/

/-- More iterations do not change the result of a loop of `_mpz_pool_gc` that has
finished. -/
theorem gcLoop_mono {c : Config} {soft : Bool} :
    ∀ (fuel : Nat) (slab : Nat) (P Q : Pool), gcLoop c soft fuel slab P = .ok Q →
      ∀ fuel1, fuel ≤ fuel1 → gcLoop c soft fuel1 slab P = .ok Q := by
  intro fuel
  induction fuel with
  | zero =>
    intro slab P Q h fuel1 _
    by_cases hs : slab = 0
    · subst hs
      rw [gcLoop_null] at h ⊢
      exact h
    · simp [gcLoop, hs] at h
  | succ n ih =>
    intro slab P Q h fuel1 hf
    obtain ⟨m, rfl⟩ : ∃ m, fuel1 = m + 1 := ⟨fuel1 - 1, by omega⟩
    by_cases hs : slab = 0
    · subst hs
      rw [gcLoop_null] at h ⊢
      exact h
    · simp only [gcLoop, hs, if_false] at h ⊢
      split at h
      · rename_i hcond
        rw [if_pos hcond]
        cases hfree : _mpz_slab_free c P (MPZ_SLAB_TO_SLOT c slab) with
        | error e => rw [hfree] at h; cases h
        | ok P1 =>
          rw [hfree] at h
          exact ih _ _ _ h m (by omega)
      · rename_i hcond
        rw [if_neg hcond]
        split at h
        · rename_i hidx
          rw [if_pos hidx]
          exact ih _ _ _ h m (by omega)
        · cases h

theorem reachR_healed {c : Config} (hc : c.Sane) {P : Pool} {U : List Nat}
    (hR : ReachR c P U) : Healed c P U := by
  induction hR with
  | start P U h =>
    obtain ⟨S, F, hI⟩ := reach_inv hc h
    exact hI.healed
  | reset P U fuel Q h hreset =>
    obtain ⟨S, F, hI⟩ := reach_inv hc h
    obtain ⟨Q1, hrun, hH⟩ := reset_healed hc hI
    have h1 := hrun (max fuel S.length) (le_max_right _ _)
    have h2 : mpz_pool_reset c (max fuel S.length) P = .ok Q :=
      gcLoop_mono fuel _ _ _ hreset _ (le_max_left _ _)
    rw [h1] at h2
    cases h2
    exact hH
  | alloc P U size z os _ hos hne ih =>
    have := healed_palloc hc ih size z os hos
    rw [if_neg hne] at this
    exact this
  | allocFail P U size z os _ hos heq ih =>
    have := healed_palloc hc ih size z os hos
    rw [if_pos heq] at this
    exact this
  | free P U p P1 _ hp hfree ih =>
    obtain ⟨P2, h1, hH⟩ := healed_free hc ih hp
    rw [h1] at hfree
    cases hfree
    exact hH

/-- C12. Bin invariant: in every state reached from `mpz_pool_create` by `mpz_pmalloc`,
`mpz_pcalloc`, `mpz_free` of live pointers and at most one `mpz_pool_reset` (pools with
huge slabs included), the free list of every bin is a finite list of distinct slots that
ends with `NULL`, and every slot on the list of `bins[i]` has head equal to foot, the
flags `USED` and `HUGE` clear and the size `(i + 1) << MPZ_BINS_BIT_SHIFT` in its head,
which is the size with bin index `i`. Moreover a first `mpz_pool_reset` terminates in
every state reached without a reset. -/
theorem bin_invariant (c : Config) (hc : c.Sane) (P : Pool) (U : List Nat)
    (hR : ReachR c P U) :
    (∀ i, i < c.bins →
      ∃ L : List Nat, FreeChain c P.heap (P.bins i) L ∧ L.Nodup ∧
        ∀ a ∈ L, FreeSlotOk c P.heap i a) ∧
    (∀ P0 U0, Reach c P0 U0 →
      ∃ n Q, (∀ fuel, n ≤ fuel → mpz_pool_reset c fuel P0 = .ok Q) ∧ ReachR c Q []) := by
  refine ⟨(reachR_healed hc hR).bins hc, ?_⟩
  intro P0 U0 h0
  obtain ⟨S, F, hI⟩ := reach_inv hc h0
  obtain ⟨Q, hrun, _⟩ := reset_healed hc hI
  exact ⟨S.length, Q, hrun, ReachR.reset P0 U0 S.length Q h0 (hrun _ (Nat.le_refl _))⟩

theorem bin_invariant_witness :
    (∀ i, i < cfgS.bins →
      ∃ L : List Nat, FreeChain cfgS poolR.heap (poolR.bins i) L ∧ L.Nodup ∧
        ∀ a ∈ L, FreeSlotOk cfgS poolR.heap i a) ∧
    (∀ P0 U0, Reach cfgS P0 U0 →
      ∃ n Q, (∀ fuel, n ≤ fuel → mpz_pool_reset cfgS fuel P0 = .ok Q) ∧ ReachR cfgS Q []) :=
  bin_invariant cfgS cfgS_sane poolR []
    (ReachR.reset poolA [4116] 1 poolR poolA_reach poolR_eq)

/-! ## The slab list after a soft reset -/

end Mpz
